import Mathlib

/-!
# Dolme: a shallow embedding of the front end, the IR generator and the IR interpreter

The development follows the Go sources package by package:

* `pkg/lexer`        : `TokenType`, `Token`, `MatchToken`, `Lexer.NextToken`
* `pkg/parser/stack` : `Stack`
* `pkg/parser/codegen` : `Instruction`, `Codegen` and the semantic actions
* `pkg/parser`       : the grammar, the parsing table and `Parser.Parse`
* `pkg/interpreter`  : `Value`, `Frame`, `Interpreter`, `coreStep`, `Run`

Conventions of the embedding.

* A Go `string` is its sequence of bytes, `Str = List Nat` (every byte is below 256).
  String constants of the source are written `bs "..."`.  Grammar symbols and
  diagnostics, which are constants of the source and never mix with input bytes,
  are Lean strings.
* Go `int` values (addresses, indices, counters) are `Int`; `int64` arithmetic of the
  interpreter wraps explicitly (`wrap64`).
* Go maps are association lists read by first match (`GoMap`).
* Loops that the source does not bound are run on fuel; a run that aborts
  (index out of range) or does not return is a `Fault`.
-/

namespace Dolme

/-! ## Go strings and the `strconv` / `strings` functions the sources call -/

/-- A Go string: its bytes in order. -/
abbrev Str := List Nat

/-- UTF-8 encoding of the code point `c`; this is what Go's conversion `string(b)` of a
byte (or rune) `b` produces. -/
def utf8 (c : Nat) : Str :=
  if c < 128 then [c]
  else if c < 2048 then [192 + c / 64, 128 + c % 64]
  else if c < 65536 then [224 + c / 4096, 128 + c / 64 % 64, 128 + c % 64]
  else [240 + c / 262144, 128 + c / 4096 % 64, 128 + c / 64 % 64, 128 + c % 64]

/-- The bytes of a string constant of the source. -/
def bs (s : String) : Str := s.toList.flatMap (fun c => utf8 c.toNat)

/-- Go `strings.HasPrefix(s, p)`. -/
def startsWith (s p : Str) : Bool := p.isPrefixOf s

/-- Go `strings.TrimPrefix(s, p)`, also the first result of `strings.CutPrefix(s, p)`. -/
def trimStart (s p : Str) : Str := if startsWith s p then s.drop p.length else s

/-- Go `strings.Contains(s, ".")` for a one-byte needle. -/
def containsByte (s : Str) (b : Nat) : Bool := s.any (fun c => c == b)

def isDigit (b : Nat) : Bool := 48 ≤ b && b ≤ 57

def isLetter (b : Nat) : Bool := (65 ≤ b && b ≤ 90) || (97 ≤ b && b ≤ 122)

/-- The class `\w` of Go regular expressions (ASCII only): `[0-9A-Za-z_]`. -/
def isWordByte (b : Nat) : Bool := isLetter b || isDigit b || b == 95

/-- The class `\s` of Go regular expressions: `[\t\n\f\r ]`. -/
def isSpaceByte (b : Nat) : Bool := b == 9 || b == 10 || b == 12 || b == 13 || b == 32

/-- Decimal digits of a natural number, most significant first, on fuel. -/
def natDigits : Nat → Nat → Str → Str
  | 0, _, acc => acc
  | fuel + 1, n, acc =>
    if n < 10 then (48 + n) :: acc else natDigits fuel (n / 10) ((48 + n % 10) :: acc)

/-- Go `strconv.Itoa` (and the verb `%d`). -/
def itoa (n : Int) : Str :=
  match n with
  | Int.ofNat k => natDigits (k + 1) k []
  | Int.negSucc k => 45 :: natDigits (k + 2) (k + 1) []

/-- Go `strconv.ParseInt(s, 10, 64)`: the value and whether `err == nil`.  A syntax error
gives 0; a range error gives the nearest bound.  `strconv.Atoi` returns the same pair. -/
def ParseInt (s : Str) : Int × Bool :=
  match s with
  | [] => (0, false)
  | c :: r =>
    let neg := c == 45
    let body := if c == 43 || c == 45 then r else s
    if body.isEmpty || !body.all isDigit then (0, false)
    else
      let un : Nat := body.foldl (fun a d => a * 10 + (d - 48)) 0
      if !neg && 9223372036854775808 ≤ un then (9223372036854775807, false)
      else if neg && 9223372036854775808 < un then (-9223372036854775808, false)
      else (if neg then -(un : Int) else (un : Int), true)

/-- Go `strconv.Atoi(s)` with the error dropped (`val, _ := strconv.Atoi(s)`). -/
def Atoi (s : Str) : Int := (ParseInt s).1

/-! ## Go maps -/

/-- A Go map as an association list; the first binding of a key is the live one. -/
abbrev GoMap (K V : Type) := List (K × V)

/-- The read `v, ok := m[k]`. -/
def GoMap.get {K V : Type} [DecidableEq K] : GoMap K V → K → Option V
  | [], _ => none
  | (k', v) :: r, k => if k' = k then some v else GoMap.get r k

/-- The write `m[k] = v`. -/
def GoMap.set {K V : Type} (m : GoMap K V) (k : K) (v : V) : GoMap K V := (k, v) :: m

/-- The builtin `delete(m, k)`. -/
def GoMap.del {K V : Type} [DecidableEq K] (m : GoMap K V) (k : K) : GoMap K V :=
  m.filter (fun p => decide (p.1 ≠ k))

/-! ## Faults -/

/-- Ways in which a Go function fails to return normally. -/
inductive Fault where
  /-- a run-time panic (index out of range) -/
  | panic
  /-- a loop of the source that never exits -/
  | diverges
  /-- the fuel given to a fuel-bounded loop of the embedding ran out -/
  | outOfFuel
deriving DecidableEq, Repr

abbrev Res (α : Type) := Except Fault α

/-! ## `pkg/lexer/token.go`, `pkg/lexer/position.go` -/

inductive TokenType where
  | EOF
  | LET | FUNC | RETURN | IF | ELSE | WHILE | BREAK | CONTINUE | PRINT
  | AND | OR | NOT | TRUE | FALSE | INT | FLOAT | BOOL
  | ID | NUM | STRING
  | ASSIGN | PLUS | MINUS | MULT | DIV | MOD | LT | GT | LE | GE | EQ | NE
  | SEMICOLON | COMMA | COLON | LPAREN | RPAREN | LBRACE | RBRACE | LSBRACE | RSBRACE
  | ILLEGAL
deriving DecidableEq, Repr, Inhabited

structure Position where
  Line : Nat
  Column : Nat
  Offset : Nat
deriving DecidableEq, Repr, Inhabited

/-- A token; the field `Typ` is the source's `Type`. -/
structure Token where
  Typ : TokenType
  Lexeme : Str
  Literal : Str
  Pos : Position
deriving DecidableEq, Repr

def NewToken (tokenType : TokenType) (lexeme literal : Str) (pos : Position) : Token :=
  { Typ := tokenType, Lexeme := lexeme, Literal := literal, Pos := pos }

/-- The zero value `Token{}`. -/
def Token.zero : Token := { Typ := .EOF, Lexeme := [], Literal := [], Pos := ⟨0, 0, 0⟩ }

instance : Inhabited Token := ⟨Token.zero⟩

/-- The map `Keywords`; a missing key reads as the zero value `EOF`. -/
def Keywords (s : Str) : TokenType :=
  if s = bs "let" then .LET
  else if s = bs "func" then .FUNC
  else if s = bs "return" then .RETURN
  else if s = bs "if" then .IF
  else if s = bs "else" then .ELSE
  else if s = bs "while" then .WHILE
  else if s = bs "break" then .BREAK
  else if s = bs "continue" then .CONTINUE
  else if s = bs "print" then .PRINT
  else if s = bs "and" then .AND
  else if s = bs "or" then .OR
  else if s = bs "not" then .NOT
  else if s = bs "true" then .TRUE
  else if s = bs "false" then .FALSE
  else if s = bs "int" then .INT
  else if s = bs "float" then .FLOAT
  else if s = bs "bool" then .BOOL
  else .EOF

/-- The method `TokenType.String` (through `TokenToString`); the kinds with no entry print as
`UNKNOWN(n)`. -/
def TokenType.String : TokenType → String
  | .LET => "let" | .FUNC => "func" | .RETURN => "return" | .IF => "if"
  | .WHILE => "while" | .BREAK => "break" | .CONTINUE => "continue" | .PRINT => "print"
  | .ELSE => "else" | .TRUE => "true" | .FALSE => "false" | .INT => "int"
  | .FLOAT => "float" | .BOOL => "bool" | .NOT => "not" | .AND => "and" | .OR => "or"
  | .LPAREN => "(" | .RPAREN => ")" | .LBRACE => "\x7b" | .RBRACE => "\x7d"
  | .SEMICOLON => ";" | .COMMA => "," | .COLON => ":" | .ASSIGN => "="
  | .PLUS => "+" | .MINUS => "-" | .MULT => "*" | .DIV => "/" | .MOD => "%"
  | .LT => "<" | .GT => ">" | .LE => "<=" | .GE => ">=" | .EQ => "==" | .NE => "!="
  | .ID => "id" | .NUM => "num" | .STRING => "string" | .EOF => "$"
  | .LSBRACE => "UNKNOWN(40)" | .RSBRACE => "UNKNOWN(41)" | .ILLEGAL => "UNKNOWN(42)"

/-! ## `pkg/lexer/regex.go`

Each `regexp` pattern of `tokenRegexes` is embedded as the function computing
`Pattern.FindString(s)`: the matched prefix, or the empty string when the pattern does
not match at the start of `s`.  Go's matcher prefers the leftmost match and, within it,
the first alternative and the greedy repetition.  The patterns only mention ASCII bytes
and a multi-byte rune never contains one, so matching byte by byte gives the prefix the
rune-based matcher returns. -/

/-- FindString for a literal pattern such as `^<=`. -/
def litFind (lit s : Str) : Str := if startsWith s lit then lit else []

/-- FindString for a keyword pattern such as `^let\b`: the literal, then a word boundary. -/
def kwFind (kw s : Str) : Str :=
  if startsWith s kw then
    match s.drop kw.length with
    | [] => kw
    | c :: _ => if isWordByte c then [] else kw
  else []

/-- The exponent part `([eE][+-]?\d+)?` of the NUM pattern, matched at the start of `s`. -/
def expFind (s : Str) : Str :=
  match s with
  | [] => []
  | e :: r =>
    if e == 101 || e == 69 then
      match r with
      | [] => []
      | c :: r' =>
        if c == 43 || c == 45 then
          (if (r'.takeWhile isDigit).isEmpty then [] else e :: c :: r'.takeWhile isDigit)
        else
          (if (r.takeWhile isDigit).isEmpty then [] else e :: r.takeWhile isDigit)
    else []

/-- The fraction part `(\.\d+)?` of the NUM pattern, matched at the start of `s`. -/
def fracFind (s : Str) : Str :=
  match s with
  | [] => []
  | c :: r =>
    if c == 46 then (if (r.takeWhile isDigit).isEmpty then [] else c :: r.takeWhile isDigit)
    else []

/-- FindString for NUM, `^\d+(\.\d+)?([eE][+-]?\d+)?`. -/
def numFind (s : Str) : Str :=
  let d := s.takeWhile isDigit
  if d.isEmpty then []
  else
    let r1 := s.dropWhile isDigit
    let f := fracFind r1
    d ++ f ++ expFind (r1.drop f.length)

/-- The length of the match of `([^"\\]|\\.)*"` at the start of `s`, if there is one. -/
def strBody : Str → Option Nat
  | [] => none
  | c :: r =>
    if c = 34 then some 1
    else if c = 92 then
      match r with
      | [] => none
      | d :: r' => if d = 10 then none else (strBody r').map (· + 2)
    else (strBody r).map (· + 1)

/-- FindString for STRING, `^"([^"\\]|\\.)*"`. -/
def strFind (s : Str) : Str :=
  match s with
  | [] => []
  | c :: r =>
    if c = 34 then
      match strBody r with
      | some n => s.take (n + 1)
      | none => []
    else []

/-- FindString for ID, `^[a-zA-Z][a-zA-Z0-9_]*`. -/
def idFind (s : Str) : Str :=
  match s with
  | [] => []
  | c :: r => if isLetter c then c :: r.takeWhile isWordByte else []

/-- FindString for `whitespaceRegex`, `^\s+`. -/
def whitespaceFind (s : Str) : Str := s.takeWhile isSpaceByte

/-- FindString for `commentRegex`, `^//.*$`: without the flags `m` and `s`, `$` is the end of
the text and `.` excludes the newline. -/
def commentFind (s : Str) : Str :=
  if startsWith s [47, 47] && !containsByte s 10 then s else []

/-- The pattern text of the keyword and operator entries of `tokenRegexes`. -/
def literalOf : TokenType → Str
  | .LE => bs "<=" | .GE => bs ">=" | .EQ => bs "==" | .NE => bs "!="
  | .LET => bs "let" | .FUNC => bs "func" | .RETURN => bs "return" | .IF => bs "if"
  | .ELSE => bs "else" | .WHILE => bs "while" | .BREAK => bs "break"
  | .CONTINUE => bs "continue" | .PRINT => bs "print" | .AND => bs "and" | .OR => bs "or"
  | .NOT => bs "not" | .TRUE => bs "true" | .FALSE => bs "false" | .INT => bs "int"
  | .FLOAT => bs "float" | .BOOL => bs "bool"
  | .ASSIGN => bs "=" | .PLUS => bs "+" | .MINUS => bs "-" | .MULT => bs "*"
  | .DIV => bs "/" | .MOD => bs "%" | .LT => bs "<" | .GT => bs ">"
  | .SEMICOLON => bs ";" | .COMMA => bs "," | .COLON => bs ":"
  | .LPAREN => bs "(" | .RPAREN => bs ")" | .LBRACE => bs "\x7b" | .RBRACE => bs "\x7d"
  | .LSBRACE => bs "[" | .RSBRACE => bs "]"
  | _ => []

/-- The keyword kinds, whose patterns end in `\b`. -/
def isKeywordType : TokenType → Bool
  | .LET | .FUNC | .RETURN | .IF | .ELSE | .WHILE | .BREAK | .CONTINUE | .PRINT
  | .AND | .OR | .NOT | .TRUE | .FALSE | .INT | .FLOAT | .BOOL => true
  | _ => false

/-- The lookup `tokenRegexes[t]` followed by `Pattern.FindString(s)`; the kinds `EOF` and
`ILLEGAL` have no entry. -/
def findString (t : TokenType) (s : Str) : Str :=
  match t with
  | .NUM => numFind s
  | .STRING => strFind s
  | .ID => idFind s
  | .EOF => []
  | .ILLEGAL => []
  | t => if isKeywordType t then kwFind (literalOf t) s else litFind (literalOf t) s

def tokenPrecedenceOrder : List TokenType :=
  [.CONTINUE, .RETURN, .BREAK, .FALSE, .FLOAT, .PRINT, .WHILE, .ELSE, .FUNC,
   .TRUE, .BOOL, .AND, .INT, .LET, .NOT, .IF, .OR, .LE, .GE, .EQ, .NE, .ASSIGN, .PLUS,
   .MINUS, .MULT, .DIV, .MOD, .LT, .GT, .SEMICOLON, .COMMA, .COLON,
   .LPAREN, .RPAREN, .LBRACE, .RBRACE, .LSBRACE,
   .RSBRACE, .NUM, .STRING, .ID]

/-- The loop of `MatchToken` over `tokenPrecedenceOrder`, with its fall-through
`return ILLEGAL, string(s[0]), false`. -/
def matchOrder : List TokenType → Str → TokenType × Str × Bool
  | [], s => (.ILLEGAL, utf8 (s.headD 0), false)
  | t :: ts, s =>
    if (findString t s).isEmpty then matchOrder ts s else (t, findString t s, true)

def MatchToken (s : Str) : TokenType × Str × Bool :=
  if s.isEmpty then (.EOF, [], false)
  else if !(whitespaceFind s).isEmpty then (.EOF, whitespaceFind s, true)
  else if !(commentFind s).isEmpty then (.EOF, commentFind s, true)
  else matchOrder tokenPrecedenceOrder s

/-! ## `pkg/lexer/lexer.go` -/

/-- The lexer.  The source's field `length` is set to `len(input)` by `NewLexer` and never
written again; it is read here as `input.length`. -/
structure Lexer where
  input : Str
  position : Nat
  line : Nat
  column : Nat
  currentToken : Token
deriving DecidableEq, Repr

def NewLexer (s : Str) : Lexer :=
  { input := s, position := 0, line := 1, column := 1, currentToken := Token.zero }

/-- The bytes from the current position on, `l.input[l.position:]`. -/
def Lexer.remaining (l : Lexer) : Str := l.input.drop l.position

def Lexer.currentPosition (l : Lexer) : Position :=
  { Line := l.line, Column := l.column, Offset := l.position }

/-- The loops of `skipWhitespace` run over the remaining bytes `s`; `inComment` is true
inside the inner loop that consumes a `//` comment up to and including its newline.
Returns the new position, line and column. -/
def skipFrom : Bool → Str → Nat → Nat → Nat → Nat × Nat × Nat
  | _, [], pos, line, col => (pos, line, col)
  | true, ch :: r, pos, line, col =>
    if ch = 10 then skipFrom false r (pos + 1) (line + 1) 1
    else skipFrom true r (pos + 1) line (col + 1)
  | false, ch :: r, pos, line, col =>
    if ch = 32 || ch = 9 || ch = 10 || ch = 13 then
      (if ch = 10 then skipFrom false r (pos + 1) (line + 1) 1
       else skipFrom false r (pos + 1) line (col + 1))
    else if ch = 47 && r.head? = some 47 then
      skipFrom true r (pos + 1) line (col + 1)
    else (pos, line, col)

def Lexer.skipWhitespace (l : Lexer) : Lexer :=
  let r := skipFrom false l.remaining l.position l.line l.column
  { l with position := r.1, line := r.2.1, column := r.2.2 }

/-- The loop of `advance(n)` over the remaining bytes. -/
def advanceFrom : Nat → Str → Nat → Nat → Nat → Nat × Nat × Nat
  | 0, _, pos, line, col => (pos, line, col)
  | _ + 1, [], pos, line, col => (pos, line, col)
  | n + 1, ch :: r, pos, line, col =>
    if ch = 10 then advanceFrom n r (pos + 1) (line + 1) 1
    else advanceFrom n r (pos + 1) line (col + 1)

def Lexer.advance (l : Lexer) (n : Nat) : Lexer :=
  let r := advanceFrom n l.remaining l.position l.line l.column
  { l with position := r.1, line := r.2.1, column := r.2.2 }

def prevAllowsUnaryType : TokenType → Bool
  | .EOF | .ASSIGN | .LPAREN | .COMMA | .COLON | .SEMICOLON | .LBRACE
  | .PLUS | .MINUS | .MULT | .DIV | .MOD
  | .LT | .GT | .LE | .GE | .EQ | .NE
  | .AND | .OR | .NOT | .RETURN | .IF | .WHILE | .PRINT => true
  | _ => false

def Lexer.prevAllowsUnary (l : Lexer) : Bool := prevAllowsUnaryType l.currentToken.Typ

/-- The literal computed by the `switch token_type` at the end of `NextToken`. -/
def literalFor (t : TokenType) (lexeme : Str) : Str :=
  match t with
  | .TRUE => bs "true"
  | .FALSE => bs "false"
  | .STRING => (lexeme.drop 1).take (lexeme.length - 2)
  | _ => lexeme

/-- The signed-number branch of `NextToken`: the token it returns, if it applies. -/
def Lexer.signedNumber (l : Lexer) : Option (Token × Lexer) :=
  match l.remaining with
  | c :: d :: rest =>
    if c = 45 && l.prevAllowsUnary && isDigit d then
      let m := MatchToken (d :: rest)
      if m.2.2 && m.1 = .NUM && !m.2.1.isEmpty then
        let lexeme := 45 :: m.2.1
        let tok := NewToken .NUM lexeme lexeme l.currentPosition
        let l1 := l.advance lexeme.length
        some (tok, { l1 with currentToken := tok })
      else none
    else none
  | _ => none

/-- `NextToken`, on fuel for its recursive call after a whitespace match; `NextToken`
below supplies enough. -/
def Lexer.nextTokenFuel : Nat → Lexer → Token × Lexer
  | 0, l => (NewToken .EOF [] [] l.currentPosition, l)
  | fuel + 1, l0 =>
    let l := l0.skipWhitespace
    if l.input.length ≤ l.position then
      let tok := NewToken .EOF [] [] l.currentPosition
      (tok, { l with currentToken := tok })
    else
      match l.signedNumber with
      | some r => r
      | none =>
        let m := MatchToken l.remaining
        if !m.2.2 || m.1 = .EOF then
          if m.1 = .EOF && !m.2.1.isEmpty then
            Lexer.nextTokenFuel fuel (l.advance m.2.1.length)
          else
            let char := utf8 (l.remaining.headD 0)
            let l1 := l.advance 1
            let tok := NewToken .ILLEGAL char [] l1.currentPosition
            (tok, { l1 with currentToken := tok })
        else
          let tok := NewToken m.1 m.2.1 (literalFor m.1 m.2.1) l.currentPosition
          let l1 := l.advance m.2.1.length
          (tok, { l1 with currentToken := tok })

def Lexer.NextToken (l : Lexer) : Token × Lexer :=
  Lexer.nextTokenFuel (l.input.length + 1) l

def Lexer.Peek (l : Lexer) : Token × Lexer :=
  let r := l.NextToken
  (r.1, { r.2 with position := l.position, line := l.line, column := l.column,
                   currentToken := l.currentToken })

def Lexer.HasMore (l : Lexer) : Bool := l.position < l.input.length

/-- All tokens up to and including the first EOF, by repeated `NextToken`. -/
def tokensFuel : Nat → Lexer → List Token
  | 0, _ => []
  | fuel + 1, l =>
    let r := l.NextToken
    if r.1.Typ = .EOF then [r.1] else r.1 :: tokensFuel fuel r.2

def tokenize (s : Str) : List Token := tokensFuel (s.length + 1) (NewLexer s)

/-! ## `pkg/parser/stack/stack.go` -/

/-- The stack of strings; the slice `a` holds the bottom first.  The source's counter `l`
always equals `len(a)` and is read here as `a.length`. -/
structure Stack (α : Type) where
  a : List α
deriving DecidableEq, Repr

def NewStack {α : Type} (elm : List α) : Stack α := ⟨elm⟩

def Stack.Push {α : Type} (s : Stack α) (elm : α) : Stack α := ⟨s.a ++ [elm]⟩

def Stack.Size {α : Type} (s : Stack α) : Nat := s.a.length

/-- `Pop`: the popped element (the empty string on an empty stack) and the stack left. -/
def Stack.Pop {α : Type} [Inhabited α] (s : Stack α) : α × Stack α :=
  if s.Size < 1 then (default, s) else (s.a.getLastD default, ⟨s.a.dropLast⟩)

def Stack.Peek {α : Type} [Inhabited α] (s : Stack α) : α :=
  if s.Size < 1 then default else s.a.getLastD default

def Stack.Array {α : Type} (s : Stack α) : List α := s.a

/-! ## `pkg/parser/codegen/instruction.go` -/

inductive Operation where
  | OpAssign | OpAdd | OpSub | OpMul | OpDiv | OpMod | OpAnd | OpOr | OpNot
  | OpEq | OpNeq | OpLt | OpLe | OpGt | OpGe
  | OpJmp | OpJmpf | OpJmpt | OpCall | OpRet | OpArg | OpParam | OpLabel | OpPrint
  | OpNop | OpEnd
deriving DecidableEq, Repr, Inhabited

/-- An operand of type `any`: absent, an `int`, or a `string`. -/
inductive Arg where
  | nil
  | int (n : Int)
  | str (s : Str)
deriving DecidableEq, Repr, Inhabited

structure Instruction where
  Op : Operation
  Arg1 : Arg
  Arg2 : Arg
  Arg3 : Arg
  Typ : TokenType
deriving DecidableEq, Repr, Inhabited

/-! ## `pkg/parser/codegen/error.go`, `pkg/parser/codegen/codegen.go` -/

/-- A semantic diagnostic: the message kind, what it names, and the position.  (The
source renders these into one coloured string.) -/
inductive SemanticError where
  | undefinedVariable (varName : Str) (pos : Position)
  | typeMismatch (expected found : TokenType) (pos : Position)
  | undefinedFunction (funcName : Str) (pos : Position)
  | redeclaration (varName : Str) (pos : Position)
deriving DecidableEq, Repr

structure Codegen where
  ss : Stack Str
  i : Int
  pb : List Instruction
  tempCounter : Int
  globalCounter : Int
  localCounter : Int
  paramCounter : Int
  argsCounter : Int
  currentToken : Token
  inFunction : Bool
  symbolTable : GoMap Str Int
  functionScope : GoMap Str Int
  typeTable : GoMap Int TokenType
  functionReturns : GoMap Str TokenType
  errors : List SemanticError
deriving Repr

def NewCodegen : Codegen :=
  { ss := NewStack [], i := 0, pb := [], tempCounter := 0, globalCounter := 0,
    localCounter := 0, paramCounter := 0, argsCounter := 0, currentToken := Token.zero,
    inFunction := false, symbolTable := [], functionScope := [], typeTable := [],
    functionReturns := [], errors := [] }

def Codegen.GetProgram (c : Codegen) : List Instruction := c.pb

def Codegen.SetCurrentToken (c : Codegen) (token : Token) : Codegen :=
  { c with currentToken := token }

def Codegen.pushString (c : Codegen) (val : Str) : Codegen := { c with ss := c.ss.Push val }

def Codegen.push (c : Codegen) (val : Int) : Codegen := { c with ss := c.ss.Push (itoa val) }

/-- The loop `for i := 0; i < count && c.ss.Size() > 0; i++ { c.ss.Pop() }`. -/
def Codegen.pop : Codegen → Nat → Codegen
  | c, 0 => c
  | c, n + 1 => if c.ss.Size > 0 then Codegen.pop { c with ss := c.ss.Pop.2 } n else c

def Codegen.popString (c : Codegen) (count : Nat) : Codegen := c.pop count

def Codegen.popAtOffsetEnd (c : Codegen) (offset : Nat) : Codegen :=
  if c.ss.Size > offset then
    let arr := c.ss.Array
    { c with ss := NewStack (arr.take (arr.length - 1 - offset) ++ arr.drop (arr.length - offset)) }
  else c

def Codegen.top (c : Codegen) : Int :=
  if c.ss.Size > 0 then Atoi c.ss.Peek else -1

def Codegen.topString (c : Codegen) : Str :=
  if c.ss.Size > 0 then c.ss.Peek else []

def Codegen.topMinus (c : Codegen) (offset : Nat) : Int :=
  if c.ss.Size > offset then Atoi (c.ss.Array.getD (c.ss.Array.length - 1 - offset) []) else -1

def Codegen.topStringMinus (c : Codegen) (offset : Nat) : Str :=
  if c.ss.Size > offset then c.ss.Array.getD (c.ss.Array.length - 1 - offset) [] else []

/-- `getTemp`: the address and the updated generator. -/
def Codegen.getTemp (c : Codegen) : Int × Codegen :=
  (600 + c.tempCounter, { c with tempCounter := c.tempCounter + 1 })

def Codegen.getLocalVariable (c : Codegen) : Int × Codegen :=
  (800 + c.localCounter, { c with localCounter := c.localCounter + 1 })

def Codegen.getVariable (c : Codegen) : Int × Codegen :=
  if c.inFunction then c.getLocalVariable
  else (400 + c.globalCounter, { c with globalCounter := c.globalCounter + 1 })

def Codegen.setInFunction (c : Codegen) (state : Bool) : Codegen :=
  let c1 := { c with inFunction := state }
  if !state then { c1 with localCounter := 0, functionScope := [] } else c1

def Codegen.declareVariable (c : Codegen) (name : Str) (addr : Int) : Codegen :=
  if c.inFunction then { c with functionScope := c.functionScope.set name addr }
  else { c with symbolTable := c.symbolTable.set name addr }

def Codegen.isVariableDeclared (c : Codegen) (name : Str) : Bool :=
  if c.inFunction && (c.functionScope.get name).isSome then true
  else if (c.symbolTable.get name).isSome then true
  else false

def Codegen.getVariableAddress (c : Codegen) (name : Str) : Int × Bool :=
  match (if c.inFunction then c.functionScope.get name else none) with
  | some addr => (addr, true)
  | none =>
    match c.symbolTable.get name with
    | some addr => (addr, true)
    | none => (0, false)

def Codegen.GetVariableType (c : Codegen) (addr : Int) : TokenType :=
  (c.typeTable.get addr).getD .EOF

def Codegen.setVariableType (c : Codegen) (addr : Int) (t : TokenType) : Codegen :=
  { c with typeTable := c.typeTable.set addr t }

def Codegen.addError (c : Codegen) (e : SemanticError) : Codegen :=
  { c with errors := c.errors ++ [e] }

def Codegen.GetErrors (c : Codegen) : List SemanticError := c.errors

/-- The statement `c.pb = append(c.pb, ins)`. -/
def Codegen.emit (c : Codegen) (ins : Instruction) : Codegen := { c with pb := c.pb ++ [ins] }

/-- The statement `c.pb[location] = ins`; an index outside the slice panics. -/
def Codegen.patch (c : Codegen) (location : Int) (ins : Instruction) : Res Codegen :=
  if 0 ≤ location ∧ location < c.pb.length then
    .ok { c with pb := c.pb.set location.toNat ins }
  else .error .panic

/-! ## `pkg/parser/codegen/actions.go` -/

/-- The instruction `Instruction{OpNop, nil, nil, nil, lexer.EOF}`. -/
def nopInstruction : Instruction := ⟨.OpNop, .nil, .nil, .nil, .EOF⟩

def Codegen.labelAction (c : Codegen) : Codegen := c.push c.i

def Codegen.labelWhileAction (c : Codegen) : Codegen :=
  c.pushString (bs "$while_" ++ itoa c.i)

def Codegen.saveAction (c : Codegen) : Codegen :=
  let c1 := c.emit nopInstruction
  let c2 := c1.push c1.i
  { c2 with i := c2.i + 1 }

def Codegen.saveBreakAction (c : Codegen) : Codegen :=
  let c1 := c.emit nopInstruction
  let c2 := c1.pushString (bs "$break_" ++ itoa c1.i)
  { c2 with i := c2.i + 1 }

def Codegen.jmpNonBackpatchAction (c : Codegen) : Codegen :=
  if c.ss.Size ≥ 1 then
    let topStr := c.topString
    let location : Int :=
      if startsWith topStr (bs "$while_") || startsWith topStr (bs "$break_") then
        let trimmed := trimStart (trimStart topStr (bs "$while_")) (bs "$break_")
        if (ParseInt trimmed).2 then (ParseInt trimmed).1 else c.top
      else c.top
    let c1 := c.emit ⟨.OpJmp, .nil, .nil, .int location, .EOF⟩
    let c2 := c1.pop 1
    { c2 with i := c2.i + 1 }
  else c

def Codegen.jmpfAction (c : Codegen) : Res Codegen :=
  if c.ss.Size ≥ 2 then
    let location := c.top
    let condition := c.topMinus 1
    if location < c.pb.length then
      (c.patch location ⟨.OpJmpf, .int condition, .nil, .int (c.i + 1), .EOF⟩).map
        (fun c1 => c1.pop 2)
    else .ok (c.pop 2)
  else .ok c

/-- The loop of `jmpfBreakAction`.  Every completed iteration pops one entry, so the stack
size plus one is fuel enough; an iteration whose label does not parse executes `continue`
with the stack unchanged and the source loops forever. -/
def Codegen.jmpfBreakLoop : Nat → Codegen → Res Codegen
  | 0, _ => .error .outOfFuel
  | fuel + 1, c =>
    if c.ss.Size ≥ 1 && startsWith c.topString (bs "$break_") then
      let location := c.topString
      let r := ParseInt (trimStart location (bs "$break_"))
      if !r.2 then .error .diverges
      else
        match c.patch r.1 ⟨.OpJmp, .nil, .nil, .int (c.i + 1), .EOF⟩ with
        | .ok c1 => Codegen.jmpfBreakLoop fuel (c1.popString 1)
        | .error e => .error e
    else .ok c

def Codegen.jmpfBreakAction (c : Codegen) : Res Codegen :=
  match c.jmpfBreakLoop (c.ss.Size + 1) with
  | .ok c1 => c1.jmpfAction
  | .error e => .error e

def Codegen.jmpAction (c : Codegen) : Res Codegen :=
  if c.ss.Size ≥ 1 then
    let location := c.top
    if location < c.pb.length then
      (c.patch location ⟨.OpJmp, .nil, .nil, .int c.i, .EOF⟩).map (fun c1 => c1.pop 1)
    else .ok (c.pop 1)
  else .ok c

/-- The marker test of `jmpfNormalAction`. -/
def isMarker (s : Str) : Bool := startsWith s (bs "$break_") || startsWith s (bs "$while_")

/-- The scan of `jmpfNormalAction` for the first entry from the top that is no marker: the
offset `j` at which the loop stops incrementing.  Past the bottom of the stack
`topStringMinus` is the empty string, which is no marker, so the scan stops at the stack
size at the latest. -/
def Codegen.skipMarkers (c : Codegen) : Nat → Nat → Nat
  | 0, j => j
  | fuel + 1, j => if isMarker (c.topStringMinus j) then Codegen.skipMarkers c fuel (j + 1) else j

def Codegen.jmpfNormalAction (c : Codegen) : Res Codegen :=
  if c.ss.Size ≥ 2 then
    let j := c.skipMarkers (c.ss.Size + 1) 0
    let location := c.topMinus j
    let condition := c.topMinus (j + 1)
    if location < c.pb.length then
      (c.patch location ⟨.OpJmpf, .int condition, .nil, .int c.i, .EOF⟩).map
        (fun c1 => (c1.popAtOffsetEnd j).popAtOffsetEnd j)
    else .ok ((c.popAtOffsetEnd j).popAtOffsetEnd j)
  else .ok c

def Codegen.binaryOpAction (c : Codegen) (op : Operation) : Codegen :=
  if c.ss.Size ≥ 2 then
    let op2 := c.top
    let op1 := c.topMinus 1
    let (t, c1) := c.getTemp
    let newType : TokenType :=
      if c1.GetVariableType op1 = .INT ∧ c1.GetVariableType op2 = .INT then .INT else .FLOAT
    let c2 := c1.setVariableType t newType
    let c3 := c2.emit ⟨op, .int op1, .int op2, .int t, newType⟩
    let c4 := (c3.pop 2).push t
    { c4 with i := c4.i + 1 }
  else c

/-- The decimal floating-point syntax read by Go's `strconv.ParseFloat`: sign, mantissa
digits and decimal exponent of `s` (the value is `± mant * 10 ^ e`), if `s` has that form. -/
def parseFloatShape (s : Str) : Option (Bool × Nat × Int) :=
  let neg := s.head? = some 45
  let body := if s.head? = some 45 || s.head? = some 43 then s.drop 1 else s
  let ip := body.takeWhile isDigit
  let r1 := body.dropWhile isDigit
  let hasDot := r1.head? = some 46
  let r2 := if hasDot then r1.drop 1 else r1
  let fp := if hasDot then r2.takeWhile isDigit else []
  let r3 := if hasDot then r2.dropWhile isDigit else r2
  let mant : Nat := (ip ++ fp).foldl (fun a d => a * 10 + (d - 48)) 0
  if (ip ++ fp).isEmpty then none
  else
    match r3 with
    | [] => some (neg, mant, -(fp.length : Int))
    | e :: r4 =>
      if e = 101 ∨ e = 69 then
        let eneg := r4.head? = some 45
        let ed := if r4.head? = some 45 || r4.head? = some 43 then r4.drop 1 else r4
        if ed.isEmpty || !ed.all isDigit then none
        else
          let ev : Nat := ed.foldl (fun a d => a * 10 + (d - 48)) 0
          some (neg, mant, (if eneg then -(ev : Int) else (ev : Int)) - (fp.length : Int))
      else none

/-- Go `float64` values are carried by Lean's `Float`; both are IEEE-754 binary64.  Nothing
below is proved about floating-point results. -/
abbrev F64 := Float

def lowerAscii (b : Nat) : Nat := if 65 ≤ b ∧ b ≤ 90 then b + 32 else b

/-- Go library function `strconv.ParseFloat(s, 64)`, modelled for the decimal forms and the
special names: the value when `err == nil`.  A decimal form whose value overflows is a
range error.  (Hexadecimal mantissas and digit-separating underscores, which no lexeme of
this language has, are not recognised.) -/
def ParseFloat (s : Str) : Option F64 :=
  let low := s.map lowerAscii
  if low = bs "nan" then some (0.0 / 0.0)
  else if low = bs "inf" ∨ low = bs "+inf" ∨ low = bs "infinity" ∨ low = bs "+infinity" then
    some (1.0 / 0.0)
  else if low = bs "-inf" ∨ low = bs "-infinity" then some (-1.0 / 0.0)
  else
    match parseFloatShape s with
    | none => none
    | some (neg, mant, e) =>
      let v : F64 :=
        if 0 ≤ e then Float.ofScientific (mant * 10 ^ e.toNat) false 0
        else Float.ofScientific mant true (-e).toNat
      if v.isInf then none else some (if neg then -v else v)

/-- Left-pads a digit string with `0` to the width `w`. -/
def padZeros (w : Nat) (d : Str) : Str := List.replicate (w - d.length) 48 ++ d

/-- Go's verb `%.20f`, modelled: the exact binary value rounded half-to-even at the
twentieth decimal. -/
def fmtFixed20 (f : F64) : Str :=
  if f.isNaN then bs "NaN"
  else if f.isInf then (if f > 0 then bs "+Inf" else bs "-Inf")
  else
    let neg : Bool := f < 0 || (f == 0 && 1 / f < 0)
    let me := f.abs.frExp
    let mi : Nat := (me.1 * 9007199254740992.0).toUInt64.toNat
    let num : Nat := mi * 10 ^ 20 * 2 ^ (me.2 - 53).toNat
    let den : Nat := 2 ^ (53 - me.2).toNat
    let q := num / den
    let r := num % den
    let q1 := if den < 2 * r || (2 * r == den && q % 2 == 1) then q + 1 else q
    (if neg then [45] else []) ++ itoa (q1 / 10 ^ 20 : Nat) ++ [46]
      ++ padZeros 20 (itoa (q1 % 10 ^ 20 : Nat))

/-- A finite `float64` as an integer times a power of two. -/
def f64Parts (f : F64) : Int × Int :=
  let me := f.abs.frExp
  let mi : Int := ((me.1 * 9007199254740992.0).toUInt64.toNat : Int)
  (if f < 0 then -mi else mi, me.2 - 53)

/-- Go library function `math.Mod(x, y)`, modelled: the exact remainder with the sign of `x`. -/
def mathMod (x y : F64) : F64 :=
  if x.isNaN || y.isNaN || x.isInf || y == 0 then 0.0 / 0.0
  else if y.isInf then x
  else
    let px := f64Parts x
    let py := f64Parts y
    let e := min px.2 py.2
    let r := Int.tmod (px.1 * 2 ^ (px.2 - e).toNat) (py.1 * 2 ^ (py.2 - e).toNat)
    (Float.ofInt r).scaleB e

/-- Go conversion `float64(i)` of an `int64`. -/
def f64OfInt (i : Int) : F64 := Float.ofInt i

/-- Go conversion `int64(f)`: truncation toward zero.  Outside the `int64` range the result
is implementation-defined; the arm64 target saturates and maps NaN to 0. -/
def f64ToInt (f : F64) : Int :=
  if f.isNaN then 0
  else if f ≥ 9223372036854775808.0 then 9223372036854775807
  else if f ≤ -9223372036854775808.0 then -9223372036854775808
  else if f < 0 then -((-f).toUInt64.toNat : Int) else (f.toUInt64.toNat : Int)

def Codegen.pushAction (c : Codegen) : Codegen :=
  let value : Str :=
    match c.currentToken.Typ with
    | .NUM => 35 :: c.currentToken.Lexeme
    | .TRUE => bs "#true"
    | .FALSE => bs "#false"
    | .STRING => 35 :: c.currentToken.Lexeme
    | _ => 35 :: c.currentToken.Lexeme
  let value_ := value.drop 1
  let type_ : TokenType :=
    if value_ = bs "true" ∨ value_ = bs "false" then .BOOL
    else if containsByte value_ 46 then .FLOAT
    else if (ParseInt value_).2 then .INT
    else if (ParseFloat value_).isSome then .FLOAT
    else .EOF
  let (t, c1) := c.getTemp
  let c2 := c1.setVariableType t type_
  let c3 := c2.emit ⟨.OpAssign, .str value, .nil, .int t, type_⟩
  let c4 := c3.push t
  { c4 with i := c4.i + 1 }

def Codegen.loadAction (c : Codegen) : Codegen :=
  let varName := c.currentToken.Lexeme
  let r := c.getVariableAddress varName
  if r.2 then c.push r.1
  else c.addError (.undefinedVariable varName c.currentToken.Pos)

def Codegen.assignAction (c : Codegen) : Codegen :=
  if c.ss.Size ≥ 2 then
    let value := c.top
    let targetAddr := c.topMinus 1
    if c.GetVariableType value ≠ c.GetVariableType targetAddr then
      c.addError (.typeMismatch (c.GetVariableType targetAddr) (c.GetVariableType value)
        c.currentToken.Pos)
    else
      let c1 := c.emit ⟨.OpAssign, .int value, .nil, .int targetAddr, c.GetVariableType value⟩
      let c2 := c1.pop 2
      { c2 with i := c2.i + 1 }
  else c

def Codegen.defineAction (c : Codegen) : Codegen :=
  if c.ss.Size ≥ 3 then
    let value := c.top
    let varName := c.topStringMinus 2
    let c0 := if c.isVariableDeclared varName then
        c.addError (.redeclaration varName c.currentToken.Pos) else c
    let (varAddr, c1) := c0.getVariable
    let c2 := c1.declareVariable varName varAddr
    let c3 := c2.setVariableType varAddr (c2.GetVariableType value)
    let c4 := c3.emit ⟨.OpAssign, .int value, .nil, .int varAddr, c3.GetVariableType value⟩
    let c5 := c4.pop 3
    { c5 with i := c5.i + 1 }
  else c

def Codegen.printAction (c : Codegen) : Codegen :=
  if c.ss.Size ≥ 1 then
    let a := c.top
    let c1 := c.emit ⟨.OpPrint, .int a, .nil, .nil, c.GetVariableType a⟩
    let c2 := c1.pop 1
    { c2 with i := c2.i + 1 }
  else c

def Codegen.notAction (c : Codegen) : Codegen :=
  if c.ss.Size ≥ 1 then
    let op1 := c.top
    let (temp, c1) := c.getTemp
    let c2 := c1.emit ⟨.OpNot, .int op1, .nil, .int temp, .EOF⟩
    let c3 := (c2.pop 1).push temp
    { c3 with i := c3.i + 1 }
  else c

def Codegen.relAction (c : Codegen) : Codegen :=
  if c.ss.Size ≥ 3 then
    let op2 := c.top
    let opStr := c.topStringMinus 1
    let op1 := c.topMinus 2
    let relOp : Operation :=
      if opStr = bs "<" then .OpLt
      else if opStr = bs ">" then .OpGt
      else if opStr = bs "<=" then .OpLe
      else if opStr = bs ">=" then .OpGe
      else if opStr = bs "==" then .OpEq
      else if opStr = bs "!=" then .OpNeq
      else .OpEq
    let (temp, c1) := c.getTemp
    let newType : TokenType :=
      if c1.GetVariableType op1 = .INT ∧ c1.GetVariableType op2 = .INT then .INT else .FLOAT
    let c2 := c1.setVariableType temp .BOOL
    let c3 := c2.emit ⟨relOp, .int op1, .int op2, .int temp, newType⟩
    let c4 := (c3.pop 3).push temp
    { c4 with i := c4.i + 1 }
  else c

def Codegen.functionStartAction (c : Codegen) : Codegen :=
  let funcName := c.currentToken.Lexeme
  let c1 := c.emit ⟨.OpLabel, .str funcName, .nil, .nil, .EOF⟩
  let c2 := c1.setInFunction true
  let c3 := c2.pushString funcName
  { c3 with i := c3.i + 1 }

def Codegen.funcEndAction (c : Codegen) : Codegen :=
  let c1 :=
    if c.pb.length = 0 ∨ (c.pb.getLastD default).Op ≠ .OpRet then
      let d := c.emit ⟨.OpRet, .nil, .nil, .nil, .EOF⟩
      { d with paramCounter := 0, i := d.i + 1 }
    else c
  let c2 := c1.setInFunction false
  let c3 := c2.emit ⟨.OpEnd, .nil, .nil, .nil, .EOF⟩
  { c3 with i := c3.i + 1 }

def Codegen.paramAction (c : Codegen) : Codegen :=
  if c.ss.Size ≥ 2 then
    let typeStr := c.topString
    let paramName := c.topStringMinus 1
    let (paramAddr, c1) := c.getLocalVariable
    let c2 := c1.declareVariable paramName paramAddr
    let c3 := c2.setVariableType paramAddr (Keywords typeStr)
    let c4 := c3.emit ⟨.OpParam, .int paramAddr, .int c3.paramCounter, .nil, Keywords typeStr⟩
    let c5 := { c4 with paramCounter := c4.paramCounter + 1 }
    let c6 := c5.pop 2
    { c6 with i := c6.i + 1 }
  else c

def Codegen.callStartAction (c : Codegen) : Codegen := c.pushString c.currentToken.Lexeme

def Codegen.callEndAction (c : Codegen) : Codegen :=
  if c.ss.Size ≥ 1 then
    let funcName := c.topString
    let (returnTemp, c1) := c.getTemp
    let ret := c1.functionReturns.get funcName
    let c2 := if ret.isNone then
        c1.addError (.undefinedFunction funcName c1.currentToken.Pos) else c1
    let c3 := c2.setVariableType returnTemp (ret.getD .EOF)
    let c4 := c3.emit ⟨.OpCall, .str funcName, .int c3.argsCounter, .int returnTemp,
      (c3.functionReturns.get funcName).getD .EOF⟩
    let c5 := { c4 with argsCounter := 0 }
    let c6 := (c5.pop 1).push returnTemp
    { c6 with i := c6.i + 1 }
  else c

def Codegen.argAction (c : Codegen) : Codegen :=
  if c.ss.Size ≥ 1 then
    let arg := c.top
    let c1 := c.emit ⟨.OpArg, .int arg, .int c.argsCounter, .nil, c.GetVariableType arg⟩
    let c2 := { c1 with argsCounter := c1.argsCounter + 1 }
    let c3 := c2.pop 1
    { c3 with i := c3.i + 1 }
  else c

def Codegen.returnAction (c : Codegen) : Codegen :=
  let c1 :=
    if c.ss.Size ≥ 1 then
      let returnVal := c.top
      (c.emit ⟨.OpRet, .int returnVal, .nil, .nil, c.GetVariableType returnVal⟩).pop 1
    else c.emit ⟨.OpRet, .nil, .nil, .nil, .EOF⟩
  { c1 with paramCounter := 0, i := c1.i + 1 }

/-- The scan of `continueAction`: the first offset `j` from the top whose entry starts with
`$while_`.  The loop runs while the stack is non-empty and the entry at `j` has no such
prefix; past the bottom `topStringMinus` is the empty string, so once `j` has passed the
stack size the source loops forever. -/
def Codegen.continueScan (c : Codegen) : Nat → Nat → Res Nat
  | 0, _ => .error .diverges
  | fuel + 1, j =>
    if c.ss.Size ≥ 1 && !startsWith (c.topStringMinus j) (bs "$while_") then
      Codegen.continueScan c fuel (j + 1)
    else .ok j

def Codegen.continueAction (c : Codegen) : Res Codegen :=
  match c.continueScan (c.ss.Size + 1) 0 with
  | .error e => .error e
  | .ok j =>
    let r := ParseInt (trimStart (c.topStringMinus j) (bs "$while_"))
    if !r.2 then .ok c
    else
      let c1 := c.emit ⟨.OpJmp, .nil, .nil, .int r.1, .EOF⟩
      .ok { c1 with i := c1.i + 1 }

def Codegen.captureDeclVarAction (c : Codegen) : Codegen := c.pushString c.currentToken.Lexeme

def Codegen.captureParamNameAction (c : Codegen) : Codegen := c.pushString c.currentToken.Lexeme

def Codegen.captureTypeAction (c : Codegen) : Codegen := c.pushString c.currentToken.Lexeme

def Codegen.funcReturnTypeAction (c : Codegen) : Codegen :=
  if c.ss.Size ≥ 1 then
    let funcName := c.topString
    let c1 := { c with functionReturns :=
      c.functionReturns.set funcName (Keywords c.currentToken.Lexeme) }
    c1.pop 1
  else c

def Codegen.captureAssignTargetAction (c : Codegen) : Codegen :=
  let varName := c.currentToken.Lexeme
  let r := c.getVariableAddress varName
  if r.2 then c.push r.1
  else c.addError (.undefinedVariable varName c.currentToken.Pos)

def Codegen.pushRelOpAction (c : Codegen) : Codegen := c.pushString c.currentToken.Lexeme

def Codegen.callAction (c : Codegen) : Codegen :=
  let funcName := c.currentToken.Lexeme
  let (returnTemp, c1) := c.getTemp
  let c2 := c1.setVariableType returnTemp ((c1.functionReturns.get funcName).getD .EOF)
  let c3 := c2.emit ⟨.OpCall, .str funcName, .int 0, .int returnTemp,
    (c2.functionReturns.get funcName).getD .EOF⟩
  let c4 := c3.push returnTemp
  { c4 with i := c4.i + 1 }

/-- The dispatch of `ExecuteAction` through the map `SemanticActions`; an unknown name is
logged and nothing else happens. -/
def Codegen.ExecuteAction (c : Codegen) (actionName : String) : Res Codegen :=
  match actionName with
  | "@label" => .ok c.labelAction
  | "@save" => .ok c.saveAction
  | "@jmp_nonbackpatch" => .ok c.jmpNonBackpatchAction
  | "@jmp" => c.jmpAction
  | "@jmpf_normal" => c.jmpfNormalAction
  | "@jmpf" => c.jmpfAction
  | "@jmpf_break" => c.jmpfBreakAction
  | "@add" => .ok (c.binaryOpAction .OpAdd)
  | "@sub" => .ok (c.binaryOpAction .OpSub)
  | "@mul" => .ok (c.binaryOpAction .OpMul)
  | "@div" => .ok (c.binaryOpAction .OpDiv)
  | "@mod" => .ok (c.binaryOpAction .OpMod)
  | "@push" => .ok c.pushAction
  | "@load" => .ok c.loadAction
  | "@assign" => .ok c.assignAction
  | "@define" => .ok c.defineAction
  | "@print" => .ok c.printAction
  | "@or" => .ok (c.binaryOpAction .OpOr)
  | "@and" => .ok (c.binaryOpAction .OpAnd)
  | "@not" => .ok c.notAction
  | "@rel" => .ok c.relAction
  | "@func_start" => .ok c.functionStartAction
  | "@func_end" => .ok c.funcEndAction
  | "@func_return_type" => .ok c.funcReturnTypeAction
  | "@param" => .ok c.paramAction
  | "@call_start" => .ok c.callStartAction
  | "@call_end" => .ok c.callEndAction
  | "@call" => .ok c.callAction
  | "@arg" => .ok c.argAction
  | "@return" => .ok c.returnAction
  | "@continue" => c.continueAction
  | "@capture_decl_var" => .ok c.captureDeclVarAction
  | "@capture_type" => .ok c.captureTypeAction
  | "@capture_assign_target" => .ok c.captureAssignTargetAction
  | "@capture_param_name" => .ok c.captureParamNameAction
  | "@push_relop" => .ok c.pushRelOpAction
  | "@save_break" => .ok c.saveBreakAction
  | "@label_while" => .ok c.labelWhileAction
  | _ => .ok c

/-! ## `pkg/parser/table.go` -/

structure Production where
  LHS : String
  RHS : List String
deriving DecidableEq, Repr, Inhabited

def grammer : List Production :=
  [ Production.mk "" [],
    Production.mk "Program" ["DeclList"],
    Production.mk "DeclList" ["Decl", "DeclList"],
    Production.mk "DeclList" ["ε"],
    Production.mk "Decl" ["FuncDecl"],
    Production.mk "Decl" ["Stmt"],
    Production.mk "FuncDecl" ["func", "id", "@func_start", "(", "ParamList", ")", ":", "Type",
      "@func_return_type", "\x7b", "StmtList", "\x7d", "@func_end"],
    Production.mk "ParamList" ["Param", "Param'"],
    Production.mk "ParamList" ["ε"],
    Production.mk "Param'" [",", "Param", "Param'"],
    Production.mk "Param'" ["ε"],
    Production.mk "Param" ["id", "@capture_param_name", ":", "Type", "@capture_type", "@param"],
    Production.mk "Type" ["int"],
    Production.mk "Type" ["float"],
    Production.mk "Type" ["bool"],
    Production.mk "StmtList" ["Stmt", "StmtList"],
    Production.mk "StmtList" ["ε"],
    Production.mk "Stmt" ["VarDecl"],
    Production.mk "Stmt" ["Assign"],
    Production.mk "Stmt" ["IfStmt"],
    Production.mk "Stmt" ["WhileStmt"],
    Production.mk "Stmt" ["PrintStmt"],
    Production.mk "Stmt" ["ReturnStmt"],
    Production.mk "Stmt" ["ContinueStmt"],
    Production.mk "Stmt" ["BreakStmt"],
    Production.mk "VarDecl" ["let", "id", "@capture_decl_var", ":", "Type", "@capture_type", "=", "Expr",
      ";", "@define"],
    Production.mk "Assign" ["id", "@capture_assign_target", "AssignSuffix", ";"],
    Production.mk "AssignSuffix" ["=", "Expr", "@assign"],
    Production.mk "AssignSuffix" ["(", "ArgList", ")", "@call"],
    Production.mk "IfStmt" ["if", "(", "Cond", ")", "@save", "\x7b", "StmtList", "\x7d", "ElsePart"],
    Production.mk "ElsePart" ["@jmpf", "@save", "else", "\x7b", "StmtList", "\x7d", "@jmp"],
    Production.mk "ElsePart" ["@jmpf_normal", "ε"],
    Production.mk "WhileStmt" ["while", "@label_while", "(", "Cond", ")", "@save", "\x7b", "StmtList",
      "\x7d", "@jmpf_break", "@jmp_nonbackpatch"],
    Production.mk "ContinueStmt" ["continue", ";", "@continue"],
    Production.mk "BreakStmt" ["break", ";", "@save_break"],
    Production.mk "PrintStmt" ["print", "(", "id", "@load", ")", ";", "@print"],
    Production.mk "ReturnStmt" ["return", "ReturnValue", ";", "@return"],
    Production.mk "ReturnValue" ["Expr"],
    Production.mk "ReturnValue" ["ε"],
    Production.mk "Expr" ["Term", "Expr'"],
    Production.mk "Expr'" ["+", "Term", "Expr'", "@add"],
    Production.mk "Expr'" ["-", "Term", "Expr'", "@sub"],
    Production.mk "Expr'" ["ε"],
    Production.mk "Term" ["Factor", "Term'"],
    Production.mk "Term'" ["*", "Factor", "Term'", "@mul"],
    Production.mk "Term'" ["/", "Factor", "Term'", "@div"],
    Production.mk "Term'" ["%", "Factor", "Term'", "@mod"],
    Production.mk "Term'" ["ε"],
    Production.mk "Factor" ["id", "FactorSuffix"],
    Production.mk "Factor" ["num", "@push"],
    Production.mk "Factor" ["true", "@push"],
    Production.mk "Factor" ["false", "@push"],
    Production.mk "Factor" ["(", "Expr", ")"],
    Production.mk "FactorSuffix" ["@load"],
    Production.mk "FactorSuffix" ["@call_start", "(", "ArgList", ")", "@call_end"],
    Production.mk "ArgList" ["Expr", "@arg", "ArgList'"],
    Production.mk "ArgList" ["ε"],
    Production.mk "ArgList'" [",", "Expr", "@arg", "ArgList'"],
    Production.mk "ArgList'" ["ε"],
    Production.mk "Cond" ["OrExpr"],
    Production.mk "OrExpr" ["AndExpr", "OrExpr'"],
    Production.mk "OrExpr'" ["or", "AndExpr", "OrExpr'", "@or"],
    Production.mk "OrExpr'" ["ε"],
    Production.mk "AndExpr" ["NotExpr", "AndExpr'"],
    Production.mk "AndExpr'" ["and", "NotExpr", "AndExpr'", "@and"],
    Production.mk "AndExpr'" ["ε"],
    Production.mk "NotExpr" ["not", "NotExpr", "@not"],
    Production.mk "NotExpr" ["RelExpr"],
    Production.mk "RelExpr" ["BoolPrimary", "RelExpr'"],
    Production.mk "RelExpr'" ["RelOp", "BoolPrimary", "@rel"],
    Production.mk "RelExpr'" ["ε"],
    Production.mk "BoolPrimary" ["true", "@push"],
    Production.mk "BoolPrimary" ["false", "@push"],
    Production.mk "BoolPrimary" ["Expr"],
    Production.mk "RelOp" ["<", "@push_relop"],
    Production.mk "RelOp" [">", "@push_relop"],
    Production.mk "RelOp" ["<=", "@push_relop"],
    Production.mk "RelOp" [">=", "@push_relop"],
    Production.mk "RelOp" ["==", "@push_relop"],
    Production.mk "RelOp" ["!=", "@push_relop"] ]

/-- The literal of `NewParsingTable`: for each nonterminal, the token kinds with an entry and
the index into `grammer` of the production entered. -/
def tableRows : List (String × List (TokenType × Nat)) :=
  [ ("Program", [(.FUNC, 1), (.LET, 1), (.ID, 1), (.IF, 1), (.WHILE, 1), (.PRINT, 1),
      (.RETURN, 1)]),
    ("DeclList", [(.FUNC, 2), (.LET, 2), (.ID, 2), (.IF, 2), (.WHILE, 2), (.PRINT, 2),
      (.RETURN, 2), (.EOF, 3)]),
    ("Decl", [(.FUNC, 4), (.LET, 5), (.ID, 5), (.IF, 5), (.WHILE, 5), (.PRINT, 5),
      (.RETURN, 5)]),
    ("FuncDecl", [(.FUNC, 6)]),
    ("ParamList", [(.ID, 7), (.RPAREN, 8)]),
    ("Param'", [(.COMMA, 9), (.RPAREN, 10)]),
    ("Param", [(.ID, 11)]),
    ("Type", [(.INT, 12), (.FLOAT, 13), (.BOOL, 14)]),
    ("StmtList", [(.LET, 15), (.ID, 15), (.IF, 15), (.WHILE, 15), (.PRINT, 15), (.RETURN, 15),
      (.CONTINUE, 15), (.BREAK, 15), (.RBRACE, 16)]),
    ("Stmt", [(.LET, 17), (.ID, 18), (.IF, 19), (.WHILE, 20), (.PRINT, 21), (.RETURN, 22),
      (.CONTINUE, 23), (.BREAK, 24)]),
    ("VarDecl", [(.LET, 25)]),
    ("Assign", [(.ID, 26)]),
    ("AssignSuffix", [(.ASSIGN, 27), (.LPAREN, 28)]),
    ("IfStmt", [(.IF, 29)]),
    ("ElsePart", [(.ELSE, 30), (.LET, 31), (.ID, 31), (.IF, 31), (.WHILE, 31), (.PRINT, 31),
      (.RETURN, 31), (.CONTINUE, 31), (.BREAK, 31), (.RBRACE, 31), (.EOF, 31)]),
    ("WhileStmt", [(.WHILE, 32)]),
    ("ContinueStmt", [(.CONTINUE, 33)]),
    ("BreakStmt", [(.BREAK, 34)]),
    ("PrintStmt", [(.PRINT, 35)]),
    ("ReturnStmt", [(.RETURN, 36)]),
    ("ReturnValue", [(.ID, 37), (.NUM, 37), (.LPAREN, 37), (.TRUE, 37), (.FALSE, 37),
      (.NOT, 37), (.SEMICOLON, 38)]),
    ("Expr", [(.ID, 39), (.NUM, 39), (.LPAREN, 39), (.TRUE, 39), (.FALSE, 39)]),
    ("Expr'", [(.PLUS, 40), (.MINUS, 41), (.RPAREN, 42), (.SEMICOLON, 42), (.LT, 42),
      (.GT, 42), (.LE, 42), (.GE, 42), (.EQ, 42), (.NE, 42), (.AND, 42), (.OR, 42),
      (.COMMA, 42)]),
    ("Term", [(.ID, 43), (.NUM, 43), (.LPAREN, 43), (.TRUE, 43), (.FALSE, 43)]),
    ("Term'", [(.MULT, 44), (.DIV, 45), (.MOD, 46), (.PLUS, 47), (.MINUS, 47), (.RPAREN, 47),
      (.SEMICOLON, 47), (.LT, 47), (.GT, 47), (.LE, 47), (.GE, 47), (.EQ, 47), (.NE, 47),
      (.AND, 47), (.OR, 47), (.COMMA, 47)]),
    ("FactorSuffix", [(.LPAREN, 54), (.MULT, 53), (.DIV, 53), (.MOD, 53), (.PLUS, 53),
      (.MINUS, 53), (.RPAREN, 53), (.SEMICOLON, 53), (.LT, 53), (.GT, 53), (.LE, 53),
      (.GE, 53), (.EQ, 53), (.NE, 53), (.AND, 53), (.OR, 53), (.COMMA, 53)]),
    ("Factor", [(.ID, 48), (.NUM, 49), (.TRUE, 50), (.FALSE, 51), (.LPAREN, 52)]),
    ("ArgList", [(.ID, 55), (.NUM, 55), (.LPAREN, 55), (.TRUE, 55), (.FALSE, 55), (.NOT, 55),
      (.RPAREN, 56)]),
    ("ArgList'", [(.COMMA, 57), (.RPAREN, 58)]),
    ("Cond", [(.ID, 59), (.NUM, 59), (.LPAREN, 59), (.NOT, 59), (.TRUE, 59), (.FALSE, 59)]),
    ("OrExpr", [(.ID, 60), (.NUM, 60), (.LPAREN, 60), (.NOT, 60), (.TRUE, 60), (.FALSE, 60)]),
    ("OrExpr'", [(.OR, 61), (.RPAREN, 62)]),
    ("AndExpr", [(.ID, 63), (.NUM, 63), (.LPAREN, 63), (.NOT, 63), (.TRUE, 63), (.FALSE, 63)]),
    ("AndExpr'", [(.AND, 64), (.OR, 65), (.RPAREN, 65)]),
    ("NotExpr", [(.NOT, 66), (.ID, 67), (.NUM, 67), (.LPAREN, 67), (.TRUE, 67), (.FALSE, 67)]),
    ("RelExpr", [(.ID, 68), (.NUM, 68), (.LPAREN, 68), (.TRUE, 68), (.FALSE, 68)]),
    ("RelExpr'", [(.LT, 69), (.GT, 69), (.LE, 69), (.GE, 69), (.EQ, 69), (.NE, 69), (.AND, 70),
      (.OR, 70), (.RPAREN, 70)]),
    ("BoolPrimary", [(.TRUE, 71), (.FALSE, 72), (.LPAREN, 73), (.ID, 73), (.NUM, 73)]),
    ("RelOp", [(.LT, 74), (.GT, 75), (.LE, 76), (.GE, 77), (.EQ, 78), (.NE, 79)]) ]

/-- The lookup `table[nt][t]` in the table built by `NewParsingTable`. -/
def NewParsingTable (nt : String) (t : TokenType) : Option Production :=
  match tableRows.lookup nt with
  | none => none
  | some row =>
    match row.lookup t with
    | none => none
    | some k => some (grammer.getD k default)

/-! ## `pkg/parser/parser.go`, `pkg/parser/terminal.go`, `pkg/parser/error.go` -/

/-- A syntax diagnostic: the message and the position of the current token.  (The source
renders both into one coloured string.) -/
structure SyntaxError where
  msg : String
  pos : Position
deriving DecidableEq, Repr

/-- The parser.  The source's field `table` always holds `NewParsingTable()`. -/
structure Parser where
  stack : Stack String
  lexer : Lexer
  cg : Codegen
  currentToken : Token
  errors : List SyntaxError
deriving Repr

def Parser.nextToken (p : Parser) : Parser :=
  let r := p.lexer.NextToken
  { p with currentToken := r.1, lexer := r.2 }

def NewParser (l : Lexer) : Parser :=
  Parser.nextToken
    { stack := NewStack ["$", "Program"], lexer := l, cg := NewCodegen,
      currentToken := Token.zero, errors := [] }

/-- Go `strings.HasPrefix(symbol, "@")` on a grammar symbol. -/
def isSemanticAction (symbol : String) : Bool := symbol.toList.head? = some '@'

def terminals : List String :=
  ["let", "func", "return", "if", "while", "break", "continue", "print", "else",
   "true", "false", "not", "and", "or",
   "int", "float", "bool",
   "(", ")", "\x7b", "\x7d", ";", ",", "=", ":",
   "+", "-", "*", "/", "%",
   "<", ">", "<=", ">=", "==", "!=",
   "id", "num", "string", "$", "EOF"]

def isTerminal (symbol : String) : Bool :=
  if isSemanticAction symbol then true else terminals.contains symbol

def Parser.matchTerminal (p : Parser) (expected : String) : Bool :=
  match expected with
  | "id" => p.currentToken.Typ = .ID
  | "num" => p.currentToken.Typ = .NUM
  | "string" => p.currentToken.Typ = .STRING
  | "$" => p.currentToken.Typ = .EOF
  | "let" => p.currentToken.Typ = .LET
  | "func" => p.currentToken.Typ = .FUNC
  | "return" => p.currentToken.Typ = .RETURN
  | "if" => p.currentToken.Typ = .IF
  | "while" => p.currentToken.Typ = .WHILE
  | "break" => p.currentToken.Typ = .BREAK
  | "continue" => p.currentToken.Typ = .CONTINUE
  | "print" => p.currentToken.Typ = .PRINT
  | "else" => p.currentToken.Typ = .ELSE
  | "true" => p.currentToken.Typ = .TRUE
  | "false" => p.currentToken.Typ = .FALSE
  | "not" => p.currentToken.Typ = .NOT
  | "and" => p.currentToken.Typ = .AND
  | "or" => p.currentToken.Typ = .OR
  | "(" => p.currentToken.Typ = .LPAREN
  | ")" => p.currentToken.Typ = .RPAREN
  | "\x7b" => p.currentToken.Typ = .LBRACE
  | "\x7d" => p.currentToken.Typ = .RBRACE
  | ";" => p.currentToken.Typ = .SEMICOLON
  | "," => p.currentToken.Typ = .COMMA
  | ":" => p.currentToken.Typ = .COLON
  | "=" => p.currentToken.Typ = .ASSIGN
  | "int" => p.currentToken.Typ = .INT
  | "float" => p.currentToken.Typ = .FLOAT
  | "bool" => p.currentToken.Typ = .BOOL
  | "+" => p.currentToken.Typ = .PLUS
  | "-" => p.currentToken.Typ = .MINUS
  | "*" => p.currentToken.Typ = .MULT
  | "/" => p.currentToken.Typ = .DIV
  | "%" => p.currentToken.Typ = .MOD
  | "<" => p.currentToken.Typ = .LT
  | ">" => p.currentToken.Typ = .GT
  | "<=" => p.currentToken.Typ = .LE
  | ">=" => p.currentToken.Typ = .GE
  | "==" => p.currentToken.Typ = .EQ
  | "!=" => p.currentToken.Typ = .NE
  | _ => false

def Parser.addError (p : Parser) (msg : String) : Parser :=
  { p with errors := p.errors ++ [⟨msg, p.currentToken.Pos⟩] }

def isExpressionTail (sym : String) : Bool :=
  match sym with
  | "Expr" | "Expr'" | "Term" | "Term'" | "Factor" | "FactorSuffix" => true
  | _ => false

def isStatementBoundary (t : TokenType) : Bool :=
  match t with
  | .LET | .ID | .IF | .WHILE | .PRINT | .RETURN | .CONTINUE | .BREAK | .ELSE | .RBRACE
  | .EOF => true
  | _ => false

/-- The method `isReservedKeywordAsId`: a token that is not an `ID` is never reported, and
`ID` is not a key of the map `reserved`. -/
def isReservedKeywordAsId (current : Token) : Bool :=
  if current.Typ ≠ .ID then false
  else
    match current.Typ with
    | .LET | .FUNC | .RETURN | .IF | .ELSE | .WHILE | .BREAK | .CONTINUE | .PRINT
    | .TRUE | .FALSE | .AND | .OR | .NOT | .INT | .FLOAT | .BOOL => true
    | _ => false

def categorizeError (expected : String) (current : Token) : String :=
  match expected with
  | ")" => "Missing closing parenthesis"
  | "\x7d" => "Missing closing brace"
  | "\x7b" => "Missing opening brace"
  | ";" => "Missing semicolon"
  | "=" => "Missing assignment operator"
  | "(" =>
    if current.Typ = .LBRACE then "Wrong bracket type - expected parenthesis"
    else "Missing opening parenthesis"
  | "id" =>
    if current.Typ = .ASSIGN ∨ current.Typ = .SEMICOLON then "Missing identifier"
    else if isReservedKeywordAsId current then "Cannot use reserved keyword as identifier"
    else "Expected identifier"
  | "num" => "Expected number"
  | "string" =>
    if current.Typ = .ID then "Missing quotes around string" else "Expected string"
  | _ =>
    if (expected = "Expr" ∨ expected = "Term" ∨ expected = "Factor") ∧
        (current.Typ = .SEMICOLON ∨ current.Typ = .RPAREN) then "Missing expression"
    else if expected = "Cond" ∧ current.Typ = .RPAREN then "Empty condition"
    else "Syntax error"

def Parser.addContextualError (p : Parser) (expected : String) : Parser :=
  p.addError (categorizeError expected p.currentToken)

/-- `handleTerminalError`: the parser with the diagnostic, and the returned flag. -/
def Parser.handleTerminalError (p : Parser) (expected : String) : Parser × Bool :=
  if expected = ";" ∧ isStatementBoundary p.currentToken.Typ then
    (p.addError "Missing semicolon", false)
  else if expected = "id" ∧ p.currentToken.Typ = .ASSIGN then
    (p.addError "Missing identifier", false)
  else (p.addContextualError expected, false)

def Parser.handleNonTerminalError (p : Parser) (expected : String) : Parser × Bool :=
  if expected = "ArgList" ∧
      (p.currentToken.Typ = .SEMICOLON ∨ p.currentToken.Typ = .RBRACE ∨
        isStatementBoundary p.currentToken.Typ) then
    (p.addError "Missing closing parenthesis", false)
  else if expected = "Cond" ∧ p.currentToken.Typ = .RPAREN then
    (p.addError "Empty condition", false)
  else if isExpressionTail expected ∧ isStatementBoundary p.currentToken.Typ then
    (p.addError "Missing semicolon", false)
  else (p.addContextualError expected, false)

def Parser.handleUnexpectedEndOfInput (p : Parser) : Parser :=
  p.addError ("Unexpected token '" ++ p.currentToken.Typ.String ++ "' at end of input")

/-- The loop `for i := rhs_length - 1; i >= 0; i--` pushing the symbols of a right-hand
side other than `ε`, last symbol first. -/
def pushRHS (st : Stack String) : List String → Stack String
  | [] => st
  | x :: rest => if x ≠ "ε" then (pushRHS st rest).Push x else pushRHS st rest

/-- One iteration of the loop of `Parse`: the parser after it and whether the iteration
executed `break`. -/
def Parser.step (p0 : Parser) : Res (Parser × Bool) :=
  let top := p0.stack.Pop.1
  let p := { p0 with stack := p0.stack.Pop.2 }
  if isTerminal top then
    if isSemanticAction top then
      match p.cg.ExecuteAction top with
      | .ok cg => .ok ({ p with cg := cg }, false)
      | .error e => .error e
    else if p.matchTerminal top then
      .ok (Parser.nextToken { p with cg := p.cg.SetCurrentToken p.currentToken }, false)
    else .ok (p.handleTerminalError top)
  else
    match NewParsingTable top p.currentToken.Typ with
    | some production =>
      if production.RHS.length = 0 ∨
          (production.RHS.length = 1 ∧ production.RHS.head? = some "ε") then .ok (p, false)
      else .ok ({ p with stack := pushRHS p.stack production.RHS }, false)
    | none => .ok (p.handleNonTerminalError top)

/-- The loop `for p.stack.Size() > 1` of `Parse`, on fuel. -/
def Parser.loop : Nat → Parser → Res Parser
  | 0, _ => .error .outOfFuel
  | fuel + 1, p =>
    if p.stack.Size > 1 then
      match p.step with
      | .ok (p1, brk) => if brk then .ok p1 else Parser.loop fuel p1
      | .error e => .error e
    else .ok p

/-- `Parse`, with the fuel for its loop. -/
def Parser.Parse (fuel : Nat) (p : Parser) : Res Parser :=
  match Parser.loop fuel p with
  | .ok p1 => if p1.currentToken.Typ ≠ .EOF then .ok p1.handleUnexpectedEndOfInput else .ok p1
  | .error e => .error e

def Parser.GetIRCode (p : Parser) : List Instruction := p.cg.GetProgram ++ [nopInstruction]

def Parser.GetSemanticErrors (p : Parser) : List SemanticError := p.cg.GetErrors

def Parser.Errors (p : Parser) : List SyntaxError := p.errors

/-! ## `pkg/interpreter/value.go`, `pkg/interpreter/frame.go` -/

inductive ValueKind where
  | KindUnknown | KindInt | KindFloat | KindBool | KindString
deriving DecidableEq, Repr, Inhabited

/-- The number a `ValueKind` prints as under `%v`. -/
def ValueKind.toNat : ValueKind → Nat
  | .KindUnknown => 0 | .KindInt => 1 | .KindFloat => 2 | .KindBool => 3 | .KindString => 4

/-- A dynamically typed value; the fields are those of the source's struct, with `Bool` and
`Str` written `BoolVal` and `StrVal`. -/
structure Value where
  Kind : ValueKind
  I64 : Int
  F64 : Float
  BoolVal : Bool
  StrVal : Str
  Valid : Bool
deriving Repr

/-- The zero value `Value{}`. -/
def Value.zero : Value :=
  { Kind := .KindUnknown, I64 := 0, F64 := 0, BoolVal := false, StrVal := [], Valid := false }

instance : Inhabited Value := ⟨Value.zero⟩

def newInt (i : Int) : Value := { Value.zero with Kind := .KindInt, I64 := i, Valid := true }

def newFloat (f : Float) : Value := { Value.zero with Kind := .KindFloat, F64 := f, Valid := true }

def newBool (b : Bool) : Value := { Value.zero with Kind := .KindBool, BoolVal := b, Valid := true }

def newString (s : Str) : Value :=
  { Value.zero with Kind := .KindString, StrVal := s, Valid := true }

/-- The errors the interpreter returns.  `text` gives the message of those whose message is
a constant of the source. -/
inductive RuntimeError where
  | divisionByZero
  | moduloByZero
  | maxStepsExceeded
  | cannotConvert (kind : ValueKind) (target : String)
  | immediateWithoutHash (imm : Str)
  | unsupportedImmediate (imm : Str)
  | unexpectedStringOperand (v : Str)
  | unsupportedOperandType
  | unsupportedBinaryOp (op : Operation)
  | unreachableOp (op : Operation)
deriving DecidableEq, Repr

def RuntimeError.text : RuntimeError → String
  | .divisionByZero => "division by zero"
  | .moduloByZero => "modulo by zero"
  | .maxStepsExceeded => "maximum steps exceeded"
  | .cannotConvert k target => "cannot convert " ++ toString k.toNat ++ " to " ++ target
  | .immediateWithoutHash _ => "immediate must start with '#'"
  | .unsupportedImmediate _ => "unsupported immediate"
  | .unexpectedStringOperand _ => "unexpected string operand"
  | .unsupportedOperandType => "unsupported operand type"
  | .unsupportedBinaryOp _ => "unsupported binary op"
  | .unreachableOp _ => "unreachable for op"

/-- The 64-bit two's-complement value of an integer: what an `int64` operation keeps of its
mathematical result. -/
def wrap64 (x : Int) : Int := (x + 9223372036854775808) % 18446744073709551616 - 9223372036854775808

def Value.AsFloat64 (v : Value) : Except RuntimeError Float :=
  match v.Kind with
  | .KindFloat => .ok v.F64
  | .KindInt => .ok (f64OfInt v.I64)
  | .KindBool => .ok (if v.BoolVal then 1.0 else 0.0)
  | k => .error (.cannotConvert k "float")

def Value.AsInt64 (v : Value) : Except RuntimeError Int :=
  match v.Kind with
  | .KindInt => .ok v.I64
  | .KindFloat => .ok (f64ToInt v.F64)
  | .KindBool => .ok (if v.BoolVal then 1 else 0)
  | k => .error (.cannotConvert k "int")

def Value.AsBool (v : Value) : Except RuntimeError Bool :=
  match v.Kind with
  | .KindBool => .ok v.BoolVal
  | .KindInt => .ok (v.I64 ≠ 0)
  | .KindFloat => .ok (decide (v.F64.abs > 0))
  | k => .error (.cannotConvert k "bool")

def parseImmediate (imm : Str) : Except RuntimeError Value :=
  if !startsWith imm [35] then .error (.immediateWithoutHash imm)
  else
    let body := imm.drop 1
    if body = bs "true" then .ok (newBool true)
    else if body = bs "false" then .ok (newBool false)
    else if body.length ≥ 2 ∧ body.head? = some 34 ∧ body.getLast? = some 34 then
      .ok (newString ((body.drop 1).take (body.length - 2)))
    else if (ParseInt body).2 then .ok (newInt (ParseInt body).1)
    else
      match ParseFloat body with
      | some f => .ok (newFloat f)
      | none => .error (.unsupportedImmediate imm)

structure Frame where
  FuncName : Str
  IP : Int
  Locals : GoMap Int Value
  ReturnToIP : Int
  RetTemp : Int
deriving Repr

/-! ## `pkg/interpreter/interpreter.go` -/

def LocalAddrBase : Int := 800

/-- The interpreter.  `stack` holds the frames bottom first; `out` is what has been written
to the output writer.  The source's `execStep` hook always holds `coreStep`. -/
structure Interpreter where
  pb : List Instruction
  ip : Int
  globals : GoMap Int Value
  stack : List Frame
  argBuf : GoMap Int Value
  labelIndex : GoMap Int Str
  funcIndex : GoMap Str Int
  funcEnd : GoMap Int Int
  retTypes : GoMap Str TokenType
  out : Str
  maxSteps : Int
  steps : Int
deriving Repr

/-- The first loop of `indexProgram`, from index `idx` on. -/
def indexLabels : List Instruction → Int → GoMap Int Str → GoMap Str Int →
    GoMap Int Str × GoMap Str Int
  | [], _, li, fi => (li, fi)
  | ins :: rest, idx, li, fi =>
    match ins.Op, ins.Arg1 with
    | .OpLabel, .str name =>
      if name ≠ [] then indexLabels rest (idx + 1) (li.set idx name) (fi.set name idx)
      else indexLabels rest (idx + 1) li fi
    | _, _ => indexLabels rest (idx + 1) li fi

/-- The second loop of `indexProgram`, from index `idx` on. -/
def indexEnds : List Instruction → Int → Int → GoMap Int Int → GoMap Int Int
  | [], _, _, fe => fe
  | ins :: rest, idx, currentLabelIdx, fe =>
    if ins.Op = .OpLabel then indexEnds rest (idx + 1) idx fe
    else if ins.Op = .OpEnd ∧ currentLabelIdx ≠ -1 then
      indexEnds rest (idx + 1) (-1) (fe.set currentLabelIdx (idx - 1))
    else indexEnds rest (idx + 1) currentLabelIdx fe

def Interpreter.indexProgram (i : Interpreter) : Interpreter :=
  let r := indexLabels i.pb 0 [] []
  { i with labelIndex := r.1, funcIndex := r.2, funcEnd := indexEnds i.pb 0 (-1) [],
           retTypes := [] }

/-- `NewInterpreter(pb)` with no option. -/
def NewInterpreter (pb : List Instruction) : Interpreter :=
  Interpreter.indexProgram
    { pb := pb, ip := 0, globals := [], stack := [], argBuf := [], labelIndex := [],
      funcIndex := [], funcEnd := [], retTypes := [], out := [], maxSteps := 0, steps := 0 }

/-- The option `WithMaxSteps(n)` applied. -/
def WithMaxSteps (n : Int) (i : Interpreter) : Interpreter := { i with maxSteps := n }

def Interpreter.currentFrame (i : Interpreter) : Option Frame := i.stack.getLast?

/-- Writes through the pointer returned by `currentFrame`. -/
def Interpreter.updateFrame (i : Interpreter) (f : Frame → Frame) : Interpreter :=
  match i.stack.getLast? with
  | some fr => { i with stack := i.stack.dropLast ++ [f fr] }
  | none => i

def Interpreter.PC (i : Interpreter) : Int :=
  match i.currentFrame with
  | some f => f.IP
  | none => i.ip

def Interpreter.SetPC (i : Interpreter) (pc : Int) : Interpreter :=
  match i.currentFrame with
  | some _ => i.updateFrame (fun f => { f with IP := pc })
  | none => { i with ip := pc }

def Interpreter.PushFrame (i : Interpreter) (funcName : Str) (retToIP retTemp : Int) :
    Interpreter :=
  { i with stack := i.stack ++
      [{ FuncName := funcName, IP := (i.funcIndex.get funcName).getD 0, Locals := [],
         ReturnToIP := retToIP, RetTemp := retTemp }] }

/-- `PopFrame`: the popped frame, if any, and the interpreter left. -/
def Interpreter.PopFrame (i : Interpreter) : Option Frame × Interpreter :=
  match i.stack.getLast? with
  | none => (none, i)
  | some f => (some f, { i with stack := i.stack.dropLast })

def Interpreter.SetVar (i : Interpreter) (addr : Int) (v : Value) : Interpreter :=
  match i.currentFrame with
  | some f =>
    if addr ≥ LocalAddrBase then i.updateFrame (fun f => { f with Locals := f.Locals.set addr v })
    else if (f.Locals.get addr).isSome then
      i.updateFrame (fun f => { f with Locals := f.Locals.set addr v })
    else { i with globals := i.globals.set addr v }
  | none => { i with globals := i.globals.set addr v }

/-- `GetVar`: the value (the zero value when absent) and the flag `ok`. -/
def Interpreter.GetVar (i : Interpreter) (addr : Int) : Value × Bool :=
  match i.currentFrame with
  | some f =>
    if addr ≥ LocalAddrBase then
      ((f.Locals.get addr).getD Value.zero, (f.Locals.get addr).isSome)
    else
      match f.Locals.get addr with
      | some v => (v, true)
      | none => ((i.globals.get addr).getD Value.zero, (i.globals.get addr).isSome)
  | none => ((i.globals.get addr).getD Value.zero, (i.globals.get addr).isSome)

def Interpreter.StageArg (i : Interpreter) (pos : Int) (v : Value) : Interpreter :=
  { i with argBuf := i.argBuf.set pos v }

def Interpreter.ConsumeArg (i : Interpreter) (pos : Int) : (Value × Bool) × Interpreter :=
  match i.argBuf.get pos with
  | some v => ((v, true), { i with argBuf := i.argBuf.del pos })
  | none => ((Value.zero, false), i)

def Interpreter.ClearArgs (i : Interpreter) : Interpreter := { i with argBuf := [] }

/-! ## `pkg/interpreter/step.go` -/

def Interpreter.loadOperand (i : Interpreter) (op : Arg) (hint : TokenType) :
    Except RuntimeError Value :=
  match op with
  | .str v =>
    if v.length > 0 ∧ v.head? = some 35 then parseImmediate v
    else .error (.unexpectedStringOperand v)
  | .int v =>
    let r := i.GetVar v
    if !r.2 then
      match hint with
      | .FLOAT => .ok (newFloat 0)
      | .INT | .BOOL => .ok (newInt 0)
      | .STRING => .ok (newString [])
      | _ => .ok Value.zero
    else .ok r.1
  | .nil => .error .unsupportedOperandType

/-- The integer branch of the arithmetic case of `evalBinary`, on two `int64` values. -/
def evalIntArith (op : Operation) (ai bi : Int) : Except RuntimeError Value :=
  match op with
  | .OpAdd => .ok (newInt (wrap64 (ai + bi)))
  | .OpSub => .ok (newInt (wrap64 (ai - bi)))
  | .OpMul => .ok (newInt (wrap64 (ai * bi)))
  | .OpDiv => if bi = 0 then .error .divisionByZero else .ok (newInt (wrap64 (Int.tdiv ai bi)))
  | .OpMod => if bi = 0 then .error .moduloByZero else .ok (newInt (wrap64 (Int.tmod ai bi)))
  | _ => .error (.unreachableOp op)

def evalFloatArith (op : Operation) (af bf : Float) : Except RuntimeError Value :=
  match op with
  | .OpAdd => .ok (newFloat (af + bf))
  | .OpSub => .ok (newFloat (af - bf))
  | .OpMul => .ok (newFloat (af * bf))
  | .OpDiv => .ok (newFloat (af / bf))
  | .OpMod => .ok (newFloat (mathMod af bf))
  | _ => .error (.unreachableOp op)

def evalIntCompare (op : Operation) (ai bi : Int) : Except RuntimeError Value :=
  match op with
  | .OpEq => .ok (newBool (ai = bi))
  | .OpNeq => .ok (newBool (ai ≠ bi))
  | .OpLt => .ok (newBool (ai < bi))
  | .OpLe => .ok (newBool (ai ≤ bi))
  | .OpGt => .ok (newBool (ai > bi))
  | .OpGe => .ok (newBool (ai ≥ bi))
  | _ => .error (.unreachableOp op)

def evalFloatCompare (op : Operation) (af bf : Float) : Except RuntimeError Value :=
  match op with
  | .OpEq => .ok (newBool (af == bf))
  | .OpNeq => .ok (newBool (af != bf))
  | .OpLt => .ok (newBool (af < bf))
  | .OpLe => .ok (newBool (af ≤ bf))
  | .OpGt => .ok (newBool (af > bf))
  | .OpGe => .ok (newBool (af ≥ bf))
  | _ => .error (.unreachableOp op)

def Interpreter.evalBinary (_i : Interpreter) (op : Operation) (a b : Value)
    (hint : TokenType) : Except RuntimeError Value :=
  match op with
  | .OpAdd | .OpSub | .OpMul | .OpDiv | .OpMod =>
    let useFloat := hint = .FLOAT ∨ a.Kind = .KindFloat ∨ b.Kind = .KindFloat
    if useFloat then
      match a.AsFloat64 with
      | .error e => .error e
      | .ok af =>
        match b.AsFloat64 with
        | .error e => .error e
        | .ok bf => evalFloatArith op af bf
    else
      match a.AsInt64 with
      | .error e => .error e
      | .ok ai =>
        match b.AsInt64 with
        | .error e => .error e
        | .ok bi => evalIntArith op ai bi
  | .OpAnd | .OpOr =>
    match a.AsBool with
    | .error e => .error e
    | .ok ab =>
      match b.AsBool with
      | .error e => .error e
      | .ok bb => if op = .OpAnd then .ok (newBool (ab && bb)) else .ok (newBool (ab || bb))
  | .OpEq | .OpNeq | .OpLt | .OpLe | .OpGt | .OpGe =>
    let useFloat := hint = .FLOAT ∨ a.Kind = .KindFloat ∨ b.Kind = .KindFloat
    if useFloat then
      match a.AsFloat64 with
      | .error e => .error e
      | .ok af =>
        match b.AsFloat64 with
        | .error e => .error e
        | .ok bf => evalFloatCompare op af bf
    else
      match a.AsInt64 with
      | .error e => .error e
      | .ok ai =>
        match b.AsInt64 with
        | .error e => .error e
        | .ok bi => evalIntCompare op ai bi
  | _ => .error (.unsupportedBinaryOp op)

/-- The type assertion `x, _ := arg.(int)`. -/
def Arg.asInt : Arg → Int
  | .int n => n
  | _ => 0

/-- The type assertion `x, _ := arg.(string)`. -/
def Arg.asString : Arg → Str
  | .str s => s
  | _ => []

/-- What the `print` case writes for a value. -/
def printText (v : Value) : Str :=
  match v.Kind with
  | .KindFloat => fmtFixed20 v.F64 ++ [10]
  | .KindInt => itoa v.I64 ++ [10]
  | .KindBool => (if v.BoolVal then bs "true" else bs "false") ++ [10]
  | .KindString => v.StrVal ++ [10]
  | .KindUnknown => bs "<nil>" ++ [10]

/-- The loop of the `call` case moving the staged arguments `p, p+1, ...` (`n` of them) into
the callee frame, which is the current frame. -/
def Interpreter.bindArgs : Nat → Int → Interpreter → Interpreter
  | 0, _, i => i
  | n + 1, p, i =>
    let r := i.ConsumeArg p
    let v := if r.1.2 then r.1.1 else newInt 0
    Interpreter.bindArgs n (p + 1)
      (r.2.updateFrame (fun f => { f with Locals := f.Locals.set (LocalAddrBase + p) v }))

/-- `coreStep`: the interpreter after the step, `halted`, and the error if any. -/
def coreStep (i : Interpreter) : Interpreter × Bool × Option RuntimeError :=
  let pc := i.PC
  if pc < 0 ∨ pc ≥ i.pb.length then (i, true, none)
  else
    let ins := i.pb.getD pc.toNat default
    match ins.Op with
    | .OpNop => (i.SetPC (pc + 1), false, none)
    | .OpEnd => (i.SetPC (pc + 1), false, none)
    | .OpLabel =>
      match i.currentFrame with
      | none =>
        (match i.funcEnd.get pc with
         | some e => (i.SetPC (e + 1), false, none)
         | none => (i.SetPC (pc + 1), false, none))
      | some _ => (i.SetPC (pc + 1), false, none)
    | .OpAssign =>
      let dst := ins.Arg3.asInt
      (match i.loadOperand ins.Arg1 ins.Typ with
       | .error e => (i, false, some e)
       | .ok val => ((i.SetVar dst val).SetPC (pc + 1), false, none))
    | .OpAdd | .OpSub | .OpMul | .OpDiv | .OpMod | .OpAnd | .OpOr
    | .OpEq | .OpNeq | .OpLt | .OpLe | .OpGt | .OpGe =>
      let dst := ins.Arg3.asInt
      (match i.loadOperand ins.Arg1 ins.Typ with
       | .error e => (i, false, some e)
       | .ok v1 =>
         match i.loadOperand ins.Arg2 ins.Typ with
         | .error e => (i, false, some e)
         | .ok v2 =>
           match i.evalBinary ins.Op v1 v2 ins.Typ with
           | .error e => (i, false, some e)
           | .ok res => ((i.SetVar dst res).SetPC (pc + 1), false, none))
    | .OpPrint =>
      (match i.loadOperand ins.Arg1 ins.Typ with
       | .error e => (i, false, some e)
       | .ok v => (Interpreter.SetPC { i with out := i.out ++ printText v } (pc + 1), false, none))
    | .OpParam => (i.SetPC (pc + 1), false, none)
    | .OpArg =>
      let pos := ins.Arg2.asInt
      (match i.loadOperand ins.Arg1 ins.Typ with
       | .error e => (i, false, some e)
       | .ok val => ((i.StageArg pos val).SetPC (pc + 1), false, none))
    | .OpCall =>
      let funcName := ins.Arg1.asString
      let argCount := ins.Arg2.asInt
      let retTemp := ins.Arg3.asInt
      let returnTo := pc + 1
      let i1 := i.PushFrame funcName returnTo retTemp
      let i2 := Interpreter.bindArgs argCount.toNat 0 i1
      let i3 := i2.ClearArgs
      let start := (i3.funcIndex.get funcName).getD 0
      (i3.SetPC (start + 1), false, none)
    | .OpRet =>
      let loaded : Except RuntimeError Value :=
        if ins.Arg1 ≠ .nil then i.loadOperand ins.Arg1 ins.Typ else .ok Value.zero
      (match loaded with
       | .error e => (i, false, some e)
       | .ok retVal =>
         match i.PopFrame with
         | (some done, i1) =>
           let i2 :=
             if done.RetTemp ≠ 0 ∧ done.RetTemp ≠ -1 then
               match i1.currentFrame with
               | some _ =>
                 i1.updateFrame (fun cf => { cf with Locals := cf.Locals.set done.RetTemp retVal })
               | none => { i1 with globals := i1.globals.set done.RetTemp retVal }
             else i1
           (i2.SetPC done.ReturnToIP, false, none)
         | (none, _) => (i, true, none))
    | .OpJmp => (i.SetPC ins.Arg3.asInt, false, none)
    | .OpJmpf =>
      (match (i.GetVar ins.Arg1.asInt).1.AsBool with
       | .error e => (i, false, some e)
       | .ok b =>
         if !b then (i.SetPC ins.Arg3.asInt, false, none) else (i.SetPC (pc + 1), false, none))
    | .OpJmpt =>
      (match (i.GetVar ins.Arg1.asInt).1.AsBool with
       | .error e => (i, false, some e)
       | .ok b =>
         if b then (i.SetPC ins.Arg3.asInt, false, none) else (i.SetPC (pc + 1), false, none))
    | .OpNot => (i, true, none)

/-- `Step`: the step limit, then `coreStep`, then the step counter. -/
def Interpreter.Step (i : Interpreter) : Interpreter × Bool × Option RuntimeError :=
  if i.maxSteps > 0 ∧ i.steps ≥ i.maxSteps then (i, false, some .maxStepsExceeded)
  else
    let r := coreStep i
    ({ r.1 with steps := r.1.steps + 1 }, r.2.1, r.2.2)

/-- `Run`, on fuel: the final interpreter and the error returned (`none` for `nil`). -/
def Interpreter.Run : Nat → Interpreter → Res (Interpreter × Option RuntimeError)
  | 0, _ => .error .outOfFuel
  | fuel + 1, i =>
    let r := i.Step
    match r.2.2 with
    | some e => .ok (r.1, some e)
    | none => if r.2.1 then .ok (r.1, none) else Interpreter.Run fuel r.1

/-! ## The pipeline of `internal/compiler/compiler.go` with the flag `-r` -/

/-- What `Compile` does with a source text when asked to interpret: the parser after
`Parse`, and, when no syntax or semantic error was recorded, the interpreter after `Run`
with the error `Run` returned. -/
structure Outcome where
  parser : Parser
  run : Option (Interpreter × Option RuntimeError)

def Compile (parseFuel runFuel : Nat) (input : Str) : Res Outcome :=
  match (NewParser (NewLexer input)).Parse parseFuel with
  | .error e => .error e
  | .ok p =>
    if p.Errors.length > 0 then .ok ⟨p, none⟩
    else if p.GetSemanticErrors.length > 0 then .ok ⟨p, none⟩
    else
      match (NewInterpreter p.GetIRCode).Run runFuel with
      | .error e => .error e
      | .ok r => .ok ⟨p, some r⟩

/-- The text written to the output by interpreting `input`, when the pipeline gets that far
and `Run` returns `nil`. -/
def programOutput (parseFuel runFuel : Nat) (input : Str) : Option Str :=
  match Compile parseFuel runFuel input with
  | .ok ⟨_, some (it, none)⟩ => some it.out
  | _ => none

/-- What a run of the pipeline shows from outside: the syntax diagnostics, the semantic
diagnostics and, when the program was interpreted, the text written and the error `Run`
returned. -/
structure Summary where
  syntaxErrors : List SyntaxError
  semanticErrors : List SemanticError
  run : Option (Str × Option RuntimeError)
deriving DecidableEq, Repr

/-- The summary of `Compile`; `none` when parsing or running faults or exhausts its fuel. -/
def summarize (parseFuel runFuel : Nat) (input : Str) : Option Summary :=
  match Compile parseFuel runFuel input with
  | .ok o => some ⟨o.parser.Errors, o.parser.GetSemanticErrors, o.run.map (fun r => (r.1.out, r.2))⟩
  | .error _ => none

/-- The code generator state in which `Parse` returns on `input`, with the syntax
diagnostics; `none` when parsing faults or exhausts its fuel. -/
def parseResult (parseFuel : Nat) (input : Str) : Option (List SyntaxError × Codegen) :=
  match (NewParser (NewLexer input)).Parse parseFuel with
  | .ok p => some (p.Errors, p.cg)
  | .error _ => none

/-! ## Programs used below -/

/-- A chain of subtractions and a chain of divisions. -/
def srcSubChain : Str := bs "let r : int = 10 - 3 - 2; print(r);"

def srcDivChain : Str := bs "let r : int = 8 / 4 / 2; print(r);"

/-- Scenario 4 of the specification. -/
def srcBreak : Str :=
  bs "let i : int = 0; while (i < 10) \x7b if (i == 2) \x7b break; \x7d print(i); i = i + 1; \x7d"

/-- Scenario 5 of the specification. -/
def srcFunction : Str :=
  bs "func add(a: int, b: int) : int \x7b return a + b; \x7d let r : int = add(2, 3); print(r);"

/-- A `return ;` inside the body of an `if`. -/
def srcReturnInIf : Str := bs "let x : int = 1; if (x == 1) \x7b return; \x7d print(x);"

/-- A loop whose `break` sits in the then-branch of an `if` that has an `else`. -/
def srcBreakInIfElse : Str :=
  bs ("let i : int = 0; while (i < 3) \x7b if (i == 1) \x7b break; \x7d else \x7b print(i); \x7d "
    ++ "i = i + 1; \x7d print(i);")

/-- A state in which a call frame is active and the current instruction writes the
temporary 600, which the frame does not hold. -/
def tempWriteState : Interpreter :=
  { NewInterpreter [⟨.OpAssign, .str (bs "#5"), .nil, .int 600, .INT⟩] with
    stack := [⟨bs "f", 0, [], 1, 0⟩] }

/-- A state reached from `c` by `n` further calls of `getTemp`. -/
def allocTemps : Nat → Codegen → Codegen
  | 0, c => c
  | n + 1, c => allocTemps n c.getTemp.2

/-- A declared `float` initialised with an integer literal. -/
def srcFloatDecl : Str := bs "let x : float = 1;"

/-- The same declaration followed by the assignment of a float. -/
def srcFloatAssign : Str := bs "let x : float = 1; x = 2.5;"

/-- A local declaration of a name that is declared in the global scope only. -/
def srcShadow : Str :=
  bs "let x : int = 1; func f() : int \x7b let x : int = 2; return x; \x7d"

/-- An assignment whose value has another type than its target. -/
def srcMismatch : Str := bs "let x : int = 1; x = 2.5;"

/-- A call statement with one argument. -/
def srcCallStmt : Str := bs "let f : int = 1; f(2);"

/-- The lexer states reachable from `NewLexer s` by calls of `NextToken` and `Peek`. -/
inductive Lexer.Reachable (s : Str) : Lexer → Prop
  | init : Lexer.Reachable s (NewLexer s)
  | next (l : Lexer) : Lexer.Reachable s l → Lexer.Reachable s l.NextToken.2
  | peek (l : Lexer) : Lexer.Reachable s l → Lexer.Reachable s l.Peek.2

/-- The lexer state `a` is the state `b` behind a prefix of `k` more bytes and one more line:
the same text left, the same column, the same kind of previous token. -/
def Lexer.behind (k : Nat) (a b : Lexer) : Prop :=
  a.remaining = b.remaining ∧ a.position = b.position + k ∧ a.line = b.line + 1 ∧
  a.column = b.column ∧ a.currentToken.Typ = b.currentToken.Typ

/-- The token `t` is the token `u` one line further down. -/
def Token.lineBelow (t u : Token) : Prop :=
  t.Typ = u.Typ ∧ t.Lexeme = u.Lexeme ∧ t.Literal = u.Literal ∧
  t.Pos.Line = u.Pos.Line + 1 ∧ t.Pos.Column = u.Pos.Column

/-- The texts of the shape `\d+(\.\d+)?([eE][+-]?\d+)?`, the pattern of `NUM`. -/
def NumShape (p : Str) : Prop :=
  ∃ d f e, p = d ++ f ++ e ∧ d ≠ [] ∧ (∀ x ∈ d, isDigit x = true) ∧
    (f = [] ∨ ∃ fd, fd ≠ [] ∧ (∀ x ∈ fd, isDigit x = true) ∧ f = 46 :: fd) ∧
    (e = [] ∨ ∃ c sign ed, (c = 101 ∨ c = 69) ∧ (sign = [] ∨ sign = [43] ∨ sign = [45]) ∧
      ed ≠ [] ∧ (∀ x ∈ ed, isDigit x = true) ∧ e = c :: sign ++ ed)

/-- The texts of the shape `([^"\\]|\\.)*`, the inside of the pattern of `STRING`. -/
inductive StrItems : Str → Prop
  | nil : StrItems []
  | plain (c : Nat) (r : Str) : c ≠ 34 → c ≠ 92 → StrItems r → StrItems (c :: r)
  | esc (d : Nat) (r : Str) : d ≠ 10 → StrItems r → StrItems (92 :: d :: r)

/-- The pattern of kind `t` in `tokenRegexes` matches the prefix `p` of the text `s`, read
off the pattern texts: a keyword or operator text (a keyword followed by a word boundary),
`NUM`, `STRING` or `ID`. -/
def PatternMatches (t : TokenType) (s p : Str) : Prop :=
  p <+: s ∧
  match t with
  | .NUM => NumShape p
  | .STRING => ∃ body, p = 34 :: body ++ [34] ∧ StrItems body
  | .ID => ∃ c w, p = c :: w ∧ isLetter c = true ∧ ∀ x ∈ w, isWordByte x = true
  | .EOF => False
  | .ILLEGAL => False
  | t => p ≠ [] ∧ p = literalOf t ∧
      (isKeywordType t = true → ∀ x, (s.drop p.length).head? = some x → isWordByte x = false)

/-! ## Invariants of the code generator and the parse stack around function declarations -/

/-- The last instruction of the program block is a `ret`. -/
def lastIsRet (pb : List Instruction) : Prop := pb.getLast?.map (fun x => x.Op) = some .OpRet

/-- The state `c1` comes from `c` by a semantic action that leaves the function context
alone: `inFunction` is kept, `localCounter` is kept outside a function, and `paramCounter` is
kept or zeroed; when it is kept and the block now ends in `ret`, it ended in `ret` before. -/
def Codegen.Mild (c c1 : Codegen) : Prop :=
  c1.inFunction = c.inFunction ∧
  (c.inFunction = false → c1.localCounter = c.localCounter) ∧
  (c1.paramCounter = 0 ∨ (c1.paramCounter = c.paramCounter ∧ (lastIsRet c1.pb → lastIsRet c.pb)))

/-- While the block ends in `ret`, `paramCounter` is 0. -/
def Codegen.retInv (c : Codegen) : Prop := lastIsRet c.pb → c.paramCounter = 0

/-- The counters outside every function declaration. -/
def Codegen.topLevel (c : Codegen) : Prop :=
  c.inFunction = false ∧ c.localCounter = 0 ∧ c.paramCounter = 0

/-- The block ends with the `label` of a function and the `param` instructions of its first
`k` parameters, parameter `j` in slot `800 + j` with index `j`, and both counters are `k`. -/
def Codegen.paramInv (c : Codegen) (k : Nat) : Prop :=
  ∃ pre lab ps, c.pb = pre ++ lab :: ps ∧ lab.Op = .OpLabel ∧ ps.length = k ∧
    (∀ j, j < k → ((ps.getD j default).Op = .OpParam ∧ (ps.getD j default).Arg1 = .int (800 + j) ∧
      (ps.getD j default).Arg2 = .int j)) ∧
    c.paramCounter = k ∧ c.localCounter = k

/-- The grammar symbols that can stand on the parse stack behind the parameter list of a
function declaration and inside statements: what `)`, `:`, `Type`, `@func_return_type`, the
braces, `StmtList` and `Stmt` derive. -/
def bodySyms : List String :=
  [")", ":", "Type", "@func_return_type", "\x7b", "StmtList", "\x7d", "Stmt", "int",
   "float", "bool", "VarDecl", "Assign", "IfStmt", "WhileStmt", "PrintStmt", "ReturnStmt",
   "ContinueStmt", "BreakStmt", "let", "id", "@capture_decl_var", "@capture_type", "=",
   "Expr", ";", "@define", "@capture_assign_target", "AssignSuffix", "if", "(", "Cond",
   "@save", "ElsePart", "while", "@label_while", "@jmpf_break", "@jmp_nonbackpatch",
   "print", "@load", "@print", "return", "ReturnValue", "@return", "continue",
   "@continue", "break", "@save_break", "Term", "Expr'", "@assign", "ArgList", "@call",
   "OrExpr", "@jmpf", "else", "@jmp", "@jmpf_normal", "Factor", "Term'", "+", "@add", "-",
   "@sub", "@arg", "ArgList'", "AndExpr", "OrExpr'", "FactorSuffix", "num", "@push",
   "true", "false", "*", "@mul", "/", "@div", "%", "@mod", ",", "NotExpr", "AndExpr'",
   "or", "@or", "@call_start", "@call_end", "not", "@not", "RelExpr", "and", "@and",
   "BoolPrimary", "RelExpr'", "RelOp", "@rel", "<", "@push_relop", ">", "<=", ">=", "==",
   "!="]

/-- The right-hand side of the production of `FuncDecl` as it stands on the parse stack,
bottom first. -/
def funcDeclStack : List String :=
  ["@func_end", "\x7d", "StmtList", "\x7b", "@func_return_type", "Type", ":", ")", "ParamList",
   "(", "@func_start", "id", "func"]

/-- What stands on the parse stack above `$` outside a function declaration and below the
symbols of the current statement, bottom first. -/
def declShapes : List (List String) :=
  [[], ["DeclList"], ["DeclList", "Decl"], ["DeclList", "FuncDecl"], ["Program"]]

/-- What stands on the parse stack above `DeclList` from the expansion of `FuncDecl` up to
`@func_start`, bottom first. -/
def headShapes : List (List String) :=
  [funcDeclStack, funcDeclStack.take 12, funcDeclStack.take 11]

/-- What stands on the parse stack from the parameter list of a function declaration, bottom
first: the unexpanded list, the list behind a parameter, and the symbols of the parameter
being read. -/
def paramPatterns : List (List String) :=
  [[], ["ParamList", "("], ["ParamList"], ["Param'", "Param"], ["Param'"],
   ["Param'", "Param", ","],
   ["Param'", "@param", "@capture_type", "Type", ":", "@capture_param_name", "id"],
   ["Param'", "@param", "@capture_type", "Type", ":", "@capture_param_name"],
   ["Param'", "@param", "@capture_type", "Type", ":"],
   ["Param'", "@param", "@capture_type", "Type"],
   ["Param'", "@param", "@capture_type", "int"],
   ["Param'", "@param", "@capture_type", "float"],
   ["Param'", "@param", "@capture_type", "bool"],
   ["Param'", "@param", "@capture_type"],
   ["Param'", "@param"]]

/-- The number of entries the parameter being read has on the semantic stack: its name once
`@capture_param_name` has run, and its type once `@capture_type` has run. -/
def ssReq (P : List String) : Nat :=
  if P.getLast? = some "@param" then 2
  else if P.getLast? = some "@capture_type" ∨ P.getLast? = some "Type" ∨ P.getLast? = some ":" ∨
      P.getLast? = some "int" ∨ P.getLast? = some "float" ∨ P.getLast? = some "bool" then 1
  else 0

/-- The symbols of a right-hand side as `Parse` leaves them on the stack, bottom first. -/
def rhsStack (rhs : List String) : List String := (rhs.filter (fun y => y ≠ "ε")).reverse

/-- The invariant of the loop of `Parse`, on the parse stack `a` (bottom first) and the code
generator: outside a function declaration the counters are at their top-level values; from
`@func_start` to the end of the parameter list the block ends with the label and the
parameters read so far; and `paramCounter` is 0 whenever the block ends in `ret`. -/
def stackInv (a : List String) (cg : Codegen) : Prop :=
  cg.retInv ∧
  ((∃ D B, a = "$" :: (D ++ B) ∧ D ∈ declShapes ∧ (∀ x ∈ B, x ∈ bodySyms) ∧ cg.topLevel) ∨
   (∃ h, a = "$" :: "DeclList" :: h ∧ h ∈ headShapes ∧ cg.topLevel) ∨
   (∃ B P, a = "$" :: "DeclList" :: "@func_end" :: (B ++ P) ∧ (∀ x ∈ B, x ∈ bodySyms) ∧
      P ∈ paramPatterns ∧ (P ≠ [] → ∃ k, cg.paramInv k ∧ ssReq P ≤ cg.ss.Size)))

/-- The parser states the loop of `Parse` passes through on `input`. -/
inductive Parser.Reach (input : Str) : Parser → Prop
  | init : Parser.Reach input (NewParser (NewLexer input))
  | step (p p1 : Parser) (brk : Bool) : Parser.Reach input p → p.stack.Size > 1 →
      p.step = .ok (p1, brk) → Parser.Reach input p1

/-- The state after `n` iterations of the loop of `Parse`, when the loop runs that long. -/
def Parser.after : Nat → Parser → Option Parser
  | 0, p => some p
  | n + 1, p =>
    if p.stack.Size > 1 then
      match p.step with
      | .ok (p1, brk) => if brk then none else Parser.after n p1
      | .error _ => none
    else none

/-! ## Programs and states used for the diagnostics, the calls and the jumps -/

/-- A declaration whose name is the keyword `if`. -/
def srcKeywordName : Str := bs "let if : int = 1;"

/-- Two declarations, and the same text with the first `;` left out. -/
def srcTwoDecls : Str := bs "let x : int = 1; let y : int = 2;"

def srcTwoDeclsOmit : Str := bs "let x : int = 1 let y : int = 2;"

/-- A grammatical program whose only undeclared identifier is `x`. -/
def srcOneUndeclared : Str := bs "let y : int = x; print(y);"

/-- A `continue` inside an `if` that is outside any loop. -/
def srcContinueInIf : Str := bs "if (1 < 2) \x7b continue; \x7d"

/-- A call whose second argument is a call. -/
def srcNestedCall : Str :=
  bs "func f(a : int, b : int) : int \x7b return a; \x7d func g(a : int) : int \x7b return a; \x7d let r : int = f(1, g(2));"

/-- A call statement with one argument. -/
def srcCallOneArg : Str :=
  bs "func f(a : int) : int \x7b return a; \x7d let f : int = 0; f(1);"

/-- A `return ;` without a value inside the body of an `if`. -/
def srcBareReturn : Str :=
  bs "func f(x : int) : int \x7b if (x < 1) \x7b return; \x7d return x; \x7d"

/-- The token kinds the claim about the reserved keywords lists. -/
def reservedKinds : List TokenType :=
  [.LET, .FUNC, .RETURN, .IF, .ELSE, .WHILE, .BREAK, .CONTINUE, .PRINT, .TRUE, .FALSE,
   .AND, .OR, .NOT, .INT, .FLOAT, .BOOL]

/-! ## The instruction counter -/

/-- From `c` to `c1` the counter `i` grew by the number of instructions appended, and none
was removed. -/
def Codegen.Counted (c c1 : Codegen) : Prop :=
  c1.i - c.i = (c1.pb.length : Int) - (c.pb.length : Int) ∧ c.pb.length ≤ c1.pb.length

/-- From `c` to `c1` neither the counter `i` nor the length of the program block changed. -/
def Codegen.Patched (c c1 : Codegen) : Prop := c1.i = c.i ∧ c1.pb.length = c.pb.length

/-! ## The LL(1) conditions of the production list -/

/-- The right-hand side of a production with the semantic-action symbols and `ε` erased. -/
def Production.body (p : Production) : List String :=
  p.RHS.filter (fun x => !isSemanticAction x && x != "ε")

/-- The sentential form `β` is derived from `γ` by the productions of `grammer` (semantic
actions erased): each step replaces one occurrence of the left-hand side of a production
by its body. -/
inductive Derives : List String → List String → Prop
  | refl (γ : List String) : Derives γ γ
  | step (γ α β : List String) (k : Nat) : 0 < k → k < grammer.length →
      Derives γ (α ++ (grammer.getD k default).LHS :: β) →
      Derives γ (α ++ (grammer.getD k default).body ++ β)

/-- The terminal `t` is in FIRST of the sentential form `α`. -/
def InFirst (α : List String) (t : String) : Prop :=
  t ∈ terminals ∧ ∃ β, Derives α (t :: β)

/-- The terminal `t` is in FOLLOW of the nonterminal `A`; the start symbol is `Program` and
the end marker is `$`. -/
def InFollow (A t : String) : Prop :=
  t ∈ terminals ∧ ∃ γ δ, Derives ["Program", "$"] (γ ++ A :: t :: δ)

/-- The production number `k` qualifies for the cell of its left-hand side and the
terminal `t` in the LL(1) table: `t` is in FIRST of the body, or the body derives the empty
string and `t` is in FOLLOW of the left-hand side. -/
def Qualifies (k : Nat) (t : String) : Prop :=
  InFirst (grammer.getD k default).body t ∨
  (Derives (grammer.getD k default).body [] ∧ InFollow (grammer.getD k default).LHS t)

/-- An `if` statement followed by a function declaration. -/
def srcIfThenFunc : Str := bs "if (1 < 2) \x7b \x7d func f() : int \x7b return 1; \x7d"

/-! ## A measure for the loop of `Parse` -/

/-- Whether the terminal `x` matches a token of kind `t`: `matchTerminal` reads only the
kind of the current token. -/
def matchesKind (x : String) (t : TokenType) : Bool :=
  Parser.matchTerminal
    { stack := ⟨[]⟩, lexer := NewLexer [], cg := NewCodegen,
      currentToken := { Token.zero with Typ := t }, errors := [] } x

/-- Iterations spent on a sequence of symbols, the first on top, while the current token
stays the same, given the iterations `f` spent on each symbol and whether they end by
consuming the token: the count up to the first consumption, and whether there is one. -/
def seqCost (f : String → Nat × Bool) : List String → Nat × Bool
  | [] => (0, false)
  | x :: r =>
    if (f x).2 then ((f x).1, true) else ((f x).1 + (seqCost f r).1, (seqCost f r).2)

/-- A bound on the iterations of the loop of `Parse` spent on the symbol `x` and on what it
is replaced by, while the current token stays of kind `t`, and whether these iterations end
by consuming a token other than the end of input.  An action, a terminal and a nonterminal
without a table entry take one iteration; a nonterminal with an entry takes one iteration
and those of its right-hand side. -/
def symCost : Nat → TokenType → String → Nat × Bool
  | 0, _, _ => (1, false)
  | fuel + 1, t, x =>
    if isTerminal x then
      if isSemanticAction x then (1, false) else (1, matchesKind x t && t != .EOF)
    else
      match NewParsingTable x t with
      | none => (1, false)
      | some prod =>
        let r := seqCost (symCost fuel t) (prod.RHS.filter (fun y => y ≠ "ε"))
        (1 + r.1, r.2)

/-- The cost of a symbol, with fuel for every chain of the table. -/
def symWeight (t : TokenType) (x : String) : Nat × Bool := symCost 40 t x

/-- The iterations left for the parse stack `a` (bottom first) under the token kind `t`. -/
def stackCost (t : TokenType) (a : List String) : Nat := (seqCost (symWeight t) a.reverse).1

/-- The token measure of a parser state: twice the bytes of input not yet read, plus one
when the current token is not the end of input. -/
def Parser.tokenMeasure (p : Parser) : Nat :=
  2 * (p.lexer.input.length - p.lexer.position) + (if p.currentToken.Typ = .EOF then 0 else 1)

/-- The check of one cell of the table: the right-hand side costs less than the
nonterminal, and consumes the token when the nonterminal is said to. -/
def cellCostOK (x : String) (t : TokenType) (k : Nat) : Bool :=
  let r := seqCost (symWeight t) ((grammer.getD k default).RHS.filter (fun y => y ≠ "ε"))
  decide (r.1 < (symWeight t x).1) && (!(symWeight t x).2 || r.2)

/-- The state after `k` executions of `coreStep` from `i`, none of which halted or failed;
`none` when one of the first `k` executions halted or failed.  It goes neither through
`Step` nor through `Run`, and no step counter is read or written. -/
def coreSteps : Nat → Interpreter → Option Interpreter
  | 0, i => some i
  | k + 1, i =>
    match coreStep i with
    | (i1, false, none) => coreSteps k i1
    | _ => none
/-- A call statement without arguments, and the same text with the `)` of the call left
out. -/
def srcCallNoArgs : Str := bs "let f : int = 1; f();"

def srcCallNoArgsOmit : Str := bs "let f : int = 1; f(;"

/-- A `return ;` followed by a call statement, and the same text with the `;` of the
`return` left out, which is grammatical again. -/
def srcReturnCall : Str :=
  bs "func f(a : int) : int \x7b return a; \x7d let f : int = 0; func g(a : int) : int \x7b return; f(1); \x7d"

def srcReturnCallOmit : Str :=
  bs "func f(a : int) : int \x7b return a; \x7d let f : int = 0; func g(a : int) : int \x7b return f(1); \x7d"

/-! # Theorems -/

/-- C1 (the code departs from the claim): lexing, parsing and interpreting
`let r : int = 10 - 3 - 2; print(r);` records no error, halts and prints `9`, which is
`10 - (3 - 2)`, where the claim requires `(10 - 3) - 2 = 5`; likewise `8 / 4 / 2` prints
`4 = 8 / (4 / 2)` where the claim requires `(8 / 4) / 2 = 1`.  The action `@sub` (`@div`)
stands after the recursive tail in `Expr' -> - Term Expr' @sub`, so chains of operators of
equal precedence associate to the right. -/
theorem C1_subtraction_chain_associates_right :
    summarize 1000 1000 srcSubChain = some ⟨[], [], some (bs "9\n", none)⟩ ∧
    summarize 1000 1000 srcDivChain = some ⟨[], [], some (bs "4\n", none)⟩ := by
  decide!

/-- C2: lexing, parsing and interpreting the source of scenario 4 records no syntax error and
no semantic error, `Run` halts without error, and the output is exactly `0\n1\n`. -/
theorem C2_break_scenario :
    summarize 1000 1000 srcBreak = some ⟨[], [], some (bs "0\n1\n", none)⟩ := by
  decide!

/-- C3: lexing, parsing and interpreting the source of scenario 5 records no syntax error and
no semantic error, `Run` halts without error, and the output is exactly `5\n`. -/
theorem C3_function_scenario :
    summarize 1000 1000 srcFunction = some ⟨[], [], some (bs "5\n", none)⟩ := by
  decide!

/-- C4 (the code departs from the claim): on
`let x : int = 1; if (x == 1) { return; } print(x);` `Parse` returns with no syntax error and
no semantic error, and the semantic stack still holds one entry, the address `602` of the
condition.  `@return` pops the top entry whenever the stack is non-empty, here the slot index
saved by the enclosing `if`, so `@jmpf_normal` finds fewer than two entries and neither
patches the slot nor removes the condition. -/
theorem C4_semantic_stack_left_nonempty :
    (parseResult 1000 srcReturnInIf).map
      (fun r => (r.1, r.2.GetErrors, r.2.ss.Array, r.2.ss.Size)) =
      some ([], [], [bs "602"], 1) := by
  decide!

/-- C5 (the code departs from the claim): on the loop of `srcBreakInIfElse`, which parses with
no syntax error and no semantic error, `Parse` returns with `len(pb) = 16` and with
`pb[14] = jmp 602`: the target `602` is an address, far above `len(pb)`. -/
theorem C5_jump_target_out_of_range :
    (parseResult 1000 srcBreakInIfElse).map
      (fun r => (r.1, r.2.GetErrors, r.2.pb.length, r.2.pb.getD 14 default)) =
      some ([], [], 16, ⟨.OpJmp, .nil, .nil, .int 602, .EOF⟩) := by
  decide!

/-- C6 (the code departs from the claim): on the loop of `srcBreakInIfElse`, whose head
recorded by `@label_while` is index 2, whose condition slot is index 4 and whose `break` slot
is index 8, `Parse` returns with no error recorded and with both slots still `nop`, with the
loop's last instruction `jmp 602` instead of `jmp 2`, and with instruction 0 overwritten by
`jmpf 7 -> 10`.  `@jmpf`, run at the `else`, reads the marker `$break_8` on top of the stack as
the slot index 0 and pops it with the real slot index. -/
theorem C6_break_in_if_else_not_patched :
    (parseResult 1000 srcBreakInIfElse).map
      (fun r => (r.1, r.2.GetErrors, [r.2.pb.getD 4 default, r.2.pb.getD 8 default,
        r.2.pb.getD 14 default, r.2.pb.getD 0 default], r.2.ss.Array)) =
      some ([], [], [nopInstruction, nopInstruction, ⟨.OpJmp, .nil, .nil, .int 602, .EOF⟩,
        ⟨.OpJmpf, .int 7, .nil, .int 10, .EOF⟩], [bs "$while_2"]) := by
  decide!

/-! ## Lexer lemmas -/

theorem bs_literals :
    bs "$while_" = [36, 119, 104, 105, 108, 101, 95] ∧ bs "$break_" = [36, 98, 114, 101, 97, 107, 95] := by
  decide

theorem startsWith_iff (s p : Str) : startsWith s p = true ↔ p <+: s := by
  unfold startsWith; exact List.isPrefixOf_iff_prefix

theorem startsWith_cons_ne (c x : Nat) (r xs : Str) (h : x ≠ c) : startsWith (c :: r) (x :: xs) = false := by
  simp [startsWith, List.isPrefixOf, h]

theorem litFind_cons_ne (c x : Nat) (r xs : Str) (h : x ≠ c) : litFind (x :: xs) (c :: r) = [] := by
  simp [litFind, startsWith_cons_ne c x r xs h]

theorem kwFind_cons_ne (c x : Nat) (r xs : Str) (h : x ≠ c) : kwFind (x :: xs) (c :: r) = [] := by
  simp [kwFind, startsWith_cons_ne c x r xs h]

/-- A keyword or operator pattern does not match a text that starts with another byte than
the pattern text. -/
theorem findString_head_ne (t : TokenType) (c : Nat) (r : Str)
    (ht : t ≠ .NUM ∧ t ≠ .STRING ∧ t ≠ .ID)
    (h : (literalOf t).head? ≠ some c) : findString t (c :: r) = [] := by
  have key : ∀ lit : Str, lit.head? ≠ some c → litFind lit (c :: r) = [] ∧ kwFind lit (c :: r) = [] := by
    intro lit hl
    cases lit with
    | nil => simp [litFind, kwFind, startsWith]
    | cons x xs =>
      have hx : x ≠ c := by simpa using hl
      exact ⟨litFind_cons_ne c x r xs hx, kwFind_cons_ne c x r xs hx⟩
  cases t <;> simp_all [findString, isKeywordType]

theorem isDigit_iff (b : Nat) : isDigit b = true ↔ 48 ≤ b ∧ b ≤ 57 := by
  simp [isDigit]

theorem isLetter_iff (b : Nat) : isLetter b = true ↔ (65 ≤ b ∧ b ≤ 90) ∨ (97 ≤ b ∧ b ≤ 122) := by
  simp [isLetter]

theorem isSpaceByte_iff (b : Nat) :
    isSpaceByte b = true ↔ b = 9 ∨ b = 10 ∨ b = 12 ∨ b = 13 ∨ b = 32 := by
  simp [isSpaceByte, or_assoc]

theorem isWordByte_iff (b : Nat) :
    isWordByte b = true ↔ isLetter b = true ∨ isDigit b = true ∨ b = 95 := by
  simp [isWordByte, or_assoc]

/-- The kinds of `tokenPrecedenceOrder` that stand before `NUM`: the keywords and operators. -/
theorem order_split :
    tokenPrecedenceOrder =
      [.CONTINUE, .RETURN, .BREAK, .FALSE, .FLOAT, .PRINT, .WHILE, .ELSE, .FUNC,
       .TRUE, .BOOL, .AND, .INT, .LET, .NOT, .IF, .OR] ++
      ([.LE, .GE, .EQ, .NE, .ASSIGN, .PLUS, .MINUS, .MULT, .DIV, .MOD, .LT, .GT, .SEMICOLON,
        .COMMA, .COLON, .LPAREN, .RPAREN, .LBRACE, .RBRACE, .LSBRACE, .RSBRACE] ++
       [.NUM, .STRING, .ID]) := rfl

/-- Every keyword and operator pattern text starts with a byte that is no digit and no
quote; it starts with a letter exactly for the keywords. -/
theorem literal_head_class (t : TokenType) :
    ((literalOf t).take 1).all
      (fun x => !isDigit x && x != 34 && !isSpaceByte x && (isLetter x == isKeywordType t)) = true := by
  cases t <;> decide

theorem literal_head_props (t : TokenType) (x : Nat) (h : (literalOf t).head? = some x) :
    isDigit x = false ∧ x ≠ 34 ∧ isSpaceByte x = false ∧ (isLetter x = isKeywordType t) := by
  have h1 := literal_head_class t
  cases hl : literalOf t with
  | nil => simp [hl] at h
  | cons y ys =>
    simp [hl] at h h1
    subst h
    simp_all

theorem matchOrder_of_first (ts₁ ts₂ : List TokenType) (t : TokenType) (s : Str)
    (h₁ : ∀ u ∈ ts₁, findString u s = []) (h₂ : findString t s ≠ []) :
    matchOrder (ts₁ ++ t :: ts₂) s = (t, findString t s, true) := by
  induction ts₁ with
  | nil => simp [matchOrder, h₂]
  | cons u us ih =>
    have hu : findString u s = [] := h₁ u (by simp)
    simp only [List.cons_append, matchOrder, hu, List.isEmpty_nil, if_true]
    exact ih (fun v hv => h₁ v (by simp [hv]))

theorem matchOrder_none (ts : List TokenType) (s : Str)
    (h : ∀ u ∈ ts, findString u s = []) :
    matchOrder ts s = (.ILLEGAL, utf8 (s.headD 0), false) := by
  induction ts with
  | nil => simp [matchOrder]
  | cons u us ih =>
    have hu : findString u s = [] := h u (by simp)
    simp only [matchOrder, hu, List.isEmpty_nil, if_true]
    exact ih (fun v hv => h v (by simp [hv]))

theorem numFind_ne_nil_of_digit (d : Nat) (r : Str) (hd : isDigit d = true) :
    numFind (d :: r) ≠ [] := by
  simp [numFind, List.takeWhile, hd]

theorem MatchToken_digit (d : Nat) (r : Str) (hd : isDigit d = true) :
    MatchToken (d :: r) = (.NUM, numFind (d :: r), true) := by
  have hd' := (isDigit_iff d).1 hd
  have hws : whitespaceFind (d :: r) = [] := by
    have : isSpaceByte d = false := by
      cases h : isSpaceByte d with
      | false => rfl
      | true => have := (isSpaceByte_iff d).1 h; omega
    simp [whitespaceFind, List.takeWhile, this]
  have hcm : commentFind (d :: r) = [] := by
    have : startsWith (d :: r) [47, 47] = false := startsWith_cons_ne d 47 r [47] (by omega)
    simp [commentFind, this]
  unfold MatchToken
  simp only [List.isEmpty_cons, hws, hcm, List.isEmpty_nil, Bool.not_true, Bool.false_eq_true,
    if_false]
  rw [order_split, ← List.append_assoc]
  have h2 : findString .NUM (d :: r) ≠ [] := numFind_ne_nil_of_digit d r hd
  refine matchOrder_of_first _ _ .NUM _ ?_ h2
  intro u hu
  apply findString_head_ne
  · revert hu; cases u <;> simp
  · intro hx
    have := literal_head_props u d hx
    simp [hd] at this

theorem order_split_minus :
    tokenPrecedenceOrder =
      [.CONTINUE, .RETURN, .BREAK, .FALSE, .FLOAT, .PRINT, .WHILE, .ELSE, .FUNC,
       .TRUE, .BOOL, .AND, .INT, .LET, .NOT, .IF, .OR, .LE, .GE, .EQ, .NE, .ASSIGN, .PLUS] ++
      .MINUS :: [.MULT, .DIV, .MOD, .LT, .GT, .SEMICOLON,
        .COMMA, .COLON, .LPAREN, .RPAREN, .LBRACE, .RBRACE, .LSBRACE, .RSBRACE,
        .NUM, .STRING, .ID] := rfl

theorem MatchToken_minus (rest : Str) : MatchToken (45 :: rest) = (.MINUS, [45], true) := by
  have hws : whitespaceFind (45 :: rest) = [] := by
    simp [whitespaceFind, List.takeWhile, isSpaceByte]
  have hcm : commentFind (45 :: rest) = [] := by
    have : startsWith (45 :: rest) [47, 47] = false := startsWith_cons_ne 45 47 rest [47] (by decide)
    simp [commentFind, this]
  unfold MatchToken
  simp only [List.isEmpty_cons, hws, hcm, List.isEmpty_nil, Bool.not_true, Bool.false_eq_true,
    if_false]
  rw [order_split_minus]
  have h2 : findString .MINUS (45 :: rest) = [45] := by
    simp [findString, isKeywordType, literalOf, litFind, startsWith, bs, utf8, List.isPrefixOf]
  have h3 := matchOrder_of_first
    [.CONTINUE, .RETURN, .BREAK, .FALSE, .FLOAT, .PRINT, .WHILE, .ELSE, .FUNC,
       .TRUE, .BOOL, .AND, .INT, .LET, .NOT, .IF, .OR, .LE, .GE, .EQ, .NE, .ASSIGN, .PLUS]
    [.MULT, .DIV, .MOD, .LT, .GT, .SEMICOLON,
        .COMMA, .COLON, .LPAREN, .RPAREN, .LBRACE, .RBRACE, .LSBRACE, .RSBRACE,
        .NUM, .STRING, .ID] .MINUS (45 :: rest) ?_ (by rw [h2]; simp)
  · rw [h3, h2]
  · have hall : ∀ u ∈ ([.CONTINUE, .RETURN, .BREAK, .FALSE, .FLOAT, .PRINT, .WHILE, .ELSE, .FUNC,
       .TRUE, .BOOL, .AND, .INT, .LET, .NOT, .IF, .OR, .LE, .GE, .EQ, .NE, .ASSIGN, .PLUS] :
         List TokenType),
        (u ≠ .NUM ∧ u ≠ .STRING ∧ u ≠ .ID) ∧ (literalOf u).head? ≠ some 45 := by decide
    intro u hu
    exact findString_head_ne u 45 rest (hall u hu).1 (hall u hu).2

theorem advanceFrom_fst (n : Nat) (s : Str) (pos line col : Nat) :
    (advanceFrom n s pos line col).1 = pos + min n s.length := by
  induction n generalizing s pos line col with
  | zero => simp [advanceFrom]
  | succ n ih =>
    cases s with
    | nil => simp [advanceFrom]
    | cons ch r =>
      simp only [advanceFrom]
      split <;> rw [ih] <;> simp <;> omega

theorem advance_input (l : Lexer) (n : Nat) : (l.advance n).input = l.input := rfl

theorem advance_currentToken (l : Lexer) (n : Nat) : (l.advance n).currentToken = l.currentToken := rfl

theorem advance_position (l : Lexer) (n : Nat) :
    (l.advance n).position = l.position + min n l.remaining.length := by
  simp [Lexer.advance, advanceFrom_fst]

theorem advance_remaining (l : Lexer) (n : Nat) : (l.advance n).remaining = l.remaining.drop n := by
  unfold Lexer.remaining
  rw [advance_position, advance_input]
  unfold Lexer.remaining
  rw [List.drop_drop]
  by_cases h : n ≤ (l.input.drop l.position).length
  · rw [Nat.min_eq_left h, Nat.add_comm]
  · have h' : (l.input.drop l.position).length ≤ n := by omega
    rw [Nat.min_eq_right h']
    rw [List.drop_eq_nil_of_le (by simp at h' ⊢; omega), List.drop_eq_nil_of_le (by simp at h' ⊢; omega)]

theorem skipWhitespace_input (l : Lexer) : l.skipWhitespace.input = l.input := rfl

theorem skipWhitespace_currentToken (l : Lexer) :
    l.skipWhitespace.currentToken = l.currentToken := rfl

theorem remaining_cons_position (l : Lexer) (c : Nat) (r : Str) (h : l.remaining = c :: r) :
    ¬ (l.input.length ≤ l.position) := by
  intro hle
  have : l.remaining = [] := by
    unfold Lexer.remaining; exact List.drop_eq_nil_of_le hle
  rw [this] at h; cases h

theorem prevAllowsUnaryType_iff (t : TokenType) :
    prevAllowsUnaryType t = true ↔
      t ∈ ([.EOF, .ASSIGN, .LPAREN, .COMMA, .COLON, .SEMICOLON, .LBRACE,
            .PLUS, .MINUS, .MULT, .DIV, .MOD, .LT, .GT, .LE, .GE, .EQ, .NE,
            .AND, .OR, .NOT, .RETURN, .IF, .WHILE, .PRINT] : List TokenType) := by
  cases t <;> decide

theorem nextToken_unary (l : Lexer) (d : Nat) (r : Str)
    (h : l.skipWhitespace.remaining = 45 :: d :: r)
    (hp : prevAllowsUnaryType l.currentToken.Typ = true) (hd : isDigit d = true) :
    l.NextToken =
      (NewToken .NUM (45 :: numFind (d :: r)) (45 :: numFind (d :: r))
          l.skipWhitespace.currentPosition,
       { l.skipWhitespace.advance (numFind (d :: r)).length.succ with
          currentToken := NewToken .NUM (45 :: numFind (d :: r)) (45 :: numFind (d :: r))
            l.skipWhitespace.currentPosition }) := by
  have hpos := remaining_cons_position _ _ _ h
  have hs : l.skipWhitespace.signedNumber =
      some (NewToken .NUM (45 :: numFind (d :: r)) (45 :: numFind (d :: r))
          l.skipWhitespace.currentPosition,
       { l.skipWhitespace.advance (numFind (d :: r)).length.succ with
          currentToken := NewToken .NUM (45 :: numFind (d :: r)) (45 :: numFind (d :: r))
            l.skipWhitespace.currentPosition }) := by
    unfold Lexer.signedNumber
    rw [h]
    have hne := numFind_ne_nil_of_digit d r hd
    simp [Lexer.prevAllowsUnary, skipWhitespace_currentToken, hp, hd, MatchToken_digit d r hd, hne]
  simp only [Lexer.NextToken, Lexer.nextTokenFuel, hpos, if_false, hs]

theorem nextToken_minus (l : Lexer) (rest : Str)
    (h : l.skipWhitespace.remaining = 45 :: rest)
    (hn : ¬ (prevAllowsUnaryType l.currentToken.Typ = true ∧
              ∃ d r, rest = d :: r ∧ isDigit d = true)) :
    l.NextToken =
      (NewToken .MINUS [45] [45] l.skipWhitespace.currentPosition,
       { l.skipWhitespace.advance 1 with
          currentToken := NewToken .MINUS [45] [45] l.skipWhitespace.currentPosition }) := by
  have hpos := remaining_cons_position _ _ _ h
  have hs : l.skipWhitespace.signedNumber = none := by
    unfold Lexer.signedNumber
    rw [h]
    cases rest with
    | nil => rfl
    | cons d r =>
      have : ¬ (prevAllowsUnaryType l.currentToken.Typ = true ∧ isDigit d = true) := by
        intro hh; exact hn ⟨hh.1, d, r, rfl, hh.2⟩
      simp only [Lexer.prevAllowsUnary, skipWhitespace_currentToken]
      by_cases hp : prevAllowsUnaryType l.currentToken.Typ = true
      · have hd : isDigit d = false := by
          cases hd : isDigit d with
          | false => rfl
          | true => exact absurd ⟨hp, hd⟩ this
        simp [hp, hd]
      · simp [hp]
  simp only [Lexer.NextToken, Lexer.nextTokenFuel, hpos, if_false, hs, h, MatchToken_minus rest]
  simp [literalFor]

/-- C7: let the input left after `skipWhitespace` begin with `-`.  If the kind of the
previously returned token is one of the listed kinds (`EOF` is also the kind before the first
token) and the `-` is directly followed by a digit, `NextToken` returns one `NUM` token whose
lexeme is `-` followed by the `NUM` match of the text after the `-`, and consumes exactly that
text.  In every other state it returns a `MINUS` token with lexeme `-` and consumes one byte. -/
theorem C7_unary_minus (l : Lexer) (rest : Str)
    (h : l.skipWhitespace.remaining = 45 :: rest) :
    ((l.currentToken.Typ ∈ ([.EOF, .ASSIGN, .LPAREN, .COMMA, .COLON, .SEMICOLON, .LBRACE,
            .PLUS, .MINUS, .MULT, .DIV, .MOD, .LT, .GT, .LE, .GE, .EQ, .NE,
            .AND, .OR, .NOT, .RETURN, .IF, .WHILE, .PRINT] : List TokenType) ∧
        ∃ d r, rest = d :: r ∧ isDigit d = true) →
      (MatchToken rest).1 = .NUM ∧
      l.NextToken.1.Typ = .NUM ∧
      l.NextToken.1.Lexeme = 45 :: (MatchToken rest).2.1 ∧
      l.NextToken.2.remaining = rest.drop (MatchToken rest).2.1.length) ∧
    (¬ (l.currentToken.Typ ∈ ([.EOF, .ASSIGN, .LPAREN, .COMMA, .COLON, .SEMICOLON, .LBRACE,
            .PLUS, .MINUS, .MULT, .DIV, .MOD, .LT, .GT, .LE, .GE, .EQ, .NE,
            .AND, .OR, .NOT, .RETURN, .IF, .WHILE, .PRINT] : List TokenType) ∧
        ∃ d r, rest = d :: r ∧ isDigit d = true) →
      l.NextToken.1.Typ = .MINUS ∧
      l.NextToken.1.Lexeme = [45] ∧
      l.NextToken.2.remaining = rest) := by
  constructor
  · rintro ⟨hp, d, r, rfl, hd⟩
    have hp' := (prevAllowsUnaryType_iff _).2 hp
    rw [nextToken_unary l d r h hp' hd, MatchToken_digit d r hd]
    refine ⟨rfl, rfl, rfl, ?_⟩
    show (l.skipWhitespace.advance (numFind (d :: r)).length.succ).remaining = _
    rw [advance_remaining, h]
    rfl
  · intro hn
    have hn' : ¬ (prevAllowsUnaryType l.currentToken.Typ = true ∧
              ∃ d r, rest = d :: r ∧ isDigit d = true) := by
      intro hh; exact hn ⟨(prevAllowsUnaryType_iff _).1 hh.1, hh.2⟩
    rw [nextToken_minus l rest h hn']
    refine ⟨rfl, rfl, ?_⟩
    show (l.skipWhitespace.advance 1).remaining = _
    rw [advance_remaining, h]
    rfl

/-- Witness for C7: `-42` at the start of the input is one `NUM`; after an identifier the
`-` is a `MINUS`. -/
theorem C7_unary_minus_witness :
    (NewLexer (bs "-42;")).NextToken.1.Typ = .NUM ∧
    (NewLexer (bs "-42;")).NextToken.1.Lexeme = bs "-42" ∧
    (Lexer.mk (bs "x -42") 1 1 2 (NewToken .ID [120] [120] ⟨1, 1, 0⟩)).NextToken.1.Typ = .MINUS := by
  have h1 := (C7_unary_minus (NewLexer (bs "-42;")) (bs "42;") (by decide)).1
    ⟨by decide, 52, bs "2;", by decide, by decide⟩
  have h2 := (C7_unary_minus (Lexer.mk (bs "x -42") 1 1 2 (NewToken .ID [120] [120] ⟨1, 1, 0⟩))
    (bs "42") (by decide)).2 (fun hh => absurd hh.1 (by decide))
  refine ⟨h1.2.1, ?_, h2.1⟩
  rw [h1.2.2.1]
  decide

/-! ## Integer arithmetic of `evalBinary` -/

theorem wrap64_of_range (x : Int) (h1 : -9223372036854775808 ≤ x) (h2 : x < 9223372036854775808) :
    wrap64 x = x := by
  unfold wrap64; omega

theorem wrap64_range (x : Int) :
    -9223372036854775808 ≤ wrap64 x ∧ wrap64 x < 9223372036854775808 ∧
      (18446744073709551616 : Int) ∣ (wrap64 x - x) := by
  unfold wrap64
  refine ⟨by omega, by omega, ?_⟩
  omega

theorem tmod_facts (a b : Int) :
    (Int.tmod a b).natAbs = a.natAbs % b.natAbs ∧
    (0 ≤ a → 0 ≤ Int.tmod a b) ∧ (a ≤ 0 → Int.tmod a b ≤ 0) := by
  refine ⟨?_, fun h => Int.tmod_nonneg b h, ?_⟩
  · rcases a with m | m <;> rcases b with n | n <;> simp [Int.tmod] <;> rfl
  · intro h
    rcases a with m | m <;> rcases b with n | n
    · have : m = 0 := by simp only [Int.ofNat_eq_coe] at h; omega
      subst this; simp
    · have : m = 0 := by simp only [Int.ofNat_eq_coe] at h; omega
      subst this; simp
    · show -((m.succ % n : Nat) : Int) ≤ 0
      omega
    · show -((m.succ % n.succ : Nat) : Int) ≤ 0
      omega

theorem tdiv_in_range (a b : Int) (ha1 : -9223372036854775808 ≤ a) (ha2 : a < 9223372036854775808)
    (h : ¬ (a = -9223372036854775808 ∧ b = -1)) :
    -9223372036854775808 ≤ Int.tdiv a b ∧ Int.tdiv a b < 9223372036854775808 := by
  have hq : (Int.tdiv a b).natAbs = a.natAbs / b.natAbs := Int.natAbs_tdiv a b
  by_cases hb1 : b = 1
  · subst hb1; simp; omega
  by_cases hb2 : b = -1
  · subst hb2; simp [Int.tdiv_neg]; omega
  by_cases hb0 : b = 0
  · subst hb0; simp
  have h2 : 2 ≤ b.natAbs := by omega
  have h3 : a.natAbs / b.natAbs ≤ a.natAbs / 2 := Nat.div_le_div_left h2 (by decide)
  omega

theorem tmod_in_range (a b : Int) (ha1 : -9223372036854775808 ≤ a) (ha2 : a < 9223372036854775808) :
    -9223372036854775808 ≤ Int.tmod a b ∧ Int.tmod a b < 9223372036854775808 := by
  have h := (tmod_facts a b).1
  have h3 : a.natAbs % b.natAbs ≤ a.natAbs := Nat.mod_le _ _
  have h4 := (tmod_facts a b).2.1
  have h5 := (tmod_facts a b).2.2
  omega

theorem evalBinary_int_arith (i : Interpreter) (op : Operation) (a b : Int) (hint : TokenType)
    (hh : hint ≠ .FLOAT)
    (hop : op = .OpAdd ∨ op = .OpSub ∨ op = .OpMul ∨ op = .OpDiv ∨ op = .OpMod) :
    i.evalBinary op (newInt a) (newInt b) hint = evalIntArith op a b := by
  rcases hop with h | h | h | h | h <;> subst h <;>
    simp [Interpreter.evalBinary, newInt, Value.AsInt64, Value.zero, hh]

/-- Counterexample to C10 as stated: dividing the least `int64` by `-1`, `evalBinary` returns
the least `int64` again, while the quotient truncated toward zero is `2^63`. -/
theorem C10_counterexample :
    (NewInterpreter []).evalBinary .OpDiv (newInt (-9223372036854775808)) (newInt (-1)) .INT
      = .ok (newInt (-9223372036854775808)) ∧
    Int.tdiv (-9223372036854775808) (-1) = 9223372036854775808 := by
  refine ⟨?_, by decide⟩
  rw [evalBinary_int_arith _ _ _ _ _ (by decide) (by simp)]
  simp [evalIntArith, wrap64]

/-- C10 (amended): for `int64` values `a`, `b` and a hint other than `FLOAT`, `evalBinary`
returns the wrapped sum, difference and product; for `/` with `b ≠ 0` the quotient truncated
toward zero wrapped to 64 bits, which is the exact quotient except for the least `int64`
divided by `-1`; for `%` with `b ≠ 0` the remainder of the truncated division, which has the
sign of the dividend.  The error is `division by zero` exactly for `/` with `b = 0` and
`modulo by zero` exactly for `%` with `b = 0`; the five arithmetic operations return no
error otherwise. -/
theorem C10_evalBinary_int (i : Interpreter) (a b : Int) (hint : TokenType)
    (ha : -9223372036854775808 ≤ a ∧ a < 9223372036854775808)
    (_hb : -9223372036854775808 ≤ b ∧ b < 9223372036854775808)
    (hh : hint ≠ .FLOAT) :
    i.evalBinary .OpAdd (newInt a) (newInt b) hint = .ok (newInt (wrap64 (a + b))) ∧
    i.evalBinary .OpSub (newInt a) (newInt b) hint = .ok (newInt (wrap64 (a - b))) ∧
    i.evalBinary .OpMul (newInt a) (newInt b) hint = .ok (newInt (wrap64 (a * b))) ∧
    (b ≠ 0 → i.evalBinary .OpDiv (newInt a) (newInt b) hint
        = .ok (newInt (wrap64 (Int.tdiv a b)))) ∧
    (¬ (a = -9223372036854775808 ∧ b = -1) → wrap64 (Int.tdiv a b) = Int.tdiv a b) ∧
    (b ≠ 0 → i.evalBinary .OpMod (newInt a) (newInt b) hint = .ok (newInt (Int.tmod a b))) ∧
    ((0 ≤ a → 0 ≤ Int.tmod a b) ∧ (a ≤ 0 → Int.tmod a b ≤ 0)) ∧
    (∀ op, i.evalBinary op (newInt a) (newInt b) hint = .error .divisionByZero ↔
        (op = .OpDiv ∧ b = 0)) ∧
    (∀ op, i.evalBinary op (newInt a) (newInt b) hint = .error .moduloByZero ↔
        (op = .OpMod ∧ b = 0)) ∧
    (∀ op, (op = .OpAdd ∨ op = .OpSub ∨ op = .OpMul ∨ op = .OpDiv ∨ op = .OpMod) →
        ¬ (op = .OpDiv ∧ b = 0) → ¬ (op = .OpMod ∧ b = 0) →
        ∃ v, i.evalBinary op (newInt a) (newInt b) hint = .ok v) := by
  have hmod : wrap64 (Int.tmod a b) = Int.tmod a b :=
    wrap64_of_range _ (tmod_in_range a b ha.1 ha.2).1 (tmod_in_range a b ha.1 ha.2).2
  refine ⟨?_, ?_, ?_, ?_, ?_, ?_, (tmod_facts a b).2, ?_, ?_, ?_⟩
  · rw [evalBinary_int_arith _ _ _ _ _ hh (by simp)]; rfl
  · rw [evalBinary_int_arith _ _ _ _ _ hh (by simp)]; rfl
  · rw [evalBinary_int_arith _ _ _ _ _ hh (by simp)]; rfl
  · intro h0
    rw [evalBinary_int_arith _ _ _ _ _ hh (by simp)]; simp [evalIntArith, h0]
  · intro h
    exact wrap64_of_range _ (tdiv_in_range a b ha.1 ha.2 h).1 (tdiv_in_range a b ha.1 ha.2 h).2
  · intro h0
    rw [evalBinary_int_arith _ _ _ _ _ hh (by simp)]; simp [evalIntArith, h0, hmod]
  · intro op
    cases op <;>
      simp [Interpreter.evalBinary, newInt, Value.AsInt64, Value.AsBool, Value.zero, hh,
        evalIntArith, evalIntCompare] <;>
      split <;> simp
  · intro op
    cases op <;>
      simp [Interpreter.evalBinary, newInt, Value.AsInt64, Value.AsBool, Value.zero, hh,
        evalIntArith, evalIntCompare] <;>
      split <;> simp
  · intro op hop h1 h2
    rw [evalBinary_int_arith _ _ _ _ _ hh hop]
    rcases hop with h | h | h | h | h <;> subst h <;> simp [evalIntArith] at h1 h2 ⊢ <;>
      simp [h1, h2]

/-- Witness for C10: `7 / -2`. -/
theorem C10_evalBinary_int_witness :
    (NewInterpreter []).evalBinary .OpDiv (newInt 7) (newInt (-2)) .INT
      = .ok (newInt (wrap64 (Int.tdiv 7 (-2)))) :=
  (C10_evalBinary_int (NewInterpreter []) 7 (-2) .INT (by decide) (by decide) (by decide)).2.2.2.1
    (by decide)

/-- C8 (the code departs from the claim): the two-byte input `é` (bytes 195, 169, outside any
string or comment) yields two `ILLEGAL` tokens with the lexemes (195, 131) and (194, 169),
then `EOF`.  The lexemes concatenate to four bytes that are not the input: the `ILLEGAL`
branch builds its lexeme with `string(l.input[l.position])`, which converts the byte to the
UTF-8 encoding of the code point of the same number. -/
theorem C8_illegal_lexeme_is_not_the_input :
    (tokenize [195, 169]).map (fun t => (t.Typ, t.Lexeme)) =
      [(.ILLEGAL, [195, 131]), (.ILLEGAL, [194, 169]), (.EOF, [])] ∧
    ((tokenize [195, 169]).map (fun t => t.Lexeme)).flatten ≠ [195, 169] := by
  decide

/-! ## Variables of the interpreter -/

theorem GoMap.get_set_self {K V : Type} [DecidableEq K] (m : GoMap K V) (k : K) (v : V) :
    (m.set k v).get k = some v := by
  simp [GoMap.set, GoMap.get]

theorem GoMap.get_set_ne {K V : Type} [DecidableEq K] (m : GoMap K V) (k k' : K) (v : V)
    (h : k' ≠ k) : (m.set k v).get k' = m.get k' := by
  simp [GoMap.set, GoMap.get, Ne.symm h]

theorem updateFrame_stack (i : Interpreter) (g : Frame → Frame) (f : Frame)
    (h : i.currentFrame = some f) : (i.updateFrame g).stack = i.stack.dropLast ++ [g f] := by
  unfold Interpreter.currentFrame at h
  simp [Interpreter.updateFrame, h]

theorem updateFrame_currentFrame (i : Interpreter) (g : Frame → Frame) (f : Frame)
    (h : i.currentFrame = some f) : (i.updateFrame g).currentFrame = some (g f) := by
  unfold Interpreter.currentFrame
  rw [updateFrame_stack i g f h]; simp

theorem updateFrame_none (i : Interpreter) (g : Frame → Frame)
    (h : i.currentFrame = none) : i.updateFrame g = i := by
  unfold Interpreter.currentFrame at h
  simp [Interpreter.updateFrame, h]

/-- `SetVar` when it writes into the current frame. -/
theorem SetVar_local (i : Interpreter) (addr : Int) (v : Value) (f : Frame)
    (hf : i.currentFrame = some f) (h : addr ≥ 800 ∨ (f.Locals.get addr).isSome = true) :
    i.SetVar addr v = { i with stack := i.stack.dropLast ++ [{ f with Locals := f.Locals.set addr v }] } := by
  have hs := hf
  unfold Interpreter.currentFrame at hs
  unfold Interpreter.SetVar
  rw [hf]
  rcases h with h | h
  · simp [LocalAddrBase, h, Interpreter.updateFrame, hs]
  · by_cases h8 : addr ≥ 800
    · simp [LocalAddrBase, h8, Interpreter.updateFrame, hs]
    · simp [LocalAddrBase, h8, h, Interpreter.updateFrame, hs]

/-- `SetVar` when it writes into the globals. -/
theorem SetVar_global (i : Interpreter) (addr : Int) (v : Value)
    (h : ∀ f, i.currentFrame = some f → ¬ (addr ≥ 800 ∨ (f.Locals.get addr).isSome = true)) :
    i.SetVar addr v = { i with globals := i.globals.set addr v } := by
  unfold Interpreter.SetVar
  cases hf : i.currentFrame with
  | none => rfl
  | some f =>
    have := h f hf
    simp only [not_or] at this
    simp [LocalAddrBase, this.1, this.2]

/-- C11: `SetVar(addr, v)` writes `v` into the locals of the current frame exactly when a frame
exists and `addr >= 800` or `addr` is already a key of its locals (no other binding of that
frame, no other frame and no other store changes), and otherwise into the globals (no other
global binding, no frame and no other store changes); in both cases `GetVar(addr)` on the
result returns `(v, true)`. -/
theorem C11_SetVar_scoping (i : Interpreter) (addr : Int) (v : Value) :
    (∀ f, i.currentFrame = some f → (addr ≥ 800 ∨ (f.Locals.get addr).isSome = true) →
      i.SetVar addr v =
        { i with stack := i.stack.dropLast ++ [{ f with Locals := f.Locals.set addr v }] } ∧
      ({ f with Locals := f.Locals.set addr v } : Frame).Locals.get addr = some v ∧
      (∀ a, a ≠ addr →
        ({ f with Locals := f.Locals.set addr v } : Frame).Locals.get a = f.Locals.get a)) ∧
    ((∀ f, i.currentFrame = some f → ¬ (addr ≥ 800 ∨ (f.Locals.get addr).isSome = true)) →
      i.SetVar addr v = { i with globals := i.globals.set addr v } ∧
      (i.globals.set addr v).get addr = some v ∧
      (∀ a, a ≠ addr → (i.globals.set addr v).get a = i.globals.get a)) ∧
    (i.SetVar addr v).GetVar addr = (v, true) := by
  refine ⟨?_, ?_, ?_⟩
  · intro f hf h
    exact ⟨SetVar_local i addr v f hf h, GoMap.get_set_self _ _ _,
      fun a ha => GoMap.get_set_ne _ _ _ _ ha⟩
  · intro h
    exact ⟨SetVar_global i addr v h, GoMap.get_set_self _ _ _,
      fun a ha => GoMap.get_set_ne _ _ _ _ ha⟩
  · cases hf : i.currentFrame with
    | none =>
      rw [SetVar_global i addr v (by intro f hf'; rw [hf] at hf'; cases hf')]
      have : i.stack.getLast? = none := hf
      simp [Interpreter.GetVar, Interpreter.currentFrame, this, GoMap.get_set_self]
    | some f =>
      by_cases h : addr ≥ 800 ∨ (f.Locals.get addr).isSome = true
      · rw [SetVar_local i addr v f hf h]
        by_cases h8 : addr ≥ 800
        · simp [Interpreter.GetVar, Interpreter.currentFrame, LocalAddrBase, h8, GoMap.get_set_self]
        · simp [Interpreter.GetVar, Interpreter.currentFrame, LocalAddrBase, h8, GoMap.get_set_self]
      · rw [SetVar_global i addr v (by intro f' hf'; rw [hf] at hf'; cases hf'; exact h)]
        have hs : i.stack.getLast? = some f := hf
        simp only [not_or] at h
        have hn : f.Locals.get addr = none := by
          cases hg : f.Locals.get addr with
          | none => rfl
          | some x => simp [hg] at h
        simp [Interpreter.GetVar, Interpreter.currentFrame, LocalAddrBase, hs, h.1, hn,
          GoMap.get_set_self]

theorem SetPC_frame (i : Interpreter) (pc : Int) (f : Frame) (hf : i.currentFrame = some f) :
    i.SetPC pc = { i with stack := i.stack.dropLast ++ [{ f with IP := pc }] } := by
  have hs := hf
  unfold Interpreter.currentFrame at hs
  simp [Interpreter.SetPC, hf, Interpreter.updateFrame, hs]

theorem SetPC_noframe (i : Interpreter) (pc : Int) (hf : i.currentFrame = none) :
    i.SetPC pc = { i with ip := pc } := by
  simp [Interpreter.SetPC, hf]

/-- The instructions that write their result through `SetVar`: `=` and the binary
operations. -/
theorem coreStep_write (i : Interpreter) (ins : Instruction)
    (hpc : ¬ (i.PC < 0 ∨ i.PC ≥ i.pb.length)) (hins : i.pb.getD i.PC.toNat default = ins)
    (hop : ins.Op ∈ ([.OpAssign, .OpAdd, .OpSub, .OpMul, .OpDiv, .OpMod, .OpAnd, .OpOr,
      .OpEq, .OpNeq, .OpLt, .OpLe, .OpGt, .OpGe] : List Operation))
    (hok : (coreStep i).2.2 = none) :
    ∃ val, coreStep i = ((i.SetVar ins.Arg3.asInt val).SetPC (i.PC + 1), false, none) := by
  unfold coreStep at hok ⊢
  simp only [hpc, if_false, hins] at hok ⊢
  rcases ins with ⟨op, a1, a2, a3, ty⟩
  simp only [List.mem_cons, List.mem_singleton, List.not_mem_nil, or_false] at hop
  rcases hop with h | h | h | h | h | h | h | h | h | h | h | h | h | h <;> subst h <;>
    simp only at hok ⊢
  · cases h1 : i.loadOperand a1 ty with
    | error e => simp [h1] at hok
    | ok val => exact ⟨val, rfl⟩
  all_goals
    cases h1 : i.loadOperand a1 ty with
    | error e => simp [h1] at hok
    | ok v1 =>
      cases h2 : i.loadOperand a2 ty with
      | error e => simp [h1, h2] at hok
      | ok v2 =>
        simp only [h1, h2] at hok ⊢
        cases h3 : i.evalBinary _ v1 v2 ty with
        | error e => simp [h3] at hok
        | ok res => exact ⟨res, rfl⟩

/-- Counterexample to C12 as stated: with a frame active, the instruction `= #5 -> 600` stores
INT 5 at 600 in the globals, and the locals of the frame still have no binding for 600. -/
theorem C12_counterexample :
    ((coreStep tempWriteState).1.globals.get 600).map (fun v => (v.Kind, v.I64))
      = some (.KindInt, 5) ∧
    (tempWriteState.globals.get 600).isNone = true ∧
    (coreStep tempWriteState).1.stack.map (fun f => (f.Locals.get 600).isSome) = [false] := by
  decide

/-! ## Semantic actions -/

/-- C15 (the code departs from the claim): after `let x : float = 1;`, parsed with no error,
the type table maps the address 400 allocated for `x` to `INT`, the type of the initialiser,
not to the declared `FLOAT`; and for `let x : float = 1; x = 2.5;` the assignment of a float
to `x` is then rejected with a type mismatch (expected `INT`, found `FLOAT`).  `@define`
pops the captured type without reading it. -/
theorem C15_declared_type_not_recorded :
    (parseResult 1000 srcFloatDecl).map
      (fun r => (r.1, r.2.GetErrors, r.2.symbolTable.get (bs "x"), r.2.typeTable.get 400)) =
      some ([], [], some 400, some .INT) ∧
    (parseResult 1000 srcFloatAssign).map (fun r => (r.1, r.2.GetErrors)) =
      some ([], [.typeMismatch .INT .FLOAT ⟨1, 24, 23⟩]) := by
  decide!

/-- Counterexample to C16 as stated: inside the function `f`, the declaration of `x`, a name
declared in the global scope only, records a redeclaration error. -/
theorem C16_counterexample :
    (parseResult 1000 srcShadow).map (fun r => (r.1, r.2.GetErrors)) =
      some ([], [.redeclaration (bs "x") ⟨1, 50, 49⟩]) := by
  decide!

theorem isVariableDeclared_iff (c : Codegen) (name : Str) :
    c.isVariableDeclared name = true ↔
      (c.inFunction = true ∧ (c.functionScope.get name).isSome = true) ∨
        (c.symbolTable.get name).isSome = true := by
  unfold Codegen.isVariableDeclared
  by_cases h1 : c.inFunction = true <;> by_cases h2 : (c.functionScope.get name).isSome = true <;>
    by_cases h3 : (c.symbolTable.get name).isSome = true <;> simp [h1, h2, h3]

theorem pop_errors (c : Codegen) (n : Nat) : (c.pop n).errors = c.errors := by
  induction n generalizing c with
  | zero => rfl
  | succ n ih =>
    simp only [Codegen.pop]
    split
    · rw [ih]
    · rfl

/-- C16 (amended): for a code generator state with at least three stack entries, `@define`
appends one redeclaration error for the declared name `N` (the entry two below the top) if
`N` is declared in the function scope while inside a function or in the global table, and
records nothing otherwise; so inside a function a name declared only globally is reported,
and outside a function the function scope is not consulted. -/
theorem C16_define_redeclaration (c : Codegen) (h : c.ss.Size ≥ 3) :
    (((c.inFunction = true ∧ (c.functionScope.get (c.topStringMinus 2)).isSome = true) ∨
        (c.symbolTable.get (c.topStringMinus 2)).isSome = true) →
      c.defineAction.errors =
        c.errors ++ [.redeclaration (c.topStringMinus 2) c.currentToken.Pos]) ∧
    (¬ ((c.inFunction = true ∧ (c.functionScope.get (c.topStringMinus 2)).isSome = true) ∨
        (c.symbolTable.get (c.topStringMinus 2)).isSome = true) →
      c.defineAction.errors = c.errors) := by
  constructor
  · intro hd
    have hd' := (isVariableDeclared_iff c _).2 hd
    unfold Codegen.defineAction
    simp only [h, if_true, hd']
    by_cases hin : c.inFunction = true <;>
      simp [pop_errors, Codegen.emit, Codegen.setVariableType, Codegen.declareVariable,
        Codegen.getVariable, Codegen.getLocalVariable, Codegen.addError, hin]
  · intro hd
    have hd' : c.isVariableDeclared (c.topStringMinus 2) = false := by
      cases hh : c.isVariableDeclared (c.topStringMinus 2) with
      | false => rfl
      | true => exact absurd ((isVariableDeclared_iff c _).1 hh) hd
    unfold Codegen.defineAction
    simp only [h, if_true, hd']
    by_cases hin : c.inFunction = true <;>
      simp [pop_errors, Codegen.emit, Codegen.setVariableType, Codegen.declareVariable,
        Codegen.getVariable, Codegen.getLocalVariable, hin]

/-- Witness for C16: the generator inside a function, with `x` declared globally only, at
`@define` for `x`. -/
theorem C16_define_redeclaration_witness :
    (Codegen.defineAction { NewCodegen with
        ss := NewStack [bs "x", bs "int", bs "600"], inFunction := true,
        symbolTable := [(bs "x", 400)] }).errors =
      [.redeclaration (bs "x") ⟨0, 0, 0⟩] :=
  (C16_define_redeclaration { NewCodegen with
        ss := NewStack [bs "x", bs "int", bs "600"], inFunction := true,
        symbolTable := [(bs "x", 400)] } (by decide)).1 (by decide)

/-- C17 (the code departs from the claim): on `let x : int = 1; x = 2.5;` `@assign` records
the type mismatch and returns at once; when `Parse` returns the value `601` and the target
`400` are still on the semantic stack, which the claim says are removed.  (No instruction
is emitted: `pb` holds the three instructions of the declaration and of the literal.) -/
theorem C17_mismatch_leaves_operands :
    (parseResult 1000 srcMismatch).map
      (fun r => (r.1, r.2.GetErrors, r.2.ss.Array, r.2.pb.length, r.2.i)) =
      some ([], [.typeMismatch .INT .FLOAT ⟨1, 22, 21⟩], [bs "400", bs "601"], 3, 3) := by
  decide!

/-- C19 (the code departs from the claim): on `let f : int = 1; f(2);` the last instruction
appended is the `call` of `@call`, and `argsCounter` is 1 when `Parse` returns: `@call`
neither reads nor resets the counter that `@arg` incremented. -/
theorem C19_call_statement_keeps_argsCounter :
    (parseResult 1000 srcCallStmt).map
      (fun r => (r.1, r.2.GetErrors, (r.2.pb.getLastD default).Op, r.2.argsCounter)) =
      some ([], [], .OpCall, 1) := by
  decide!

/-- Counterexample to C20 as stated: the 201st temporary allocated has the address 800, which
is `LOCAL_BASE` and the address the local allocator returns first. -/
theorem C20_counterexample :
    (allocTemps 200 NewCodegen).getTemp.1 = 800 ∧ NewCodegen.getLocalVariable.1 = 800 := by
  decide!

/-- C20 (amended): while fewer than 200 globals and fewer than 200 temporaries have been
allocated, the temporary allocator returns an address in `[600, 800)`, the global
allocator (`getVariable` outside a function) one in `[400, 600)` and the local allocator
(also `getVariable` inside a function) one that is at least 800; so the three do not
overlap. -/
theorem C20_allocator_ranges (c : Codegen)
    (hg : 0 ≤ c.globalCounter ∧ c.globalCounter < 200)
    (ht : 0 ≤ c.tempCounter ∧ c.tempCounter < 200)
    (hl : 0 ≤ c.localCounter) :
    (600 ≤ c.getTemp.1 ∧ c.getTemp.1 < 800) ∧
    (c.inFunction = false → 400 ≤ c.getVariable.1 ∧ c.getVariable.1 < 600) ∧
    800 ≤ c.getLocalVariable.1 ∧
    (c.inFunction = true → c.getVariable.1 = c.getLocalVariable.1) := by
  refine ⟨?_, ?_, ?_, ?_⟩
  · simp only [Codegen.getTemp]; omega
  · intro h; simp only [Codegen.getVariable, h]; simp; omega
  · simp only [Codegen.getLocalVariable]; omega
  · intro h; simp [Codegen.getVariable, h]

/-- Witness for C20: the fresh code generator. -/
theorem C20_allocator_ranges_witness :
    (600 ≤ NewCodegen.getTemp.1 ∧ NewCodegen.getTemp.1 < 800) ∧
    (NewCodegen.inFunction = false → 400 ≤ NewCodegen.getVariable.1 ∧ NewCodegen.getVariable.1 < 600) ∧
    800 ≤ NewCodegen.getLocalVariable.1 ∧
    (NewCodegen.inFunction = true → NewCodegen.getVariable.1 = NewCodegen.getLocalVariable.1) :=
  C20_allocator_ranges NewCodegen (by decide) (by decide) (by decide)

/-- C28: for every code generator state, `@func_end` appends `ret` exactly when `pb` is empty
or its last instruction is not a `ret`, then appends one `end`; afterwards the last two
instructions are a `ret` and the `end`, `inFunction` is false, `localCounter` is 0 and the
function scope is empty. -/
theorem C28_funcEnd (c : Codegen) :
    ((c.pb.length = 0 ∨ (c.pb.getLastD default).Op ≠ .OpRet) →
      c.funcEndAction.pb =
        c.pb ++ [⟨.OpRet, .nil, .nil, .nil, .EOF⟩, ⟨.OpEnd, .nil, .nil, .nil, .EOF⟩]) ∧
    (¬ (c.pb.length = 0 ∨ (c.pb.getLastD default).Op ≠ .OpRet) →
      c.funcEndAction.pb = c.pb ++ [⟨.OpEnd, .nil, .nil, .nil, .EOF⟩]) ∧
    (∃ pre r, c.funcEndAction.pb = pre ++ [r, ⟨.OpEnd, .nil, .nil, .nil, .EOF⟩] ∧
      r.Op = .OpRet) ∧
    c.funcEndAction.inFunction = false ∧
    c.funcEndAction.localCounter = 0 ∧
    c.funcEndAction.functionScope = [] := by
  by_cases h : c.pb.length = 0 ∨ (c.pb.getLastD default).Op ≠ .OpRet
  · have hpb : c.funcEndAction.pb =
        c.pb ++ [⟨.OpRet, .nil, .nil, .nil, .EOF⟩, ⟨.OpEnd, .nil, .nil, .nil, .EOF⟩] := by
      simp only [Codegen.funcEndAction, if_pos h, Codegen.emit, Codegen.setInFunction]
      simp
    refine ⟨fun _ => hpb, fun h' => absurd h h', ⟨c.pb, _, hpb, rfl⟩, ?_, ?_, ?_⟩ <;>
      simp only [Codegen.funcEndAction, if_pos h, Codegen.emit, Codegen.setInFunction] <;> simp
  · have hpb : c.funcEndAction.pb = c.pb ++ [⟨.OpEnd, .nil, .nil, .nil, .EOF⟩] := by
      simp only [Codegen.funcEndAction, if_neg h, Codegen.emit, Codegen.setInFunction]
      simp
    have h0 := h
    simp only [not_or, not_not] at h
    have hne : c.pb ≠ [] := by
      intro h1; rw [h1] at h; simp at h
    refine ⟨fun h' => absurd h' h0, fun _ => hpb,
      ⟨c.pb.dropLast, c.pb.getLast hne, ?_, ?_⟩, ?_, ?_, ?_⟩
    · rw [hpb]
      conv_lhs => rw [← List.dropLast_append_getLast hne]
      simp
    · have : c.pb.getLastD default = c.pb.getLast hne := by
        rw [List.getLastD_eq_getLast?, List.getLast?_eq_getLast _ hne]; rfl
      rw [← this]; exact h.2
    all_goals
      (simp only [Codegen.funcEndAction, if_neg h0, Codegen.emit, Codegen.setInFunction]; simp)

/-! ## `@jmpf_normal` -/

theorem ParseInt_ok_head (s : Str) (h : (ParseInt s).2 = true) :
    ∃ c r, s = c :: r ∧ c ≠ 36 := by
  cases s with
  | nil => simp [ParseInt] at h
  | cons c r =>
    refine ⟨c, r, rfl, ?_⟩
    intro hc
    subst hc
    simp [ParseInt, isDigit] at h

theorem isMarker_cons_ne (c : Nat) (r : Str) (h : c ≠ 36) : isMarker (c :: r) = false := by
  have h1 : bs "$break_" = [36, 98, 114, 101, 97, 107, 95] := by decide
  have h2 : bs "$while_" = [36, 119, 104, 105, 108, 101, 95] := by decide
  simp [isMarker, h1, h2, startsWith_cons_ne c 36 r _ (Ne.symm h)]

theorem isMarker_nil : isMarker [] = false := by decide

theorem stack_getD_marker (rest M : List Str) (sC sL : Str) (j : Nat) (hj : j < M.length) :
    (rest ++ [sC, sL] ++ M).getD ((rest ++ [sC, sL] ++ M).length - 1 - j) [] =
      M.getD (M.length - 1 - j) [] := by
  rw [List.getD_append_right _ _ _ _ (by simp <;> omega)]
  congr 1
  simp; omega

theorem stack_getD_L (rest M : List Str) (sC sL : Str) :
    (rest ++ [sC, sL] ++ M).getD ((rest ++ [sC, sL] ++ M).length - 1 - M.length) [] = sL := by
  rw [List.getD_append _ _ _ _ (by simp <;> omega)]
  rw [List.getD_append_right _ _ _ _ (by simp <;> omega)]
  have : (rest ++ [sC, sL] ++ M).length - 1 - M.length - rest.length = 1 := by simp <;> omega
  rw [this]; rfl

theorem stack_getD_C (rest M : List Str) (sC sL : Str) :
    (rest ++ [sC, sL] ++ M).getD ((rest ++ [sC, sL] ++ M).length - 1 - (M.length + 1)) [] = sC := by
  rw [List.getD_append _ _ _ _ (by simp <;> omega)]
  rw [List.getD_append_right _ _ _ _ (by simp <;> omega)]
  have : (rest ++ [sC, sL] ++ M).length - 1 - (M.length + 1) - rest.length = 0 := by simp <;> omega
  rw [this]; rfl

theorem skipMarkers_eq (c : Codegen) (rest M : List Str) (sC sL : Str)
    (hss : c.ss.a = rest ++ [sC, sL] ++ M) (hM : ∀ m ∈ M, isMarker m = true)
    (hL : isMarker sL = false) (fuel k : Nat) (hk : k ≤ M.length)
    (hfuel : M.length - k + 1 ≤ fuel) : c.skipMarkers fuel k = M.length := by
  induction fuel generalizing k with
  | zero => omega
  | succ fuel ih =>
    simp only [Codegen.skipMarkers]
    have hsize : c.ss.Size > k := by simp [Stack.Size, hss] <;> omega
    by_cases hkM : k < M.length
    · have hm : isMarker (c.topStringMinus k) = true := by
        simp only [Codegen.topStringMinus, hsize, if_true, Stack.Array, hss]
        rw [stack_getD_marker rest M sC sL k hkM]
        apply hM
        rw [List.getD_eq_getElem _ _ (by omega)]
        exact List.getElem_mem _
      simp only [hm, if_true]
      exact ih (k + 1) (by omega) (by omega)
    · have hkeq : k = M.length := by omega
      subst hkeq
      have hm : isMarker (c.topStringMinus M.length) = false := by
        simp only [Codegen.topStringMinus, hsize, if_true, Stack.Array, hss]
        rw [stack_getD_L]; exact hL
      simp [hm]

theorem popAtOffsetEnd_eq (c : Codegen) (k : Nat) (h : k < c.ss.a.length) :
    c.popAtOffsetEnd k =
      { c with ss := ⟨c.ss.a.take (c.ss.a.length - 1 - k) ++ c.ss.a.drop (c.ss.a.length - k)⟩ } := by
  have hs : c.ss.Size > k := h
  simp only [Codegen.popAtOffsetEnd, hs, if_true, Stack.Array, NewStack]

theorem popAtOffsetEnd_L (c : Codegen) (rest M : List Str) (sC sL : Str)
    (hss : c.ss.a = rest ++ [sC, sL] ++ M) :
    ((c.popAtOffsetEnd M.length).popAtOffsetEnd M.length).ss.a = rest ++ M ∧
    ((c.popAtOffsetEnd M.length).popAtOffsetEnd M.length).pb = c.pb ∧
    ((c.popAtOffsetEnd M.length).popAtOffsetEnd M.length).i = c.i := by
  have e1 : (rest ++ [sC, sL] ++ M).length - 1 - M.length = rest.length + 1 := by simp <;> omega
  have e2 : (rest ++ [sC, sL] ++ M).length - M.length = rest.length + 2 := by simp <;> omega
  have t : (rest ++ [sC, sL] ++ M).take (rest.length + 1) = rest ++ [sC] := by
    rw [List.append_assoc, List.take_append_eq_append_take]
    simp
  have d : (rest ++ [sC, sL] ++ M).drop (rest.length + 2) = M := by
    rw [List.append_assoc, List.drop_append_eq_append_drop]
    simp
  have h1 : (c.popAtOffsetEnd M.length) = { c with ss := ⟨rest ++ [sC] ++ M⟩ } := by
    rw [popAtOffsetEnd_eq c M.length (by rw [hss]; simp <;> omega), hss, e1, e2, t, d]
  have e1' : (rest ++ [sC] ++ M).length - 1 - M.length = rest.length := by simp <;> omega
  have e2' : (rest ++ [sC] ++ M).length - M.length = rest.length + 1 := by simp <;> omega
  have t' : (rest ++ [sC] ++ M).take rest.length = rest := by
    rw [List.append_assoc, List.take_append_eq_append_take]
    simp
  have d' : (rest ++ [sC] ++ M).drop (rest.length + 1) = M := by
    rw [List.append_assoc, List.drop_append_eq_append_drop]
    simp
  rw [h1, popAtOffsetEnd_eq _ M.length (by simp <;> omega)]
  simp only [e1', e2', t', d']
  exact ⟨trivial, trivial, trivial⟩

/-- C21: let the semantic stack be `rest ++ [sC, sL] ++ M` (bottom first), where every entry
of `M` starts with `$while_` or `$break_`, `sC` and `sL` are decimal integers `C` and `L`,
and `0 <= L < len(pb)`.  Then `@jmpf_normal` returns with `pb[L] = jmpf C -> i`, every other
instruction and `i` unchanged, and with the stack `rest ++ M`. -/
theorem C21_jmpfNormal (c : Codegen) (rest M : List Str) (sC sL : Str) (C L : Int)
    (hss : c.ss.a = rest ++ [sC, sL] ++ M) (hM : ∀ m ∈ M, isMarker m = true)
    (hC : ParseInt sC = (C, true)) (hL : ParseInt sL = (L, true))
    (hrange : 0 ≤ L ∧ L < c.pb.length) :
    ∃ c', c.jmpfNormalAction = .ok c' ∧
      c'.pb = c.pb.set L.toNat ⟨.OpJmpf, .int C, .nil, .int c.i, .EOF⟩ ∧
      c'.i = c.i ∧ c'.ss.a = rest ++ M := by
  have hLm : isMarker sL = false := by
    obtain ⟨x, r, hx, hne⟩ := ParseInt_ok_head sL (by rw [hL])
    rw [hx]; exact isMarker_cons_ne x r hne
  have hsize : c.ss.Size ≥ 2 := by simp [Stack.Size, hss] <;> omega
  have hj : c.skipMarkers (c.ss.Size + 1) 0 = M.length :=
    skipMarkers_eq c rest M sC sL hss hM hLm _ 0 (by omega) (by simp [Stack.Size, hss] <;> omega)
  have hloc : c.topMinus M.length = L := by
    have hs : c.ss.Size > M.length := by simp [Stack.Size, hss] <;> omega
    simp only [Codegen.topMinus, hs, if_true, Stack.Array, hss, stack_getD_L, Atoi, hL]
  have hcond : c.topMinus (M.length + 1) = C := by
    have hs : c.ss.Size > M.length + 1 := by simp [Stack.Size, hss] <;> omega
    simp only [Codegen.topMinus, hs, if_true, Stack.Array, hss, stack_getD_C, Atoi, hC]
  unfold Codegen.jmpfNormalAction
  simp only [hsize, if_true, hj, hloc, hcond, hrange.2]
  have hp : c.patch L ⟨.OpJmpf, .int C, .nil, .int c.i, .EOF⟩ =
      .ok { c with pb := c.pb.set L.toNat ⟨.OpJmpf, .int C, .nil, .int c.i, .EOF⟩ } := by
    simp [Codegen.patch, hrange.1, hrange.2]
  rw [hp]
  have := popAtOffsetEnd_L
    { c with pb := c.pb.set L.toNat ⟨.OpJmpf, .int C, .nil, .int c.i, .EOF⟩ } rest M sC sL hss
  exact ⟨_, rfl, this.2.1, this.2.2, this.1⟩

/-- Witness for C21: the stack `["602", "4", "$break_8"]` with ten instructions emitted. -/
theorem C21_jmpfNormal_witness :
    ∃ c', Codegen.jmpfNormalAction { NewCodegen with
        ss := NewStack [bs "602", bs "4", bs "$break_8"], pb := List.replicate 10 nopInstruction,
        i := 10 } = .ok c' ∧
      c'.pb = (List.replicate 10 nopInstruction).set (4 : Int).toNat
        ⟨.OpJmpf, .int 602, .nil, .int 10, .EOF⟩ ∧
      c'.i = 10 ∧ c'.ss.a = [] ++ [bs "$break_8"] :=
  C21_jmpfNormal { NewCodegen with
        ss := NewStack [bs "602", bs "4", bs "$break_8"], pb := List.replicate 10 nopInstruction,
        i := 10 } [] [bs "$break_8"] (bs "602") (bs "4") 602 4 (by decide) (by decide)
    (by decide) (by decide) (by decide)

/-! ## `call` and `ret` -/

theorem GoMap.get_del {K V : Type} [DecidableEq K] (m : GoMap K V) (k k' : K) :
    (m.del k).get k' = if k' = k then none else m.get k' := by
  induction m with
  | nil => simp [GoMap.del, GoMap.get]
  | cons p r ih =>
    obtain ⟨a, b⟩ := p
    by_cases h1 : a = k
    · subst h1
      have : GoMap.del ((a, b) :: r) a = GoMap.del r a := by simp [GoMap.del]
      rw [this, ih]
      by_cases h2 : k' = a
      · simp [h2]
      · simp [h2, GoMap.get, Ne.symm h2]
    · have : GoMap.del ((a, b) :: r) k = (a, b) :: GoMap.del r k := by simp [GoMap.del, h1]
      rw [this]
      simp only [GoMap.get]
      by_cases h3 : a = k'
      · subst h3; simp [h1]
      · simp only [h3, if_false]; exact ih

/-- The loop of `call` over the staged arguments: only the locals of the current frame and the
argument buffer change; the locals get the bindings `800+q` for `p <= q < p+n`. -/
theorem bindArgs_spec (n : Nat) (p : Int) (j : Interpreter) (st : List Frame) (fr : Frame)
    (hst : j.stack = st ++ [fr]) :
    ∃ L A, Interpreter.bindArgs n p j = { j with stack := st ++ [{ fr with Locals := L }], argBuf := A } ∧
      (∀ a, L.get a =
        if 800 + p ≤ a ∧ a < 800 + p + n then some ((j.argBuf.get (a - 800)).getD (newInt 0))
        else fr.Locals.get a) := by
  induction n generalizing p j fr with
  | zero =>
    refine ⟨fr.Locals, j.argBuf, ?_, ?_⟩
    · simp only [Interpreter.bindArgs]; cases j; cases fr; simp_all
    · intro a
      have : ¬ (800 + p ≤ a ∧ a < 800 + p + ((0 : Nat) : Int)) := by omega
      rw [if_neg this]
  | succ n ih =>
    simp only [Interpreter.bindArgs]
    -- the state after consuming position `p`
    have hcf : ∀ (k : Interpreter), k.stack = st ++ [fr] → ∀ g : Frame → Frame,
        (k.updateFrame g).stack = st ++ [g fr] := by
      intro k hk g
      simp [Interpreter.updateFrame, hk]
    cases hget : j.argBuf.get p with
    | none =>
      have hc : j.ConsumeArg p = ((Value.zero, false), j) := by simp [Interpreter.ConsumeArg, hget]
      rw [hc]
      simp only [Bool.false_eq_true, if_false]
      have hst1 := hcf j hst (fun f => { f with Locals := f.Locals.set (LocalAddrBase + p) (newInt 0) })
      obtain ⟨L, A, h1, h2⟩ := ih (p + 1) _ _ hst1
      refine ⟨L, A, ?_, ?_⟩
      · rw [h1]; simp [Interpreter.updateFrame, hst]
      · intro a
        rw [h2 a]
        have hab : (j.updateFrame fun f =>
            { f with Locals := f.Locals.set (LocalAddrBase + p) (newInt 0) }).argBuf = j.argBuf := by
          simp [Interpreter.updateFrame, hst]
        rw [hab]
        by_cases c1 : 800 + (p + 1) ≤ a ∧ a < 800 + (p + 1) + (n : Int)
        · have c2 : 800 + p ≤ a ∧ a < 800 + p + ((n + 1 : Nat) : Int) := by
            push_cast; omega
          rw [if_pos c1, if_pos c2]
        · by_cases c3 : a = 800 + p
          · subst c3
            have c2 : 800 + p ≤ 800 + p ∧ 800 + p < 800 + p + ((n + 1 : Nat) : Int) := by
              push_cast; omega
            rw [if_neg c1, if_pos c2]
            simp only [LocalAddrBase]
            rw [GoMap.get_set_self]
            simp [hget]
          · have c2 : ¬ (800 + p ≤ a ∧ a < 800 + p + ((n + 1 : Nat) : Int)) := by
              push_cast; omega
            rw [if_neg c1, if_neg c2]
            simp only [LocalAddrBase]
            exact GoMap.get_set_ne _ _ _ _ c3
    | some v =>
      have hc : j.ConsumeArg p = ((v, true), { j with argBuf := j.argBuf.del p }) := by
        simp [Interpreter.ConsumeArg, hget]
      rw [hc]
      simp only [if_true]
      have hst0 : ({ j with argBuf := j.argBuf.del p } : Interpreter).stack = st ++ [fr] := hst
      have hst1 := hcf _ hst0 (fun f => { f with Locals := f.Locals.set (LocalAddrBase + p) v })
      obtain ⟨L, A, h1, h2⟩ := ih (p + 1) _ _ hst1
      refine ⟨L, A, ?_, ?_⟩
      · rw [h1]; simp [Interpreter.updateFrame, hst]
      · intro a
        rw [h2 a]
        have hab : (Interpreter.updateFrame { j with argBuf := j.argBuf.del p } fun f =>
            { f with Locals := f.Locals.set (LocalAddrBase + p) v }).argBuf = j.argBuf.del p := by
          simp [Interpreter.updateFrame, hst]
        rw [hab]
        by_cases c1 : 800 + (p + 1) ≤ a ∧ a < 800 + (p + 1) + (n : Int)
        · have c2 : 800 + p ≤ a ∧ a < 800 + p + ((n + 1 : Nat) : Int) := by
            push_cast; omega
          have c4 : a - 800 ≠ p := by omega
          rw [if_pos c1, if_pos c2, GoMap.get_del, if_neg c4]
        · by_cases c3 : a = 800 + p
          · subst c3
            have c2 : 800 + p ≤ 800 + p ∧ 800 + p < 800 + p + ((n + 1 : Nat) : Int) := by
              push_cast; omega
            rw [if_neg c1, if_pos c2]
            simp only [LocalAddrBase]
            rw [GoMap.get_set_self]
            simp [hget]
          · have c2 : ¬ (800 + p ≤ a ∧ a < 800 + p + ((n + 1 : Nat) : Int)) := by
              push_cast; omega
            rw [if_neg c1, if_neg c2]
            simp only [LocalAddrBase]
            exact GoMap.get_set_ne _ _ _ _ c3

/-- C13: a step at `call name, argCount, retTemp` (at index `pc`) pushes exactly one frame, with
`ReturnToIP = pc + 1`, `RetTemp = retTemp` and PC `funcIndex[name] + 1`, whose locals hold
exactly the slots `800 + p` for `0 <= p < argCount` (the staged argument `p`, or INT 0 when
position `p` was not staged); the argument buffer is left empty and nothing else changes:
globals, the older frames and the top-level instruction pointer are those of before. -/
theorem C13_call_step (i : Interpreter) (pc argCount retTemp : Int) (name : Str) (ty : TokenType)
    (hpc : i.PC = pc) (h0 : 0 ≤ pc) (h1 : pc < i.pb.length)
    (hins : i.pb.getD pc.toNat default = ⟨.OpCall, .str name, .int argCount, .int retTemp, ty⟩) :
    ∃ L : GoMap Int Value,
      coreStep i =
        ({ i with
            stack := i.stack ++ [⟨name, (i.funcIndex.get name).getD 0 + 1, L, pc + 1, retTemp⟩],
            argBuf := [] }, false, none) ∧
      (∀ p, 0 ≤ p → p < argCount →
        L.get (800 + p) = some ((i.argBuf.get p).getD (newInt 0))) ∧
      (∀ a, (a < 800 ∨ 800 + argCount ≤ a) → L.get a = none) := by
  have hst : (i.PushFrame name (pc + 1) retTemp).stack =
      i.stack ++ [⟨name, (i.funcIndex.get name).getD 0, [], pc + 1, retTemp⟩] := rfl
  obtain ⟨L, A, hb, hL⟩ := bindArgs_spec argCount.toNat 0 _ _ _ hst
  refine ⟨L, ?_, ?_, ?_⟩
  · have hc : ¬ (pc < 0 ∨ pc ≥ (i.pb.length : Int)) := by omega
    simp only [coreStep, hpc, if_neg hc, hins, Arg.asString, Arg.asInt, hb]
    simp [Interpreter.ClearArgs, Interpreter.SetPC, Interpreter.currentFrame,
      Interpreter.updateFrame, Interpreter.PushFrame]
  · intro p hp0 hp1
    rw [hL]
    have c : 800 + 0 ≤ 800 + p ∧ 800 + p < 800 + 0 + ((argCount.toNat : Nat) : Int) := by
      omega
    rw [if_pos c]
    have : 800 + p - 800 = p := by omega
    rw [this]; rfl
  · intro a ha
    rw [hL]
    have c : ¬ (800 + 0 ≤ a ∧ a < 800 + 0 + ((argCount.toNat : Nat) : Int)) := by
      omega
    rw [if_neg c]; rfl

theorem C13_call_step_witness :
    ∃ L : GoMap Int Value,
      coreStep (NewInterpreter [⟨.OpCall, .str (bs "f"), .int 2, .int 500, .EOF⟩]) =
        ({ NewInterpreter [⟨.OpCall, .str (bs "f"), .int 2, .int 500, .EOF⟩] with
            stack := [⟨bs "f", 0 + 1, L, 0 + 1, 500⟩], argBuf := [] }, false, none) ∧
      (∀ p, 0 ≤ p → p < (2 : Int) →
        L.get (800 + p) = some ((GoMap.get ([] : GoMap Int Value) p).getD (newInt 0))) ∧
      (∀ a, (a < 800 ∨ 800 + (2 : Int) ≤ a) → L.get a = none) :=
  C13_call_step (NewInterpreter [⟨.OpCall, .str (bs "f"), .int 2, .int 500, .EOF⟩]) 0 2 500
    (bs "f") .EOF rfl (by decide) (by decide) rfl

/-- A step at `ret` whose operand loads (or is absent), with `V` the loaded `Arg1`, or the
zero value when `Arg1` is absent: with no frame the step reports halted and changes nothing;
with frames it pops the top frame `f`, stores `V` at `f.RetTemp` in the locals of the caller
frame (in the globals when no caller frame is left) when `f.RetTemp` is neither 0 nor -1, and
sets the PC of the resumed context to `f.ReturnToIP`. -/
theorem coreStep_ret (i : Interpreter) (ins : Instruction) (V : Value)
    (h0 : 0 ≤ i.PC) (h1 : i.PC < i.pb.length)
    (hins : i.pb.getD i.PC.toNat default = ins) (hop : ins.Op = .OpRet)
    (hV : (ins.Arg1 = .nil ∧ V = Value.zero) ∨
          (ins.Arg1 ≠ .nil ∧ i.loadOperand ins.Arg1 ins.Typ = .ok V)) :
    (i.stack = [] → coreStep i = (i, true, none)) ∧
    (∀ f, i.stack = [f] →
      coreStep i =
        ({ i with
            stack := [],
            globals := if f.RetTemp ≠ 0 ∧ f.RetTemp ≠ -1 then i.globals.set f.RetTemp V
                       else i.globals,
            ip := f.ReturnToIP }, false, none)) ∧
    (∀ st cf f, i.stack = st ++ [cf, f] →
      coreStep i =
        ({ i with
            stack := st ++
              [{ cf with
                  Locals := if f.RetTemp ≠ 0 ∧ f.RetTemp ≠ -1 then cf.Locals.set f.RetTemp V
                            else cf.Locals,
                  IP := f.ReturnToIP }] }, false, none)) := by
  have hc : ¬ (i.PC < 0 ∨ i.PC ≥ (i.pb.length : Int)) := by omega
  have hl : (if ins.Arg1 ≠ .nil then i.loadOperand ins.Arg1 ins.Typ else .ok Value.zero) =
      .ok V := by
    rcases hV with ⟨a, b⟩ | ⟨a, b⟩
    · simp [a, b]
    · simp [a, b]
  refine ⟨?_, ?_, ?_⟩
  · intro hs
    simp only [coreStep, if_neg hc, hins, hop, hl]
    simp [Interpreter.PopFrame, hs]
  · intro f hs
    simp only [coreStep, if_neg hc, hins, hop, hl]
    by_cases c : f.RetTemp ≠ 0 ∧ f.RetTemp ≠ -1
    · simp [Interpreter.PopFrame, hs, c, Interpreter.currentFrame, Interpreter.SetPC]
    · simp [Interpreter.PopFrame, hs, c, Interpreter.currentFrame, Interpreter.SetPC]
  · intro st cf f hs
    have e1 : (st ++ [cf, f]).getLast? = some f := by simp
    have e2 : (st ++ [cf, f]).dropLast = st ++ [cf] := by
      have : st ++ [cf, f] = (st ++ [cf]) ++ [f] := by simp
      rw [this, List.dropLast_concat]
    simp only [coreStep, if_neg hc, hins, hop, hl]
    by_cases c : f.RetTemp ≠ 0 ∧ f.RetTemp ≠ -1
    · simp [Interpreter.PopFrame, hs, e1, e2, c, Interpreter.currentFrame, Interpreter.SetPC,
        Interpreter.updateFrame]
    · simp [Interpreter.PopFrame, hs, e1, e2, c, Interpreter.currentFrame, Interpreter.SetPC,
        Interpreter.updateFrame]

/-! ## The indexing pass and the step at a `label` -/

/-- Keys below the scan position other than the open label are left alone by the pass. -/
theorem indexEnds_get_old (xs : List Instruction) :
    ∀ (idx cur : Int) (fe : GoMap Int Int) (q : Int), 0 ≤ q → q < idx → q ≠ cur →
      (indexEnds xs idx cur fe).get q = fe.get q := by
  induction xs with
  | nil => intro idx cur fe q _ _ _; rfl
  | cons x r ih =>
    intro idx cur fe q hq0 hq hne
    simp only [indexEnds]
    by_cases c1 : x.Op = .OpLabel
    · rw [if_pos c1]
      exact ih (idx + 1) idx fe q hq0 (by omega) (by omega)
    · rw [if_neg c1]
      by_cases c2 : x.Op = .OpEnd ∧ cur ≠ -1
      · rw [if_pos c2]
        rw [ih (idx + 1) (-1) _ q hq0 (by omega) (by omega)]
        exact GoMap.get_set_ne _ _ _ _ hne
      · rw [if_neg c2]
        exact ih (idx + 1) cur fe q hq0 (by omega) hne

/-- From inside the body of the label at `l`: the first `end` closes it. -/
theorem indexEnds_body (mid : List Instruction) (en : Instruction) (post : List Instruction)
    (hen : en.Op = .OpEnd) :
    ∀ (k l : Int) (fe : GoMap Int Int), 0 ≤ l → l < k →
      (∀ x ∈ mid, x.Op ≠ .OpLabel ∧ x.Op ≠ .OpEnd) →
      (indexEnds (mid ++ en :: post) k l fe).get l = some (k + mid.length - 1) := by
  induction mid with
  | nil =>
    intro k l fe hl0 hlk _
    have c1 : ¬ en.Op = .OpLabel := by rw [hen]; decide
    have c2 : en.Op = .OpEnd ∧ l ≠ -1 := ⟨hen, by omega⟩
    simp only [List.nil_append, indexEnds, if_neg c1, if_pos c2]
    rw [indexEnds_get_old post (k + 1) (-1) _ l hl0 (by omega) (by omega)]
    rw [GoMap.get_set_self]
    simp
  | cons x r ih =>
    intro k l fe hl0 hlk hmid
    have hx := hmid x (List.mem_cons_self _ _)
    have c2 : ¬ (x.Op = .OpEnd ∧ l ≠ -1) := fun h => hx.2 h.1
    simp only [List.cons_append, indexEnds, if_neg hx.1, if_neg c2]
    have h := ih (k + 1) l fe hl0 (by omega) (fun y hy => hmid y (List.mem_cons_of_mem _ hy))
    rw [show r.append (en :: post) = r ++ en :: post from rfl, h]
    simp only [List.length_cons]
    push_cast
    congr 1
    omega

theorem indexEnds_label (pre : List Instruction) (lab : Instruction) (mid : List Instruction)
    (en : Instruction) (post : List Instruction)
    (hlab : lab.Op = .OpLabel) (hen : en.Op = .OpEnd)
    (hmid : ∀ x ∈ mid, x.Op ≠ .OpLabel ∧ x.Op ≠ .OpEnd) :
    ∀ (idx cur : Int) (fe : GoMap Int Int), 0 ≤ idx →
      (indexEnds (pre ++ lab :: (mid ++ en :: post)) idx cur fe).get (idx + pre.length) =
        some (idx + pre.length + mid.length) := by
  induction pre with
  | nil =>
    intro idx cur fe h0
    simp only [List.nil_append, indexEnds, if_pos hlab, List.length_nil]
    have := indexEnds_body mid en post hen (idx + 1) idx fe h0 (by omega) hmid
    simp only [Nat.cast_zero, add_zero]
    rw [this]
    congr 1
    omega
  | cons x r ih =>
    intro idx cur fe h0
    have key : ∀ c f, (indexEnds (r ++ lab :: (mid ++ en :: post)) (idx + 1) c f).get
        (idx + ((x :: r).length : Nat)) = some (idx + ((x :: r).length : Nat) + mid.length) := by
      intro c f
      have := ih (idx + 1) c f (by omega)
      simp only [List.length_cons]
      push_cast
      have e1 : idx + ((r.length : Int) + 1) = idx + 1 + r.length := by omega
      rw [e1]
      exact this
    simp only [List.cons_append, indexEnds]
    split
    · exact key _ _
    · split
      · exact key _ _
      · exact key _ _

/-- C29: in a program `pre ++ [label] ++ mid ++ [end] ++ post` where `mid` holds neither a
`label` nor an `end` (the label is at `l = |pre|`, its first `end` at `e = l + 1 + |mid|`), the
indexing pass sets `funcEnd[l] = e - 1`; in every state over that program and index, a step
at `l` with no active frame sets the top-level PC to `e` and changes nothing else, and a step
at `l` with an active frame only advances that frame's PC to `l + 1`. -/
theorem C29_label_skips_body (pre mid post : List Instruction) (lab en : Instruction)
    (hlab : lab.Op = .OpLabel) (hen : en.Op = .OpEnd)
    (hmid : ∀ x ∈ mid, x.Op ≠ .OpLabel ∧ x.Op ≠ .OpEnd) :
    (NewInterpreter (pre ++ lab :: (mid ++ en :: post))).funcEnd.get pre.length =
      some ((pre.length + 1 + mid.length : Int) - 1) ∧
    (∀ i : Interpreter, i.pb = pre ++ lab :: (mid ++ en :: post) →
      i.funcEnd = (NewInterpreter (pre ++ lab :: (mid ++ en :: post))).funcEnd →
      (i.stack = [] → i.ip = (pre.length : Int) →
        coreStep i = ({ i with ip := pre.length + 1 + mid.length }, false, none)) ∧
      (∀ st f, i.stack = st ++ [f] → f.IP = (pre.length : Int) →
        coreStep i = ({ i with stack := st ++ [{ f with IP := pre.length + 1 }] },
          false, none))) := by
  have hfe : (NewInterpreter (pre ++ lab :: (mid ++ en :: post))).funcEnd.get pre.length =
      some ((pre.length : Int) + mid.length) := by
    have := indexEnds_label pre lab mid en post hlab hen hmid 0 (-1) [] (le_refl _)
    simpa [NewInterpreter, Interpreter.indexProgram] using this
  refine ⟨?_, ?_⟩
  · rw [hfe]; congr 1; omega
  · intro i hpb hfi
    have hget : i.pb.getD pre.length default = lab := by
      rw [hpb, List.getD_eq_getElem?_getD, List.getElem?_append_right (le_refl _)]; simp
    have hlen : (pre.length : Int) < i.pb.length := by
      rw [hpb]; simp; omega
    refine ⟨?_, ?_⟩
    · intro hs hip
      have hPC : i.PC = pre.length := by
        simp [Interpreter.PC, Interpreter.currentFrame, hs, hip]
      have hc : ¬ ((pre.length : Int) < 0 ∨ (pre.length : Int) ≥ (i.pb.length : Int)) := by omega
      simp only [coreStep, hPC, if_neg hc, Int.toNat_ofNat, hget, hlab]
      simp [Interpreter.currentFrame, hs, hfi, hfe, Interpreter.SetPC]
      omega
    · intro st f hs hip
      have hPC : i.PC = pre.length := by
        simp [Interpreter.PC, Interpreter.currentFrame, hs, hip]
      have hc : ¬ ((pre.length : Int) < 0 ∨ (pre.length : Int) ≥ (i.pb.length : Int)) := by omega
      simp only [coreStep, hPC, if_neg hc, Int.toNat_ofNat, hget, hlab]
      simp [Interpreter.currentFrame, hs, Interpreter.SetPC, Interpreter.updateFrame]

theorem C29_label_skips_body_witness :
    (NewInterpreter ([] ++ (⟨.OpLabel, .str (bs "f"), .nil, .nil, .EOF⟩ : Instruction) ::
        ([⟨.OpNop, .nil, .nil, .nil, .EOF⟩] ++
          (⟨.OpEnd, .nil, .nil, .nil, .EOF⟩ : Instruction) :: []))).funcEnd.get
        (([] : List Instruction).length) =
      some (((([] : List Instruction).length : Int) + 1 +
        ([(⟨.OpNop, .nil, .nil, .nil, .EOF⟩ : Instruction)].length : Int)) - 1) :=
  (C29_label_skips_body [] [⟨.OpNop, .nil, .nil, .nil, .EOF⟩] []
    ⟨.OpLabel, .str (bs "f"), .nil, .nil, .EOF⟩ ⟨.OpEnd, .nil, .nil, .nil, .EOF⟩ rfl rfl
    (by decide)).1

/-! ## The step limit -/

theorem AsFloat64_err (v : Value) (e : RuntimeError) (h : v.AsFloat64 = .error e) :
    e ≠ .maxStepsExceeded := by
  unfold Value.AsFloat64 at h
  split at h <;> simp at h <;> (subst h; simp)

theorem AsInt64_err (v : Value) (e : RuntimeError) (h : v.AsInt64 = .error e) :
    e ≠ .maxStepsExceeded := by
  unfold Value.AsInt64 at h
  split at h <;> simp at h <;> (subst h; simp)

theorem AsBool_err (v : Value) (e : RuntimeError) (h : v.AsBool = .error e) :
    e ≠ .maxStepsExceeded := by
  unfold Value.AsBool at h
  split at h <;> simp at h <;> (subst h; simp)

theorem evalIntArith_err (op : Operation) (a b : Int) (e : RuntimeError)
    (h : evalIntArith op a b = .error e) : e ≠ .maxStepsExceeded := by
  unfold evalIntArith at h
  split at h <;> (try split at h) <;> simp at h <;> (subst h; simp)

theorem evalFloatArith_err (op : Operation) (a b : Float) (e : RuntimeError)
    (h : evalFloatArith op a b = .error e) : e ≠ .maxStepsExceeded := by
  unfold evalFloatArith at h
  split at h <;> simp at h <;> (subst h; simp)

theorem evalIntCompare_err (op : Operation) (a b : Int) (e : RuntimeError)
    (h : evalIntCompare op a b = .error e) : e ≠ .maxStepsExceeded := by
  unfold evalIntCompare at h
  split at h <;> simp at h <;> (subst h; simp)

theorem evalFloatCompare_err (op : Operation) (a b : Float) (e : RuntimeError)
    (h : evalFloatCompare op a b = .error e) : e ≠ .maxStepsExceeded := by
  unfold evalFloatCompare at h
  split at h <;> simp at h <;> (subst h; simp)

theorem evalBinary_err (i : Interpreter) (op : Operation) (a b : Value) (ty : TokenType)
    (e : RuntimeError) (h : i.evalBinary op a b ty = .error e) : e ≠ .maxStepsExceeded := by
  cases op <;> simp only [Interpreter.evalBinary] at h <;> (repeat' split at h) <;>
    first
    | exact evalFloatArith_err _ _ _ _ h
    | exact evalIntArith_err _ _ _ _ h
    | exact evalFloatCompare_err _ _ _ _ h
    | exact evalIntCompare_err _ _ _ _ h
    | (injection h with h; subst h
       first
       | exact AsFloat64_err _ _ (by assumption)
       | exact AsInt64_err _ _ (by assumption)
       | exact AsBool_err _ _ (by assumption)
       | simp)
    | cases h

theorem parseImmediate_err (imm : Str) (e : RuntimeError) (h : parseImmediate imm = .error e) :
    e ≠ .maxStepsExceeded := by
  unfold parseImmediate at h
  split at h
  · cases h; simp
  · simp only at h
    split at h
    · cases h
    · split at h
      · cases h
      · split at h
        · cases h
        · split at h
          · cases h
          · split at h
            · cases h
            · cases h; simp

theorem loadOperand_err (i : Interpreter) (op : Arg) (ty : TokenType) (e : RuntimeError)
    (h : i.loadOperand op ty = .error e) : e ≠ .maxStepsExceeded := by
  unfold Interpreter.loadOperand at h
  split at h
  · split at h
    · exact parseImmediate_err _ _ h
    · cases h; simp
  · simp only at h
    split at h
    · split at h <;> cases h
    · cases h
  · cases h; simp

theorem updateFrame_ctl (i : Interpreter) (g : Frame → Frame) :
    (i.updateFrame g).steps = i.steps ∧ (i.updateFrame g).maxSteps = i.maxSteps := by
  unfold Interpreter.updateFrame
  split <;> exact ⟨rfl, rfl⟩

theorem SetPC_ctl (i : Interpreter) (pc : Int) :
    (i.SetPC pc).steps = i.steps ∧ (i.SetPC pc).maxSteps = i.maxSteps := by
  unfold Interpreter.SetPC
  split
  · exact updateFrame_ctl _ _
  · exact ⟨rfl, rfl⟩

theorem SetVar_ctl (i : Interpreter) (a : Int) (v : Value) :
    (i.SetVar a v).steps = i.steps ∧ (i.SetVar a v).maxSteps = i.maxSteps := by
  unfold Interpreter.SetVar
  split
  · split
    · exact updateFrame_ctl _ _
    · split
      · exact updateFrame_ctl _ _
      · exact ⟨rfl, rfl⟩
  · exact ⟨rfl, rfl⟩

theorem ConsumeArg_ctl (i : Interpreter) (p : Int) :
    (i.ConsumeArg p).2.steps = i.steps ∧ (i.ConsumeArg p).2.maxSteps = i.maxSteps := by
  unfold Interpreter.ConsumeArg
  split <;> exact ⟨rfl, rfl⟩

theorem PopFrame_ctl (i : Interpreter) :
    i.PopFrame.2.steps = i.steps ∧ i.PopFrame.2.maxSteps = i.maxSteps := by
  unfold Interpreter.PopFrame
  split <;> exact ⟨rfl, rfl⟩

theorem bindArgs_ctl (n : Nat) : ∀ (p : Int) (i : Interpreter),
    (Interpreter.bindArgs n p i).steps = i.steps ∧
    (Interpreter.bindArgs n p i).maxSteps = i.maxSteps := by
  induction n with
  | zero => intro p i; exact ⟨rfl, rfl⟩
  | succ n ih =>
    intro p i
    simp only [Interpreter.bindArgs]
    rw [(ih _ _).1, (ih _ _).2, (updateFrame_ctl _ _).1, (updateFrame_ctl _ _).2]
    exact ConsumeArg_ctl i p

/-- A step of `coreStep` neither reads nor writes the step counter and the step limit. -/
theorem coreStep_ctl (i : Interpreter) :
    (coreStep i).1.steps = i.steps ∧ (coreStep i).1.maxSteps = i.maxSteps := by
  have hp := PopFrame_ctl i
  cases hpop : i.PopFrame with
  | mk o i1 =>
  rw [hpop] at hp
  simp only at hp
  cases o <;> simp only [coreStep, hpop] <;> split <;> (try exact ⟨rfl, rfl⟩) <;>
    split <;> (repeat' split) <;>
      first
      | exact ⟨rfl, rfl⟩
      | exact SetPC_ctl _ _
      | exact ⟨(SetPC_ctl _ _).1.trans (SetVar_ctl _ _ _).1,
               (SetPC_ctl _ _).2.trans (SetVar_ctl _ _ _).2⟩
      | exact ⟨(SetPC_ctl _ _).1.trans (bindArgs_ctl _ _ _).1,
               (SetPC_ctl _ _).2.trans (bindArgs_ctl _ _ _).2⟩
      | exact ⟨(SetPC_ctl _ _).1.trans hp.1, (SetPC_ctl _ _).2.trans hp.2⟩
      | exact ⟨(SetPC_ctl _ _).1.trans ((updateFrame_ctl _ _).1.trans hp.1),
               (SetPC_ctl _ _).2.trans ((updateFrame_ctl _ _).2.trans hp.2)⟩

/-- The error of a step of `coreStep`, if any, is not the one of the step limit. -/
theorem coreStep_err (i : Interpreter) (e : RuntimeError) (h : (coreStep i).2.2 = some e) :
    e ≠ .maxStepsExceeded := by
  unfold coreStep at h
  simp only at h
  split at h
  · cases h
  · split at h <;> (repeat' split at h) <;> cases h <;>
      first
      | exact loadOperand_err _ _ _ _ (by assumption)
      | exact evalBinary_err _ _ _ _ _ _ (by assumption)
      | exact AsBool_err _ _ (by assumption)
      | (rename_i hq
         split at hq
         · exact loadOperand_err _ _ _ _ hq
         · cases hq)

theorem Step_below_limit (i : Interpreter) (h : ¬ (i.maxSteps > 0 ∧ i.steps ≥ i.maxSteps)) :
    i.Step = ({ (coreStep i).1 with steps := (coreStep i).1.steps + 1 },
      (coreStep i).2.1, (coreStep i).2.2) := by
  simp only [Interpreter.Step, if_neg h]

/-- With a limit `m > 0` and `k = m - steps` steps left, `Run` returns within `k + 1` calls of
`Step`, and returns the error of the limit exactly when `k` calls were not enough. -/
theorem Run_limit (m : Int) (hm : 0 < m) : ∀ (k : Nat) (i : Interpreter),
    i.maxSteps = m → i.steps + k = m →
    ∃ r, i.Run (k + 1) = .ok r ∧ r.1.steps ≤ m ∧
      (r.2 = some .maxStepsExceeded ↔ i.Run k = .error .outOfFuel) := by
  intro k
  induction k with
  | zero =>
    intro i hmax hs
    have hc : i.maxSteps > 0 ∧ i.steps ≥ i.maxSteps := by
      rw [hmax]; constructor
      · exact hm
      · simp at hs; omega
    refine ⟨(i, some .maxStepsExceeded), ?_, ?_, ?_⟩
    · simp [Interpreter.Run, Interpreter.Step, hc]
    · simp at hs; simp only; omega
    · simp [Interpreter.Run]
  | succ k ih =>
    intro i hmax hs
    have hc : ¬ (i.maxSteps > 0 ∧ i.steps ≥ i.maxSteps) := by
      rw [hmax]; push_cast at hs; omega
    have hst := Step_below_limit i hc
    have hctl := coreStep_ctl i
    have hih := ih { (coreStep i).1 with steps := (coreStep i).1.steps + 1 }
      (by simp only; rw [hctl.2, hmax])
      (by simp only; rw [hctl.1]; push_cast at hs; omega)
    cases he : (coreStep i).2.2 with
    | some e =>
      have hne := coreStep_err i e he
      refine ⟨({ (coreStep i).1 with steps := (coreStep i).1.steps + 1 }, some e), ?_, ?_, ?_⟩
      · simp only [Interpreter.Run, hst, he]
      · simp only; rw [hctl.1]; push_cast at hs; omega
      · simp only [Interpreter.Run, hst, he]
        constructor
        · intro h; injection h with h; exact absurd h hne
        · intro h; cases h
    | none =>
      cases hh : (coreStep i).2.1 with
      | true =>
        refine ⟨({ (coreStep i).1 with steps := (coreStep i).1.steps + 1 }, none), ?_, ?_, ?_⟩
        · simp only [Interpreter.Run, hst, he, hh, if_true]
        · simp only; rw [hctl.1]; push_cast at hs; omega
        · simp only [Interpreter.Run, hst, he, hh, if_true]
          constructor
          · intro h; cases h
          · intro h; cases h
      | false =>
        obtain ⟨r, h1, h2, h3⟩ := hih
        refine ⟨r, ?_, h2, ?_⟩
        · rw [← h1]
          simp only [Interpreter.Run, hst, he, hh, Bool.false_eq_true, if_false]
        · rw [h3]
          have : i.Run (k + 1) =
              Interpreter.Run k { (coreStep i).1 with steps := (coreStep i).1.steps + 1 } := by
            simp only [Interpreter.Run, hst, he, hh, Bool.false_eq_true, if_false]
          rw [this]

/-- Without a limit `Run` does not return the error of the limit. -/
theorem Run_unlimited : ∀ (fuel : Nat) (i : Interpreter), i.maxSteps = 0 →
    ∀ r, i.Run fuel = .ok r → r.2 ≠ some .maxStepsExceeded := by
  intro fuel
  induction fuel with
  | zero => intro i _ r h; simp [Interpreter.Run] at h
  | succ k ih =>
    intro i hmax r h
    have hc : ¬ (i.maxSteps > 0 ∧ i.steps ≥ i.maxSteps) := by rw [hmax]; omega
    have hst := Step_below_limit i hc
    have hctl := coreStep_ctl i
    cases he : (coreStep i).2.2 with
    | some e =>
      have hne := coreStep_err i e he
      simp only [Interpreter.Run, hst, he] at h
      cases h
      intro h; injection h with h; exact absurd h hne
    | none =>
      cases hh : (coreStep i).2.1 with
      | true =>
        simp only [Interpreter.Run, hst, he, hh, if_true] at h
        cases h
        intro h; cases h
      | false =>
        simp only [Interpreter.Run, hst, he, hh, Bool.false_eq_true, if_false] at h
        exact ih _ (by simp only; rw [hctl.2, hmax]) r h

/-! ## `Peek` -/

theorem signedNumber_input (l : Lexer) (r : Token × Lexer) (h : l.signedNumber = some r) :
    r.2.input = l.input := by
  unfold Lexer.signedNumber at h
  split at h
  · split at h
    · simp only at h
      split at h
      · cases h; rfl
      · cases h
    · cases h
  · cases h

theorem nextTokenFuel_input (fuel : Nat) : ∀ l : Lexer,
    (Lexer.nextTokenFuel fuel l).2.input = l.input := by
  induction fuel with
  | zero => intro l; rfl
  | succ n ih =>
    intro l
    simp only [Lexer.nextTokenFuel]
    split
    · rfl
    · split
      · rename_i r hr
        exact (signedNumber_input _ _ hr).trans (skipWhitespace_input l)
      · split
        · split
          · rw [ih]; rfl
          · rfl
        · rfl

/-- C22: `Peek` returns the token an immediately following `NextToken` returns and leaves
the lexer as it was (input, position, line, column and previous token), so a repeated
`Peek` returns the same token. -/
theorem C22_Peek (l : Lexer) :
    l.Peek.2 = l ∧ l.Peek.1 = l.Peek.2.NextToken.1 ∧ l.Peek.2.Peek.1 = l.Peek.1 := by
  have h : l.Peek.2 = l := by
    have hi : l.NextToken.2.input = l.input := nextTokenFuel_input _ l
    cases l with
    | mk input position line column currentToken =>
      simp only [Lexer.Peek] at hi ⊢
      rw [hi]
  refine ⟨h, ?_, ?_⟩
  · rw [h]; rfl
  · rw [h]

/-! ## Numbers -/

theorem takeWhile_digits (d rest : Str) (hd : ∀ x ∈ d, isDigit x = true)
    (hr : ∀ x, rest.head? = some x → isDigit x = false) :
    (d ++ rest).takeWhile isDigit = d ∧ (d ++ rest).dropWhile isDigit = rest := by
  induction d with
  | nil =>
    cases rest with
    | nil => simp
    | cons x r =>
      have := hr x rfl
      simp [List.takeWhile, List.dropWhile, this]
  | cons a d ih =>
    have ha := hd a (List.mem_cons_self _ _)
    have := ih (fun x hx => hd x (List.mem_cons_of_mem _ hx))
    simp [List.takeWhile, List.dropWhile, ha, this.1, this.2]

theorem fracFind_whole (fd e : Str) (hfd : ∀ x ∈ fd, isDigit x = true) (hne : fd ≠ [])
    (he : ∀ x, e.head? = some x → isDigit x = false) :
    fracFind (46 :: fd ++ e) = 46 :: fd := by
  have h := (takeWhile_digits fd e hfd he).1
  cases fd with
  | nil => exact absurd rfl hne
  | cons a r =>
    simp only [fracFind, List.cons_append] at h ⊢
    simp [h]

theorem fracFind_none (e : Str) (he : ∀ x, e.head? = some x → x ≠ 46) : fracFind e = [] := by
  cases e with
  | nil => rfl
  | cons x r =>
    have := he x rfl
    simp [fracFind, this]

theorem expFind_whole (c : Nat) (sign ed : Str) (hc : c = 101 ∨ c = 69)
    (hs : sign = [] ∨ sign = [43] ∨ sign = [45])
    (hed : ∀ x ∈ ed, isDigit x = true) (hne : ed ≠ []) :
    expFind (c :: sign ++ ed) = c :: sign ++ ed := by
  have h := (takeWhile_digits ed [] hed (by intro x hx; cases hx)).1
  rw [List.append_nil] at h
  cases ed with
  | nil => exact absurd rfl hne
  | cons a r =>
    have ha := (isDigit_iff a).1 (hed a (List.mem_cons_self _ _))
    have hc' : (c == 101 || c == 69) = true := by
      rcases hc with rfl | rfl <;> rfl
    rcases hs with rfl | rfl | rfl
    · have h43 : (a == 43 || a == 45) = false := by
        have h1 : (a == 43) = false := by simp; omega
        have h2 : (a == 45) = false := by simp; omega
        rw [h1, h2]; rfl
      simp only [expFind, List.nil_append, List.cons_append, hc', h43, if_true, h]
      simp
    · simp only [expFind, List.cons_append, List.nil_append, hc', if_true, h]
      simp
    · simp only [expFind, List.cons_append, List.nil_append, hc', if_true, h]
      simp

/-- C26: a string that as a whole is digits, optionally `.` and digits, optionally `e` or `E`,
an optional sign and digits, is matched by `MatchToken` as one `NUM` whose lexeme is the whole
string. -/
theorem C26_number_whole (d f e : Str)
    (hd : d ≠ [] ∧ ∀ x ∈ d, isDigit x = true)
    (hf : f = [] ∨ ∃ fd, fd ≠ [] ∧ (∀ x ∈ fd, isDigit x = true) ∧ f = 46 :: fd)
    (he : e = [] ∨ ∃ c sign ed, (c = 101 ∨ c = 69) ∧ (sign = [] ∨ sign = [43] ∨ sign = [45]) ∧
      ed ≠ [] ∧ (∀ x ∈ ed, isDigit x = true) ∧ e = c :: sign ++ ed) :
    MatchToken (d ++ f ++ e) = (.NUM, d ++ f ++ e, true) := by
  -- the first byte of `e`, if any, is `e` or `E`
  have he0 : ∀ x, e.head? = some x → x = 101 ∨ x = 69 := by
    intro x hx
    rcases he with rfl | ⟨c, sign, ed, hc, _, _, _, rfl⟩
    · cases hx
    · simp at hx; subst hx; exact hc
  have he1 : ∀ x, e.head? = some x → isDigit x = false := by
    intro x hx
    cases hdg : isDigit x with
    | false => rfl
    | true =>
      have := (isDigit_iff x).1 hdg
      rcases he0 x hx with rfl | rfl <;> omega
  have hfe : ∀ x, (f ++ e).head? = some x → isDigit x = false := by
    intro x hx
    rcases hf with rfl | ⟨fd, _, _, rfl⟩
    · exact he1 x hx
    · simp at hx; subst hx; rfl
  have hfrac : fracFind (f ++ e) = f := by
    rcases hf with rfl | ⟨fd, hne, hfd, rfl⟩
    · apply fracFind_none
      intro x hx
      rcases he0 x hx with rfl | rfl <;> decide
    · exact fracFind_whole fd e hfd hne he1
  have hexp : expFind e = e := by
    rcases he with rfl | ⟨c, sign, ed, hc, hs, hne, hed, rfl⟩
    · rfl
    · exact expFind_whole c sign ed hc hs hed hne
  have htw := takeWhile_digits d (f ++ e) hd.2 hfe
  have hnum : numFind (d ++ f ++ e) = d ++ f ++ e := by
    have hne : d.isEmpty = false := by
      cases d with
      | nil => exact absurd rfl hd.1
      | cons a r => rfl
    simp only [numFind, List.append_assoc, htw.1, htw.2, hne, hfrac, List.drop_left, hexp]
    simp
  cases d with
  | nil => exact absurd rfl hd.1
  | cons a r =>
    have ha := hd.2 a (List.mem_cons_self _ _)
    have := MatchToken_digit a (r ++ f ++ e) ha
    simp only [List.cons_append, List.append_assoc] at this hnum ⊢
    rw [this, hnum]

theorem C26_number_whole_witness :
    MatchToken (bs "12" ++ bs ".5" ++ bs "e-3") = (.NUM, bs "12" ++ bs ".5" ++ bs "e-3", true) :=
  C26_number_whole (bs "12") (bs ".5") (bs "e-3") ⟨by decide, by decide⟩
    (Or.inr ⟨bs "5", by decide, by decide, rfl⟩)
    (Or.inr ⟨101, [45], bs "3", Or.inl rfl, Or.inr (Or.inr rfl), by decide, by decide, rfl⟩)

/-- C25: on the input `@x` the first token is `ILLEGAL` with lexeme `@`, and its position is
line 1, column 2, offset 1: the position after the byte, where the input holds `x`, while
the lexeme's first byte is at offset 0, column 1.  `NextToken` reads `currentPosition()`
after `advance(1)` on this path and before `advance` on every other. -/
theorem C25_illegal_position_after_byte :
    (NewLexer (bs "@x")).NextToken.1 = ⟨.ILLEGAL, bs "@", [], ⟨1, 2, 1⟩⟩ ∧
    ((bs "@x").drop 1).take 1 = bs "x" ∧
    ((NewLexer (bs "@x")).NextToken.2.NextToken).1 = ⟨.ID, bs "x", bs "x", ⟨1, 2, 1⟩⟩ := by
  decide

/-! ## Position, line and column -/

/-- Line and column after one more byte `ch` behind the prefix `pre`. -/
theorem line_col_snoc (pre : Str) (ch : Nat) :
    (1 + (pre ++ [ch]).count 10 = if ch = 10 then 1 + pre.count 10 + 1 else 1 + pre.count 10) ∧
    (1 + ((pre ++ [ch]).reverse.takeWhile (fun x => x != 10)).length =
      if ch = 10 then 1 else 1 + (pre.reverse.takeWhile (fun x => x != 10)).length + 1) := by
  by_cases h : ch = 10
  · subst h; simp [List.count_append, List.takeWhile]; omega
  · have h1 : (ch != 10) = true := by simp [h]
    have h2 : ¬ (10 = ch) := fun e => h e.symm
    simp [List.count_append, List.takeWhile, h, h1, h2, List.count_cons]
    omega

theorem skipFrom_inv (rest : Str) : ∀ (b : Bool) (pre : Str) (pos line col : Nat),
    pos = pre.length → line = 1 + pre.count 10 →
    col = 1 + (pre.reverse.takeWhile (fun x => x != 10)).length →
    ∃ k, k ≤ rest.length ∧
      skipFrom b rest pos line col =
        (pos + k, 1 + (pre ++ rest.take k).count 10,
          1 + ((pre ++ rest.take k).reverse.takeWhile (fun x => x != 10)).length) := by
  induction rest with
  | nil =>
    intro b pre pos line col hp hl hc
    refine ⟨0, le_refl _, ?_⟩
    cases b <;> simp [skipFrom, hl, hc]
  | cons ch r ih =>
    intro b pre pos line col hp hl hc
    have hs := line_col_snoc pre ch
    -- consuming `ch` and going on with flag `b'`
    have step : ∀ b', ∃ k, k ≤ (ch :: r).length ∧
        skipFrom b' r (pos + 1) (if ch = 10 then line + 1 else line)
            (if ch = 10 then 1 else col + 1) =
          (pos + k, 1 + (pre ++ (ch :: r).take k).count 10,
            1 + ((pre ++ (ch :: r).take k).reverse.takeWhile (fun x => x != 10)).length) := by
      intro b'
      obtain ⟨k, hk, e⟩ := ih b' (pre ++ [ch]) (pos + 1) (if ch = 10 then line + 1 else line)
        (if ch = 10 then 1 else col + 1) (by simp [hp])
        (by rw [hs.1, hl]) (by rw [hs.2, hc])
      refine ⟨k + 1, by simp; omega, ?_⟩
      rw [e]
      simp [List.take, Nat.add_assoc, Nat.add_comm 1 k]
    have stop : ∃ k, k ≤ (ch :: r).length ∧
        (pos, line, col) =
          (pos + k, 1 + (pre ++ (ch :: r).take k).count 10,
            1 + ((pre ++ (ch :: r).take k).reverse.takeWhile (fun x => x != 10)).length) :=
      ⟨0, Nat.zero_le _, by simp [hl, hc]⟩
    cases b with
    | true =>
      simp only [skipFrom]
      by_cases h10 : ch = 10
      · have := step false; simp only [h10, if_true] at this ⊢; exact this
      · have := step true; simp only [h10, if_false] at this ⊢; exact this
    | false =>
      simp only [skipFrom]
      split
      · by_cases h10 : ch = 10
        · have := step false; simp only [h10, if_true] at this ⊢; exact this
        · have := step false; simp only [h10, if_false] at this ⊢; exact this
      · split
        · rename_i h47
          have h10 : ¬ ch = 10 := by
            intro e; subst e; simp at h47
          have := step true; simp only [h10, if_false] at this ⊢; exact this
        · exact stop

theorem advanceFrom_inv (n : Nat) : ∀ (rest pre : Str) (pos line col : Nat),
    pos = pre.length → line = 1 + pre.count 10 →
    col = 1 + (pre.reverse.takeWhile (fun x => x != 10)).length →
    advanceFrom n rest pos line col =
      (pos + min n rest.length, 1 + (pre ++ rest.take n).count 10,
        1 + ((pre ++ rest.take n).reverse.takeWhile (fun x => x != 10)).length) := by
  induction n with
  | zero => intro rest pre pos line col hp hl hc; simp [advanceFrom, hl, hc]
  | succ n ih =>
    intro rest pre pos line col hp hl hc
    cases rest with
    | nil => simp [advanceFrom, hl, hc]
    | cons ch r =>
      have hs := line_col_snoc pre ch
      have e := ih r (pre ++ [ch]) (pos + 1) (if ch = 10 then line + 1 else line)
        (if ch = 10 then 1 else col + 1) (by simp [hp])
        (by rw [hs.1, hl]) (by rw [hs.2, hc])
      simp only [advanceFrom]
      by_cases h10 : ch = 10
      · simp only [h10, if_true] at e ⊢
        rw [e]; simp [List.take]; omega
      · simp only [h10, if_false] at e ⊢
        rw [e]; simp [List.take]; omega

/-- The invariant of C24 for a lexer over the input `s`. -/
theorem inv_move (s : Str) (l : Lexer) (k : Nat) (hin : l.input = s)
    (hpos : l.position ≤ s.length) (hk : k ≤ l.remaining.length) :
    s.take l.position ++ l.remaining.take k = s.take (l.position + k) ∧
    l.position + k ≤ s.length := by
  unfold Lexer.remaining at hk ⊢
  rw [hin] at hk ⊢
  constructor
  · rw [List.take_add]
  · simp at hk; omega

theorem skipWhitespace_inv (s : Str) (l : Lexer) (hin : l.input = s)
    (h : l.position ≤ s.length ∧ l.line = 1 + (s.take l.position).count 10 ∧
      l.column = 1 + ((s.take l.position).reverse.takeWhile (fun x => x != 10)).length) :
    l.skipWhitespace.position ≤ s.length ∧
    l.skipWhitespace.line = 1 + (s.take l.skipWhitespace.position).count 10 ∧
    l.skipWhitespace.column =
      1 + ((s.take l.skipWhitespace.position).reverse.takeWhile (fun x => x != 10)).length := by
  obtain ⟨k, hk, e⟩ := skipFrom_inv l.remaining false (s.take l.position) l.position l.line
    l.column (by simp [h.1]) h.2.1 h.2.2
  have hm := inv_move s l k hin h.1 hk
  simp only [Lexer.skipWhitespace, e, hm.1]
  exact ⟨hm.2, trivial, trivial⟩

theorem advance_inv (s : Str) (l : Lexer) (n : Nat) (hin : l.input = s)
    (h : l.position ≤ s.length ∧ l.line = 1 + (s.take l.position).count 10 ∧
      l.column = 1 + ((s.take l.position).reverse.takeWhile (fun x => x != 10)).length) :
    (l.advance n).position ≤ s.length ∧
    (l.advance n).line = 1 + (s.take (l.advance n).position).count 10 ∧
    (l.advance n).column =
      1 + ((s.take (l.advance n).position).reverse.takeWhile (fun x => x != 10)).length := by
  have e := advanceFrom_inv n l.remaining (s.take l.position) l.position l.line
    l.column (by simp [h.1]) h.2.1 h.2.2
  have hk : min n l.remaining.length ≤ l.remaining.length := Nat.min_le_right _ _
  have hm := inv_move s l (min n l.remaining.length) hin h.1 hk
  have ht : l.remaining.take n = l.remaining.take (min n l.remaining.length) := by
    by_cases c : n ≤ l.remaining.length
    · rw [Nat.min_eq_left c]
    · rw [Nat.min_eq_right (by omega), List.take_of_length_le (by omega),
        List.take_of_length_le (le_refl _)]
  rw [ht] at e
  simp only [Lexer.advance, e, hm.1]
  exact ⟨hm.2, trivial, trivial⟩

theorem signedNumber_eq (l : Lexer) (r : Token × Lexer) (h : l.signedNumber = some r) :
    ∃ n, r.2 = { l.advance n with currentToken := r.1 } := by
  unfold Lexer.signedNumber at h
  split at h
  · split at h
    · simp only at h
      split at h
      · cases h; exact ⟨_, rfl⟩
      · cases h
    · cases h
  · cases h

theorem nextTokenFuel_inv (s : Str) (fuel : Nat) : ∀ l : Lexer, l.input = s →
    (l.position ≤ s.length ∧ l.line = 1 + (s.take l.position).count 10 ∧
      l.column = 1 + ((s.take l.position).reverse.takeWhile (fun x => x != 10)).length) →
    ((Lexer.nextTokenFuel fuel l).2.position ≤ s.length ∧
      (Lexer.nextTokenFuel fuel l).2.line =
        1 + (s.take (Lexer.nextTokenFuel fuel l).2.position).count 10 ∧
      (Lexer.nextTokenFuel fuel l).2.column =
        1 + ((s.take (Lexer.nextTokenFuel fuel l).2.position).reverse.takeWhile
          (fun x => x != 10)).length) := by
  induction fuel with
  | zero => intro l _ h; exact h
  | succ n ih =>
    intro l hin h
    have hw := skipWhitespace_inv s l hin h
    have hwin : l.skipWhitespace.input = s := hin
    simp only [Lexer.nextTokenFuel]
    split
    · exact hw
    · split
      · rename_i r hr
        obtain ⟨k, hk⟩ := signedNumber_eq _ _ hr
        rw [hk]
        exact advance_inv s _ k hwin hw
      · split
        · split
          · exact ih _ hwin (advance_inv s _ _ hwin hw)
          · exact advance_inv s _ 1 hwin hw
        · exact advance_inv s _ _ hwin hw

theorem Peek_state (l : Lexer) : l.Peek.2 = l := by
  have hi : l.NextToken.2.input = l.input := nextTokenFuel_input _ l
  cases l with
  | mk input position line column currentToken =>
    simp only [Lexer.Peek] at hi ⊢
    rw [hi]

theorem Reachable_input (s : Str) (l : Lexer) (h : Lexer.Reachable s l) : l.input = s := by
  induction h with
  | init => rfl
  | next l _ ih => exact (nextTokenFuel_input _ l).trans ih
  | peek l _ ih => rw [Peek_state]; exact ih

/-- C24: in every lexer state reachable from `NewLexer(s)` by `NextToken` and `Peek` calls the
position is at most `len(s)`, the line is 1 plus the number of newline bytes in
`s[0:position]`, and the column is 1 plus the number of bytes of `s[0:position]` behind its
last newline (behind the start of `s` when it has none). -/
theorem C24_line_column (s : Str) (l : Lexer) (h : Lexer.Reachable s l) :
    l.position ≤ s.length ∧
    l.line = 1 + (s.take l.position).count 10 ∧
    l.column = 1 + ((s.take l.position).reverse.takeWhile (fun x => x != 10)).length := by
  induction h with
  | init => simp [NewLexer]
  | next l hl ih => exact nextTokenFuel_inv s _ l (Reachable_input s l hl) ih
  | peek l _ ih => rw [Peek_state]; exact ih

theorem C24_line_column_witness :
    (NewLexer (bs "a\nbc d")).NextToken.2.NextToken.2.position ≤ (bs "a\nbc d").length ∧
    (NewLexer (bs "a\nbc d")).NextToken.2.NextToken.2.line =
      1 + ((bs "a\nbc d").take
        (NewLexer (bs "a\nbc d")).NextToken.2.NextToken.2.position).count 10 ∧
    (NewLexer (bs "a\nbc d")).NextToken.2.NextToken.2.column =
      1 + (((bs "a\nbc d").take
        (NewLexer (bs "a\nbc d")).NextToken.2.NextToken.2.position).reverse.takeWhile
          (fun x => x != 10)).length :=
  C24_line_column (bs "a\nbc d") _ (.next _ (.next _ .init))

/-! ## Progress of `NextToken` -/

theorem skipFrom_pos (rest : Str) : ∀ (b : Bool) (pos line col : Nat),
    pos ≤ (skipFrom b rest pos line col).1 ∧
    (skipFrom b rest pos line col).1 ≤ pos + rest.length := by
  induction rest with
  | nil => intro b pos line col; cases b <;> simp [skipFrom]
  | cons ch r ih =>
    intro b pos line col
    cases b with
    | true =>
      simp only [skipFrom]
      split
      · have := ih false (pos + 1) (line + 1) 1
        simp only [List.length_cons]; omega
      · have := ih true (pos + 1) line (col + 1)
        simp only [List.length_cons]; omega
    | false =>
      simp only [skipFrom]
      split
      · split
        · have := ih false (pos + 1) (line + 1) 1
          simp only [List.length_cons]; omega
        · have := ih false (pos + 1) line (col + 1)
          simp only [List.length_cons]; omega
      · split
        · have := ih true (pos + 1) line (col + 1)
          simp only [List.length_cons]; omega
        · simp

theorem remaining_length (l : Lexer) : l.remaining.length = l.input.length - l.position := by
  simp [Lexer.remaining]

theorem skipWhitespace_position (l : Lexer) :
    l.position ≤ l.skipWhitespace.position ∧
    l.skipWhitespace.position ≤ l.position + l.remaining.length :=
  skipFrom_pos l.remaining false l.position l.line l.column

theorem skipWhitespace_at_end (l : Lexer) (h : l.input.length ≤ l.position) :
    l.skipWhitespace = l := by
  have : l.remaining = [] := by
    unfold Lexer.remaining; exact List.drop_eq_nil_of_le h
  simp [Lexer.skipWhitespace, this, skipFrom]

theorem matchOrder_matched (ts : List TokenType) (s : Str) :
    (matchOrder ts s).2.2 = true → (matchOrder ts s).2.1 ≠ [] ∧ (matchOrder ts s).1 ∈ ts := by
  induction ts with
  | nil => intro h; simp [matchOrder] at h
  | cons t ts ih =>
    intro h
    simp only [matchOrder] at h ⊢
    split
    · rename_i he
      rw [if_pos he] at h
      exact ⟨(ih h).1, List.mem_cons_of_mem _ (ih h).2⟩
    · rename_i he
      refine ⟨?_, List.mem_cons_self _ _⟩
      intro e
      have e' : findString t s = [] := e
      rw [e'] at he; exact he rfl

/-- A match of `MatchToken` has a non-empty lexeme. -/
theorem MatchToken_matched (s : Str) (h : (MatchToken s).2.2 = true) :
    (MatchToken s).2.1 ≠ [] := by
  unfold MatchToken at h ⊢
  split
  · rename_i h1; rw [if_pos h1] at h; cases h
  · rename_i h1
    rw [if_neg h1] at h
    split
    · rename_i h2
      intro e; simp only at e; rw [e] at h2; simp at h2
    · rename_i h2
      rw [if_neg h2] at h
      split
      · rename_i h3
        intro e; simp only at e; rw [e] at h3; simp at h3
      · rename_i h3
        rw [if_neg h3] at h
        exact (matchOrder_matched _ _ h).1

theorem signedNumber_spec (l : Lexer) (r : Token × Lexer) (h : l.signedNumber = some r) :
    ∃ n, 1 ≤ n ∧ r.2 = { l.advance n with currentToken := r.1 } ∧ r.1.Typ = .NUM ∧
      l.remaining ≠ [] := by
  unfold Lexer.signedNumber at h
  split at h
  · rename_i c d rest hrem
    split at h
    · simp only at h
      split at h
      · cases h
        refine ⟨_, ?_, rfl, rfl, ?_⟩
        · simp
        · rw [hrem]; simp
      · cases h
    · cases h
  · cases h

/-- The result of `NextToken` does not depend on the fuel, once there is more fuel than
input left. -/
theorem nextTokenFuel_fuel (n : Nat) : ∀ (l : Lexer) (m : Nat),
    l.remaining.length < n → l.remaining.length < m →
    Lexer.nextTokenFuel n l = Lexer.nextTokenFuel m l := by
  induction n with
  | zero => intro l m hn _; omega
  | succ n ih =>
    intro l m hn hm
    cases m with
    | zero => omega
    | succ m =>
      simp only [Lexer.nextTokenFuel]
      split
      · rfl
      · rename_i hpos
        split
        · rfl
        · split
          · split
            · rename_i hm1
              have hw := skipWhitespace_position l
              have hr := advance_remaining l.skipWhitespace
                (MatchToken l.skipWhitespace.remaining).2.1.length
              have hne : (MatchToken l.skipWhitespace.remaining).2.1.length ≠ 0 := by
                intro e
                have : (MatchToken l.skipWhitespace.remaining).2.1 = [] :=
                  List.length_eq_zero.1 e
                rw [this] at hm1; simp at hm1
              have hlen : (l.skipWhitespace.advance
                  (MatchToken l.skipWhitespace.remaining).2.1.length).remaining.length <
                  l.remaining.length := by
                have h1 := remaining_length l
                have h2 := remaining_length l.skipWhitespace
                rw [skipWhitespace_input] at h2
                have hpos' : ¬ (l.input.length ≤ l.skipWhitespace.position) := hpos
                rw [hr, List.length_drop]
                omega
              exact ih _ m (by omega) (by omega)
            · rfl
          · rfl

theorem nextTokenFuel_progress (n : Nat) : ∀ l : Lexer, l.remaining.length < n →
    ((Lexer.nextTokenFuel n l).1.Typ ≠ .EOF →
      l.position + 1 ≤ (Lexer.nextTokenFuel n l).2.position) ∧
    ((Lexer.nextTokenFuel n l).1.Typ = .EOF →
      l.input.length ≤ (Lexer.nextTokenFuel n l).2.position) ∧
    (l.position ≤ l.input.length → (Lexer.nextTokenFuel n l).2.position ≤ l.input.length) := by
  induction n with
  | zero => intro l h; omega
  | succ n ih =>
    intro l hn
    have hw := skipWhitespace_position l
    have h1 := remaining_length l
    have h2 := remaining_length l.skipWhitespace
    rw [skipWhitespace_input] at h2
    simp only [Lexer.nextTokenFuel]
    split
    · rename_i hpos
      have hpos' : l.input.length ≤ l.skipWhitespace.position := hpos
      refine ⟨fun h => absurd rfl h, fun _ => hpos', fun hle => ?_⟩
      show l.skipWhitespace.position ≤ l.input.length
      omega
    · rename_i hpos
      have hpos' : ¬ (l.input.length ≤ l.skipWhitespace.position) := hpos
      split
      · rename_i r hr
        obtain ⟨k, hk, e, ht, _⟩ := signedNumber_spec _ _ hr
        have hp : r.2.position = l.skipWhitespace.position +
            min k l.skipWhitespace.remaining.length := by
          rw [e]; exact advance_position _ _
        refine ⟨fun _ => ?_, fun h => ?_, fun hle => ?_⟩
        · rw [hp]; omega
        · rw [ht] at h; cases h
        · rw [hp]; omega
      · split
        · split
          · rename_i hm1
            have hr := advance_remaining l.skipWhitespace
              (MatchToken l.skipWhitespace.remaining).2.1.length
            have hp := advance_position l.skipWhitespace
              (MatchToken l.skipWhitespace.remaining).2.1.length
            have hlen : (l.skipWhitespace.advance
                (MatchToken l.skipWhitespace.remaining).2.1.length).remaining.length < n := by
              rw [hr, List.length_drop]
              have hne : (MatchToken l.skipWhitespace.remaining).2.1.length ≠ 0 := by
                intro e
                have : (MatchToken l.skipWhitespace.remaining).2.1 = [] :=
                  List.length_eq_zero.1 e
                rw [this] at hm1; simp at hm1
              omega
            have := ih _ hlen
            rw [advance_input, skipWhitespace_input] at this
            refine ⟨fun h => ?_, fun h => this.2.1 h, fun hle => ?_⟩
            · have := this.1 h; omega
            · apply this.2.2; rw [hp]; omega
          · have hp := advance_position l.skipWhitespace 1
            refine ⟨fun _ => ?_, fun h => ?_, fun hle => ?_⟩
            · show l.position + 1 ≤ (l.skipWhitespace.advance 1).position
              rw [hp]; omega
            · cases h
            · show (l.skipWhitespace.advance 1).position ≤ l.input.length
              rw [hp]; omega
        · rename_i hm
          have hmt : (MatchToken l.skipWhitespace.remaining).2.2 = true ∧
              (MatchToken l.skipWhitespace.remaining).1 ≠ .EOF := by
            simp at hm; exact hm
          have hne := MatchToken_matched _ hmt.1
          have hl : (MatchToken l.skipWhitespace.remaining).2.1.length ≠ 0 := by
            intro e; exact hne (List.length_eq_zero.1 e)
          have hp := advance_position l.skipWhitespace
            (MatchToken l.skipWhitespace.remaining).2.1.length
          refine ⟨fun _ => ?_, fun h => absurd h hmt.2, fun hle => ?_⟩
          · show l.position + 1 ≤ (l.skipWhitespace.advance _).position
            rw [hp]; omega
          · show (l.skipWhitespace.advance _).position ≤ l.input.length
            rw [hp]; omega

theorem NextToken_progress (l : Lexer) :
    (l.NextToken.1.Typ ≠ .EOF → l.position + 1 ≤ l.NextToken.2.position) ∧
    (l.NextToken.1.Typ = .EOF → l.input.length ≤ l.NextToken.2.position) ∧
    (l.position ≤ l.input.length → l.NextToken.2.position ≤ l.input.length) :=
  nextTokenFuel_progress _ l (by rw [remaining_length]; omega)

theorem NextToken_at_end (l : Lexer) (h : l.input.length ≤ l.position) :
    l.NextToken = (NewToken .EOF [] [] l.currentPosition,
      { l with currentToken := NewToken .EOF [] [] l.currentPosition }) := by
  unfold Lexer.NextToken
  simp only [Lexer.nextTokenFuel, skipWhitespace_at_end l h, h, if_true]

theorem iterate_at_end (k : Nat) : ∀ l : Lexer, l.input.length ≤ l.position →
    ((fun x : Lexer => x.NextToken.2)^[k] l).NextToken.1.Typ = .EOF := by
  induction k with
  | zero => intro l h; simp [NextToken_at_end l h, NewToken]
  | succ k ih =>
    intro l h
    rw [Function.iterate_succ_apply]
    apply ih
    rw [NextToken_at_end l h]
    exact h

theorem tokensFuel_spec (fuel : Nat) : ∀ l : Lexer, l.position ≤ l.input.length →
    l.input.length - l.position < fuel →
    ∃ ts t, tokensFuel fuel l = ts ++ [t] ∧ t.Typ = .EOF ∧ (∀ x ∈ ts, x.Typ ≠ .EOF) ∧
      ts.length ≤ l.input.length - l.position := by
  induction fuel with
  | zero => intro l _ h; omega
  | succ n ih =>
    intro l hle hf
    have hp := NextToken_progress l
    have hin : l.NextToken.2.input = l.input := nextTokenFuel_input _ l
    simp only [tokensFuel]
    by_cases he : l.NextToken.1.Typ = .EOF
    · rw [if_pos he]
      exact ⟨[], l.NextToken.1, rfl, he, by simp, by simp⟩
    · rw [if_neg he]
      have h1 := hp.1 he
      have h2 := hp.2.2 hle
      obtain ⟨ts, t, e, ht, hall, hlen⟩ := ih l.NextToken.2 (by rw [hin]; exact h2)
        (by rw [hin]; omega)
      refine ⟨l.NextToken.1 :: ts, t, by rw [e]; rfl, ht, ?_, ?_⟩
      · intro x hx
        rcases List.mem_cons.1 hx with rfl | hx
        · exact he
        · exact hall x hx
      · rw [hin] at hlen; simp only [List.length_cons]; omega

theorem matchOrder_unmatched (ts : List TokenType) (s : Str) :
    (matchOrder ts s).2.2 = false → (matchOrder ts s).1 = .ILLEGAL := by
  induction ts with
  | nil => intro _; rfl
  | cons t ts ih =>
    intro h
    simp only [matchOrder] at h ⊢
    split
    · rename_i he; rw [if_pos he] at h; exact ih h
    · rename_i he; rw [if_neg he] at h; cases h

theorem MatchToken_unmatched (b : Nat) (r : Str) (h : (MatchToken (b :: r)).2.2 = false) :
    (MatchToken (b :: r)).1 = .ILLEGAL := by
  unfold MatchToken at h ⊢
  have h0 : ¬ ((b :: r).isEmpty = true) := by simp
  rw [if_neg h0] at h ⊢
  split
  · rename_i h2; rw [if_pos h2] at h; cases h
  · rename_i h2
    rw [if_neg h2] at h
    split
    · rename_i h3; rw [if_pos h3] at h; cases h
    · rename_i h3
      rw [if_neg h3] at h
      exact matchOrder_unmatched _ _ h

theorem NextToken_illegal (l : Lexer) (b : Nat) (r : Str)
    (h : l.skipWhitespace.remaining = b :: r) (hm : (MatchToken (b :: r)).2.2 = false) :
    l.NextToken.1.Typ = .ILLEGAL ∧ l.NextToken.1.Lexeme = utf8 b ∧
    l.NextToken.2.position = l.skipWhitespace.position + 1 := by
  have hpos := remaining_cons_position _ _ _ h
  have hb : b ≠ 45 := by
    intro e; subst e; rw [MatchToken_minus] at hm; cases hm
  have hs : l.skipWhitespace.signedNumber = none := by
    unfold Lexer.signedNumber
    rw [h]
    cases r with
    | nil => rfl
    | cons d r => simp [hb]
  have hp := advance_position l.skipWhitespace 1
  rw [h] at hp
  have hty := MatchToken_unmatched b r hm
  simp only [Lexer.NextToken, Lexer.nextTokenFuel, hpos, if_false, hs, h, hm, hty]
  simp [NewToken, hp]

/-- C23: `NextToken` returns a token and makes progress.  Its result does not depend on the
fuel of its recursion once the fuel exceeds the input length (the recursion ends); a
non-EOF token moves the position forward by at least one byte; a byte that starts no lexical
form (no pattern of `MatchToken` matches at it) is returned as `ILLEGAL` with the
one-character lexeme `string(byte)` while the position moves exactly one byte past it; the
tokens of an input of `n` bytes are at most `n` non-EOF tokens followed by EOF; and every call
after a call that returned EOF returns EOF again. -/
theorem C23_progress (s : Str) (l : Lexer) :
    (∀ fuel, l.input.length + 1 ≤ fuel → Lexer.nextTokenFuel fuel l = l.NextToken) ∧
    (l.NextToken.1.Typ ≠ .EOF → l.position + 1 ≤ l.NextToken.2.position) ∧
    (∀ b r, l.skipWhitespace.remaining = b :: r → (MatchToken (b :: r)).2.2 = false →
      l.NextToken.1.Typ = .ILLEGAL ∧ l.NextToken.1.Lexeme = utf8 b ∧
      l.NextToken.2.position = l.skipWhitespace.position + 1) ∧
    (∃ ts t, tokenize s = ts ++ [t] ∧ t.Typ = .EOF ∧ (∀ x ∈ ts, x.Typ ≠ .EOF) ∧
      ts.length ≤ s.length) ∧
    (l.NextToken.1.Typ = .EOF →
      ∀ k, ((fun x : Lexer => x.NextToken.2)^[k] l.NextToken.2).NextToken.1.Typ = .EOF) := by
  refine ⟨?_, (NextToken_progress l).1, NextToken_illegal l, ?_, ?_⟩
  · intro fuel hf
    exact nextTokenFuel_fuel fuel l _ (by rw [remaining_length]; omega)
      (by rw [remaining_length]; omega)
  · exact tokensFuel_spec _ (NewLexer s) (Nat.zero_le _) (by simp [NewLexer])
  · intro he k
    apply iterate_at_end
    have hin : l.NextToken.2.input = l.input := nextTokenFuel_input _ l
    rw [hin]
    exact (NextToken_progress l).2.1 he

theorem C23_progress_witness :
    (NewLexer (bs "@")).NextToken.1.Typ = .ILLEGAL ∧
    (NewLexer (bs "@")).NextToken.1.Lexeme = utf8 64 ∧
    (NewLexer (bs "@")).NextToken.2.position = (NewLexer (bs "@")).skipWhitespace.position + 1 :=
  (C23_progress (bs "@") (NewLexer (bs "@"))).2.2.1 64 [] (by decide) (by decide)

/-! ## Comments -/

theorem skipFrom_shift (rest : Str) : ∀ (b : Bool) (pos line col k j : Nat),
    skipFrom b rest (pos + k) (line + j) col =
      ((skipFrom b rest pos line col).1 + k, (skipFrom b rest pos line col).2.1 + j,
        (skipFrom b rest pos line col).2.2) := by
  induction rest with
  | nil => intro b pos line col k j; cases b <;> rfl
  | cons ch r ih =>
    intro b pos line col k j
    have e1 : pos + k + 1 = pos + 1 + k := by omega
    have e2 : line + j + 1 = line + 1 + j := by omega
    cases b with
    | true =>
      simp only [skipFrom]
      split
      · rw [e1, e2, ih]
      · rw [e1, ih]
    | false =>
      simp only [skipFrom]
      split
      · split
        · rw [e1, e2, ih]
        · rw [e1, ih]
      · split
        · rw [e1, ih]
        · rfl

theorem advanceFrom_shift (n : Nat) : ∀ (rest : Str) (pos line col k j : Nat),
    advanceFrom n rest (pos + k) (line + j) col =
      ((advanceFrom n rest pos line col).1 + k, (advanceFrom n rest pos line col).2.1 + j,
        (advanceFrom n rest pos line col).2.2) := by
  induction n with
  | zero => intro rest pos line col k j; rfl
  | succ n ih =>
    intro rest pos line col k j
    have e1 : pos + k + 1 = pos + 1 + k := by omega
    have e2 : line + j + 1 = line + 1 + j := by omega
    cases rest with
    | nil => rfl
    | cons ch r =>
      simp only [advanceFrom]
      split
      · rw [e1, e2, ih]
      · rw [e1, ih]

theorem skipWhitespace_remaining (l : Lexer) :
    l.skipWhitespace.remaining = l.remaining.drop (l.skipWhitespace.position - l.position) := by
  have hw := skipWhitespace_position l
  unfold Lexer.remaining
  rw [skipWhitespace_input, List.drop_drop]
  congr 1
  omega

theorem behind_skipWhitespace (k : Nat) (a b : Lexer) (h : Lexer.behind k a b) :
    Lexer.behind k a.skipWhitespace b.skipWhitespace := by
  obtain ⟨hr, hp, hl, hc, ht⟩ := h
  have e : skipFrom false a.remaining a.position a.line a.column =
      ((skipFrom false b.remaining b.position b.line b.column).1 + k,
       (skipFrom false b.remaining b.position b.line b.column).2.1 + 1,
       (skipFrom false b.remaining b.position b.line b.column).2.2) := by
    rw [hr, hp, hl, hc]; exact skipFrom_shift _ _ _ _ _ _ _
  have p1 : a.skipWhitespace.position = b.skipWhitespace.position + k := by
    simp only [Lexer.skipWhitespace, e]
  have hwb := skipWhitespace_position b
  refine ⟨?_, p1, ?_, ?_, ht⟩
  · rw [skipWhitespace_remaining, skipWhitespace_remaining, p1, hp, hr]
    congr 1
    omega
  · simp only [Lexer.skipWhitespace, e]
  · simp only [Lexer.skipWhitespace, e]

theorem behind_advance (k n : Nat) (a b : Lexer) (t u : Token) (h : Lexer.behind k a b)
    (htu : t.Typ = u.Typ) :
    Lexer.behind k { a.advance n with currentToken := t } { b.advance n with currentToken := u } := by
  obtain ⟨hr, hp, hl, hc, ht⟩ := h
  have e : advanceFrom n a.remaining a.position a.line a.column =
      ((advanceFrom n b.remaining b.position b.line b.column).1 + k,
       (advanceFrom n b.remaining b.position b.line b.column).2.1 + 1,
       (advanceFrom n b.remaining b.position b.line b.column).2.2) := by
    rw [hr, hp, hl, hc]; exact advanceFrom_shift _ _ _ _ _ _ _
  have ra : ({ a.advance n with currentToken := t } : Lexer).remaining = (a.advance n).remaining :=
    rfl
  have rb : ({ b.advance n with currentToken := u } : Lexer).remaining = (b.advance n).remaining :=
    rfl
  refine ⟨?_, ?_, ?_, ?_, htu⟩
  · rw [ra, rb, advance_remaining, advance_remaining, hr]
  · simp only [Lexer.advance, e]
  · simp only [Lexer.advance, e]
  · simp only [Lexer.advance, e]

theorem behind_at_end (k : Nat) (a b : Lexer) (h : Lexer.behind k a b) :
    (a.input.length ≤ a.position) ↔ (b.input.length ≤ b.position) := by
  have ha := remaining_length a
  have hb := remaining_length b
  rw [h.1] at ha
  omega

theorem behind_signedNumber (k : Nat) (a b : Lexer) (h : Lexer.behind k a b) :
    (a.signedNumber = none ∧ b.signedNumber = none) ∨
    (∃ lexeme : Str,
      a.signedNumber = some (NewToken .NUM lexeme lexeme a.currentPosition,
        { a.advance lexeme.length with
            currentToken := NewToken .NUM lexeme lexeme a.currentPosition }) ∧
      b.signedNumber = some (NewToken .NUM lexeme lexeme b.currentPosition,
        { b.advance lexeme.length with
            currentToken := NewToken .NUM lexeme lexeme b.currentPosition })) := by
  obtain ⟨hr, hp, hl, hc, ht⟩ := h
  have hu : a.prevAllowsUnary = b.prevAllowsUnary := by
    simp only [Lexer.prevAllowsUnary, ht]
  unfold Lexer.signedNumber
  rw [hr, hu]
  cases hb : b.remaining with
  | nil => exact Or.inl ⟨rfl, rfl⟩
  | cons c r =>
    cases r with
    | nil => exact Or.inl ⟨rfl, rfl⟩
    | cons d rest =>
      simp only
      by_cases c1 : (decide (c = 45) && b.prevAllowsUnary && isDigit d) = true
      · rw [if_pos c1, if_pos c1]
        by_cases c2 : ((MatchToken (d :: rest)).2.2 && decide ((MatchToken (d :: rest)).1 = .NUM)
            && !(MatchToken (d :: rest)).2.1.isEmpty) = true
        · rw [if_pos c2, if_pos c2]
          exact Or.inr ⟨_, rfl, rfl⟩
        · rw [if_neg c2, if_neg c2]
          exact Or.inl ⟨rfl, rfl⟩
      · rw [if_neg c1, if_neg c1]
        exact Or.inl ⟨rfl, rfl⟩

theorem behind_currentPosition (k : Nat) (a b : Lexer) (h : Lexer.behind k a b) :
    a.currentPosition.Line = b.currentPosition.Line + 1 ∧
    a.currentPosition.Column = b.currentPosition.Column :=
  ⟨h.2.2.1, h.2.2.2.1⟩

theorem behind_nextTokenFuel (k : Nat) (n : Nat) : ∀ a b : Lexer,
    Lexer.behind k a.skipWhitespace b.skipWhitespace →
    b.skipWhitespace.remaining.length < n →
    Token.lineBelow (Lexer.nextTokenFuel n a).1 (Lexer.nextTokenFuel n b).1 ∧
    Lexer.behind k (Lexer.nextTokenFuel n a).2 (Lexer.nextTokenFuel n b).2 := by
  induction n with
  | zero => intro a b _ h; omega
  | succ n ih =>
    intro a b h hn
    have hend := behind_at_end k _ _ h
    have hcp := behind_currentPosition k _ _ h
    simp only [Lexer.nextTokenFuel]
    by_cases hb : b.skipWhitespace.input.length ≤ b.skipWhitespace.position
    · rw [if_pos hb, if_pos (hend.2 hb)]
      refine ⟨⟨rfl, rfl, rfl, hcp.1, hcp.2⟩, ?_⟩
      exact ⟨h.1, h.2.1, h.2.2.1, h.2.2.2.1, rfl⟩
    · rw [if_neg hb, if_neg (fun x => hb (hend.1 x))]
      rcases behind_signedNumber k _ _ h with ⟨sa, sb⟩ | ⟨lexeme, sa, sb⟩
      · rw [sa, sb]
        simp only
        rw [h.1]
        by_cases c1 : (!(MatchToken b.skipWhitespace.remaining).2.2 ||
            decide ((MatchToken b.skipWhitespace.remaining).1 = .EOF)) = true
        · rw [if_pos c1, if_pos c1]
          by_cases c2 : (decide ((MatchToken b.skipWhitespace.remaining).1 = .EOF) &&
              !(MatchToken b.skipWhitespace.remaining).2.1.isEmpty) = true
          · rw [if_pos c2, if_pos c2]
            have hadv := behind_advance k (MatchToken b.skipWhitespace.remaining).2.1.length
              _ _ a.skipWhitespace.currentToken b.skipWhitespace.currentToken h h.2.2.2.2
            have hne : (MatchToken b.skipWhitespace.remaining).2.1.length ≠ 0 := by
              intro e
              have : (MatchToken b.skipWhitespace.remaining).2.1 = [] :=
                List.length_eq_zero.1 e
              rw [this] at c2; simp at c2
            apply ih _ _ (behind_skipWhitespace k _ _ hadv)
            show (b.skipWhitespace.advance
              (MatchToken b.skipWhitespace.remaining).2.1.length).skipWhitespace.remaining.length < n
            have h1 := skipWhitespace_position (b.skipWhitespace.advance
              (MatchToken b.skipWhitespace.remaining).2.1.length)
            have h2 := remaining_length (b.skipWhitespace.advance
              (MatchToken b.skipWhitespace.remaining).2.1.length)
            have h3 := remaining_length (b.skipWhitespace.advance
              (MatchToken b.skipWhitespace.remaining).2.1.length).skipWhitespace
            rw [skipWhitespace_input] at h3
            have h4 := advance_remaining b.skipWhitespace
              (MatchToken b.skipWhitespace.remaining).2.1.length
            have h5 : (b.skipWhitespace.advance
                (MatchToken b.skipWhitespace.remaining).2.1.length).remaining.length =
                b.skipWhitespace.remaining.length -
                  (MatchToken b.skipWhitespace.remaining).2.1.length := by
              rw [h4, List.length_drop]
            have h6 := remaining_length b.skipWhitespace
            have hb' : ¬ (b.skipWhitespace.input.length ≤ b.skipWhitespace.position) := hb
            omega
          · rw [if_neg c2, if_neg c2]
            have hh : a.skipWhitespace.remaining.headD 0 = b.skipWhitespace.remaining.headD 0 := by
              rw [h.1]
            simp only [hh]
            have hadv := behind_advance k 1 _ _ a.skipWhitespace.currentToken
              b.skipWhitespace.currentToken h h.2.2.2.2
            have hcp1 := behind_currentPosition k _ _ hadv
            refine ⟨⟨rfl, rfl, rfl, hcp1.1, hcp1.2⟩, ?_⟩
            exact behind_advance k 1 _ _ _ _ h rfl
        · rw [if_neg c1, if_neg c1]
          refine ⟨⟨rfl, rfl, rfl, hcp.1, hcp.2⟩, ?_⟩
          exact behind_advance k _ _ _ _ _ h rfl
      · rw [sa, sb]
        refine ⟨⟨rfl, rfl, rfl, hcp.1, hcp.2⟩, ?_⟩
        exact behind_advance k _ _ _ _ _ h rfl

theorem behind_tokensFuel (k : Nat) (n1 : Nat) : ∀ (n2 : Nat) (a b : Lexer),
    Lexer.behind k a.skipWhitespace b.skipWhitespace →
    a.input.length - a.position < n1 → b.input.length - b.position < n2 →
    List.Forall₂ Token.lineBelow (tokensFuel n1 a) (tokensFuel n2 b) := by
  induction n1 with
  | zero => intro n2 a b _ h; omega
  | succ n1 ih =>
    intro n2 a b h h1 h2
    cases n2 with
    | zero => omega
    | succ n2 =>
      have ha : a.NextToken = Lexer.nextTokenFuel (a.input.length + b.input.length + 1) a :=
        nextTokenFuel_fuel _ a _ (by rw [remaining_length]; omega)
          (by rw [remaining_length]; omega)
      have hb : b.NextToken = Lexer.nextTokenFuel (a.input.length + b.input.length + 1) b :=
        nextTokenFuel_fuel _ b _ (by rw [remaining_length]; omega)
          (by rw [remaining_length]; omega)
      have hsim := behind_nextTokenFuel k (a.input.length + b.input.length + 1) a b h (by
        have := remaining_length b.skipWhitespace
        rw [skipWhitespace_input] at this
        omega)
      rw [← ha, ← hb] at hsim
      obtain ⟨htok, hst⟩ := hsim
      simp only [tokensFuel]
      by_cases he : b.NextToken.1.Typ = .EOF
      · have he' : a.NextToken.1.Typ = .EOF := htok.1.trans he
        rw [if_pos he, if_pos he']
        exact List.Forall₂.cons htok List.Forall₂.nil
      · have he' : ¬ a.NextToken.1.Typ = .EOF := fun x => he (htok.1.symm.trans x)
        rw [if_neg he, if_neg he']
        refine List.Forall₂.cons htok (ih _ _ _ (behind_skipWhitespace k _ _ hst) ?_ ?_)
        · have hp := (NextToken_progress a).1 he'
          have hin : a.NextToken.2.input = a.input := nextTokenFuel_input _ a
          rw [hin]
          by_cases c : a.input.length ≤ a.position
          · rw [NextToken_at_end a c] at he'; exact absurd rfl he'
          · omega
        · have hp := (NextToken_progress b).1 he
          have hin : b.NextToken.2.input = b.input := nextTokenFuel_input _ b
          rw [hin]
          by_cases c : b.input.length ≤ b.position
          · rw [NextToken_at_end b c] at he; exact absurd rfl he
          · omega

theorem skipFrom_comment (c s : Str) (hc : ∀ x ∈ c, x ≠ 10) : ∀ pos line col : Nat,
    skipFrom true (c ++ 10 :: s) pos line col = skipFrom false s (pos + c.length + 1) (line + 1) 1 := by
  induction c with
  | nil => intro pos line col; simp [skipFrom]
  | cons x r ih =>
    intro pos line col
    have hx := hc x (List.mem_cons_self _ _)
    simp only [List.cons_append, skipFrom, if_neg hx]
    show skipFrom true (r ++ 10 :: s) _ _ _ = _
    rw [ih (fun y hy => hc y (List.mem_cons_of_mem _ hy))]
    simp only [List.length_cons]
    congr 1
    omega

theorem NextToken_skip_end (l : Lexer)
    (h : l.skipWhitespace.input.length ≤ l.skipWhitespace.position) :
    l.NextToken.1.Typ = .EOF := by
  unfold Lexer.NextToken
  simp only [Lexer.nextTokenFuel, if_pos h]
  rfl

theorem tokensFuel_eof (n : Nat) (l : Lexer) (h : l.NextToken.1.Typ = .EOF) :
    tokensFuel (n + 1) l = [l.NextToken.1] := by
  simp only [tokensFuel, if_pos h]

theorem skipFrom_comment_end (c : Str) (hc : ∀ x ∈ c, x ≠ 10) : ∀ pos line col : Nat,
    (skipFrom true c pos line col).1 = pos + c.length := by
  induction c with
  | nil => intro pos line col; rfl
  | cons x r ih =>
    intro pos line col
    have hx := hc x (List.mem_cons_self _ _)
    simp only [skipFrom, if_neg hx]
    rw [ih (fun y hy => hc y (List.mem_cons_of_mem _ hy))]
    simp only [List.length_cons]
    omega

theorem lineBelow_map (xs ys : List Token) (h : List.Forall₂ Token.lineBelow xs ys) :
    xs.map (fun t => (t.Typ, t.Lexeme, t.Pos.Line)) =
      ys.map (fun t => (t.Typ, t.Lexeme, t.Pos.Line + 1)) := by
  induction h with
  | nil => rfl
  | cons hab _ ih =>
    simp only [List.map_cons, ih]
    obtain ⟨h1, h2, _, h4, _⟩ := hab
    rw [h1, h2, h4]

/-- C27: a line comment contributes no token.  For every input `s` and every newline-free
`c`, tokenizing `"//" + c + "\n" + s` gives the kinds and lexemes of tokenizing `s`, each
token one line further down; and tokenizing `"//" + c` alone gives only EOF. -/
theorem C27_comment_no_token (c s : Str) (hc : ∀ x ∈ c, x ≠ 10) :
    (tokenize (47 :: 47 :: c ++ 10 :: s)).map (fun t => (t.Typ, t.Lexeme, t.Pos.Line)) =
      (tokenize s).map (fun t => (t.Typ, t.Lexeme, t.Pos.Line + 1)) ∧
    (tokenize (47 :: 47 :: c)).map (fun t => t.Typ) = [.EOF] := by
  constructor
  · apply lineBelow_map
    unfold tokenize
    apply behind_tokensFuel (c.length + 3)
    · -- the two lexers after their first `skipWhitespace`
      have e : skipFrom false (47 :: 47 :: c ++ 10 :: s) 0 1 1 =
          ((skipFrom false s 0 1 1).1 + (c.length + 3), (skipFrom false s 0 1 1).2.1 + 1,
            (skipFrom false s 0 1 1).2.2) := by
        have h1 : skipFrom false (47 :: 47 :: c ++ 10 :: s) 0 1 1 =
            skipFrom true (c ++ 10 :: s) 2 1 3 := by
          simp [skipFrom]
        rw [h1, skipFrom_comment c s hc]
        have := skipFrom_shift s false 0 1 1 (c.length + 3) 1
        simp only [Nat.zero_add] at this
        rw [← this]
        congr 1
        omega
      have hp : (NewLexer (47 :: 47 :: c ++ 10 :: s)).skipWhitespace.position =
          (NewLexer s).skipWhitespace.position + (c.length + 3) := by
        simp only [Lexer.skipWhitespace, NewLexer, Lexer.remaining, List.drop_zero, e]
      refine ⟨?_, hp, ?_, ?_, rfl⟩
      · unfold Lexer.remaining
        rw [hp]
        have : (47 :: 47 :: c ++ 10 :: s) = (47 :: 47 :: c ++ [10]) ++ s := by simp
        show List.drop _ (47 :: 47 :: c ++ 10 :: s) = List.drop _ s
        rw [this]
        have hl : (47 :: 47 :: c ++ [10]).length = c.length + 3 := by simp
        rw [Nat.add_comm, ← hl, List.drop_append]
      · simp only [Lexer.skipWhitespace, NewLexer, Lexer.remaining, List.drop_zero, e]
      · simp only [Lexer.skipWhitespace, NewLexer, Lexer.remaining, List.drop_zero, e]
    · simp [NewLexer]
    · simp [NewLexer]
  · have hpos : (NewLexer (47 :: 47 :: c)).skipWhitespace.position = c.length + 2 := by
      have h1 : skipFrom false (47 :: 47 :: c) 0 1 1 = skipFrom true c 2 1 3 := by
        cases c <;> simp [skipFrom]
      simp only [Lexer.skipWhitespace, NewLexer, Lexer.remaining, List.drop_zero, h1]
      rw [skipFrom_comment_end c hc]; omega
    have hend : (NewLexer (47 :: 47 :: c)).skipWhitespace.input.length ≤
        (NewLexer (47 :: 47 :: c)).skipWhitespace.position := by
      rw [hpos]
      show (47 :: 47 :: c).length ≤ c.length + 2
      simp
    have ht := NextToken_skip_end _ hend
    unfold tokenize
    rw [tokensFuel_eof _ _ ht]
    simp only [List.map_cons, List.map_nil, ht]

theorem C27_comment_no_token_witness :
    (tokenize (47 :: 47 :: bs " note" ++ 10 :: bs "x = 1;")).map
        (fun t => (t.Typ, t.Lexeme, t.Pos.Line)) =
      (tokenize (bs "x = 1;")).map (fun t => (t.Typ, t.Lexeme, t.Pos.Line + 1)) ∧
    (tokenize (47 :: 47 :: bs " note")).map (fun t => t.Typ) = [.EOF] :=
  C27_comment_no_token (bs " note") (bs "x = 1;") (by decide)

/-! ## Longest match -/

theorem prefix_takeWhile (f : Nat → Bool) (p s : Str) (hp : p <+: s)
    (hall : ∀ x ∈ p, f x = true) : p <+: s.takeWhile f := by
  induction p generalizing s with
  | nil => exact List.nil_prefix
  | cons a p ih =>
    obtain ⟨t, rfl⟩ := hp
    have ha := hall a (List.mem_cons_self _ _)
    simp only [List.cons_append, List.takeWhile_cons, ha, if_true]
    exact (List.prefix_cons_inj a).2
      (ih (p ++ t) (List.prefix_append _ _) (fun x hx => hall x (List.mem_cons_of_mem _ hx)))

theorem takeWhile_prefix_self (f : Nat → Bool) (s : Str) : s.takeWhile f <+: s :=
  List.takeWhile_prefix f

theorem takeWhile_all (f : Nat → Bool) (s : Str) : ∀ x ∈ s.takeWhile f, f x = true := by
  intro x hx
  exact List.mem_takeWhile_imp hx

/-- The word at the start of a text that begins with a letter. -/
theorem idFind_letter (c : Nat) (r : Str) (hc : isLetter c = true) :
    idFind (c :: r) = (c :: r).takeWhile isWordByte := by
  have hw : isWordByte c = true := (isWordByte_iff c).2 (Or.inl hc)
  simp [idFind, hc, List.takeWhile_cons, hw]

/-- A keyword pattern on a text: the keyword, if it is the whole word at the start. -/
theorem kwFind_word (kw s : Str) (hne : kw ≠ []) (hkw : ∀ x ∈ kw, isWordByte x = true) :
    kwFind kw s = if s.takeWhile isWordByte = kw then kw else [] := by
  unfold kwFind
  by_cases hp : startsWith s kw = true
  · rw [if_pos hp]
    obtain ⟨rest, rfl⟩ := (startsWith_iff s kw).1 hp
    have hd : (kw ++ rest).drop kw.length = rest := List.drop_left _ _
    rw [hd]
    have htw : (kw ++ rest).takeWhile isWordByte = kw ++ rest.takeWhile isWordByte := by
      rw [List.takeWhile_append_of_pos hkw]
    rw [htw]
    cases rest with
    | nil => simp
    | cons x xs =>
      simp only
      cases hx : isWordByte x with
      | true => simp [List.takeWhile_cons, hx]
      | false => simp [List.takeWhile_cons, hx]
  · rw [if_neg hp]
    have : ¬ (s.takeWhile isWordByte = kw) := by
      intro e
      apply hp
      rw [startsWith_iff, ← e]
      exact List.takeWhile_prefix _
    rw [if_neg this]

theorem strBody_cons (c : Nat) (r : Str) :
    strBody (c :: r) =
      if c = 34 then some 1
      else if c = 92 then
        match r with
        | [] => none
        | d :: r' => if d = 10 then none else (strBody r').map (· + 2)
      else (strBody r).map (· + 1) := by
  cases r with
  | nil => simp [strBody]
  | cons d r' => simp [strBody]

theorem strBody_complete (body : Str) (h : StrItems body) :
    ∀ rest, strBody (body ++ 34 :: rest) = some (body.length + 1) := by
  induction h with
  | nil => intro rest; simp [strBody_cons]
  | plain c r h1 h2 _ ih =>
    intro rest
    simp only [List.cons_append, strBody_cons, if_neg h1, if_neg h2, ih rest]
    simp
  | esc d r h1 _ ih =>
    intro rest
    have h92 : ¬ ((92 : Nat) = 34) := by decide
    rw [List.cons_append, List.cons_append, strBody_cons, if_neg h92, if_pos rfl]
    simp only [if_neg h1, ih rest]
    simp

theorem strBody_sound (k : Nat) : ∀ (r : Str) (n : Nat), r.length ≤ k → strBody r = some n →
    ∃ body, r.take n = body ++ [34] ∧ StrItems body := by
  induction k with
  | zero =>
    intro r n hk h
    have : r = [] := List.length_eq_zero.1 (Nat.le_zero.1 hk)
    subst this; simp [strBody] at h
  | succ k ih =>
    intro r n hk h
    cases r with
    | nil => simp [strBody] at h
    | cons c r =>
      rw [strBody_cons] at h
      by_cases h34 : c = 34
      · rw [if_pos h34] at h
        cases h
        exact ⟨[], by simp [h34], StrItems.nil⟩
      · rw [if_neg h34] at h
        by_cases h92 : c = 92
        · rw [if_pos h92] at h
          cases r with
          | nil => simp at h
          | cons d r' =>
            simp only at h
            by_cases h10 : d = 10
            · rw [if_pos h10] at h; cases h
            · rw [if_neg h10] at h
              cases hb : strBody r' with
              | none => rw [hb] at h; cases h
              | some m =>
                rw [hb] at h
                simp at h
                subst h
                obtain ⟨body, e, hi⟩ := ih r' m (by simp at hk; omega) hb
                refine ⟨92 :: d :: body, ?_, ?_⟩
                · simp [List.take, e, h92]
                · exact StrItems.esc d body h10 hi
        · rw [if_neg h92] at h
          cases hb : strBody r with
          | none => rw [hb] at h; cases h
          | some m =>
            rw [hb] at h
            simp at h
            subst h
            obtain ⟨body, e, hi⟩ := ih r m (by simp at hk; omega) hb
            refine ⟨c :: body, ?_, ?_⟩
            · simp [List.take, e]
            · exact StrItems.plain c body h34 h92 hi

theorem strFind_complete (s p : Str) (hp : p <+: s)
    (h : ∃ body, p = 34 :: body ++ [34] ∧ StrItems body) : strFind s = p := by
  obtain ⟨body, rfl, hi⟩ := h
  obtain ⟨t, rfl⟩ := hp
  have hb := strBody_complete body hi t
  have e : (34 :: body ++ [34]) ++ t = 34 :: (body ++ 34 :: t) := by simp
  rw [e]
  simp only [strFind, if_true, hb]
  have : (34 :: (body ++ 34 :: t)).take (body.length + 1 + 1) =
      34 :: body ++ [34] := by
    have e2 : 34 :: (body ++ 34 :: t) = (34 :: body ++ [34]) ++ t := by simp
    rw [e2]
    have hl : (34 :: body ++ [34]).length = body.length + 1 + 1 := by simp
    rw [← hl, List.take_left]
  exact this

theorem strFind_sound (s : Str) (h : strFind s ≠ []) :
    strFind s <+: s ∧ ∃ body, strFind s = 34 :: body ++ [34] ∧ StrItems body := by
  cases s with
  | nil => simp [strFind] at h
  | cons c r =>
    simp only [strFind] at h ⊢
    by_cases h34 : c = 34
    · rw [if_pos h34] at h ⊢
      cases hb : strBody r with
      | none => rw [hb] at h; exact absurd rfl h
      | some n =>
        simp only
        refine ⟨List.take_prefix _ _, ?_⟩
        obtain ⟨body, e, hi⟩ := strBody_sound r.length r n (le_refl _) hb
        exact ⟨body, by simp [List.take, e, h34], hi⟩
    · rw [if_neg h34] at h; exact absurd rfl h

theorem strFind_head (s : Str) (h : strFind s ≠ []) : s.head? = some 34 := by
  cases s with
  | nil => simp [strFind] at h
  | cons c r =>
    by_cases h34 : c = 34
    · simp [h34]
    · simp [strFind, h34] at h

theorem fracFind_spec (r : Str) :
    (fracFind r = [] ∨
      ∃ fd, fd ≠ [] ∧ (∀ x ∈ fd, isDigit x = true) ∧ fracFind r = 46 :: fd) ∧
    fracFind r <+: r := by
  cases r with
  | nil => exact ⟨Or.inl rfl, List.prefix_refl _⟩
  | cons c r =>
    simp only [fracFind]
    by_cases h46 : (c == 46) = true
    · rw [if_pos h46]
      have hc : c = 46 := by simpa using h46
      by_cases he : (r.takeWhile isDigit).isEmpty = true
      · rw [if_pos he]; exact ⟨Or.inl rfl, List.nil_prefix⟩
      · rw [if_neg he]
        refine ⟨Or.inr ⟨r.takeWhile isDigit, ?_, takeWhile_all _ _, by rw [hc]⟩, ?_⟩
        · intro e; rw [e] at he; exact he rfl
        · exact (List.prefix_cons_inj c).2 (List.takeWhile_prefix _)
    · rw [if_neg h46]; exact ⟨Or.inl rfl, List.nil_prefix⟩

theorem expFind_spec (r : Str) :
    (expFind r = [] ∨
      ∃ c sign ed, (c = 101 ∨ c = 69) ∧ (sign = [] ∨ sign = [43] ∨ sign = [45]) ∧
        ed ≠ [] ∧ (∀ x ∈ ed, isDigit x = true) ∧ expFind r = c :: sign ++ ed) ∧
    expFind r <+: r := by
  cases r with
  | nil => exact ⟨Or.inl rfl, List.prefix_refl _⟩
  | cons e r =>
    simp only [expFind]
    by_cases he : (e == 101 || e == 69) = true
    · rw [if_pos he]
      have he' : e = 101 ∨ e = 69 := by simpa using he
      cases r with
      | nil => exact ⟨Or.inl rfl, List.nil_prefix⟩
      | cons c r' =>
        simp only
        by_cases hs : (c == 43 || c == 45) = true
        · rw [if_pos hs]
          have hs' : c = 43 ∨ c = 45 := by simpa using hs
          by_cases hd : (r'.takeWhile isDigit).isEmpty = true
          · rw [if_pos hd]; exact ⟨Or.inl rfl, List.nil_prefix⟩
          · rw [if_neg hd]
            refine ⟨Or.inr ⟨e, [c], r'.takeWhile isDigit, he', ?_, ?_, takeWhile_all _ _, rfl⟩, ?_⟩
            · rcases hs' with rfl | rfl
              · exact Or.inr (Or.inl rfl)
              · exact Or.inr (Or.inr rfl)
            · intro x; rw [x] at hd; exact hd rfl
            · exact (List.prefix_cons_inj e).2
                ((List.prefix_cons_inj c).2 (List.takeWhile_prefix _))
        · rw [if_neg hs]
          by_cases hd : ((c :: r').takeWhile isDigit).isEmpty = true
          · rw [if_pos hd]; exact ⟨Or.inl rfl, List.nil_prefix⟩
          · rw [if_neg hd]
            refine ⟨Or.inr ⟨e, [], (c :: r').takeWhile isDigit, he', Or.inl rfl, ?_,
              takeWhile_all _ _, rfl⟩, ?_⟩
            · intro x; rw [x] at hd; exact hd rfl
            · exact (List.prefix_cons_inj e).2 (List.takeWhile_prefix _)
    · rw [if_neg he]; exact ⟨Or.inl rfl, List.nil_prefix⟩

theorem numFind_eq (s : Str) (h : (s.takeWhile isDigit).isEmpty = false) :
    numFind s = s.takeWhile isDigit ++ fracFind (s.dropWhile isDigit) ++
      expFind ((s.dropWhile isDigit).drop (fracFind (s.dropWhile isDigit)).length) := by
  simp only [numFind, h, Bool.false_eq_true, if_false]

theorem numFind_sound (s : Str) (h : numFind s ≠ []) : numFind s <+: s ∧ NumShape (numFind s) := by
  have hd : (s.takeWhile isDigit).isEmpty = false := by
    cases hx : (s.takeWhile isDigit).isEmpty with
    | false => rfl
    | true => simp [numFind, hx] at h
  rw [numFind_eq s hd]
  have hf := fracFind_spec (s.dropWhile isDigit)
  have he := expFind_spec ((s.dropWhile isDigit).drop (fracFind (s.dropWhile isDigit)).length)
  constructor
  · have e1 : s = s.takeWhile isDigit ++ s.dropWhile isDigit :=
      (List.takeWhile_append_dropWhile _ _).symm
    obtain ⟨t1, ht1⟩ := hf.2
    have e2 : (s.dropWhile isDigit).drop (fracFind (s.dropWhile isDigit)).length = t1 := by
      have aux : ∀ (F r1 : Str), F ++ t1 = r1 → r1.drop F.length = t1 := by
        intro F r1 hh; rw [← hh]; exact List.drop_left _ _
      exact aux _ _ ht1
    rw [e2]
    rw [e2] at he
    obtain ⟨t2, ht2⟩ := he.2
    refine ⟨t2, ?_⟩
    conv_rhs => rw [e1, ← ht1, ← ht2]
    simp
  · refine ⟨_, _, _, rfl, ?_, takeWhile_all _ _, hf.1, he.1⟩
    intro e; rw [e] at hd; cases hd

theorem expFind_ge (e t : Str)
    (he : ∃ c sign ed, (c = 101 ∨ c = 69) ∧ (sign = [] ∨ sign = [43] ∨ sign = [45]) ∧
      ed ≠ [] ∧ (∀ x ∈ ed, isDigit x = true) ∧ e = c :: sign ++ ed) :
    e.length ≤ (expFind (e ++ t)).length := by
  obtain ⟨c, sign, ed, hc, hs, hne, hed, rfl⟩ := he
  have hpre : ed <+: (ed ++ t).takeWhile isDigit :=
    prefix_takeWhile isDigit ed (ed ++ t) (List.prefix_append _ _) hed
  have hlen := hpre.length_le
  have hc' : (c == 101 || c == 69) = true := by
    rcases hc with rfl | rfl <;> rfl
  have hnonempty : ((ed ++ t).takeWhile isDigit).isEmpty = false := by
    cases hx : (ed ++ t).takeWhile isDigit with
    | nil =>
      rw [hx] at hlen
      cases ed with
      | nil => exact absurd rfl hne
      | cons a r => simp at hlen
    | cons a r => rfl
  cases ed with
  | nil => exact absurd rfl hne
  | cons a r =>
    have ha := (isDigit_iff a).1 (hed a (List.mem_cons_self _ _))
    rcases hs with rfl | rfl | rfl
    · have h43 : (a == 43 || a == 45) = false := by
        have h1 : (a == 43) = false := by simp; omega
        have h2 : (a == 45) = false := by simp; omega
        rw [h1, h2]; rfl
      simp only [List.nil_append, List.cons_append] at hnonempty hlen ⊢
      simp only [expFind, hc', if_true, h43, Bool.false_eq_true, if_false, hnonempty]
      simp only [List.length_cons] at hlen ⊢
      omega
    · simp only [List.cons_append, List.nil_append] at hnonempty hlen ⊢
      have h43 : ((43 : Nat) == 43 || (43 : Nat) == 45) = true := rfl
      simp only [expFind, hc', if_true, h43, hnonempty, Bool.false_eq_true, if_false]
      simp only [List.length_cons] at hlen ⊢
      omega
    · simp only [List.cons_append, List.nil_append] at hnonempty hlen ⊢
      have h45 : ((45 : Nat) == 43 || (45 : Nat) == 45) = true := rfl
      simp only [expFind, hc', if_true, h45, hnonempty, Bool.false_eq_true, if_false]
      simp only [List.length_cons] at hlen ⊢
      omega

theorem numFind_complete (s p : Str) (hp : p <+: s) (h : NumShape p) :
    numFind s ≠ [] ∧ p.length ≤ (numFind s).length := by
  obtain ⟨d, f, e, rfl, hdne, hd, hf, he⟩ := h
  obtain ⟨t, rfl⟩ := hp
  have hs : d ++ f ++ e ++ t = d ++ (f ++ e ++ t) := by simp
  rw [hs]
  have hD : ((d ++ (f ++ e ++ t)).takeWhile isDigit).isEmpty = false := by
    cases d with
    | nil => exact absurd rfl hdne
    | cons a r =>
      have := hd a (List.mem_cons_self _ _)
      simp [List.takeWhile_cons, this]
  have hnum := numFind_eq _ hD
  have hne : numFind (d ++ (f ++ e ++ t)) ≠ [] := by
    rw [hnum]
    intro x
    have := congrArg List.length x
    cases hx : (d ++ (f ++ e ++ t)).takeWhile isDigit with
    | nil => rw [hx] at hD; cases hD
    | cons a r => rw [hx] at this; simp at this
  refine ⟨hne, ?_⟩
  -- the first byte of `e`, if any, is `e` or `E`, and that of `f` is `.`
  have he0 : ∀ x, e.head? = some x → x = 101 ∨ x = 69 := by
    intro x hx
    rcases he with rfl | ⟨c, sign, ed, hc, _, _, _, rfl⟩
    · cases hx
    · simp at hx; subst hx; exact hc
  have hnd : ∀ x, x = 101 ∨ x = 69 ∨ x = 46 → isDigit x = false := by
    intro x hx
    rcases hx with rfl | rfl | rfl <;> rfl
  by_cases hfe : f = [] ∧ e = []
  · obtain ⟨rfl, rfl⟩ := hfe
    have hpre : d <+: (d ++ ([] ++ [] ++ t)).takeWhile isDigit :=
      prefix_takeWhile isDigit d _ (List.prefix_append _ _) hd
    have := hpre.length_le
    rw [hnum]
    simp only [List.append_nil, List.length_append] at this ⊢
    omega
  · have hX : ∀ x, (f ++ e ++ t).head? = some x → isDigit x = false := by
      intro x hx
      rcases hf with rfl | ⟨fd, _, _, rfl⟩
      · cases e with
        | nil => exact absurd ⟨rfl, rfl⟩ hfe
        | cons a r =>
          simp at hx; subst hx
          rcases he0 a rfl with h1 | h1
          · exact hnd a (Or.inl h1)
          · exact hnd a (Or.inr (Or.inl h1))
      · simp at hx; subst hx; rfl
    have htw := takeWhile_digits d (f ++ e ++ t) hd hX
    rw [hnum, htw.1, htw.2]
    rcases hf with rfl | ⟨fd, hfdne, hfd, rfl⟩
    · -- no fraction: the exponent follows the digits
      have hene : e ≠ [] := fun x => hfe ⟨rfl, x⟩
      have hfr : fracFind ([] ++ e ++ t) = [] := by
        apply fracFind_none
        intro x hx
        cases e with
        | nil => exact absurd rfl hene
        | cons a r =>
          simp at hx; subst hx
          rcases he0 a rfl with h1 | h1 <;> omega
      rw [hfr]
      have hE : e.length ≤ (expFind (e ++ t)).length := by
        rcases he with rfl | he
        · exact absurd rfl hene
        · exact expFind_ge e t he
      simp only [List.nil_append, List.length_nil, List.drop_zero, List.append_nil,
        List.length_append] at hE ⊢
      omega
    · by_cases hee : e = []
      · subst hee
        have hpre : fd <+: (fd ++ t).takeWhile isDigit :=
          prefix_takeWhile isDigit fd _ (List.prefix_append _ _) hfd
        have hl := hpre.length_le
        have hnon : ((fd ++ t).takeWhile isDigit).isEmpty = false := by
          cases hx : (fd ++ t).takeWhile isDigit with
          | nil =>
            rw [hx] at hl
            cases fd with
            | nil => exact absurd rfl hfdne
            | cons a r => simp at hl
          | cons a r => rfl
        have hfr : fracFind (46 :: fd ++ [] ++ t) = 46 :: (fd ++ t).takeWhile isDigit := by
          simp [fracFind, hnon]
        rw [hfr]
        simp only [List.append_nil, List.length_append, List.length_cons] at hl ⊢
        omega
      · have he1 : ∀ x, (e ++ t).head? = some x → isDigit x = false := by
          intro x hx
          cases e with
          | nil => exact absurd rfl hee
          | cons a r =>
            simp at hx; subst hx
            rcases he0 a rfl with h1 | h1
            · exact hnd a (Or.inl h1)
            · exact hnd a (Or.inr (Or.inl h1))
        have hfr : fracFind (46 :: fd ++ e ++ t) = 46 :: fd := by
          have := fracFind_whole fd (e ++ t) hfd hfdne he1
          simpa using this
        rw [hfr]
        have hdrop : (46 :: fd ++ e ++ t).drop (46 :: fd).length = e ++ t := by
          have : 46 :: fd ++ e ++ t = (46 :: fd) ++ (e ++ t) := by simp
          rw [this, List.drop_left]
        rw [hdrop]
        have hE : e.length ≤ (expFind (e ++ t)).length := by
          rcases he with rfl | he
          · exact absurd rfl hee
          · exact expFind_ge e t he
        simp only [List.length_append, List.length_cons] at hE ⊢
        omega

theorem keyword_literal (t : TokenType) (hk : isKeywordType t = true) :
    literalOf t ≠ [] ∧ (∀ x ∈ literalOf t, isWordByte x = true) ∧ Keywords (literalOf t) = t ∧
    ∀ s, findString t s = kwFind (literalOf t) s := by
  cases t <;> first | (exact absurd hk (by decide)) | (refine ⟨by decide, by decide, by decide, fun s => rfl⟩)

theorem operator_literal (t : TokenType) (hk : isKeywordType t = false) (hl : literalOf t ≠ []) :
    ∀ s, findString t s = litFind (literalOf t) s := by
  cases t <;> first | (exact absurd hk (by decide)) | (exact absurd rfl hl) | (exact fun s => rfl)

theorem no_literal (t : TokenType) (hl : literalOf t = []) :
    t = .NUM ∨ t = .STRING ∨ t = .ID ∨ t = .EOF ∨ t = .ILLEGAL := by
  cases t <;> first | (exact absurd hl (by decide)) | simp

theorem dropWhile_head (f : Nat → Bool) (s : Str) :
    ∀ x, (s.dropWhile f).head? = some x → f x = false := by
  induction s with
  | nil => intro x hx; cases hx
  | cons a r ih =>
    intro x hx
    cases ha : f a with
    | true => rw [List.dropWhile_cons, if_pos ha] at hx; exact ih x hx
    | false =>
      have ha' : ¬ (f a = true) := by rw [ha]; decide
      rw [List.dropWhile_cons, if_neg ha'] at hx
      simp at hx; subst hx; exact ha

/-- What a keyword or operator pattern finds, when it finds something. -/
theorem literal_find (t : TokenType) (hl : literalOf t ≠ []) (s : Str)
    (hne : findString t s ≠ []) :
    findString t s = literalOf t ∧ literalOf t <+: s ∧
    (isKeywordType t = true → s.takeWhile isWordByte = literalOf t) := by
  cases hk : isKeywordType t with
  | true =>
    obtain ⟨h1, h2, _, h4⟩ := keyword_literal t hk
    rw [h4 s, kwFind_word _ _ h1 h2] at hne ⊢
    by_cases hw : s.takeWhile isWordByte = literalOf t
    · rw [if_pos hw]
      refine ⟨rfl, ?_, fun _ => hw⟩
      rw [← hw]; exact List.takeWhile_prefix _
    · rw [if_neg hw] at hne; exact absurd rfl hne
  | false =>
    have h := operator_literal t hk hl s
    rw [h] at hne ⊢
    unfold litFind at hne ⊢
    by_cases hp : startsWith s (literalOf t) = true
    · rw [if_pos hp]
      exact ⟨rfl, (startsWith_iff _ _).1 hp, fun x => by cases x⟩
    · rw [if_neg hp] at hne; exact absurd rfl hne

theorem prefix_head (p s : Str) (hp : p <+: s) (hne : p ≠ []) : s.head? = p.head? := by
  obtain ⟨t, rfl⟩ := hp
  cases p with
  | nil => exact absurd rfl hne
  | cons a r => rfl

/-- Each pattern finds a prefix it matches. -/
theorem findString_sound (t : TokenType) (s : Str) (hne : findString t s ≠ []) :
    PatternMatches t s (findString t s) := by
  by_cases hl : literalOf t = []
  · rcases no_literal t hl with rfl | rfl | rfl | rfl | rfl
    · exact ⟨(numFind_sound s hne).1, (numFind_sound s hne).2⟩
    · exact ⟨(strFind_sound s hne).1, (strFind_sound s hne).2⟩
    · cases s with
      | nil => exact absurd rfl hne
      | cons c r =>
        by_cases hc : isLetter c = true
        · have e : findString .ID (c :: r) = c :: r.takeWhile isWordByte := by
            simp [findString, idFind, hc]
          rw [e]
          exact ⟨(List.prefix_cons_inj c).2 (List.takeWhile_prefix _),
            c, r.takeWhile isWordByte, rfl, hc, takeWhile_all _ _⟩
        · exact absurd (by simp [findString, idFind, hc]) hne
    · exact absurd rfl hne
    · exact absurd rfl hne
  · obtain ⟨h1, h2, h3⟩ := literal_find t hl s hne
    rw [h1]
    have key : literalOf t ≠ [] ∧ literalOf t = literalOf t ∧
        (isKeywordType t = true →
          ∀ x, (s.drop (literalOf t).length).head? = some x → isWordByte x = false) := by
      refine ⟨hl, rfl, fun hk x hx => ?_⟩
      have hw := h3 hk
      have hs : s = s.takeWhile isWordByte ++ s.dropWhile isWordByte :=
        (List.takeWhile_append_dropWhile _ _).symm
      have hd : s.drop (literalOf t).length = s.dropWhile isWordByte := by
        conv_lhs => rw [hs, ← hw]
        exact List.drop_left _ _
      rw [hd] at hx
      exact dropWhile_head _ _ x hx
    refine ⟨h2, ?_⟩
    cases t <;> first | exact absurd rfl hl | exact key

/-- Each pattern finds its longest match: no prefix the pattern matches is longer. -/
theorem findString_complete (t : TokenType) (s p : Str) (h : PatternMatches t s p) :
    findString t s ≠ [] ∧ p.length ≤ (findString t s).length ∧ t ∈ tokenPrecedenceOrder := by
  have lit : ∀ u : TokenType, literalOf u ≠ [] → p <+: s → p ≠ [] → p = literalOf u →
      (isKeywordType u = true →
        ∀ x, (s.drop p.length).head? = some x → isWordByte x = false) →
      findString u s ≠ [] ∧ p.length ≤ (findString u s).length := by
    intro u hl hp hpne he hb
    have hfs : findString u s = p := by
      cases hk : isKeywordType u with
      | true =>
        obtain ⟨h1, h2, _, h4⟩ := keyword_literal u hk
        rw [h4 s, kwFind_word _ _ h1 h2]
        obtain ⟨rest, rfl⟩ := hp
        have hw : (p ++ rest).takeWhile isWordByte = p := by
          rw [List.takeWhile_append_of_pos (by rw [he]; exact h2)]
          have hd : (p ++ rest).drop p.length = rest := List.drop_left _ _
          have hb' := hb hk
          rw [hd] at hb'
          cases rest with
          | nil => simp
          | cons a r =>
            have := hb' a rfl
            simp [List.takeWhile_cons, this]
        rw [hw, ← he, if_pos rfl]
      | false =>
        rw [operator_literal u hk hl s]
        unfold litFind
        rw [← he, if_pos ((startsWith_iff _ _).2 hp)]
    rw [hfs]
    exact ⟨hpne, le_refl _⟩
  obtain ⟨hp, hm⟩ := h
  cases t <;>
    first
    | exact False.elim hm
    | (exact ⟨(lit _ (by decide) hp hm.1 hm.2.1 hm.2.2).1,
        (lit _ (by decide) hp hm.1 hm.2.1 hm.2.2).2, by decide⟩)
    | (exact ⟨(numFind_complete s p hp hm).1, (numFind_complete s p hp hm).2, by decide⟩)
    | (have e := strFind_complete s p hp hm
       have hpne : p ≠ [] := by
         obtain ⟨body, rfl, _⟩ := hm; simp
       exact ⟨by show strFind s ≠ []; rw [e]; exact hpne,
         by show p.length ≤ (strFind s).length; rw [e], by decide⟩)
    | (obtain ⟨c, w, rfl, hc, hw⟩ := hm
       obtain ⟨rest, rfl⟩ := hp
       have e : findString .ID (c :: w ++ rest) = c :: (w ++ rest).takeWhile isWordByte := by
         simp [findString, idFind, hc]
       have hpre := (prefix_takeWhile isWordByte w (w ++ rest) (List.prefix_append _ _) hw).length_le
       rw [e]
       exact ⟨by simp, by simp only [List.length_cons]; omega, by decide⟩)

theorem order_pairwise :
    tokenPrecedenceOrder.Pairwise (fun t u =>
      (literalOf t ≠ [] ∧ literalOf u ≠ [] ∧
        ((literalOf t).head? ≠ (literalOf u).head? ∨
         (isKeywordType t = true ∧ isKeywordType u = true) ∨
         (isKeywordType t = false ∧ isKeywordType u = false ∧
           (literalOf u).length ≤ (literalOf t).length))) ∨
      (literalOf t ≠ [] ∧ (u = .NUM ∨ u = .STRING ∨ u = .ID)) ∨
      (t = .NUM ∧ (u = .STRING ∨ u = .ID)) ∨
      (t = .STRING ∧ u = .ID)) := by
  decide

theorem numFind_head (s : Str) (h : numFind s ≠ []) :
    ∃ x, s.head? = some x ∧ isDigit x = true := by
  cases s with
  | nil => simp [numFind] at h
  | cons c r =>
    refine ⟨c, rfl, ?_⟩
    cases hc : isDigit c with
    | true => rfl
    | false => simp [numFind, List.takeWhile_cons, hc] at h

theorem idFind_head (s : Str) (h : idFind s ≠ []) :
    ∃ x, s.head? = some x ∧ isLetter x = true := by
  cases s with
  | nil => simp [idFind] at h
  | cons c r =>
    refine ⟨c, rfl, ?_⟩
    cases hc : isLetter c with
    | true => rfl
    | false => simp [idFind, hc] at h

theorem letter_not_digit (x : Nat) (h : isLetter x = true) : isDigit x = false ∧ x ≠ 34 := by
  have h1 := (isLetter_iff x).1 h
  constructor
  · cases hd : isDigit x with
    | false => rfl
    | true => have := (isDigit_iff x).1 hd; omega
  · omega

theorem digit_not_quote (x : Nat) (h : isDigit x = true) : x ≠ 34 := by
  have := (isDigit_iff x).1 h; omega

/-- A pattern that finds something finds at least as much as every pattern behind it in
`tokenPrecedenceOrder`. -/
theorem find_dominates (t u : TokenType) (s : Str)
    (hR : (literalOf t ≠ [] ∧ literalOf u ≠ [] ∧
        ((literalOf t).head? ≠ (literalOf u).head? ∨
         (isKeywordType t = true ∧ isKeywordType u = true) ∨
         (isKeywordType t = false ∧ isKeywordType u = false ∧
           (literalOf u).length ≤ (literalOf t).length))) ∨
      (literalOf t ≠ [] ∧ (u = .NUM ∨ u = .STRING ∨ u = .ID)) ∨
      (t = .NUM ∧ (u = .STRING ∨ u = .ID)) ∨
      (t = .STRING ∧ u = .ID))
    (hne : findString t s ≠ []) :
    (findString u s).length ≤ (findString t s).length := by
  by_cases hu : findString u s = []
  · rw [hu]; exact Nat.zero_le _
  · rcases hR with ⟨hl, hlu, hc⟩ | ⟨hl, hc⟩ | ⟨rfl, hc⟩ | ⟨rfl, rfl⟩
    · obtain ⟨h1, h2, h3⟩ := literal_find t hl s hne
      obtain ⟨g1, g2, g3⟩ := literal_find u hlu s hu
      rcases hc with hh | ⟨k1, k2⟩ | ⟨_, _, hlen⟩
      · exact absurd ((prefix_head _ _ h2 hl).symm.trans (prefix_head _ _ g2 hlu)) hh
      · rw [h1, g1, ← h3 k1, ← g3 k2]
      · rw [h1, g1]; exact hlen
    · obtain ⟨h1, h2, h3⟩ := literal_find t hl s hne
      have hh := prefix_head _ _ h2 hl
      cases hlit : literalOf t with
      | nil => exact absurd hlit hl
      | cons x xs =>
        have hp := literal_head_props t x (by rw [hlit]; rfl)
        rw [hlit] at hh
        rcases hc with rfl | rfl | rfl
        · obtain ⟨y, hy, hd⟩ := numFind_head s hu
          rw [hh] at hy; cases hy
          rw [hp.1] at hd; cases hd
        · have := strFind_head s hu
          rw [hh] at this; cases this
          exact absurd rfl hp.2.1
        · obtain ⟨y, hy, hd⟩ := idFind_head s hu
          rw [hh] at hy; cases hy
          have hk : isKeywordType t = true := by rw [← hp.2.2.2]; exact hd
          cases s with
          | nil => cases hh
          | cons c r =>
            simp only [List.head?_cons, Option.some.injEq] at hh
            subst hh
            have e : findString .ID (c :: r) = (c :: r).takeWhile isWordByte :=
              idFind_letter c r hd
            rw [e, h3 hk, h1]
    · obtain ⟨x, hx, hd⟩ := numFind_head s hne
      rcases hc with rfl | rfl
      · have := strFind_head s hu
        rw [hx] at this; cases this
        exact absurd rfl (digit_not_quote _ hd)
      · obtain ⟨y, hy, hl⟩ := idFind_head s hu
        rw [hx] at hy; cases hy
        rw [(letter_not_digit _ hl).1] at hd; cases hd
    · have := strFind_head s hne
      obtain ⟨y, hy, hl⟩ := idFind_head s hu
      rw [this] at hy; cases hy
      exact absurd rfl (letter_not_digit _ hl).2

theorem matchOrder_first (ts : List TokenType) (s : Str)
    (h : ∃ t0 ∈ ts, findString t0 s ≠ []) :
    ∃ pre t post, ts = pre ++ t :: post ∧ (∀ u ∈ pre, findString u s = []) ∧
      findString t s ≠ [] ∧ matchOrder ts s = (t, findString t s, true) := by
  induction ts with
  | nil => obtain ⟨t0, h0, _⟩ := h; cases h0
  | cons a ts ih =>
    by_cases ha : findString a s = []
    · have : ∃ t0 ∈ ts, findString t0 s ≠ [] := by
        obtain ⟨t0, h0, h1⟩ := h
        rcases List.mem_cons.1 h0 with rfl | h0
        · exact absurd ha h1
        · exact ⟨t0, h0, h1⟩
      obtain ⟨pre, t, post, e, hpre, hne, hm⟩ := ih this
      refine ⟨a :: pre, t, post, by rw [e]; rfl, ?_, hne, ?_⟩
      · intro u hu
        rcases List.mem_cons.1 hu with rfl | hu
        · exact ha
        · exact hpre u hu
      · simp only [matchOrder, ha, List.isEmpty_nil, if_true]
        exact hm
    · refine ⟨[], a, ts, rfl, (by intro u hu; cases hu), ha, ?_⟩
      have : (findString a s).isEmpty = false := by
        cases hx : findString a s with
        | nil => exact absurd hx ha
        | cons _ _ => rfl
      simp only [matchOrder, this, Bool.false_eq_true, if_false]

theorem MatchToken_order (s : Str) (hne : s ≠ [])
    (hws : ∀ x, s.head? = some x → isSpaceByte x = false) (hcm : ¬ ([47, 47] <+: s)) :
    MatchToken s = matchOrder tokenPrecedenceOrder s := by
  cases s with
  | nil => exact absurd rfl hne
  | cons c r =>
    have h1 : whitespaceFind (c :: r) = [] := by
      simp [whitespaceFind, List.takeWhile_cons, hws c rfl]
    have h2 : commentFind (c :: r) = [] := by
      have : startsWith (c :: r) [47, 47] = false := by
        cases hx : startsWith (c :: r) [47, 47] with
        | false => rfl
        | true => exact absurd ((startsWith_iff _ _).1 hx) hcm
      simp [commentFind, this]
    simp [MatchToken, h1, h2]

theorem MatchToken_longest (s : Str) (hne : s ≠ [])
    (hws : ∀ x, s.head? = some x → isSpaceByte x = false) (hcm : ¬ ([47, 47] <+: s))
    (hex : ∃ t p, PatternMatches t s p) :
    ∃ t lex, MatchToken s = (t, lex, true) ∧ PatternMatches t s lex ∧
      ∀ u p, PatternMatches u s p → p.length ≤ lex.length := by
  obtain ⟨t0, p0, h0⟩ := hex
  obtain ⟨c1, _, c3⟩ := findString_complete t0 s p0 h0
  obtain ⟨pre, t, post, e, hpre, hn, hm⟩ :=
    matchOrder_first tokenPrecedenceOrder s ⟨t0, c3, c1⟩
  refine ⟨t, findString t s, ?_, findString_sound t s hn, ?_⟩
  · rw [MatchToken_order s hne hws hcm, hm]
  · intro u p hu
    obtain ⟨d1, d2, d3⟩ := findString_complete u s p hu
    have hpw := order_pairwise
    rw [e] at hpw d3
    have hR := (List.pairwise_cons.1 (List.pairwise_append.1 hpw).2.1).1
    rcases List.mem_append.1 d3 with hin | hin
    · exact absurd (hpre u hin) d1
    · rcases List.mem_cons.1 hin with rfl | hin
      · exact d2
      · exact le_trans d2 (find_dominates t u s (hR u hin) hn)

theorem Keywords_spec (s : Str) :
    Keywords s = .EOF ∨ (isKeywordType (Keywords s) = true ∧ literalOf (Keywords s) = s) := by
  generalize hk : Keywords s = k
  unfold Keywords at hk
  by_cases h0 : s = bs "let"
  · rw [if_pos h0] at hk; subst hk; exact Or.inr ⟨rfl, h0.symm⟩
  rw [if_neg h0] at hk
  by_cases h1 : s = bs "func"
  · rw [if_pos h1] at hk; subst hk; exact Or.inr ⟨rfl, h1.symm⟩
  rw [if_neg h1] at hk
  by_cases h2 : s = bs "return"
  · rw [if_pos h2] at hk; subst hk; exact Or.inr ⟨rfl, h2.symm⟩
  rw [if_neg h2] at hk
  by_cases h3 : s = bs "if"
  · rw [if_pos h3] at hk; subst hk; exact Or.inr ⟨rfl, h3.symm⟩
  rw [if_neg h3] at hk
  by_cases h4 : s = bs "else"
  · rw [if_pos h4] at hk; subst hk; exact Or.inr ⟨rfl, h4.symm⟩
  rw [if_neg h4] at hk
  by_cases h5 : s = bs "while"
  · rw [if_pos h5] at hk; subst hk; exact Or.inr ⟨rfl, h5.symm⟩
  rw [if_neg h5] at hk
  by_cases h6 : s = bs "break"
  · rw [if_pos h6] at hk; subst hk; exact Or.inr ⟨rfl, h6.symm⟩
  rw [if_neg h6] at hk
  by_cases h7 : s = bs "continue"
  · rw [if_pos h7] at hk; subst hk; exact Or.inr ⟨rfl, h7.symm⟩
  rw [if_neg h7] at hk
  by_cases h8 : s = bs "print"
  · rw [if_pos h8] at hk; subst hk; exact Or.inr ⟨rfl, h8.symm⟩
  rw [if_neg h8] at hk
  by_cases h9 : s = bs "and"
  · rw [if_pos h9] at hk; subst hk; exact Or.inr ⟨rfl, h9.symm⟩
  rw [if_neg h9] at hk
  by_cases h10 : s = bs "or"
  · rw [if_pos h10] at hk; subst hk; exact Or.inr ⟨rfl, h10.symm⟩
  rw [if_neg h10] at hk
  by_cases h11 : s = bs "not"
  · rw [if_pos h11] at hk; subst hk; exact Or.inr ⟨rfl, h11.symm⟩
  rw [if_neg h11] at hk
  by_cases h12 : s = bs "true"
  · rw [if_pos h12] at hk; subst hk; exact Or.inr ⟨rfl, h12.symm⟩
  rw [if_neg h12] at hk
  by_cases h13 : s = bs "false"
  · rw [if_pos h13] at hk; subst hk; exact Or.inr ⟨rfl, h13.symm⟩
  rw [if_neg h13] at hk
  by_cases h14 : s = bs "int"
  · rw [if_pos h14] at hk; subst hk; exact Or.inr ⟨rfl, h14.symm⟩
  rw [if_neg h14] at hk
  by_cases h15 : s = bs "float"
  · rw [if_pos h15] at hk; subst hk; exact Or.inr ⟨rfl, h15.symm⟩
  rw [if_neg h15] at hk
  by_cases h16 : s = bs "bool"
  · rw [if_pos h16] at hk; subst hk; exact Or.inr ⟨rfl, h16.symm⟩
  rw [if_neg h16] at hk
  subst hk; exact Or.inl rfl

/-- A whole word is matched as its keyword kind, or as `ID` when it is no keyword. -/
theorem MatchToken_word (c : Nat) (r : Str) (hc : isLetter c = true)
    (hr : ∀ x ∈ r, isWordByte x = true) :
    MatchToken (c :: r) =
      (if Keywords (c :: r) = .EOF then .ID else Keywords (c :: r), c :: r, true) := by
  have hcw : isWordByte c = true := (isWordByte_iff c).2 (Or.inl hc)
  have hW : (c :: r).takeWhile isWordByte = c :: r := by
    rw [List.takeWhile_eq_self_iff]
    intro x hx
    rcases List.mem_cons.1 hx with rfl | hx
    · exact hcw
    · exact hr x hx
  have hid : findString .ID (c :: r) = c :: r := by
    have := idFind_letter c r hc
    rw [hW] at this
    exact this
  have hcl := (isLetter_iff c).1 hc
  have hws : ∀ x, (c :: r).head? = some x → isSpaceByte x = false := by
    intro x hx
    simp at hx; subst hx
    cases h : isSpaceByte c with
    | false => rfl
    | true => have := (isSpaceByte_iff c).1 h; omega
  have hcm : ¬ ([47, 47] <+: c :: r) := by
    intro h
    have := prefix_head _ _ h (by simp)
    simp at this
    omega
  rw [MatchToken_order _ (by simp) hws hcm]
  obtain ⟨pre, t, post, e, hpre, hn, hm⟩ :=
    matchOrder_first tokenPrecedenceOrder (c :: r) ⟨.ID, by decide, by rw [hid]; simp⟩
  rw [hm]
  have hpw := order_pairwise
  rw [e] at hpw
  have hR := (List.pairwise_cons.1 (List.pairwise_append.1 hpw).2.1).1
  have hmem : ∀ k, k ∈ tokenPrecedenceOrder → findString k (c :: r) ≠ [] → k = t ∨ k ∈ post := by
    intro k hk hkn
    rw [e] at hk
    rcases List.mem_append.1 hk with hin | hin
    · exact absurd (hpre k hin) hkn
    · exact List.mem_cons.1 hin
  by_cases hl : literalOf t = []
  · rcases no_literal t hl with rfl | rfl | rfl | rfl | rfl
    · obtain ⟨x, hx, hd⟩ := numFind_head (c :: r) hn
      simp at hx; subst hx
      rw [(letter_not_digit _ hc).1] at hd; cases hd
    · have := strFind_head (c :: r) hn
      simp at this
      exact absurd this (letter_not_digit _ hc).2
    · -- `ID` is found first: the word is no keyword
      have hk : Keywords (c :: r) = .EOF := by
        rcases Keywords_spec (c :: r) with h | ⟨h1, h2⟩
        · exact h
        · exfalso
          obtain ⟨k1, k2, _, k4⟩ := keyword_literal _ h1
          have hf : findString (Keywords (c :: r)) (c :: r) ≠ [] := by
            rw [k4, kwFind_word _ _ k1 k2, hW, h2, if_pos rfl]
            simp
          have hin : Keywords (c :: r) ∈ tokenPrecedenceOrder := by
            revert h1
            cases Keywords (c :: r) <;> decide
          rcases hmem _ hin hf with h | h
          · rw [h] at h1; cases h1
          · have := hR _ h
            rcases this with ⟨a, _⟩ | ⟨a, _⟩ | ⟨a, _⟩ | ⟨a, _⟩
            · exact a rfl
            · exact a rfl
            · cases a
            · cases a
      rw [hk, if_pos rfl, hid]
    · exact absurd rfl hn
    · exact absurd rfl hn
  · obtain ⟨h1, h2, h3⟩ := literal_find t hl _ hn
    have hh := prefix_head _ _ h2 hl
    cases hlit : literalOf t with
    | nil => exact absurd hlit hl
    | cons x xs =>
      have hp := literal_head_props t x (by rw [hlit]; rfl)
      rw [hlit] at hh
      simp at hh
      subst hh
      have hk : isKeywordType t = true := by rw [← hp.2.2.2]; exact hc
      have hw := h3 hk
      rw [hW] at hw
      have hkw : Keywords (c :: r) = t := by
        rw [hw]; exact (keyword_literal t hk).2.2.1
      have hne : t ≠ .EOF := by
        intro x; rw [x] at hk; cases hk
      rw [hkw, if_neg hne, h1, ← hw]

theorem MatchToken_operator (t : TokenType) (pre post : List TokenType)
    (hsplit : tokenPrecedenceOrder = pre ++ t :: post)
    (hop : isKeywordType t = false) (hl : literalOf t ≠ [])
    (hpre : ∀ u ∈ pre, (u ≠ .NUM ∧ u ≠ .STRING ∧ u ≠ .ID) ∧
      (literalOf u).head? ≠ (literalOf t).head?)
    (h47 : (literalOf t).head? ≠ some 47) (r : Str) :
    MatchToken (literalOf t ++ r) = (t, literalOf t, true) := by
  cases hlit : literalOf t with
  | nil => exact absurd hlit hl
  | cons x xs =>
    have hp := literal_head_props t x (by rw [hlit]; rfl)
    have hws : ∀ y, (x :: xs ++ r).head? = some y → isSpaceByte y = false := by
      intro y hy; simp at hy; subst hy; exact hp.2.2.1
    have hcm : ¬ ([47, 47] <+: x :: xs ++ r) := by
      intro h
      have := prefix_head _ _ h (by simp)
      rw [hlit] at h47
      simp at this h47
      exact h47 this
    rw [MatchToken_order _ (by simp) hws hcm, hsplit]
    have hf : findString t (x :: xs ++ r) = x :: xs := by
      rw [operator_literal t hop hl, hlit]
      unfold litFind
      rw [if_pos ((startsWith_iff _ _).2 (List.prefix_append _ _))]
    rw [matchOrder_of_first pre post t _ ?_ (by rw [hf]; simp), hf]
    intro u hu
    obtain ⟨h1, h2⟩ := hpre u hu
    apply findString_head_ne u x (xs ++ r) h1
    rw [hlit] at h2
    exact h2

/-- C9: the lexeme `MatchToken` returns is the longest prefix matched by any token pattern,
for every non-empty text that starts with no whitespace and no `//` and that some pattern
matches; `<=`, `>=`, `==` and `!=` are matched whole whatever follows; and a whole word
`[A-Za-z][A-Za-z0-9_]*` is matched whole, as its keyword kind when it is one of the 17
keywords and as `ID` otherwise. -/
theorem C9_longest_match (s : Str) :
    (s ≠ [] → (∀ x, s.head? = some x → isSpaceByte x = false) → ¬ ([47, 47] <+: s) →
      (∃ t p, PatternMatches t s p) →
      ∃ t lex, MatchToken s = (t, lex, true) ∧ PatternMatches t s lex ∧
        ∀ u p, PatternMatches u s p → p.length ≤ lex.length) ∧
    (MatchToken (60 :: 61 :: s) = (.LE, [60, 61], true) ∧
     MatchToken (62 :: 61 :: s) = (.GE, [62, 61], true) ∧
     MatchToken (61 :: 61 :: s) = (.EQ, [61, 61], true) ∧
     MatchToken (33 :: 61 :: s) = (.NE, [33, 61], true)) ∧
    (∀ c r, s = c :: r → isLetter c = true → (∀ x ∈ r, isWordByte x = true) →
      MatchToken s = (if Keywords s = .EOF then .ID else Keywords s, s, true)) := by
  refine ⟨MatchToken_longest s, ⟨?_, ?_, ?_, ?_⟩, ?_⟩
  · exact MatchToken_operator .LE
      [.CONTINUE, .RETURN, .BREAK, .FALSE, .FLOAT, .PRINT, .WHILE, .ELSE, .FUNC,
       .TRUE, .BOOL, .AND, .INT, .LET, .NOT, .IF, .OR] _ rfl rfl (by decide) (by decide)
      (by decide) s
  · exact MatchToken_operator .GE
      [.CONTINUE, .RETURN, .BREAK, .FALSE, .FLOAT, .PRINT, .WHILE, .ELSE, .FUNC,
       .TRUE, .BOOL, .AND, .INT, .LET, .NOT, .IF, .OR, .LE] _ rfl rfl (by decide) (by decide)
      (by decide) s
  · exact MatchToken_operator .EQ
      [.CONTINUE, .RETURN, .BREAK, .FALSE, .FLOAT, .PRINT, .WHILE, .ELSE, .FUNC,
       .TRUE, .BOOL, .AND, .INT, .LET, .NOT, .IF, .OR, .LE, .GE] _ rfl rfl (by decide)
      (by decide) (by decide) s
  · exact MatchToken_operator .NE
      [.CONTINUE, .RETURN, .BREAK, .FALSE, .FLOAT, .PRINT, .WHILE, .ELSE, .FUNC,
       .TRUE, .BOOL, .AND, .INT, .LET, .NOT, .IF, .OR, .LE, .GE, .EQ] _ rfl rfl (by decide)
      (by decide) (by decide) s
  · intro c r e hc hr
    subst e
    exact MatchToken_word c r hc hr

theorem C9_longest_match_witness :
    ∃ t lex, MatchToken (bs "<=1") = (t, lex, true) ∧ PatternMatches t (bs "<=1") lex ∧
      ∀ u p, PatternMatches u (bs "<=1") p → p.length ≤ lex.length :=
  (C9_longest_match (bs "<=1")).1 (by decide) (by decide) (by decide)
    ⟨.LT, [60], ⟨[61, 49], rfl⟩, by decide, rfl, fun h => absurd h (by decide)⟩

/-! ## Parameters of a function declaration -/

theorem Mild.refl (c : Codegen) : Codegen.Mild c c :=
  ⟨rfl, fun _ => rfl, Or.inr ⟨rfl, fun h => h⟩⟩

theorem Mild.trans (a b c : Codegen) (h1 : Codegen.Mild a b) (h2 : Codegen.Mild b c) :
    Codegen.Mild a c := by
  obtain ⟨a1, a2, a3⟩ := h1
  obtain ⟨b1, b2, b3⟩ := h2
  refine ⟨b1.trans a1, fun h => (b2 (a1.trans h)).trans (a2 h), ?_⟩
  rcases b3 with b3 | ⟨b3, b4⟩
  · exact Or.inl b3
  · rcases a3 with a3 | ⟨a3, a4⟩
    · exact Or.inl (b3.trans a3)
    · exact Or.inr ⟨b3.trans a3, fun h => a4 (b4 h)⟩

/-- A state that differs outside `pb`, `paramCounter`, `localCounter` and `inFunction`. -/
theorem Mild_of_same (c c1 : Codegen) (h1 : c1.pb = c.pb) (h2 : c1.paramCounter = c.paramCounter)
    (h3 : c1.localCounter = c.localCounter) (h4 : c1.inFunction = c.inFunction) :
    Codegen.Mild c c1 :=
  ⟨h4, fun _ => h3, Or.inr ⟨h2, fun h => by rw [lastIsRet, h1] at h; exact h⟩⟩

theorem lastIsRet_append (pb : List Instruction) (ins : Instruction) :
    lastIsRet (pb ++ [ins]) ↔ ins.Op = .OpRet := by
  simp [lastIsRet]

theorem lastIsRet_set (pb : List Instruction) (n : Nat) (ins : Instruction)
    (hop : ins.Op ≠ .OpRet) (h : lastIsRet (pb.set n ins)) : lastIsRet pb := by
  unfold lastIsRet at h ⊢
  rw [List.getLast?_eq_getElem?] at h ⊢
  rw [List.length_set] at h
  by_cases hn : n = pb.length - 1
  · subst hn
    by_cases hl : pb.length = 0
    · have : pb = [] := List.length_eq_zero.1 hl
      subst this; simp at h
    · rw [List.getElem?_set_self (by omega)] at h
      simp at h
      exact absurd h hop
  · rw [List.getElem?_set_ne hn] at h
    exact h

theorem pop_fields (n : Nat) : ∀ c : Codegen,
    (c.pop n).pb = c.pb ∧ (c.pop n).paramCounter = c.paramCounter ∧
    (c.pop n).localCounter = c.localCounter ∧ (c.pop n).inFunction = c.inFunction ∧
    (c.pop n).i = c.i := by
  induction n with
  | zero => intro c; exact ⟨rfl, rfl, rfl, rfl, rfl⟩
  | succ n ih =>
    intro c
    simp only [Codegen.pop]
    split
    · exact ih _
    · exact ⟨rfl, rfl, rfl, rfl, rfl⟩

theorem Mild.pop (c : Codegen) (n : Nat) : Codegen.Mild c (c.pop n) :=
  Mild_of_same _ _ (pop_fields n c).1 (pop_fields n c).2.1 (pop_fields n c).2.2.1
    (pop_fields n c).2.2.2.1

theorem Mild.popAtOffsetEnd (c : Codegen) (n : Nat) : Codegen.Mild c (c.popAtOffsetEnd n) := by
  unfold Codegen.popAtOffsetEnd
  split
  · exact Mild_of_same _ _ rfl rfl rfl rfl
  · exact Mild.refl c

/-- Appending an instruction that is no `ret`. -/
theorem Mild.emit (c c1 : Codegen) (ins : Instruction) (hop : ins.Op ≠ .OpRet)
    (h1 : c1.pb = c.pb ++ [ins]) (h2 : c1.paramCounter = c.paramCounter)
    (h3 : c1.localCounter = c.localCounter) (h4 : c1.inFunction = c.inFunction) :
    Codegen.Mild c c1 :=
  ⟨h4, fun _ => h3, Or.inr ⟨h2, fun h => by
    rw [h1, lastIsRet_append] at h; exact absurd h hop⟩⟩

theorem Mild.patch (c c1 : Codegen) (loc : Int) (ins : Instruction) (hop : ins.Op ≠ .OpRet)
    (h : c.patch loc ins = .ok c1) : Codegen.Mild c c1 := by
  unfold Codegen.patch at h
  split at h
  · cases h
    exact ⟨rfl, fun _ => rfl, Or.inr ⟨rfl, fun h => lastIsRet_set _ _ _ hop h⟩⟩
  · cases h

@[simp] theorem pop_pb (c : Codegen) (n : Nat) : (c.pop n).pb = c.pb := (pop_fields n c).1

@[simp] theorem pop_paramCounter (c : Codegen) (n : Nat) :
    (c.pop n).paramCounter = c.paramCounter := (pop_fields n c).2.1

@[simp] theorem pop_localCounter (c : Codegen) (n : Nat) :
    (c.pop n).localCounter = c.localCounter := (pop_fields n c).2.2.1

@[simp] theorem pop_inFunction (c : Codegen) (n : Nat) :
    (c.pop n).inFunction = c.inFunction := (pop_fields n c).2.2.2.1

theorem Mild_simple (c : Codegen) :
    Codegen.Mild c c.labelAction ∧ Codegen.Mild c c.labelWhileAction ∧
    Codegen.Mild c c.callStartAction ∧ Codegen.Mild c c.captureDeclVarAction ∧
    Codegen.Mild c c.captureTypeAction ∧ Codegen.Mild c c.captureParamNameAction ∧
    Codegen.Mild c c.pushRelOpAction ∧ Codegen.Mild c c.loadAction ∧
    Codegen.Mild c c.captureAssignTargetAction ∧ Codegen.Mild c c.funcReturnTypeAction := by
  refine ⟨Mild_of_same _ _ rfl rfl rfl rfl, Mild_of_same _ _ rfl rfl rfl rfl,
    Mild_of_same _ _ rfl rfl rfl rfl, Mild_of_same _ _ rfl rfl rfl rfl,
    Mild_of_same _ _ rfl rfl rfl rfl, Mild_of_same _ _ rfl rfl rfl rfl,
    Mild_of_same _ _ rfl rfl rfl rfl, ?_, ?_, ?_⟩
  · unfold Codegen.loadAction
    simp only
    split <;> exact Mild_of_same _ _ rfl rfl rfl rfl
  · unfold Codegen.captureAssignTargetAction
    simp only
    split <;> exact Mild_of_same _ _ rfl rfl rfl rfl
  · unfold Codegen.funcReturnTypeAction
    split
    · exact Mild_of_same _ _ (by simp) (by simp) (by simp) (by simp)
    · exact Mild.refl c

theorem Mild.mk1 (c c1 : Codegen) (h4 : c1.inFunction = c.inFunction)
    (h3 : c1.localCounter = c.localCounter) (h2 : c1.paramCounter = c.paramCounter)
    (h1 : ¬ lastIsRet c1.pb ∨ c1.pb = c.pb) : Codegen.Mild c c1 :=
  ⟨h4, fun _ => h3, Or.inr ⟨h2, fun h => by
    rcases h1 with h1 | h1
    · exact absurd h h1
    · rw [h1] at h; exact h⟩⟩

theorem Mild_emitters (c : Codegen) (op : Operation) (hop : op ≠ .OpRet) :
    Codegen.Mild c c.saveAction ∧ Codegen.Mild c c.saveBreakAction ∧
    Codegen.Mild c c.jmpNonBackpatchAction ∧ Codegen.Mild c (c.binaryOpAction op) ∧
    Codegen.Mild c c.pushAction ∧ Codegen.Mild c c.assignAction ∧
    Codegen.Mild c c.printAction ∧ Codegen.Mild c c.notAction ∧ Codegen.Mild c c.relAction ∧
    Codegen.Mild c c.callEndAction ∧ Codegen.Mild c c.argAction ∧ Codegen.Mild c c.callAction := by
  refine ⟨?_, ?_, ?_, ?_, ?_, ?_, ?_, ?_, ?_, ?_, ?_, ?_⟩
  · apply Mild.mk1 <;> simp [Codegen.saveAction, Codegen.emit, Codegen.push, lastIsRet,
      nopInstruction]
  · apply Mild.mk1 <;> simp [Codegen.saveBreakAction, Codegen.emit, Codegen.pushString,
      lastIsRet, nopInstruction]
  · unfold Codegen.jmpNonBackpatchAction
    split
    · apply Mild.mk1 <;> simp [Codegen.emit, lastIsRet]
    · exact Mild.refl c
  · unfold Codegen.binaryOpAction
    split
    · apply Mild.mk1 <;> simp [Codegen.emit, Codegen.push, Codegen.getTemp,
        Codegen.setVariableType, lastIsRet, hop]
    · exact Mild.refl c
  · apply Mild.mk1 <;> simp [Codegen.pushAction, Codegen.emit, Codegen.push, Codegen.getTemp,
      Codegen.setVariableType, lastIsRet]
  · unfold Codegen.assignAction
    split
    · simp only
      split
      · exact Mild_of_same _ _ rfl rfl rfl rfl
      · apply Mild.mk1 <;> simp [Codegen.emit, lastIsRet]
    · exact Mild.refl c
  · unfold Codegen.printAction
    split
    · apply Mild.mk1 <;> simp [Codegen.emit, lastIsRet]
    · exact Mild.refl c
  · unfold Codegen.notAction
    split
    · apply Mild.mk1 <;> simp [Codegen.emit, Codegen.push, Codegen.getTemp, lastIsRet]
    · exact Mild.refl c
  · unfold Codegen.relAction
    split
    · apply Mild.mk1 <;> simp [Codegen.emit, Codegen.push, Codegen.getTemp,
        Codegen.setVariableType, lastIsRet]
      repeat' split
      all_goals decide
    · exact Mild.refl c
  · unfold Codegen.callEndAction
    split
    · apply Mild.mk1 <;> simp [Codegen.emit, Codegen.push, Codegen.getTemp,
        Codegen.setVariableType, Codegen.addError, lastIsRet] <;> split <;> simp
    · exact Mild.refl c
  · unfold Codegen.argAction
    split
    · apply Mild.mk1 <;> simp [Codegen.emit, lastIsRet]
    · exact Mild.refl c
  · apply Mild.mk1 <;> simp [Codegen.callAction, Codegen.emit, Codegen.push, Codegen.getTemp,
      Codegen.setVariableType, lastIsRet]

theorem Mild_return_define (c : Codegen) :
    Codegen.Mild c c.returnAction ∧ Codegen.Mild c c.defineAction := by
  constructor
  · unfold Codegen.returnAction
    refine ⟨?_, fun _ => ?_, Or.inl rfl⟩
    · simp only; split <;> simp [Codegen.emit]
    · simp only; split <;> simp [Codegen.emit]
  · unfold Codegen.defineAction
    split
    · refine ⟨?_, fun hf => ?_, Or.inr ⟨?_, fun h => ?_⟩⟩
      · simp only [Codegen.getVariable, Codegen.getLocalVariable]
        split <;> split <;> simp [Codegen.emit, Codegen.setVariableType, Codegen.declareVariable,
          Codegen.addError] <;> split <;> simp
      · simp only [Codegen.getVariable, Codegen.getLocalVariable]
        split <;> simp [Codegen.emit, Codegen.setVariableType, Codegen.declareVariable,
          Codegen.addError, hf] <;> split <;> simp
      · simp only [Codegen.getVariable, Codegen.getLocalVariable]
        split <;> split <;> simp [Codegen.emit, Codegen.setVariableType, Codegen.declareVariable,
          Codegen.addError] <;> split <;> simp
      · exfalso
        revert h
        simp only [Codegen.getVariable, Codegen.getLocalVariable]
        split <;> split <;> simp [Codegen.emit, Codegen.setVariableType, Codegen.declareVariable,
          Codegen.addError, lastIsRet] <;> split <;> simp
    · exact Mild.refl c

theorem Mild_jumps (c c1 : Codegen) :
    (c.jmpfAction = .ok c1 → Codegen.Mild c c1) ∧
    (c.jmpAction = .ok c1 → Codegen.Mild c c1) ∧
    (c.jmpfNormalAction = .ok c1 → Codegen.Mild c c1) ∧
    (c.continueAction = .ok c1 → Codegen.Mild c c1) := by
  refine ⟨?_, ?_, ?_, ?_⟩
  · intro h
    unfold Codegen.jmpfAction at h
    split at h
    · simp only at h
      split at h
      · cases hp : c.patch c.top ⟨.OpJmpf, .int (c.topMinus 1), .nil, .int (c.i + 1), .EOF⟩ with
        | error e => rw [hp] at h; cases h
        | ok c2 =>
          rw [hp] at h
          cases h
          exact Mild.trans _ _ _ (Mild.patch _ _ _ _ (by simp) hp) (Mild.pop _ _)
      · cases h; exact Mild.pop _ _
    · cases h; exact Mild.refl _
  · intro h
    unfold Codegen.jmpAction at h
    split at h
    · simp only at h
      split at h
      · cases hp : c.patch c.top ⟨.OpJmp, .nil, .nil, .int c.i, .EOF⟩ with
        | error e => rw [hp] at h; cases h
        | ok c2 =>
          rw [hp] at h
          cases h
          exact Mild.trans _ _ _ (Mild.patch _ _ _ _ (by simp) hp) (Mild.pop _ _)
      · cases h; exact Mild.pop _ _
    · cases h; exact Mild.refl _
  · intro h
    unfold Codegen.jmpfNormalAction at h
    split at h
    · simp only at h
      split at h
      · cases hp : c.patch (c.topMinus (c.skipMarkers (c.ss.Size + 1) 0))
            ⟨.OpJmpf, .int (c.topMinus (c.skipMarkers (c.ss.Size + 1) 0 + 1)), .nil, .int c.i,
              .EOF⟩ with
        | error e => rw [hp] at h; cases h
        | ok c2 =>
          rw [hp] at h
          cases h
          exact Mild.trans _ _ _ (Mild.patch _ _ _ _ (by simp) hp)
            (Mild.trans _ _ _ (Mild.popAtOffsetEnd _ _) (Mild.popAtOffsetEnd _ _))
      · cases h
        exact Mild.trans _ _ _ (Mild.popAtOffsetEnd _ _) (Mild.popAtOffsetEnd _ _)
    · cases h; exact Mild.refl _
  · intro h
    unfold Codegen.continueAction at h
    split at h
    · cases h
    · simp only at h
      split at h
      · cases h; exact Mild.refl _
      · cases h
        apply Mild.mk1 <;> simp [Codegen.emit, lastIsRet]

theorem Mild_jmpfBreakLoop (n : Nat) : ∀ c c1 : Codegen,
    c.jmpfBreakLoop n = .ok c1 → Codegen.Mild c c1 := by
  induction n with
  | zero => intro c c1 h; cases h
  | succ n ih =>
    intro c c1 h
    simp only [Codegen.jmpfBreakLoop] at h
    split at h
    · split at h
      · cases h
      · split at h
        · rename_i c2 hp
          exact Mild.trans _ _ _ (Mild.patch _ _ _ _ (by simp) hp)
            (Mild.trans _ _ _ (Mild.pop _ _) (ih _ _ h))
        · cases h
    · cases h; exact Mild.refl _

theorem Mild_jmpfBreak (c c1 : Codegen) (h : c.jmpfBreakAction = .ok c1) : Codegen.Mild c c1 := by
  unfold Codegen.jmpfBreakAction at h
  split at h
  · rename_i c2 h2
    exact Mild.trans _ _ _ (Mild_jmpfBreakLoop _ _ _ h2) ((Mild_jumps c2 c1).1 h)
  · cases h

/-- Every semantic action other than `@func_start`, `@func_end` and `@param` leaves the
function context alone. -/
theorem ExecuteAction_Mild (c c1 : Codegen) (name : String)
    (h1 : name ≠ "@func_start") (h2 : name ≠ "@func_end") (h3 : name ≠ "@param")
    (h : c.ExecuteAction name = .ok c1) : Codegen.Mild c c1 := by
  obtain ⟨s1, s2, s3, s4, s5, s6, s7, s8, s9, s10⟩ := Mild_simple c
  obtain ⟨e1, e2, e3, _, e5, e6, e7, e8, e9, e10, e11, e12⟩ := Mild_emitters c .OpAdd (by decide)
  have b1 := (Mild_emitters c .OpAdd (by decide)).2.2.2.1
  have b2 := (Mild_emitters c .OpSub (by decide)).2.2.2.1
  have b3 := (Mild_emitters c .OpMul (by decide)).2.2.2.1
  have b4 := (Mild_emitters c .OpDiv (by decide)).2.2.2.1
  have b5 := (Mild_emitters c .OpMod (by decide)).2.2.2.1
  have b6 := (Mild_emitters c .OpOr (by decide)).2.2.2.1
  have b7 := (Mild_emitters c .OpAnd (by decide)).2.2.2.1
  obtain ⟨r1, r2⟩ := Mild_return_define c
  obtain ⟨j1, j2, j3, j4⟩ := Mild_jumps c c1
  have j5 := Mild_jmpfBreak c c1
  have r0 := Mild.refl c
  unfold Codegen.ExecuteAction at h
  split at h <;>
    first
    | exact absurd rfl h1
    | exact absurd rfl h2
    | exact absurd rfl h3
    | exact j1 h
    | exact j2 h
    | exact j3 h
    | exact j4 h
    | exact j5 h
    | (injection h with h; subst h; assumption)

theorem Mild_retInv (c c1 : Codegen) (h : Codegen.Mild c c1) (hi : c.retInv) : c1.retInv := by
  intro hl
  rcases h.2.2 with h0 | ⟨h1, h2⟩
  · exact h0
  · rw [h1]; exact hi (h2 hl)

theorem Mild.topLevel (c c1 : Codegen) (h : Codegen.Mild c c1) (ht : c.topLevel) :
    c1.topLevel := by
  obtain ⟨t1, t2, t3⟩ := ht
  refine ⟨h.1.trans t1, (h.2.1 t1).trans t2, ?_⟩
  rcases h.2.2 with h0 | ⟨h1, _⟩
  · exact h0
  · exact h1.trans t3

theorem topLevel_retInv (c : Codegen) (h : c.topLevel) : c.retInv := fun _ => h.2.2

theorem paramInv_retInv (c : Codegen) (k : Nat) (h : c.paramInv k) : c.retInv := by
  obtain ⟨pre, lab, ps, hpb, hlab, hlen, hps, _, _⟩ := h
  intro hl
  exfalso
  unfold lastIsRet at hl
  rw [hpb] at hl
  rcases List.eq_nil_or_concat ps with rfl | ⟨ps0, x, rfl⟩
  · simp [hlab] at hl
  · simp only [List.concat_eq_append] at hlen hps hl
    have hx := hps ps0.length (by rw [← hlen]; simp)
    have e1 : lab :: (ps0 ++ [x]) = (lab :: ps0) ++ [x] := by simp
    have e2 : (ps0 ++ [x]).getD ps0.length default = x := by
      simp [List.getD_eq_getElem?_getD]
    rw [e2] at hx
    rw [e1, ← List.append_assoc, List.getLast?_append] at hl
    simp [hx.1] at hl

/-- `@func_start` at top level: the block now ends with the label and no parameter. -/
theorem functionStart_paramInv (c : Codegen) (h : c.topLevel) :
    c.functionStartAction.paramInv 0 := by
  obtain ⟨_, t2, t3⟩ := h
  refine ⟨c.pb, ⟨.OpLabel, .str c.currentToken.Lexeme, .nil, .nil, .EOF⟩, [], ?_, rfl, rfl,
    fun j hj => absurd hj (Nat.not_lt_zero _), ?_, ?_⟩
  · simp [Codegen.functionStartAction, Codegen.emit, Codegen.setInFunction, Codegen.pushString]
  · simp [Codegen.functionStartAction, Codegen.emit, Codegen.setInFunction, Codegen.pushString,
      t3]
  · simp [Codegen.functionStartAction, Codegen.emit, Codegen.setInFunction, Codegen.pushString,
      t2]

/-- `@func_end`: the counters are back at their top-level values. -/
theorem funcEnd_topLevel (c : Codegen) (h : c.retInv) : c.funcEndAction.topLevel := by
  unfold Codegen.funcEndAction
  by_cases hc : c.pb.length = 0 ∨ (c.pb.getLastD default).Op ≠ .OpRet
  · simp only [if_pos hc]
    simp [Codegen.topLevel, Codegen.setInFunction, Codegen.emit]
  · simp only [if_neg hc]
    have hl : lastIsRet c.pb := by
      unfold lastIsRet
      have h1 : c.pb ≠ [] := by
        intro e; apply hc; left; rw [e]; rfl
      have h2 : (c.pb.getLastD default).Op = .OpRet := by
        by_contra x; exact hc (Or.inr x)
      rcases List.eq_nil_or_concat c.pb with e | ⟨l, x, e⟩
      · exact absurd e h1
      · rw [e] at h2 ⊢
        simp at h2 ⊢
        exact h2
    have := h hl
    simp [Codegen.topLevel, Codegen.setInFunction, Codegen.emit, this]

/-- `@param` with the name and the type on the stack: one more parameter in the block. -/
theorem paramAction_paramInv (c : Codegen) (k : Nat) (h : c.paramInv k) (hs : c.ss.Size ≥ 2) :
    c.paramAction.paramInv (k + 1) ∧
    c.paramAction.pb = c.pb ++
      [⟨.OpParam, .int (800 + k), .int k, .nil, Keywords c.topString⟩] := by
  obtain ⟨pre, lab, ps, hpb, hlab, hlen, hps, hp, hlc⟩ := h
  have hpb' : c.paramAction.pb = c.pb ++
      [⟨.OpParam, .int (800 + k), .int k, .nil, Keywords c.topString⟩] := by
    unfold Codegen.paramAction
    rw [if_pos hs]
    simp [Codegen.getLocalVariable, Codegen.declareVariable, Codegen.setVariableType,
      Codegen.emit, hp, hlc]
    split <;> simp [hp]
  refine ⟨⟨pre, lab, ps ++ [⟨.OpParam, .int (800 + k), .int k, .nil, Keywords c.topString⟩],
    ?_, hlab, by simp [hlen], ?_, ?_, ?_⟩, hpb'⟩
  · rw [hpb', hpb]; simp
  · intro j hj
    by_cases hjk : j < k
    · have := hps j hjk
      have e : (ps ++ [(⟨.OpParam, .int (800 + k), .int k, .nil, Keywords c.topString⟩ :
          Instruction)]).getD j default = ps.getD j default := by
        simp only [List.getD_eq_getElem?_getD]
        rw [List.getElem?_append_left (by omega)]
      rw [e]; exact this
    · have hj' : j = k := by omega
      subst hj'
      have e : (ps ++ [(⟨.OpParam, .int (800 + (j : Int)), .int j, .nil, Keywords c.topString⟩ :
          Instruction)]).getD j default =
          ⟨.OpParam, .int (800 + (j : Int)), .int j, .nil, Keywords c.topString⟩ := by
        simp only [List.getD_eq_getElem?_getD]
        rw [List.getElem?_append_right (by omega)]
        simp [hlen]
      rw [e]
      exact ⟨rfl, rfl, rfl⟩
  · unfold Codegen.paramAction
    rw [if_pos hs]
    simp [Codegen.getLocalVariable, Codegen.declareVariable, Codegen.setVariableType,
      Codegen.emit, hp]
    split <;> simp [hp]
  · unfold Codegen.paramAction
    rw [if_pos hs]
    simp [Codegen.getLocalVariable, Codegen.declareVariable, Codegen.setVariableType,
      Codegen.emit, hlc]
    split <;> simp [hlc]

/-- A state with the same block and counters. -/
theorem paramInv_of_same (c c1 : Codegen) (k : Nat) (h : c.paramInv k) (h1 : c1.pb = c.pb)
    (h2 : c1.paramCounter = c.paramCounter) (h3 : c1.localCounter = c.localCounter) :
    c1.paramInv k := by
  obtain ⟨pre, lab, ps, hpb, hlab, hlen, hps, hp, hlc⟩ := h
  exact ⟨pre, lab, ps, h1.trans hpb, hlab, hlen, hps, h2.trans hp, h3.trans hlc⟩

theorem lookup_mem {α β : Type} [BEq α] [LawfulBEq α] (l : List (α × β)) (a : α) (b : β)
    (h : l.lookup a = some b) : (a, b) ∈ l := by
  induction l with
  | nil => cases h
  | cons x xs ih =>
    obtain ⟨k, v⟩ := x
    simp only [List.lookup] at h
    cases hk : (a == k) with
    | true =>
      rw [hk] at h
      simp at h
      have : a = k := by simpa using hk
      subst this; subst h
      exact List.mem_cons_self _ _
    | false =>
      rw [hk] at h
      exact List.mem_cons_of_mem _ (ih h)

theorem table_entry (x : String) (t : TokenType) (prod : Production)
    (h : NewParsingTable x t = some prod) :
    ∃ e ∈ tableRows, e.1 = x ∧ ∃ f ∈ e.2, prod = grammer.getD f.2 default := by
  unfold NewParsingTable at h
  cases h1 : tableRows.lookup x with
  | none => rw [h1] at h; cases h
  | some row =>
    rw [h1] at h
    simp only at h
    cases h2 : row.lookup t with
    | none => rw [h2] at h; cases h
    | some k =>
      rw [h2] at h
      cases h
      exact ⟨(x, row), lookup_mem _ _ _ h1, rfl, (t, k), lookup_mem _ _ _ h2, rfl⟩

theorem body_closed :
    ∀ e ∈ tableRows, e.1 ∈ bodySyms → ∀ f ∈ e.2,
      ∀ y ∈ rhsStack (grammer.getD f.2 default).RHS, y ∈ bodySyms := by
  decide

theorem body_not_function : "@func_start" ∉ bodySyms ∧ "@func_end" ∉ bodySyms ∧
    "@param" ∉ bodySyms := by
  decide

/-- Expanding or dropping the nonterminal on top of a top-level stack. -/
theorem decl_expand :
    ∀ D ∈ declShapes, ∀ x, D.getLast? = some x →
      isTerminal x = false ∧ D.dropLast ∈ declShapes ∧
      ∀ e ∈ tableRows, e.1 = x → ∀ f ∈ e.2,
        D.dropLast ++ rhsStack (grammer.getD f.2 default).RHS ∈
          [[], ["DeclList"], ["DeclList", "Decl"], ["DeclList", "FuncDecl"],
           ["DeclList", "Stmt"], "DeclList" :: funcDeclStack] := by
  decide

/-- The top of a parameter pattern that is a terminal or a nonterminal: popping it, or
expanding it, gives a parameter pattern that needs no more of the semantic stack. -/
theorem param_expand :
    ∀ P ∈ paramPatterns, ∀ x, P.getLast? = some x → isSemanticAction x = false →
      (P.dropLast ∈ paramPatterns ∧ ssReq P.dropLast ≤ ssReq P) ∧
      ∀ e ∈ tableRows, e.1 = x → ∀ f ∈ e.2,
        isTerminal x = false →
        (P.dropLast ++ rhsStack (grammer.getD f.2 default).RHS ∈ paramPatterns ∧
          ssReq (P.dropLast ++ rhsStack (grammer.getD f.2 default).RHS) ≤ ssReq P) := by
  decide

/-- The top of a parameter pattern that is an action. -/
theorem param_action :
    ∀ P ∈ paramPatterns, ∀ x, P.getLast? = some x → isSemanticAction x = true →
      P.dropLast ∈ paramPatterns ∧
      ((x = "@capture_param_name" ∧ ssReq P.dropLast ≤ 1) ∨
       (x = "@capture_type" ∧ 1 ≤ ssReq P ∧ ssReq P.dropLast ≤ 2) ∨
       (x = "@param" ∧ 2 ≤ ssReq P ∧ ssReq P.dropLast = 0)) := by
  decide

theorem head_shapes :
    ∀ h ∈ headShapes, ∀ x, h.getLast? = some x →
      (x = "@func_start" ∧ h.dropLast =
        "@func_end" :: (["\x7d", "StmtList", "\x7b", "@func_return_type", "Type", ":", ")"] ++
          ["ParamList", "("])) ∨
      (isSemanticAction x = false ∧ isTerminal x = true ∧ h.dropLast ∈ headShapes) := by
  decide

theorem pushRHS_a (st : Stack String) (rhs : List String) :
    (pushRHS st rhs).a = st.a ++ rhsStack rhs := by
  induction rhs with
  | nil => simp [pushRHS, rhsStack]
  | cons x r ih =>
    simp only [pushRHS]
    by_cases hx : x ≠ "ε"
    · rw [if_pos hx]
      simp only [Stack.Push, ih, rhsStack, List.filter_cons]
      simp [hx]
    · rw [if_neg hx]
      simp only [ih, rhsStack, List.filter_cons]
      simp [hx]

theorem handleTerminalError_fields (p : Parser) (x : String) :
    (p.handleTerminalError x).1.stack = p.stack ∧ (p.handleTerminalError x).1.cg = p.cg := by
  unfold Parser.handleTerminalError
  split
  · exact ⟨rfl, rfl⟩
  · split <;> exact ⟨rfl, rfl⟩

theorem handleNonTerminalError_fields (p : Parser) (x : String) :
    (p.handleNonTerminalError x).1.stack = p.stack ∧
    (p.handleNonTerminalError x).1.cg = p.cg := by
  unfold Parser.handleNonTerminalError
  split
  · exact ⟨rfl, rfl⟩
  · split
    · exact ⟨rfl, rfl⟩
    · split <;> exact ⟨rfl, rfl⟩

/-- One iteration of the loop of `Parse`, seen on the parse stack and the code generator:
with `x` on top of the stack `r`, an action runs `ExecuteAction`, a terminal is popped, and
a nonterminal is replaced by a right-hand side of the table or dropped. -/
theorem step_cases (p0 p1 : Parser) (brk : Bool) (r : List String) (x : String)
    (ha : p0.stack.a = r ++ [x]) (h : p0.step = .ok (p1, brk)) :
    (isSemanticAction x = true ∧ p0.cg.ExecuteAction x = .ok p1.cg ∧ p1.stack.a = r) ∨
    (isSemanticAction x = false ∧ isTerminal x = true ∧ p1.stack.a = r ∧
      (p1.cg = p0.cg.SetCurrentToken p0.currentToken ∨ p1.cg = p0.cg)) ∨
    (isTerminal x = false ∧ p1.cg = p0.cg ∧
      (p1.stack.a = r ∨
        ∃ prod, NewParsingTable x p0.currentToken.Typ = some prod ∧
          p1.stack.a = r ++ rhsStack prod.RHS)) := by
  have hpop : p0.stack.Pop = (x, ⟨r⟩) := by
    simp [Stack.Pop, Stack.Size, ha]
  have hq : ∀ q : Parser × Bool, (Except.ok q : Res (Parser × Bool)) = .ok (p1, brk) →
      q.1 = p1 := by
    intro q e; cases e; rfl
  unfold Parser.step at h
  rw [hpop] at h
  simp only at h
  cases ht : isTerminal x with
  | true =>
    rw [ht] at h
    simp only [if_true] at h
    cases hs : isSemanticAction x with
    | true =>
      rw [hs] at h
      simp only [if_true] at h
      left
      cases he : p0.cg.ExecuteAction x with
      | error e => rw [he] at h; cases h
      | ok cg =>
        rw [he] at h
        cases h
        exact ⟨rfl, rfl, rfl⟩
    | false =>
      rw [hs] at h
      simp only [Bool.false_eq_true, if_false] at h
      right; left
      refine ⟨rfl, rfl, ?_⟩
      split at h
      · cases h
        exact ⟨rfl, Or.inl rfl⟩
      · have e := hq _ h
        rw [← e]
        have hf := handleTerminalError_fields
          { p0 with stack := (⟨r⟩ : Stack String) } x
        exact ⟨by rw [hf.1], Or.inr (by rw [hf.2])⟩
  | false =>
    rw [ht] at h
    simp only [Bool.false_eq_true, if_false] at h
    right; right
    refine ⟨rfl, ?_⟩
    cases hn : NewParsingTable x p0.currentToken.Typ with
    | none =>
      rw [hn] at h
      simp only at h
      have e := hq _ h
      rw [← e]
      have hf := handleNonTerminalError_fields
        { p0 with stack := (⟨r⟩ : Stack String) } x
      exact ⟨by rw [hf.2], Or.inl (by rw [hf.1])⟩
    | some prod =>
      rw [hn] at h
      simp only at h
      split at h
      · rename_i hε
        cases h
        refine ⟨rfl, Or.inr ⟨prod, rfl, ?_⟩⟩
        have : rhsStack prod.RHS = [] := by
          rcases hε with h0 | ⟨h1, h2⟩
          · have : prod.RHS = [] := List.length_eq_zero.1 h0
            rw [this]; rfl
          · cases hr : prod.RHS with
            | nil => rfl
            | cons y ys =>
              rw [hr] at h1 h2
              simp at h1 h2
              subst h1; subst h2
              decide
        rw [this]; simp
      · cases h
        exact ⟨rfl, Or.inr ⟨prod, rfl, pushRHS_a _ _⟩⟩

theorem action_is_terminal (x : String) (h : isSemanticAction x = true) : isTerminal x = true := by
  simp [isTerminal, h]

/-- A step with a body symbol on top: the function context is left alone and the symbol is
replaced by body symbols. -/
theorem body_step (p0 p1 : Parser) (brk : Bool) (r : List String) (x : String)
    (ha : p0.stack.a = r ++ [x]) (hx : x ∈ bodySyms) (h : p0.step = .ok (p1, brk)) :
    Codegen.Mild p0.cg p1.cg ∧ ∃ B1, p1.stack.a = r ++ B1 ∧ ∀ y ∈ B1, y ∈ bodySyms := by
  obtain ⟨n1, n2, n3⟩ := body_not_function
  rcases step_cases p0 p1 brk r x ha h with ⟨_, he, hs⟩ | ⟨_, _, hs, hc⟩ | ⟨_, hc, hs⟩
  · refine ⟨ExecuteAction_Mild _ _ x ?_ ?_ ?_ he, [], by simp [hs], by simp⟩
    · intro e; rw [e] at hx; exact n1 hx
    · intro e; rw [e] at hx; exact n2 hx
    · intro e; rw [e] at hx; exact n3 hx
  · refine ⟨?_, [], by simp [hs], by simp⟩
    rcases hc with hc | hc
    · rw [hc]; exact Mild_of_same _ _ rfl rfl rfl rfl
    · rw [hc]; exact Mild.refl _
  · refine ⟨by rw [hc]; exact Mild.refl _, ?_⟩
    rcases hs with hs | ⟨prod, hp, hs⟩
    · exact ⟨[], by simp [hs], by simp⟩
    · obtain ⟨e, he, hex, f, hf, hpf⟩ := table_entry _ _ _ hp
      refine ⟨rhsStack prod.RHS, hs, ?_⟩
      rw [hpf]
      exact body_closed e he (by rw [hex]; exact hx) f hf

theorem list_last_cases (l : List String) :
    l = [] ∨ ∃ l0 x, l = l0 ++ [x] ∧ l.getLast? = some x ∧ l.dropLast = l0 := by
  rcases List.eq_nil_or_concat l with h | ⟨l0, x, h⟩
  · exact Or.inl h
  · right
    refine ⟨l0, x, by rw [h, List.concat_eq_append], ?_, ?_⟩
    · rw [h, List.concat_eq_append]; simp
    · rw [h, List.concat_eq_append]; simp

/-- The invariant is kept by every iteration of the loop of `Parse`. -/
theorem stackInv_step (p0 p1 : Parser) (brk : Bool) (hinv : stackInv p0.stack.a p0.cg)
    (hsize : p0.stack.Size > 1) (h : p0.step = .ok (p1, brk)) :
    stackInv p1.stack.a p1.cg := by
  obtain ⟨hret, hshape⟩ := hinv
  rcases hshape with ⟨D, B, ha, hD, hB, htop⟩ | ⟨hd, ha, hh, htop⟩ | ⟨B, P, ha, hB, hP, hpar⟩
  · -- outside a function declaration
    rcases list_last_cases B with rfl | ⟨B0, x, rfl, _, _⟩
    · rcases list_last_cases D with rfl | ⟨D0, x, hDe, hlast, hdrop⟩
      · simp [Stack.Size, ha] at hsize
      · obtain ⟨hnt, hdl, hexp⟩ := decl_expand D hD x hlast
        have ha' : p0.stack.a = ("$" :: D0) ++ [x] := by rw [ha, hDe]; simp
        rcases step_cases p0 p1 brk _ x ha' h with ⟨hs, _, _⟩ | ⟨_, ht, _, _⟩ | ⟨_, hc, hs⟩
        · rw [action_is_terminal x hs] at hnt; cases hnt
        · rw [ht] at hnt; cases hnt
        · have htop' : p1.cg.topLevel := by rw [hc]; exact htop
          refine ⟨topLevel_retInv _ htop', ?_⟩
          rcases hs with hs | ⟨prod, hp, hs⟩
          · left
            exact ⟨D0, [], by simp [hs], by rw [← hdrop]; exact hdl, by simp, htop'⟩
          · obtain ⟨e, he, hex, f, hf, hpf⟩ := table_entry _ _ _ hp
            have hm := hexp e he hex f hf
            rw [← hpf, hdrop] at hm
            have hs' : p1.stack.a = "$" :: (D0 ++ rhsStack prod.RHS) := by rw [hs]; simp
            simp only [List.mem_cons, List.mem_singleton, List.not_mem_nil, or_false] at hm
            rcases hm with hm | hm | hm | hm | hm | hm
            · left; exact ⟨[], [], by rw [hs', hm]; rfl, by decide, by simp, htop'⟩
            · left; exact ⟨["DeclList"], [], by rw [hs', hm]; rfl, by decide, by simp, htop'⟩
            · left
              exact ⟨["DeclList", "Decl"], [], by rw [hs', hm]; rfl, by decide, by simp, htop'⟩
            · left
              exact ⟨["DeclList", "FuncDecl"], [], by rw [hs', hm]; rfl, by decide, by simp,
                htop'⟩
            · left
              refine ⟨["DeclList"], ["Stmt"], by rw [hs', hm]; rfl, by decide, ?_, htop'⟩
              intro y hy
              simp at hy; subst hy; decide
            · right; left
              exact ⟨funcDeclStack, by rw [hs', hm], by decide, htop'⟩
    · have ha' : p0.stack.a = ("$" :: (D ++ B0)) ++ [x] := by rw [ha]; simp
      obtain ⟨hm, B1, hs, hB1⟩ := body_step p0 p1 brk _ x ha' (hB x (by simp)) h
      refine ⟨Mild_retInv _ _ hm hret, Or.inl ⟨D, B0 ++ B1, by rw [hs]; simp, hD, ?_,
        Mild.topLevel _ _ hm htop⟩⟩
      intro y hy
      rcases List.mem_append.1 hy with hy | hy
      · exact hB y (by simp [hy])
      · exact hB1 y hy
  · -- between the expansion of `FuncDecl` and `@func_start`
    rcases list_last_cases hd with rfl | ⟨h0, x, hde, hlast, hdrop⟩
    · exact absurd hh (by decide)
    · have ha' : p0.stack.a = ("$" :: "DeclList" :: h0) ++ [x] := by rw [ha, hde]; simp
      rcases head_shapes hd hh x hlast with ⟨hx, hrest⟩ | ⟨hna, ht, hin⟩
      · subst hx
        rcases step_cases p0 p1 brk _ _ ha' h with ⟨_, he, hs⟩ | ⟨hs, _, _, _⟩ | ⟨ht, _, _⟩
        · have hcg : p1.cg = p0.cg.functionStartAction := by
            have : p0.cg.ExecuteAction "@func_start" = .ok p0.cg.functionStartAction := rfl
            rw [this] at he
            exact (Except.ok.inj he).symm
          have hpi := functionStart_paramInv p0.cg htop
          rw [← hcg] at hpi
          refine ⟨paramInv_retInv _ _ hpi, Or.inr (Or.inr
            ⟨["\x7d", "StmtList", "\x7b", "@func_return_type", "Type", ":", ")"],
              ["ParamList", "("], ?_, by decide, by decide, fun _ => ⟨0, hpi, ?_⟩⟩)⟩
          · rw [hs, ← hdrop, hrest]
          · exact Nat.zero_le _
        · exact absurd hs (by decide)
        · exact absurd ht (by decide)
      · rcases step_cases p0 p1 brk _ x ha' h with ⟨hs, _, _⟩ | ⟨_, _, hs, hc⟩ | ⟨hnt, _, _⟩
        · rw [hs] at hna; cases hna
        · have htop' : p1.cg.topLevel := by
            rcases hc with hc | hc
            · rw [hc]; exact htop
            · rw [hc]; exact htop
          exact ⟨topLevel_retInv _ htop', Or.inr (Or.inl
            ⟨h0, by rw [hs], by rw [← hdrop]; exact hin, htop'⟩)⟩
        · rw [ht] at hnt; cases hnt
  · -- inside a function declaration
    rcases list_last_cases P with rfl | ⟨P0, x, hPe, hlast, hdrop⟩
    · rcases list_last_cases B with rfl | ⟨B0, x, rfl, _, _⟩
      · have ha' : p0.stack.a = ["$", "DeclList"] ++ ["@func_end"] := by rw [ha]; rfl
        rcases step_cases p0 p1 brk _ _ ha' h with ⟨_, he, hs⟩ | ⟨hs, _, _, _⟩ | ⟨ht, _, _⟩
        · have hcg : p1.cg = p0.cg.funcEndAction := by
            have : p0.cg.ExecuteAction "@func_end" = .ok p0.cg.funcEndAction := rfl
            rw [this] at he
            exact (Except.ok.inj he).symm
          have htop' : p1.cg.topLevel := by rw [hcg]; exact funcEnd_topLevel _ hret
          exact ⟨topLevel_retInv _ htop', Or.inl
            ⟨["DeclList"], [], by rw [hs]; rfl, by decide, by simp, htop'⟩⟩
        · exact absurd hs (by decide)
        · exact absurd ht (by decide)
      · have ha' : p0.stack.a = ("$" :: "DeclList" :: "@func_end" :: B0) ++ [x] := by
          rw [ha]; simp
        obtain ⟨hm, B1, hs, hB1⟩ := body_step p0 p1 brk _ x ha' (hB x (by simp)) h
        refine ⟨Mild_retInv _ _ hm hret, Or.inr (Or.inr ⟨B0 ++ B1, [], by rw [hs]; simp, ?_,
          by decide, fun hne => absurd rfl hne⟩)⟩
        intro y hy
        rcases List.mem_append.1 hy with hy | hy
        · exact hB y (by simp [hy])
        · exact hB1 y hy
    · have hPne : P ≠ [] := by rw [hPe]; simp
      obtain ⟨k, hpi, hreq⟩ := hpar hPne
      have ha' : p0.stack.a = ("$" :: "DeclList" :: "@func_end" :: (B ++ P0)) ++ [x] := by
        rw [ha, hPe]; simp
      -- the shape of the result for a parameter pattern `P1` with its requirement met
      have fin : ∀ (P1 : List String) (k1 : Nat),
          p1.stack.a = "$" :: "DeclList" :: "@func_end" :: (B ++ P1) → P1 ∈ paramPatterns →
          p1.cg.paramInv k1 → ssReq P1 ≤ p1.cg.ss.Size → stackInv p1.stack.a p1.cg := by
        intro P1 k1 h1 h2 h3 h4
        exact ⟨paramInv_retInv _ _ h3, Or.inr (Or.inr ⟨B, P1, h1, hB, h2, fun _ => ⟨k1, h3, h4⟩⟩)⟩
      cases hact : isSemanticAction x with
      | true =>
        obtain ⟨hP0, hcase⟩ := param_action P hP x hlast hact
        rw [hdrop] at hP0 hcase
        rcases step_cases p0 p1 brk _ x ha' h with ⟨_, he, hs⟩ | ⟨hs, _, _, _⟩ | ⟨ht, _, _⟩
        · rcases hcase with ⟨hx, hr⟩ | ⟨hx, hr1, hr2⟩ | ⟨hx, hr1, hr2⟩
          · subst hx
            have hcg : p1.cg = p0.cg.captureParamNameAction := by
              have : p0.cg.ExecuteAction "@capture_param_name" =
                  .ok p0.cg.captureParamNameAction := rfl
              rw [this] at he
              exact (Except.ok.inj he).symm
            apply fin P0 k hs hP0
            · rw [hcg]; exact paramInv_of_same _ _ _ hpi rfl rfl rfl
            · rw [hcg]
              simp [Codegen.captureParamNameAction, Codegen.pushString, Stack.Push, Stack.Size]
              omega
          · subst hx
            have hcg : p1.cg = p0.cg.captureTypeAction := by
              have : p0.cg.ExecuteAction "@capture_type" = .ok p0.cg.captureTypeAction := rfl
              rw [this] at he
              exact (Except.ok.inj he).symm
            apply fin P0 k hs hP0
            · rw [hcg]; exact paramInv_of_same _ _ _ hpi rfl rfl rfl
            · rw [hcg]
              simp [Codegen.captureTypeAction, Codegen.pushString, Stack.Push, Stack.Size]
              simp [Stack.Size] at hreq
              omega
          · subst hx
            have hcg : p1.cg = p0.cg.paramAction := by
              have : p0.cg.ExecuteAction "@param" = .ok p0.cg.paramAction := rfl
              rw [this] at he
              exact (Except.ok.inj he).symm
            apply fin P0 (k + 1) hs hP0
            · rw [hcg]; exact (paramAction_paramInv _ _ hpi (by omega)).1
            · rw [hr2]; exact Nat.zero_le _
        · rw [hs] at hact; cases hact
        · rw [action_is_terminal x hact] at ht; cases ht
      | false =>
        obtain ⟨⟨hP0, hr0⟩, hexp⟩ := param_expand P hP x hlast hact
        rw [hdrop] at hP0 hr0 hexp
        rcases step_cases p0 p1 brk _ x ha' h with ⟨hs, _, _⟩ | ⟨_, _, hs, hc⟩ | ⟨hnt, hc, hs⟩
        · rw [hs] at hact; cases hact
        · apply fin P0 k hs hP0
          · rcases hc with hc | hc
            · rw [hc]; exact paramInv_of_same _ _ _ hpi rfl rfl rfl
            · rw [hc]; exact hpi
          · rcases hc with hc | hc
            · rw [hc]; exact le_trans hr0 hreq
            · rw [hc]; exact le_trans hr0 hreq
        · rcases hs with hs | ⟨prod, hp, hs⟩
          · apply fin P0 k hs hP0
            · rw [hc]; exact hpi
            · rw [hc]; exact le_trans hr0 hreq
          · obtain ⟨e, he, hex, f, hf, hpf⟩ := table_entry _ _ _ hp
            obtain ⟨m1, m2⟩ := hexp e he hex f hf hnt
            rw [← hpf] at m1 m2
            apply fin (P0 ++ rhsStack prod.RHS) k (by rw [hs]; simp) m1
            · rw [hc]; exact hpi
            · rw [hc]; exact le_trans m2 hreq

theorem Reach_stackInv (input : Str) (p : Parser) (h : Parser.Reach input p) :
    stackInv p.stack.a p.cg := by
  induction h with
  | init =>
    refine ⟨?_, Or.inl ⟨["Program"], [], rfl, by decide, by simp, ⟨rfl, rfl, rfl⟩⟩⟩
    intro hl
    exact absurd hl (by simp [lastIsRet, NewParser, Parser.nextToken, NewCodegen])
  | step p p1 brk _ hsize hstep ih => exact stackInv_step p p1 brk ih hsize hstep

theorem Peek_concat (r : List String) (x : String) : (⟨r ++ [x]⟩ : Stack String).Peek = x := by
  simp [Stack.Peek, Stack.Size]

theorem param_tops :
    ∀ P ∈ paramPatterns, P.getLast? ≠ some "@func_start" ∧
      (P.getLast? = some "@param" → ssReq P = 2) := by
  decide

theorem decl_tops : ∀ D ∈ declShapes, D.getLast? ≠ some "@param" := by
  decide

theorem head_tops : ∀ h ∈ headShapes, h.getLast? ≠ some "@param" := by
  decide

/-- The symbol on top of a stack of the shape of `stackInv`, inside a function declaration. -/
theorem fun_top (B P : List String) (x : String)
    (h : (⟨"$" :: "DeclList" :: "@func_end" :: (B ++ P)⟩ : Stack String).Peek = x) :
    P.getLast? = some x ∨ (P = [] ∧ (x ∈ B ∨ x = "@func_end")) := by
  rcases list_last_cases P with rfl | ⟨P0, y, hPe, hlast, _⟩
  · right
    refine ⟨rfl, ?_⟩
    rcases list_last_cases B with rfl | ⟨B0, y, rfl, _, _⟩
    · right
      have : ("$" :: "DeclList" :: "@func_end" :: (([] : List String) ++ [])) =
          ["$", "DeclList"] ++ ["@func_end"] := rfl
      rw [this, Peek_concat] at h
      exact h.symm
    · left
      have : ("$" :: "DeclList" :: "@func_end" :: (B0 ++ [y] ++ [])) =
          ("$" :: "DeclList" :: "@func_end" :: B0) ++ [y] := by simp
      rw [this, Peek_concat] at h
      rw [← h]; simp
  · left
    have : ("$" :: "DeclList" :: "@func_end" :: (B ++ P)) =
        ("$" :: "DeclList" :: "@func_end" :: (B ++ P0)) ++ [y] := by rw [hPe]; simp
    rw [this, Peek_concat] at h
    rw [hlast, h]

/-- The states of `Parser.after` are states the loop passes through. -/
theorem Reach_after (input : Str) : ∀ (n : Nat) (p q : Parser), Parser.Reach input p →
    Parser.after n p = some q → Parser.Reach input q := by
  intro n
  induction n with
  | zero =>
    intro p q hp h
    simp only [Parser.after, Option.some.injEq] at h
    rw [← h]; exact hp
  | succ n ih =>
    intro p q hp h
    simp only [Parser.after] at h
    split at h
    · rename_i hsz
      split at h
      · rename_i p1 brk hst
        split at h
        · cases h
        · exact ih p1 q (.step p p1 brk hp hsz hst) h
      · cases h
    · cases h

/-- The result of the loop of `Parse` is a state the loop passes through. -/
theorem Reach_loop (input : Str) : ∀ (fuel : Nat) (p q : Parser), Parser.Reach input p →
    Parser.loop fuel p = .ok q → Parser.Reach input q := by
  intro n
  induction n with
  | zero => intro p q _ h; cases h
  | succ n ih =>
    intro p q hp h
    simp only [Parser.loop] at h
    split at h
    · rename_i hsz
      split at h
      · rename_i p1 brk hst
        split at h
        · rw [← Except.ok.inj h]; exact .step p p1 brk hp hsz hst
        · exact ih p1 q (.step p p1 brk hp hsz hst) h
      · cases h
    · rw [← Except.ok.inj h]; exact hp

/-- C18: in every state the loop of `Parse` passes through, on every source text: when
`@func_start` is on top of the parse stack, `paramCounter` and `localCounter` are 0; and
when `@param` is on top, the block ends with the label of the function and the `param`
instructions of the `k` parameters read so far, parameter `j` with `arg1 = 800 + j` and
`arg2 = j`, and the action emits `param` with `arg1 = 800 + k` and `arg2 = k`. -/
theorem C18_param_slots (input : Str) (p : Parser) (h : Parser.Reach input p) :
    (p.stack.Peek = "@func_start" → p.cg.paramCounter = 0 ∧ p.cg.localCounter = 0) ∧
    (p.stack.Peek = "@param" →
      ∃ k : Nat, p.cg.paramInv k ∧
        p.cg.paramAction.pb = p.cg.pb ++
          [⟨.OpParam, .int (800 + k), .int k, .nil, Keywords p.cg.topString⟩]) := by
  obtain ⟨_, hshape⟩ := Reach_stackInv input p h
  obtain ⟨n1, _, n3⟩ := body_not_function
  have hst : p.stack = ⟨p.stack.a⟩ := rfl
  constructor
  · intro htop
    rcases hshape with ⟨_, _, _, _, _, ht⟩ | ⟨_, _, _, ht⟩ | ⟨B, P, ha, hB, hP, _⟩
    · exact ⟨ht.2.2, ht.2.1⟩
    · exact ⟨ht.2.2, ht.2.1⟩
    · exfalso
      rw [hst, ha] at htop
      rcases fun_top B P _ htop with h1 | ⟨_, h1 | h1⟩
      · exact (param_tops P hP).1 h1
      · exact n1 (hB _ h1)
      · exact absurd h1 (by decide)
  · intro htop
    rcases hshape with ⟨D, B, ha, hD, hB, _⟩ | ⟨hd, ha, hh, _⟩ | ⟨B, P, ha, hB, hP, hpar⟩
    · exfalso
      rw [hst, ha] at htop
      rcases list_last_cases B with rfl | ⟨B0, y, rfl, _, _⟩
      · rcases list_last_cases D with rfl | ⟨D0, y, hDe, hlast, _⟩
        · exact absurd htop (by decide)
        · have : ("$" :: (D ++ [])) = ("$" :: D0) ++ [y] := by rw [hDe]; simp
          rw [this, Peek_concat] at htop
          subst htop
          exact decl_tops D hD hlast
      · have : ("$" :: (D ++ (B0 ++ [y]))) = ("$" :: (D ++ B0)) ++ [y] := by simp
        rw [this, Peek_concat] at htop
        subst htop
        exact n3 (hB _ (by simp))
    · exfalso
      rw [hst, ha] at htop
      rcases list_last_cases hd with rfl | ⟨h0, y, hde, hlast, _⟩
      · exact absurd hh (by decide)
      · have : ("$" :: "DeclList" :: hd) = ("$" :: "DeclList" :: h0) ++ [y] := by
          rw [hde]; simp
        rw [this, Peek_concat] at htop
        subst htop
        exact head_tops hd hh hlast
    · rw [hst, ha] at htop
      rcases fun_top B P _ htop with h1 | ⟨_, h1 | h1⟩
      · have hne : P ≠ [] := by
          intro e; rw [e] at h1; cases h1
        obtain ⟨k, hpi, hreq⟩ := hpar hne
        rw [(param_tops P hP).2 h1] at hreq
        exact ⟨k, hpi, (paramAction_paramInv _ _ hpi hreq).2⟩
      · exact absurd (hB _ h1) n3
      · exact absurd h1 (by decide)

theorem C18_param_slots_witness :
    ∃ q, Parser.after 26 (NewParser (NewLexer (bs "func f(a: int, b: int): int \x7b return a; \x7d"))) = some q ∧
      q.stack.Peek = "@param" ∧
      ∃ k : Nat, q.cg.paramInv k ∧
        q.cg.paramAction.pb = q.cg.pb ++
          [⟨.OpParam, .int (800 + k), .int k, .nil, Keywords q.cg.topString⟩] := by
  have h1 : (Parser.after 26
      (NewParser (NewLexer (bs "func f(a: int, b: int): int \x7b return a; \x7d")))).map
        (fun q => q.stack.Peek) = some "@param" := by
    decide!
  cases hq : Parser.after 26
      (NewParser (NewLexer (bs "func f(a: int, b: int): int \x7b return a; \x7d"))) with
  | none => rw [hq] at h1; cases h1
  | some q =>
    rw [hq] at h1
    have htop : q.stack.Peek = "@param" := Option.some.inj h1
    exact ⟨q, rfl, htop,
      (C18_param_slots (bs "func f(a: int, b: int): int \x7b return a; \x7d") q
        (Reach_after _ _ _ _ .init hq)).2 htop⟩

/-- Counterexample to C31 as stated: in the new interpreter of the empty program the address
`400` has no value, and loading it with the hint `BOOL` returns the `INT` value `0`, whose
kind is not `BOOL`. -/
theorem C31_counterexample :
    ((NewInterpreter []).GetVar 400).2 = false ∧
    ((NewInterpreter []).loadOperand (.int 400) .BOOL).toOption.map
      (fun v => (v.Kind, v.I64, v.BoolVal, v.Valid)) = some (.KindInt, 0, false, true) ∧
    (newBool false).Kind = .KindBool := by
  decide!

/-- C31 (amended): for every interpreter state, every address for which `GetVar` reports no
value and every type hint, `loadOperand` returns without error: the `INT` value `0` for the
hints `INT` and `BOOL`, the `FLOAT` value `0` for `FLOAT`, the empty `STRING` for `STRING`,
and the zero `Value` for every other hint. -/
theorem C31_default_of_hint (i : Interpreter) (addr : Int) (hint : TokenType)
    (h : (i.GetVar addr).2 = false) :
    i.loadOperand (.int addr) hint = .ok
      (match hint with
       | .FLOAT => newFloat 0
       | .INT => newInt 0
       | .BOOL => newInt 0
       | .STRING => newString []
       | _ => Value.zero) := by
  simp only [Interpreter.loadOperand, h]
  cases hint <;> rfl

theorem C31_default_of_hint_witness :
    ((NewInterpreter []).GetVar 400).2 = false ∧
    (NewInterpreter []).loadOperand (.int 400) .STRING = .ok (newString []) :=
  ⟨by decide!, C31_default_of_hint (NewInterpreter []) 400 .STRING (by decide!)⟩

/-- C32 (the code departs from the claim): when the terminal `id` is expected and the current
token is one of the reserved keywords, the terminal does not match, `isReservedKeywordAsId`
answers `false` (it rejects every token whose kind is not `ID`, and no keyword has that
kind), and the diagnostic `handleTerminalError` records is "Expected identifier" at the
position of the token, not "Cannot use reserved keyword as identifier". -/
theorem C32_keyword_as_identifier (p : Parser) (h : p.currentToken.Typ ∈ reservedKinds) :
    p.matchTerminal "id" = false ∧ isReservedKeywordAsId p.currentToken = false ∧
    (p.handleTerminalError "id").1.errors =
      p.errors ++ [⟨"Expected identifier", p.currentToken.Pos⟩] ∧
    (p.handleTerminalError "id").2 = false := by
  have hne : p.currentToken.Typ ≠ .ID := by
    intro e; rw [e] at h; revert h; decide
  have h1 : p.currentToken.Typ ≠ .ASSIGN := by
    intro e; rw [e] at h; revert h; decide
  have h2 : p.currentToken.Typ ≠ .SEMICOLON := by
    intro e; rw [e] at h; revert h; decide
  have hr : isReservedKeywordAsId p.currentToken = false := by
    simp [isReservedKeywordAsId, hne]
  refine ⟨by simp [Parser.matchTerminal, hne], hr, ?_, ?_⟩
  · simp [Parser.handleTerminalError, Parser.addContextualError, Parser.addError,
      categorizeError, h1, h2, hr]
  · simp [Parser.handleTerminalError, h1]

theorem C32_keyword_as_identifier_witness :
    (∃ q, Parser.after 6 (NewParser (NewLexer srcKeywordName)) = some q ∧
      q.stack.Peek = "id" ∧ q.currentToken.Typ = .IF ∧
      q.matchTerminal "id" = false ∧ isReservedKeywordAsId q.currentToken = false ∧
      (q.handleTerminalError "id").1.errors =
        q.errors ++ [⟨"Expected identifier", q.currentToken.Pos⟩] ∧
      (q.handleTerminalError "id").2 = false) ∧
    (parseResult 1000 srcKeywordName).map (fun r => r.1.head?) =
      some (some ⟨"Expected identifier", ⟨1, 5, 4⟩⟩) := by
  have h1 : (Parser.after 6 (NewParser (NewLexer srcKeywordName))).map
        (fun q => (q.stack.Peek, q.currentToken.Typ)) = some ("id", .IF) := by decide!
  refine ⟨?_, by decide!⟩
  cases hq : Parser.after 6 (NewParser (NewLexer srcKeywordName)) with
  | none => rw [hq] at h1; cases h1
  | some q =>
    rw [hq] at h1
    have hp : q.stack.Peek = "id" := congrArg (fun x => x.1) (Option.some.inj h1)
    have ht : q.currentToken.Typ = .IF := congrArg (fun x => x.2) (Option.some.inj h1)
    exact ⟨q, rfl, hp, ht, C32_keyword_as_identifier q (by rw [ht]; decide)⟩

theorem handleTerminalError_eq (p : Parser) (x : String) :
    ∃ m, p.handleTerminalError x =
      ({ p with errors := p.errors ++ [⟨m, p.currentToken.Pos⟩] }, false) := by
  unfold Parser.handleTerminalError
  split
  · exact ⟨_, rfl⟩
  · split
    · exact ⟨_, rfl⟩
    · exact ⟨_, rfl⟩

theorem handleNonTerminalError_eq (p : Parser) (x : String) :
    ∃ m, p.handleNonTerminalError x =
      ({ p with errors := p.errors ++ [⟨m, p.currentToken.Pos⟩] }, false) := by
  unfold Parser.handleNonTerminalError
  split
  · exact ⟨_, rfl⟩
  · split
    · exact ⟨_, rfl⟩
    · split
      · exact ⟨_, rfl⟩
      · exact ⟨_, rfl⟩

/-- One iteration of the loop of `Parse`, case by case: an action runs, a matching terminal
is consumed, a terminal that does not match or a nonterminal without a table entry is
dropped with one diagnostic, and a nonterminal with an entry is replaced by the right-hand
side.  No iteration executes `break`. -/
theorem step_shape (p0 p1 : Parser) (brk : Bool) (h : p0.step = .ok (p1, brk)) :
    brk = false ∧
    ((isSemanticAction p0.stack.Pop.1 = true ∧
        ∃ cg, p0.cg.ExecuteAction p0.stack.Pop.1 = .ok cg ∧
          p1 = { p0 with stack := p0.stack.Pop.2, cg := cg }) ∨
     (isSemanticAction p0.stack.Pop.1 = false ∧ isTerminal p0.stack.Pop.1 = true ∧
        p0.matchTerminal p0.stack.Pop.1 = true ∧
        p1 = Parser.nextToken { p0 with stack := p0.stack.Pop.2,
                                        cg := p0.cg.SetCurrentToken p0.currentToken }) ∨
     (isSemanticAction p0.stack.Pop.1 = false ∧ isTerminal p0.stack.Pop.1 = true ∧
        p0.matchTerminal p0.stack.Pop.1 = false ∧
        ∃ m, p1 = { p0 with stack := p0.stack.Pop.2,
                            errors := p0.errors ++ [⟨m, p0.currentToken.Pos⟩] }) ∨
     (isTerminal p0.stack.Pop.1 = false ∧
        NewParsingTable p0.stack.Pop.1 p0.currentToken.Typ = none ∧
        ∃ m, p1 = { p0 with stack := p0.stack.Pop.2,
                            errors := p0.errors ++ [⟨m, p0.currentToken.Pos⟩] }) ∨
     (isTerminal p0.stack.Pop.1 = false ∧
        ∃ prod, NewParsingTable p0.stack.Pop.1 p0.currentToken.Typ = some prod ∧
          p1 = { p0 with stack := ⟨p0.stack.Pop.2.a ++ rhsStack prod.RHS⟩ })) := by
  have hq : ∀ q : Parser × Bool, (Except.ok q : Res (Parser × Bool)) = .ok (p1, brk) →
      q = (p1, brk) := by
    intro q e; exact Except.ok.inj e
  unfold Parser.step at h
  simp only at h
  cases ht : isTerminal p0.stack.Pop.1 with
  | true =>
    rw [ht] at h
    simp only [if_true] at h
    cases hs : isSemanticAction p0.stack.Pop.1 with
    | true =>
      rw [hs] at h
      simp only [if_true] at h
      cases he : p0.cg.ExecuteAction p0.stack.Pop.1 with
      | error e => rw [he] at h; cases h
      | ok cg =>
        rw [he] at h
        have e := hq _ h
        exact ⟨(congrArg Prod.snd e).symm, Or.inl ⟨rfl, cg, rfl, (congrArg Prod.fst e).symm⟩⟩
    | false =>
      rw [hs] at h
      simp only [Bool.false_eq_true, if_false] at h
      cases hm : p0.matchTerminal p0.stack.Pop.1 with
      | true =>
        have hm1 : Parser.matchTerminal { p0 with stack := p0.stack.Pop.2 } p0.stack.Pop.1
            = true := hm
        rw [hm1] at h
        simp only [if_true] at h
        have e := hq _ h
        exact ⟨(congrArg Prod.snd e).symm,
          Or.inr (Or.inl ⟨rfl, rfl, rfl, (congrArg Prod.fst e).symm⟩)⟩
      | false =>
        have hm1 : Parser.matchTerminal { p0 with stack := p0.stack.Pop.2 } p0.stack.Pop.1
            = false := hm
        rw [hm1] at h
        simp only [Bool.false_eq_true, if_false] at h
        obtain ⟨m, hmm⟩ := handleTerminalError_eq { p0 with stack := p0.stack.Pop.2 }
          p0.stack.Pop.1
        rw [hmm] at h
        have e := hq _ h
        exact ⟨(congrArg Prod.snd e).symm,
          Or.inr (Or.inr (Or.inl ⟨rfl, rfl, rfl, m, (congrArg Prod.fst e).symm⟩))⟩
  | false =>
    rw [ht] at h
    simp only [Bool.false_eq_true, if_false] at h
    cases hn : NewParsingTable p0.stack.Pop.1 p0.currentToken.Typ with
    | none =>
      have hn1 : NewParsingTable p0.stack.Pop.1
          (Parser.currentToken { p0 with stack := p0.stack.Pop.2 }).Typ = none := hn
      rw [hn1] at h
      simp only at h
      obtain ⟨m, hmm⟩ := handleNonTerminalError_eq { p0 with stack := p0.stack.Pop.2 }
        p0.stack.Pop.1
      rw [hmm] at h
      have e := hq _ h
      exact ⟨(congrArg Prod.snd e).symm,
        Or.inr (Or.inr (Or.inr (Or.inl ⟨rfl, rfl, m, (congrArg Prod.fst e).symm⟩)))⟩
    | some prod =>
      have hn1 : NewParsingTable p0.stack.Pop.1
          (Parser.currentToken { p0 with stack := p0.stack.Pop.2 }).Typ = some prod := hn
      rw [hn1] at h
      simp only at h
      split at h
      · rename_i heps
        have e := hq _ h
        refine ⟨(congrArg Prod.snd e).symm,
          Or.inr (Or.inr (Or.inr (Or.inr ⟨rfl, prod, rfl, ?_⟩)))⟩
        have e1 : _ = p1 := congrArg Prod.fst e
        rw [← e1]
        have hr : rhsStack prod.RHS = [] := by
          rcases heps with h0 | ⟨h1, h2⟩
          · rw [List.length_eq_zero.mp h0]; rfl
          · match hp : prod.RHS, h1, h2 with
            | [y], _, h2 =>
              simp only [List.head?_cons, Option.some.injEq] at h2
              rw [h2]; rfl
        rw [hr, List.append_nil]
      · have e := hq _ h
        refine ⟨(congrArg Prod.snd e).symm,
          Or.inr (Or.inr (Or.inr (Or.inr ⟨rfl, prod, rfl, ?_⟩)))⟩
        have e1 : _ = p1 := congrArg Prod.fst e
        rw [← e1]
        have := pushRHS_a p0.stack.Pop.2 prod.RHS
        cases hps : pushRHS p0.stack.Pop.2 prod.RHS with
        | mk a =>
          rw [hps] at this
          simp only at this
          rw [this]

theorem topStringMinus_no_while (c : Codegen)
    (h : ∀ x ∈ c.ss.Array, startsWith x (bs "$while_") = false) (j : Nat) :
    startsWith (c.topStringMinus j) (bs "$while_") = false := by
  unfold Codegen.topStringMinus
  split
  · rename_i hj
    have hlt : c.ss.Array.length - 1 - j < c.ss.Array.length := by
      simp only [Stack.Size, Stack.Array] at hj ⊢
      omega
    rw [List.getD_eq_getElem _ _ hlt]
    exact h _ (List.getElem_mem _)
  · rfl

/-- C34 (the code departs from the claim): when the semantic stack is non-empty and none of
its entries starts with `$while_`, the scan of `continueAction` has not left its loop after
any number of iterations, from any offset: the action does not return. -/
theorem C34_continue_diverges (c : Codegen) (h1 : c.ss.Size ≥ 1)
    (h2 : ∀ x ∈ c.ss.Array, startsWith x (bs "$while_") = false) :
    (∀ fuel j, c.continueScan fuel j = .error .diverges) ∧
    c.continueAction = .error .diverges ∧ c.ExecuteAction "@continue" = .error .diverges := by
  have hs : ∀ fuel j, c.continueScan fuel j = .error .diverges := by
    intro fuel
    induction fuel with
    | zero => intro j; rfl
    | succ n ih =>
      intro j
      simp only [Codegen.continueScan, topStringMinus_no_while c h2 j]
      rw [if_pos (by simpa using h1)]
      exact ih (j + 1)
  have ha : c.continueAction = .error .diverges := by
    simp only [Codegen.continueAction, hs]
  exact ⟨hs, ha, ha⟩

theorem C34_continue_diverges_witness :
    (∃ q, Parser.after 43 (NewParser (NewLexer srcContinueInIf)) = some q ∧
      q.stack.Peek = "@continue" ∧ q.cg.ss.Array = [bs "602", bs "3"] ∧
      (∀ fuel j, q.cg.continueScan fuel j = .error .diverges) ∧
      q.cg.continueAction = .error .diverges ∧
      q.cg.ExecuteAction "@continue" = .error .diverges) := by
  have h1 : (Parser.after 43 (NewParser (NewLexer srcContinueInIf))).map
        (fun q => (q.stack.Peek, q.cg.ss.Array)) =
      some ("@continue", [bs "602", bs "3"]) := by decide!
  cases hq : Parser.after 43 (NewParser (NewLexer srcContinueInIf)) with
  | none => rw [hq] at h1; cases h1
  | some q =>
    rw [hq] at h1
    have hp : q.stack.Peek = "@continue" := congrArg (fun x => x.1) (Option.some.inj h1)
    have hs : q.cg.ss.Array = [bs "602", bs "3"] :=
      congrArg (fun x => x.2) (Option.some.inj h1)
    exact ⟨q, rfl, hp, hs, C34_continue_diverges q.cg
      (by simp only [Stack.Size]; rw [show q.cg.ss.a = q.cg.ss.Array from rfl, hs]; decide)
      (by rw [hs]; decide)⟩

/-- C35 (the code departs from the claim): on a program that parses with no syntax error
and no semantic error, the instructions emitted for `f(1, g(2))` are `arg 600, 0`,
`arg 601, 1`, `call g, 2`, `arg 602, 0`, `call f, 1`: the argument of the inner call gets
the position 1 and the inner call the count 2, the second argument of the outer call gets
the position 0 and the outer call the count 1.  The one counter `argsCounter` serves both
calls and `@call_end` of the inner call resets it. -/
theorem C35_nested_call_positions :
    (parseResult 1000 srcNestedCall).map
      (fun r => (r.1, r.2.GetErrors, (r.2.pb.drop 9).map (fun x => (x.Op, x.Arg1, x.Arg2)))) =
      some ([], [],
        [(.OpAssign, .str (bs "#1"), .nil), (.OpArg, .int 600, .int 0),
         (.OpAssign, .str (bs "#2"), .nil), (.OpArg, .int 601, .int 1),
         (.OpCall, .str (bs "g"), .int 2), (.OpArg, .int 602, .int 0),
         (.OpCall, .str (bs "f"), .int 1), (.OpAssign, .int 603, .nil)]) := by
  decide!

/-- C36 (the code departs from the claim): `callAction` always emits the count `0` and the
lexeme of the token matched last; on `f(1);`, which parses with no syntax error and no
semantic error, that token is `)` when `@call` runs, `argsCounter` is 1, and the
instruction appended after `arg 601, 0` is `call` with `arg1 = ")"` and `arg2 = 0`. -/
theorem C36_call_statement :
    (∀ c : Codegen, c.callAction.pb = c.pb ++
      [⟨.OpCall, .str c.currentToken.Lexeme, .int 0, .int (600 + c.tempCounter),
        (c.functionReturns.get c.currentToken.Lexeme).getD .EOF⟩]) ∧
    (Parser.after 82 (NewParser (NewLexer srcCallOneArg))).map
        (fun q => (q.stack.Peek, q.cg.currentToken.Lexeme, q.cg.argsCounter)) =
      some ("@call", bs ")", 1) ∧
    (parseResult 1000 srcCallOneArg).map (fun r => (r.1, r.2.GetErrors, r.2.pb.drop 7)) =
      some ([], [], [⟨.OpArg, .int 601, .int 0, .nil, .INT⟩,
        ⟨.OpCall, .str (bs ")"), .int 0, .int 602, .EOF⟩]) := by
  refine ⟨fun c => rfl, by decide!, by decide!⟩

/-- C37 (the code departs from the claim): whenever the semantic stack is non-empty,
`@return` appends `ret` with the top entry read as its operand and removes that entry,
whether or not the statement has a value. -/
theorem C37_return_pops (c : Codegen) (h : c.ss.Size ≥ 1) :
    c.returnAction.pb = c.pb ++ [⟨.OpRet, .int c.top, .nil, .nil, c.GetVariableType c.top⟩] ∧
    c.returnAction.ss.Array = c.ss.Array.dropLast := by
  have h0 : c.ss.Size > 0 := h
  simp only [Codegen.returnAction, if_pos h, Codegen.pop, Codegen.emit, if_pos h0]
  refine ⟨trivial, ?_⟩
  simp [Stack.Pop, Stack.Array, Nat.not_lt.mpr h]

theorem C37_return_pops_witness :
    ∃ q, Parser.after 67 (NewParser (NewLexer srcBareReturn)) = some q ∧
      q.stack.Peek = "@return" ∧ q.cg.currentToken.Lexeme = bs ";" ∧
      q.cg.ss.Array = [bs "601", bs "4"] ∧
      q.cg.returnAction.pb =
        q.cg.pb ++ [⟨.OpRet, .int q.cg.top, .nil, .nil, q.cg.GetVariableType q.cg.top⟩] ∧
      q.cg.returnAction.ss.Array = q.cg.ss.Array.dropLast := by
  have h1 : (Parser.after 67 (NewParser (NewLexer srcBareReturn))).map
        (fun q => (q.stack.Peek, q.cg.currentToken.Lexeme, q.cg.ss.Array)) =
      some ("@return", bs ";", [bs "601", bs "4"]) := by decide!
  cases hq : Parser.after 67 (NewParser (NewLexer srcBareReturn)) with
  | none => rw [hq] at h1; cases h1
  | some q =>
    rw [hq] at h1
    have hp : q.stack.Peek = "@return" := congrArg (fun x => x.1) (Option.some.inj h1)
    have hl : q.cg.currentToken.Lexeme = bs ";" :=
      congrArg (fun x => x.2.1) (Option.some.inj h1)
    have hs : q.cg.ss.Array = [bs "601", bs "4"] :=
      congrArg (fun x => x.2.2) (Option.some.inj h1)
    exact ⟨q, rfl, hp, hl, hs, C37_return_pops q.cg
      (by simp only [Stack.Size]; rw [show q.cg.ss.a = q.cg.ss.Array from rfl, hs]; decide)⟩

theorem Counted_refl (c : Codegen) : Codegen.Counted c c := by
  simp [Codegen.Counted]

theorem Counted_trans (a b c : Codegen) (h1 : Codegen.Counted a b) (h2 : Codegen.Counted b c) :
    Codegen.Counted a c := by
  unfold Codegen.Counted at *
  omega

theorem Patched_counted (c c1 : Codegen) (h : Codegen.Patched c c1) : Codegen.Counted c c1 := by
  unfold Codegen.Patched at h
  unfold Codegen.Counted
  omega

theorem Patched_refl (c : Codegen) : Codegen.Patched c c := ⟨rfl, rfl⟩

theorem Patched_trans (a b c : Codegen) (h1 : Codegen.Patched a b) (h2 : Codegen.Patched b c) :
    Codegen.Patched a c := by
  unfold Codegen.Patched at *
  omega

@[simp] theorem pop_i (c : Codegen) (n : Nat) : (c.pop n).i = c.i := (pop_fields n c).2.2.2.2

theorem Patched_pop (c : Codegen) (n : Nat) : Codegen.Patched c (c.pop n) :=
  ⟨(pop_fields n c).2.2.2.2, by rw [(pop_fields n c).1]⟩

theorem Patched_popAtOffsetEnd (c : Codegen) (n : Nat) :
    Codegen.Patched c (c.popAtOffsetEnd n) := by
  unfold Codegen.popAtOffsetEnd
  split
  · exact ⟨rfl, rfl⟩
  · exact ⟨rfl, rfl⟩

theorem Patched_patch (c c1 : Codegen) (loc : Int) (ins : Instruction)
    (h : c.patch loc ins = .ok c1) : Codegen.Patched c c1 := by
  unfold Codegen.patch at h
  split at h
  · rw [← Except.ok.inj h]
    exact ⟨rfl, by simp⟩
  · cases h

theorem Patched_jumps (c c1 : Codegen) :
    (c.jmpAction = .ok c1 → Codegen.Patched c c1) ∧
    (c.jmpfAction = .ok c1 → Codegen.Patched c c1) ∧
    (c.jmpfNormalAction = .ok c1 → Codegen.Patched c c1) := by
  refine ⟨?_, ?_, ?_⟩
  · intro h
    unfold Codegen.jmpAction at h
    simp only at h
    split at h
    · split at h
      · cases hp : c.patch c.top ⟨.OpJmp, .nil, .nil, .int c.i, .EOF⟩ with
        | error e => rw [hp] at h; cases h
        | ok c2 =>
          rw [hp] at h
          rw [← Except.ok.inj h]
          exact Patched_trans _ _ _ (Patched_patch _ _ _ _ hp) (Patched_pop _ _)
      · rw [← Except.ok.inj h]; exact Patched_pop _ _
    · rw [← Except.ok.inj h]; exact Patched_refl _
  · intro h
    unfold Codegen.jmpfAction at h
    simp only at h
    split at h
    · split at h
      · cases hp : c.patch c.top ⟨.OpJmpf, .int (c.topMinus 1), .nil, .int (c.i + 1), .EOF⟩ with
        | error e => rw [hp] at h; cases h
        | ok c2 =>
          rw [hp] at h
          rw [← Except.ok.inj h]
          exact Patched_trans _ _ _ (Patched_patch _ _ _ _ hp) (Patched_pop _ _)
      · rw [← Except.ok.inj h]; exact Patched_pop _ _
    · rw [← Except.ok.inj h]; exact Patched_refl _
  · intro h
    unfold Codegen.jmpfNormalAction at h
    simp only at h
    split at h
    · split at h
      · cases hp : c.patch (c.topMinus (c.skipMarkers (c.ss.Size + 1) 0))
            ⟨.OpJmpf, .int (c.topMinus (c.skipMarkers (c.ss.Size + 1) 0 + 1)), .nil,
              .int c.i, .EOF⟩ with
        | error e => rw [hp] at h; cases h
        | ok c2 =>
          rw [hp] at h
          rw [← Except.ok.inj h]
          exact Patched_trans _ _ _ (Patched_patch _ _ _ _ hp)
            (Patched_trans _ _ _ (Patched_popAtOffsetEnd _ _) (Patched_popAtOffsetEnd _ _))
      · rw [← Except.ok.inj h]
        exact Patched_trans _ _ _ (Patched_popAtOffsetEnd _ _) (Patched_popAtOffsetEnd _ _)
    · rw [← Except.ok.inj h]; exact Patched_refl _

theorem Patched_jmpfBreakLoop (n : Nat) : ∀ c c1 : Codegen,
    c.jmpfBreakLoop n = .ok c1 → Codegen.Patched c c1 := by
  induction n with
  | zero => intro c c1 h; cases h
  | succ n ih =>
    intro c c1 h
    simp only [Codegen.jmpfBreakLoop] at h
    split at h
    · split at h
      · cases h
      · split at h
        · rename_i c2 hp
          exact Patched_trans _ _ _ (Patched_patch _ _ _ _ hp)
            (Patched_trans _ _ _ (Patched_pop _ _) (ih _ _ h))
        · cases h
    · cases h; exact Patched_refl _

theorem Patched_jmpfBreak (c c1 : Codegen) (h : c.jmpfBreakAction = .ok c1) :
    Codegen.Patched c c1 := by
  unfold Codegen.jmpfBreakAction at h
  split at h
  · rename_i c2 h2
    exact Patched_trans _ _ _ (Patched_jmpfBreakLoop _ _ _ h2) ((Patched_jumps c2 c1).2.1 h)
  · cases h

theorem Counted_same (c c1 : Codegen) (h1 : c1.i = c.i) (h2 : c1.pb = c.pb) :
    Codegen.Counted c c1 := by
  simp [Codegen.Counted, h1, h2]

theorem Counted_one (c c1 : Codegen) (ins : Instruction) (h1 : c1.i = c.i + 1)
    (h2 : c1.pb = c.pb ++ [ins]) : Codegen.Counted c c1 := by
  simp [Codegen.Counted, h1, h2]

@[simp] theorem getVariable_i (c : Codegen) : c.getVariable.2.i = c.i := by
  unfold Codegen.getVariable; split <;> rfl

@[simp] theorem getVariable_pb (c : Codegen) : c.getVariable.2.pb = c.pb := by
  unfold Codegen.getVariable; split <;> rfl

@[simp] theorem declareVariable_i (c : Codegen) (n : Str) (a : Int) :
    (c.declareVariable n a).i = c.i := by
  unfold Codegen.declareVariable; split <;> rfl

@[simp] theorem declareVariable_pb (c : Codegen) (n : Str) (a : Int) :
    (c.declareVariable n a).pb = c.pb := by
  unfold Codegen.declareVariable; split <;> rfl

theorem Counted_simple (c : Codegen) :
    Codegen.Counted c c.labelAction ∧ Codegen.Counted c c.labelWhileAction ∧
    Codegen.Counted c c.callStartAction ∧ Codegen.Counted c c.captureDeclVarAction ∧
    Codegen.Counted c c.captureTypeAction ∧ Codegen.Counted c c.captureParamNameAction ∧
    Codegen.Counted c c.pushRelOpAction ∧ Codegen.Counted c c.loadAction ∧
    Codegen.Counted c c.captureAssignTargetAction ∧ Codegen.Counted c c.funcReturnTypeAction := by
  refine ⟨Counted_same _ _ rfl rfl, Counted_same _ _ rfl rfl, Counted_same _ _ rfl rfl,
    Counted_same _ _ rfl rfl, Counted_same _ _ rfl rfl, Counted_same _ _ rfl rfl,
    Counted_same _ _ rfl rfl, ?_, ?_, ?_⟩
  · unfold Codegen.loadAction
    simp only
    split <;> exact Counted_same _ _ rfl rfl
  · unfold Codegen.captureAssignTargetAction
    simp only
    split <;> exact Counted_same _ _ rfl rfl
  · unfold Codegen.funcReturnTypeAction
    simp only
    split
    · exact Counted_same _ _ (by simp) (by rw [(pop_fields _ _).1])
    · exact Counted_refl _

theorem Counted_emitters (c : Codegen) (op : Operation) :
    Codegen.Counted c c.saveAction ∧ Codegen.Counted c c.saveBreakAction ∧
    Codegen.Counted c c.jmpNonBackpatchAction ∧ Codegen.Counted c (c.binaryOpAction op) ∧
    Codegen.Counted c c.pushAction ∧ Codegen.Counted c c.assignAction ∧
    Codegen.Counted c c.printAction ∧ Codegen.Counted c c.notAction ∧
    Codegen.Counted c c.relAction ∧ Codegen.Counted c c.callEndAction ∧
    Codegen.Counted c c.callAction ∧ Codegen.Counted c c.argAction ∧
    Codegen.Counted c c.defineAction ∧ Codegen.Counted c c.returnAction ∧
    Codegen.Counted c c.functionStartAction ∧ Codegen.Counted c c.paramAction := by
  refine ⟨?_, ?_, ?_, ?_, ?_, ?_, ?_, ?_, ?_, ?_, ?_, ?_, ?_, ?_, ?_, ?_⟩
  · exact Counted_one _ _ nopInstruction rfl rfl
  · exact Counted_one _ _ nopInstruction rfl rfl
  · unfold Codegen.jmpNonBackpatchAction
    simp only
    split
    · exact Counted_one _ _ _ (by simp [Codegen.emit]) (by simp [(pop_fields _ _).1, Codegen.emit]; rfl)
    · exact Counted_refl _
  · unfold Codegen.binaryOpAction
    simp only
    split
    · exact Counted_one _ _ _ (by simp [Codegen.emit, Codegen.push, Codegen.setVariableType, Codegen.getTemp])
        (by simp [(pop_fields _ _).1, Codegen.emit, Codegen.push, Codegen.setVariableType, Codegen.getTemp]; rfl)
    · exact Counted_refl _
  · exact Counted_one _ _ _ rfl rfl
  · unfold Codegen.assignAction
    simp only
    split
    · split
      · exact Counted_same _ _ rfl rfl
      · exact Counted_one _ _ _ (by simp [Codegen.emit]) (by simp [(pop_fields _ _).1, Codegen.emit]; rfl)
    · exact Counted_refl _
  · unfold Codegen.printAction
    simp only
    split
    · exact Counted_one _ _ _ (by simp [Codegen.emit]) (by simp [(pop_fields _ _).1, Codegen.emit]; rfl)
    · exact Counted_refl _
  · unfold Codegen.notAction
    simp only
    split
    · exact Counted_one _ _ _ (by simp [Codegen.emit, Codegen.push, Codegen.getTemp])
        (by simp [(pop_fields _ _).1, Codegen.emit, Codegen.push, Codegen.getTemp]; rfl)
    · exact Counted_refl _
  · unfold Codegen.relAction
    simp only
    split
    · exact Counted_one _ _ _ (by simp [Codegen.emit, Codegen.push, Codegen.setVariableType, Codegen.getTemp])
        (by simp [(pop_fields _ _).1, Codegen.emit, Codegen.push, Codegen.setVariableType, Codegen.getTemp]; rfl)
    · exact Counted_refl _
  · unfold Codegen.callEndAction
    simp only
    split
    · split
      · exact Counted_one _ _ _ (by simp [Codegen.emit, Codegen.push, Codegen.setVariableType, Codegen.getTemp, Codegen.addError])
          (by simp [(pop_fields _ _).1, Codegen.emit, Codegen.push, Codegen.setVariableType, Codegen.getTemp, Codegen.addError]; rfl)
      · exact Counted_one _ _ _ (by simp [Codegen.emit, Codegen.push, Codegen.setVariableType, Codegen.getTemp, Codegen.addError])
          (by simp [(pop_fields _ _).1, Codegen.emit, Codegen.push, Codegen.setVariableType, Codegen.getTemp, Codegen.addError]; rfl)
    · exact Counted_refl _
  · exact Counted_one _ _ _ rfl rfl
  · unfold Codegen.argAction
    simp only
    split
    · exact Counted_one _ _ _ (by simp [Codegen.emit]) (by simp [(pop_fields _ _).1, Codegen.emit]; rfl)
    · exact Counted_refl _
  · unfold Codegen.defineAction
    simp only
    split
    · split
      · exact Counted_one _ _ _
          (by simp [Codegen.emit, Codegen.setVariableType, Codegen.addError])
          (by simp [(pop_fields _ _).1, Codegen.emit, Codegen.setVariableType,
                Codegen.addError]; rfl)
      · exact Counted_one _ _ _
          (by simp [Codegen.emit, Codegen.setVariableType])
          (by simp [(pop_fields _ _).1, Codegen.emit, Codegen.setVariableType]; rfl)
    · exact Counted_refl _
  · unfold Codegen.returnAction
    simp only
    split
    · exact Counted_one _ _ _ (by simp [Codegen.emit]) (by simp [(pop_fields _ _).1, Codegen.emit]; rfl)
    · exact Counted_one _ _ _ rfl rfl
  · exact Counted_one _ _ _ rfl rfl
  · unfold Codegen.paramAction
    simp only
    split
    · exact Counted_one _ _ _
        (by simp [Codegen.emit, Codegen.setVariableType, Codegen.getLocalVariable])
        (by simp [(pop_fields _ _).1, Codegen.emit, Codegen.setVariableType,
              Codegen.getLocalVariable]; rfl)
    · exact Counted_refl _

theorem Counted_funcEnd (c : Codegen) : Codegen.Counted c c.funcEndAction := by
  unfold Codegen.funcEndAction
  simp only
  split
  · simp [Codegen.Counted, Codegen.emit, Codegen.setInFunction]
    omega
  · simp [Codegen.Counted, Codegen.emit, Codegen.setInFunction]

theorem Counted_continue (c c1 : Codegen) (h : c.continueAction = .ok c1) :
    Codegen.Counted c c1 := by
  unfold Codegen.continueAction at h
  split at h
  · cases h
  · simp only at h
    split at h
    · rw [← Except.ok.inj h]; exact Counted_refl _
    · rw [← Except.ok.inj h]; exact Counted_one _ _ _ rfl rfl

/-- Every semantic action that returns has added to the counter `i` the number of
instructions it appended. -/
theorem ExecuteAction_Counted (c c1 : Codegen) (name : String)
    (h : c.ExecuteAction name = .ok c1) : Codegen.Counted c c1 := by
  obtain ⟨s1, s2, s3, s4, s5, s6, s7, s8, s9, s10⟩ := Counted_simple c
  obtain ⟨e1, e2, e3, _, e5, e6, e7, e8, e9, e10, e11, e12, e13, e14, e15, e16⟩ :=
    Counted_emitters c .OpAdd
  have b1 := (Counted_emitters c .OpAdd).2.2.2.1
  have b2 := (Counted_emitters c .OpSub).2.2.2.1
  have b3 := (Counted_emitters c .OpMul).2.2.2.1
  have b4 := (Counted_emitters c .OpDiv).2.2.2.1
  have b5 := (Counted_emitters c .OpMod).2.2.2.1
  have b6 := (Counted_emitters c .OpOr).2.2.2.1
  have b7 := (Counted_emitters c .OpAnd).2.2.2.1
  obtain ⟨j1, j2, j3⟩ := Patched_jumps c c1
  have j4 := Patched_jmpfBreak c c1
  have j5 := Counted_continue c c1
  have f1 := Counted_funcEnd c
  have r0 := Counted_refl c
  unfold Codegen.ExecuteAction at h
  split at h <;>
    first
    | with_reducible exact Patched_counted _ _ (j1 h)
    | with_reducible exact Patched_counted _ _ (j2 h)
    | with_reducible exact Patched_counted _ _ (j3 h)
    | with_reducible exact Patched_counted _ _ (j4 h)
    | with_reducible exact j5 h
    | (injection h with h; subst h; with_reducible assumption)

/-- The patching actions change neither the counter nor the length of the program block. -/
theorem ExecuteAction_Patched (c c1 : Codegen) (name : String)
    (hn : name ∈ ["@jmp", "@jmpf", "@jmpf_normal", "@jmpf_break"])
    (h : c.ExecuteAction name = .ok c1) : Codegen.Patched c c1 := by
  simp only [List.mem_cons, List.mem_singleton, List.not_mem_nil, or_false] at hn
  rcases hn with rfl | rfl | rfl | rfl
  · exact (Patched_jumps c c1).1 h
  · exact (Patched_jumps c c1).2.1 h
  · exact (Patched_jumps c c1).2.2 h
  · exact Patched_jmpfBreak c c1 h

theorem Reach_counter (input : Str) (p : Parser) (h : Parser.Reach input p) :
    p.cg.i = p.cg.pb.length := by
  induction h with
  | init => rfl
  | step p p1 brk _ hsize hstep ih =>
    obtain ⟨_, h1 | h1 | h1 | h1 | h1⟩ := step_shape p p1 brk hstep
    · obtain ⟨_, cg, he, e⟩ := h1
      have hc := ExecuteAction_Counted _ _ _ he
      rw [e]
      unfold Codegen.Counted at hc
      show cg.i = cg.pb.length
      omega
    · obtain ⟨_, _, _, e⟩ := h1
      rw [e]; exact ih
    · obtain ⟨_, _, _, m, e⟩ := h1
      rw [e]; exact ih
    · obtain ⟨_, _, m, e⟩ := h1
      rw [e]; exact ih
    · obtain ⟨_, prod, _, e⟩ := h1
      rw [e]; exact ih

/-- C38: the counter `i` equals `len(pb)` in the new code generator; every semantic action
that returns adds to `i` the number of instructions it appends and removes none, so it
keeps `i = len(pb)`; the patching actions change neither `i` nor `len(pb)`; hence
`i = len(pb)` in every state the loop of `Parse` passes through; and where `i = len(pb)`,
`@save` and `@save_break` push the index at which they append their `nop`, and
`@label_while` pushes `len(pb)`, the index of the instruction appended next. -/
theorem C38_counter_is_length :
    NewCodegen.i = NewCodegen.pb.length ∧
    (∀ (c c1 : Codegen) (name : String), c.ExecuteAction name = .ok c1 →
      c1.i - c.i = (c1.pb.length : Int) - (c.pb.length : Int) ∧ c.pb.length ≤ c1.pb.length ∧
      (c.i = c.pb.length → c1.i = c1.pb.length)) ∧
    (∀ (c c1 : Codegen) (name : String),
      name ∈ ["@jmp", "@jmpf", "@jmpf_normal", "@jmpf_break"] →
      c.ExecuteAction name = .ok c1 → c1.i = c.i ∧ c1.pb.length = c.pb.length) ∧
    (∀ (input : Str) (p : Parser), Parser.Reach input p → p.cg.i = p.cg.pb.length) ∧
    (∀ c : Codegen, c.i = c.pb.length →
      (c.saveAction.ss.Array = c.ss.Array ++ [itoa (c.pb.length : Int)] ∧
        c.saveAction.pb = c.pb ++ [nopInstruction]) ∧
      (c.saveBreakAction.ss.Array = c.ss.Array ++ [bs "$break_" ++ itoa (c.pb.length : Int)] ∧
        c.saveBreakAction.pb = c.pb ++ [nopInstruction]) ∧
      (c.labelWhileAction.ss.Array = c.ss.Array ++ [bs "$while_" ++ itoa (c.pb.length : Int)] ∧
        c.labelWhileAction.pb = c.pb)) := by
  refine ⟨rfl, ?_, ?_, Reach_counter, ?_⟩
  · intro c c1 name h
    have hc := ExecuteAction_Counted c c1 name h
    unfold Codegen.Counted at hc
    exact ⟨hc.1, hc.2, fun hi => by omega⟩
  · intro c c1 name hn h
    exact ExecuteAction_Patched c c1 name hn h
  · intro c hi
    refine ⟨⟨?_, rfl⟩, ⟨?_, rfl⟩, ?_, rfl⟩
    · simp [Codegen.saveAction, Codegen.emit, Codegen.push, Stack.Push, Stack.Array, hi]
    · simp [Codegen.saveBreakAction, Codegen.emit, Codegen.pushString, Stack.Push,
        Stack.Array, hi]
    · simp [Codegen.labelWhileAction, Codegen.pushString, Stack.Push, Stack.Array, hi]

theorem C38_counter_is_length_witness :
    (NewCodegen.saveAction.saveAction.i - NewCodegen.saveAction.i =
      (NewCodegen.saveAction.saveAction.pb.length : Int) -
        (NewCodegen.saveAction.pb.length : Int) ∧
     NewCodegen.saveAction.pb.length ≤ NewCodegen.saveAction.saveAction.pb.length ∧
     (NewCodegen.saveAction.i = NewCodegen.saveAction.pb.length →
       NewCodegen.saveAction.saveAction.i = NewCodegen.saveAction.saveAction.pb.length)) ∧
    NewCodegen.saveAction.saveAction.ss.Array = [bs "0", bs "1"] :=
  ⟨C38_counter_is_length.2.1 NewCodegen.saveAction NewCodegen.saveAction.saveAction "@save" rfl,
    by decide⟩

/-- One derivation step, with the two sentential forms given explicitly. -/
theorem Derives.by_production (γ x y : List String) (k : Nat) (α β : List String)
    (h0 : 0 < k) (h1 : k < grammer.length)
    (hx : x = α ++ (grammer.getD k default).LHS :: β)
    (hy : y = α ++ (grammer.getD k default).body ++ β) (h : Derives γ x) : Derives γ y := by
  subst hx; subst hy; exact Derives.step γ α β k h0 h1 h

/-- `Stmt` derives `break ;`. -/
theorem derives_break : Derives ["Stmt"] ["break", ";"] :=
  Derives.by_production _ ["BreakStmt"] _ 34 [] [] (by decide) (by decide) rfl rfl
    (Derives.by_production _ ["Stmt"] _ 24 [] [] (by decide) (by decide) rfl rfl
      (Derives.refl _))

/-- `Expr` derives `true Term' Expr'`. -/
theorem derives_true : Derives ["Expr"] ["true", "Term'", "Expr'"] :=
  Derives.by_production _ ["Factor", "Term'", "Expr'"] _ 50 [] ["Term'", "Expr'"]
    (by decide) (by decide) rfl rfl
    (Derives.by_production _ ["Term", "Expr'"] _ 43 [] ["Expr'"] (by decide) (by decide)
      rfl rfl
      (Derives.by_production _ ["Expr"] _ 39 [] [] (by decide) (by decide) rfl rfl
        (Derives.refl _)))

/-- `Program $` derives a form in which `func` follows `ElsePart`. -/
theorem derives_else_func :
    Derives ["Program", "$"]
      (["if", "(", "Cond", ")", "\x7b", "StmtList", "\x7d"] ++ "ElsePart" :: "func" ::
        ["id", "(", "ParamList", ")", ":", "Type", "\x7b", "StmtList", "\x7d", "DeclList",
         "$"]) :=
  Derives.by_production _
    ["if", "(", "Cond", ")", "\x7b", "StmtList", "\x7d", "ElsePart", "FuncDecl", "DeclList",
      "$"] _ 6
    ["if", "(", "Cond", ")", "\x7b", "StmtList", "\x7d", "ElsePart"] ["DeclList", "$"]
    (by decide) (by decide) rfl rfl
    (Derives.by_production _
      ["if", "(", "Cond", ")", "\x7b", "StmtList", "\x7d", "ElsePart", "Decl", "DeclList",
        "$"] _ 4
      ["if", "(", "Cond", ")", "\x7b", "StmtList", "\x7d", "ElsePart"] ["DeclList", "$"]
      (by decide) (by decide) rfl rfl
      (Derives.by_production _
        ["if", "(", "Cond", ")", "\x7b", "StmtList", "\x7d", "ElsePart", "DeclList", "$"] _ 2
        ["if", "(", "Cond", ")", "\x7b", "StmtList", "\x7d", "ElsePart"] ["$"]
        (by decide) (by decide) rfl rfl
        (Derives.by_production _ ["IfStmt", "DeclList", "$"] _ 29 [] ["DeclList", "$"]
          (by decide) (by decide) rfl rfl
          (Derives.by_production _ ["Stmt", "DeclList", "$"] _ 19 [] ["DeclList", "$"]
            (by decide) (by decide) rfl rfl
            (Derives.by_production _ ["Decl", "DeclList", "$"] _ 5 [] ["DeclList", "$"]
              (by decide) (by decide) rfl rfl
              (Derives.by_production _ ["DeclList", "$"] _ 2 [] ["$"]
                (by decide) (by decide) rfl rfl
                (Derives.by_production _ ["Program", "$"] _ 1 [] ["$"]
                  (by decide) (by decide) rfl rfl (Derives.refl _))))))))

/-- C39 (the code departs from the claim): the hand-written table is not the LL(1) table of
the production list.  Production 5, `Decl → Stmt`, qualifies for `break` (`Stmt` derives
`break ;`) and the cell of `Decl` and `BREAK` is empty.  Production 31, `ElsePart → ε` with
its action, qualifies for `func` (its body is empty and `func` follows `ElsePart` in a
sentential form) and the cell of `ElsePart` and `FUNC` is empty.  Production 1,
`Program → DeclList`, qualifies for the end marker (`DeclList` derives the empty string) and
the cell of `Program` and `EOF` is empty.  Productions 71 and 73 of `BoolPrimary`,
`true @push` and `Expr`, both qualify for `true`.  Accordingly `Parse` records a syntax
diagnostic on the empty program and on an `if` statement followed by a function
declaration, which the productions derive. -/
theorem C39_table_is_not_LL1 :
    (grammer.getD 5 default = ⟨"Decl", ["Stmt"]⟩ ∧ Qualifies 5 "break" ∧
      NewParsingTable "Decl" .BREAK = none) ∧
    (grammer.getD 31 default = ⟨"ElsePart", ["@jmpf_normal", "ε"]⟩ ∧ Qualifies 31 "func" ∧
      NewParsingTable "ElsePart" .FUNC = none) ∧
    (grammer.getD 1 default = ⟨"Program", ["DeclList"]⟩ ∧ Qualifies 1 "$" ∧
      NewParsingTable "Program" .EOF = none) ∧
    (grammer.getD 71 default = ⟨"BoolPrimary", ["true", "@push"]⟩ ∧
      grammer.getD 73 default = ⟨"BoolPrimary", ["Expr"]⟩ ∧
      Qualifies 71 "true" ∧ Qualifies 73 "true") ∧
    (∀ p : Parser, (p.matchTerminal "break" = true ↔ p.currentToken.Typ = .BREAK) ∧
      (p.matchTerminal "func" = true ↔ p.currentToken.Typ = .FUNC) ∧
      (p.matchTerminal "$" = true ↔ p.currentToken.Typ = .EOF) ∧
      (p.matchTerminal "true" = true ↔ p.currentToken.Typ = .TRUE)) ∧
    (parseResult 1000 []).map (fun r => r.1) = some [⟨"Syntax error", ⟨1, 1, 0⟩⟩] ∧
    (parseResult 1000 srcIfThenFunc).map (fun r => r.1) =
      some [⟨"Syntax error", ⟨1, 16, 15⟩⟩] := by
  refine ⟨⟨rfl, Or.inl ⟨by decide, _, derives_break⟩, by decide⟩,
    ⟨rfl, Or.inr ⟨Derives.refl _, by decide, _, _, derives_else_func⟩, by decide⟩,
    ⟨rfl, Or.inr ⟨?_, by decide, [], [], Derives.refl _⟩, by decide⟩,
    ⟨rfl, rfl, Or.inl ⟨by decide, [], Derives.refl _⟩,
      Or.inl ⟨by decide, _, derives_true⟩⟩,
    ?_, by decide!, by decide!⟩
  · exact Derives.by_production _ ["DeclList"] _ 3 [] [] (by decide) (by decide) rfl rfl
      (Derives.refl _)
  · intro p
    simp [Parser.matchTerminal]

theorem table_cost :
    tableRows.all (fun row => row.2.all (fun e => cellCostOK row.1 e.1 e.2)) = true := by
  decide!

theorem matchTerminal_kind (p : Parser) (x : String) :
    p.matchTerminal x = matchesKind x p.currentToken.Typ := by
  unfold matchesKind Parser.matchTerminal
  split <;> rfl

theorem seqCost_append (f : String → Nat × Bool) (a b : List String) :
    seqCost f (a ++ b) =
      if (seqCost f a).2 then seqCost f a
      else ((seqCost f a).1 + (seqCost f b).1, (seqCost f b).2) := by
  induction a with
  | nil => simp [seqCost]
  | cons x r ih =>
    simp only [List.cons_append, seqCost]
    rw [show r.append b = r ++ b from rfl, ih]
    by_cases hx : (f x).2 = true
    · simp [hx]
    · by_cases hr : (seqCost f r).2 = true
      · simp [hx, hr]
      · simp [hx, hr, Nat.add_assoc]

theorem symCost_succ (n : Nat) (t : TokenType) (x : String) :
    symCost (n + 1) t x =
      if isTerminal x then
        if isSemanticAction x then (1, false) else (1, matchesKind x t && t != .EOF)
      else
        match NewParsingTable x t with
        | none => (1, false)
        | some prod =>
          (1 + (seqCost (symCost n t) (prod.RHS.filter (fun y => y ≠ "ε"))).1,
            (seqCost (symCost n t) (prod.RHS.filter (fun y => y ≠ "ε"))).2) := rfl

theorem symWeight_action (t : TokenType) (x : String) (h : isSemanticAction x = true) :
    symWeight t x = (1, false) := by
  have ht : isTerminal x = true := by simp [isTerminal, h]
  show symCost (39 + 1) t x = _
  rw [symCost_succ, if_pos ht, if_pos h]

theorem symWeight_terminal (t : TokenType) (x : String) (h1 : isTerminal x = true)
    (h2 : isSemanticAction x = false) :
    symWeight t x = (1, matchesKind x t && t != .EOF) := by
  show symCost (39 + 1) t x = _
  rw [symCost_succ, if_pos h1, if_neg (by simp [h2])]

theorem symWeight_no_entry (t : TokenType) (x : String) (h1 : isTerminal x = false)
    (h2 : NewParsingTable x t = none) : symWeight t x = (1, false) := by
  show symCost (39 + 1) t x = _
  rw [symCost_succ, if_neg (by simp [h1]), h2]

theorem table_cell (x : String) (t : TokenType) (prod : Production)
    (h : NewParsingTable x t = some prod) :
    ∃ row k, (x, row) ∈ tableRows ∧ (t, k) ∈ row ∧ prod = grammer.getD k default := by
  unfold NewParsingTable at h
  cases h1 : tableRows.lookup x with
  | none => rw [h1] at h; cases h
  | some row =>
    rw [h1] at h
    simp only at h
    cases h2 : row.lookup t with
    | none => rw [h2] at h; cases h
    | some k =>
      rw [h2] at h
      exact ⟨row, k, lookup_mem _ _ _ h1, lookup_mem _ _ _ h2, (Option.some.inj h).symm⟩

/-- For every cell of the table the right-hand side costs less than the nonterminal. -/
theorem cell_cost (x : String) (t : TokenType) (prod : Production)
    (h : NewParsingTable x t = some prod) :
    (seqCost (symWeight t) (prod.RHS.filter (fun y => y ≠ "ε"))).1 < (symWeight t x).1 ∧
    ((symWeight t x).2 = true →
      (seqCost (symWeight t) (prod.RHS.filter (fun y => y ≠ "ε"))).2 = true) := by
  obtain ⟨row, k, h1, h2, h3⟩ := table_cell x t prod h
  have hc := table_cost
  rw [List.all_eq_true] at hc
  have hr := hc _ h1
  rw [List.all_eq_true] at hr
  have hk := hr _ h2
  simp only [cellCostOK, Bool.and_eq_true, decide_eq_true_eq, Bool.or_eq_true,
    Bool.not_eq_true'] at hk
  rw [h3]
  refine ⟨hk.1, fun hx => ?_⟩
  rcases hk.2 with h4 | h4
  · rw [h4] at hx; cases hx
  · exact h4

theorem stack_top (s : Stack String) (h : s.Size > 1) : s.a = s.Pop.2.a ++ [s.Pop.1] := by
  have h1 : ¬ s.Size < 1 := by omega
  have hne : s.a ≠ [] := by
    intro e; simp [Stack.Size, e] at h
  simp only [Stack.Pop, if_neg h1]
  rw [List.getLastD_eq_getLast?, List.getLast?_eq_getLast _ hne]
  exact (List.dropLast_append_getLast hne).symm

theorem stackCost_top (t : TokenType) (r : List String) (x : String) :
    stackCost t (r ++ [x]) =
      if (symWeight t x).2 then (symWeight t x).1 else (symWeight t x).1 + stackCost t r := by
  simp only [stackCost, List.reverse_append, List.reverse_cons, List.reverse_nil,
    List.nil_append, List.singleton_append, seqCost]
  split <;> rfl

theorem stackCost_rhs (t : TokenType) (r rhs : List String) :
    stackCost t (r ++ rhsStack rhs) =
      if (seqCost (symWeight t) (rhs.filter (fun y => y ≠ "ε"))).2 then
        (seqCost (symWeight t) (rhs.filter (fun y => y ≠ "ε"))).1
      else (seqCost (symWeight t) (rhs.filter (fun y => y ≠ "ε"))).1 + stackCost t r := by
  simp only [stackCost, rhsStack, List.reverse_append, List.reverse_reverse, seqCost_append]
  split <;> rfl

/-- `NextToken` never moves backwards, and a token other than the end of input takes at
least one byte. -/
theorem NextToken_remaining (l : Lexer) :
    l.NextToken.2.input.length - l.NextToken.2.position ≤ l.input.length - l.position ∧
    (l.NextToken.1.Typ ≠ .EOF →
      l.NextToken.2.input.length - l.NextToken.2.position < l.input.length - l.position) := by
  have hin : l.NextToken.2.input = l.input := nextTokenFuel_input _ l
  have hp := NextToken_progress l
  rw [hin]
  have hs : l.NextToken.1.Typ ≠ .EOF →
      l.input.length - l.NextToken.2.position < l.input.length - l.position := by
    intro hne
    have h1 := hp.1 hne
    have h2 : l.position < l.input.length := by
      by_contra hge
      have := NextToken_at_end l (by omega)
      rw [this] at hne
      exact hne rfl
    omega
  refine ⟨?_, hs⟩
  by_cases he : l.NextToken.1.Typ = .EOF
  · have := hp.2.1 he
    omega
  · exact Nat.le_of_lt (hs he)

/-- Every iteration of the loop of `Parse` lowers the measure: it consumes input, or it
keeps the token and lowers the cost of the parse stack. -/
theorem step_decreases (p p1 : Parser) (brk : Bool) (hs : p.stack.Size > 1)
    (h : p.step = .ok (p1, brk)) :
    p1.tokenMeasure < p.tokenMeasure ∨
    (p1.tokenMeasure = p.tokenMeasure ∧
      stackCost p1.currentToken.Typ p1.stack.a < stackCost p.currentToken.Typ p.stack.a) := by
  have ha := stack_top p.stack hs
  obtain ⟨_, h1 | h1 | h1 | h1 | h1⟩ := step_shape p p1 brk h
  · obtain ⟨hact, cg, _, e⟩ := h1
    right
    rw [e]
    refine ⟨rfl, ?_⟩
    show stackCost p.currentToken.Typ p.stack.Pop.2.a < stackCost p.currentToken.Typ p.stack.a
    rw [ha, stackCost_top, symWeight_action _ _ hact]
    simp
  · obtain ⟨hact, hterm, hm, e⟩ := h1
    have hr := NextToken_remaining p.lexer
    have e1 : p1.lexer = p.lexer.NextToken.2 := by rw [e]; rfl
    have e2 : p1.currentToken = p.lexer.NextToken.1 := by rw [e]; rfl
    have e3 : p1.stack = p.stack.Pop.2 := by rw [e]; rfl
    unfold Parser.tokenMeasure
    rw [e1, e2]
    by_cases he1 : p.lexer.NextToken.1.Typ = .EOF
    · by_cases he : p.currentToken.Typ = .EOF
      · rw [if_pos he1, if_pos he]
        rcases Nat.lt_or_eq_of_le hr.1 with hlt | heq
        · left; omega
        · right
          refine ⟨by omega, ?_⟩
          rw [e3, he1, he]
          have hw := symWeight_terminal .EOF p.stack.Pop.1 hterm hact
          have hw1 : symWeight .EOF p.stack.Pop.1 = (1, false) := by
            rw [hw]; simp
          rw [ha, stackCost_top, hw1]
          simp
      · left
        rw [if_pos he1, if_neg he]
        omega
    · left
      have := hr.2 he1
      rw [if_neg he1]
      split <;> omega
  · obtain ⟨hact, hterm, hm, m, e⟩ := h1
    right
    rw [e]
    refine ⟨rfl, ?_⟩
    show stackCost p.currentToken.Typ p.stack.Pop.2.a < stackCost p.currentToken.Typ p.stack.a
    have hw := symWeight_terminal p.currentToken.Typ p.stack.Pop.1 hterm hact
    rw [← matchTerminal_kind, hm] at hw
    rw [ha, stackCost_top, hw]
    simp
  · obtain ⟨hterm, hn, m, e⟩ := h1
    right
    rw [e]
    refine ⟨rfl, ?_⟩
    show stackCost p.currentToken.Typ p.stack.Pop.2.a < stackCost p.currentToken.Typ p.stack.a
    rw [ha, stackCost_top, symWeight_no_entry _ _ hterm hn]
    simp
  · obtain ⟨hterm, prod, hn, e⟩ := h1
    right
    rw [e]
    refine ⟨rfl, ?_⟩
    show stackCost p.currentToken.Typ (p.stack.Pop.2.a ++ rhsStack prod.RHS) <
      stackCost p.currentToken.Typ p.stack.a
    obtain ⟨c1, c2⟩ := cell_cost _ _ _ hn
    rw [ha, stackCost_top, stackCost_rhs]
    by_cases hx : (symWeight p.currentToken.Typ p.stack.Pop.1).2 = true
    · rw [if_pos hx, if_pos (c2 hx)]
      exact c1
    · rw [if_neg hx]
      split <;> omega

theorem after_none_mono (n : Nat) : ∀ (p : Parser), Parser.after n p = none →
    ∀ m, n ≤ m → Parser.after m p = none := by
  induction n with
  | zero => intro p h; cases h
  | succ n ih =>
    intro p h m hm
    obtain ⟨m1, rfl⟩ : ∃ m1, m = m1 + 1 := ⟨m - 1, by omega⟩
    simp only [Parser.after] at h ⊢
    split
    · rename_i hsz
      rw [if_pos hsz] at h
      split
      · rename_i p1 brk hst
        rw [hst] at h
        simp only at h
        split
        · rfl
        · rename_i hb
          rw [if_neg hb] at h
          exact ih p1 h m1 (by omega)
      · rfl
    · rfl

/-- From every parser state the loop of `Parse` stops after finitely many iterations. -/
theorem after_terminates (p : Parser) : ∃ N, Parser.after N p = none := by
  have key : ∀ (a b : Nat) (p : Parser), p.tokenMeasure = a →
      stackCost p.currentToken.Typ p.stack.a = b → ∃ N, Parser.after N p = none := by
    intro a
    induction a using Nat.strong_induction_on with
    | _ a iha =>
      intro b
      induction b using Nat.strong_induction_on with
      | _ b ihb =>
        intro p hpa hpb
        by_cases hs : p.stack.Size > 1
        · cases hst : p.step with
          | error e =>
            exact ⟨1, by simp only [Parser.after, if_pos hs, hst]⟩
          | ok r =>
            obtain ⟨p1, brk⟩ := r
            have hbrk := (step_shape p p1 brk hst).1
            have hN : ∃ N, Parser.after N p1 = none := by
              rcases step_decreases p p1 brk hs hst with h1 | ⟨h1, h2⟩
              · exact iha _ (by omega) _ p1 rfl rfl
              · exact ihb _ (by omega) p1 (by omega) rfl
            obtain ⟨N, hN⟩ := hN
            refine ⟨N + 1, ?_⟩
            simp only [Parser.after, if_pos hs, hst, hbrk]
            exact hN
        · exact ⟨1, by simp only [Parser.after, if_neg hs]⟩
  exact key _ _ p rfl rfl

/-- Counterexample to C40 as stated: there is no input on which the loop of `Parse` keeps
iterating.  On every source text the loop started by `NewParser` stops after finitely many
iterations; on `let if : int = 1;`, where the recovery drops fourteen symbols without
consuming a token, it stops after 29 iterations with the stack down to `$`. -/
theorem C40_counterexample :
    (¬ ∃ input : Str, ∀ N, Parser.after N (NewParser (NewLexer input)) ≠ none) ∧
    (Parser.after 29 (NewParser (NewLexer srcKeywordName))).map
        (fun q => (q.stack.Array, q.errors.length, q.currentToken.Typ)) =
      some (["$"], 14, .COLON) ∧
    (Parser.after 30 (NewParser (NewLexer srcKeywordName))).isNone = true := by
  refine ⟨?_, by decide!, by decide!⟩
  rintro ⟨input, h⟩
  obtain ⟨N, hN⟩ := after_terminates (NewParser (NewLexer input))
  exact h N hN

/-- C40 (amended): the non-advancing recovery cannot loop.  From every parser state, whatever
the parse stack, the position in the input and the state of the code generator, the loop of
`Parse` stops after finitely many iterations: every iteration either consumes a token or
keeps the token and lowers the cost of the parse stack (`step_decreases`), because a symbol
that meets an error is dropped and every right-hand side of the table costs less than its
nonterminal. -/
theorem C40_recovery_terminates (p : Parser) :
    (∃ N, ∀ n, N ≤ n → Parser.after n p = none) ∧
    (∀ p1 brk, p.stack.Size > 1 → p.step = .ok (p1, brk) →
      brk = false ∧
      (p1.tokenMeasure < p.tokenMeasure ∨
        (p1.tokenMeasure = p.tokenMeasure ∧
          stackCost p1.currentToken.Typ p1.stack.a < stackCost p.currentToken.Typ p.stack.a))) := by
  refine ⟨?_, ?_⟩
  · obtain ⟨N, hN⟩ := after_terminates p
    exact ⟨N, after_none_mono N _ hN⟩
  · intro p1 brk hs h
    exact ⟨(step_shape p p1 brk h).1, step_decreases p p1 brk hs h⟩

/-! ## The step limit against a reference iteration of `coreStep` -/

theorem updateFrame_steps (i : Interpreter) (g : Frame → Frame) (a : Int) :
    Interpreter.updateFrame { i with steps := a } g = { i.updateFrame g with steps := a } := by
  unfold Interpreter.updateFrame
  simp only
  split <;> rfl

theorem SetPC_steps (i : Interpreter) (pc a : Int) :
    Interpreter.SetPC { i with steps := a } pc = { i.SetPC pc with steps := a } := by
  unfold Interpreter.SetPC
  have : Interpreter.currentFrame { i with steps := a } = i.currentFrame := rfl
  rw [this]
  split
  · exact updateFrame_steps _ _ _
  · rfl

theorem SetVar_steps (i : Interpreter) (addr : Int) (v : Value) (a : Int) :
    Interpreter.SetVar { i with steps := a } addr v = { i.SetVar addr v with steps := a } := by
  unfold Interpreter.SetVar
  have : Interpreter.currentFrame { i with steps := a } = i.currentFrame := rfl
  rw [this]
  split
  · split
    · exact updateFrame_steps _ _ _
    · split
      · exact updateFrame_steps _ _ _
      · rfl
  · rfl

theorem ConsumeArg_steps (i : Interpreter) (p a : Int) :
    Interpreter.ConsumeArg { i with steps := a } p =
      ((i.ConsumeArg p).1, { (i.ConsumeArg p).2 with steps := a }) := by
  unfold Interpreter.ConsumeArg
  simp only
  split <;> rfl

theorem bindArgs_steps (n : Nat) : ∀ (p : Int) (i : Interpreter) (a : Int),
    Interpreter.bindArgs n p { i with steps := a } =
      { Interpreter.bindArgs n p i with steps := a } := by
  induction n with
  | zero => intro p i a; rfl
  | succ n ih =>
    intro p i a
    simp only [Interpreter.bindArgs]
    rw [ConsumeArg_steps]
    simp only
    rw [updateFrame_steps, ih]

theorem PopFrame_steps (i : Interpreter) (a : Int) :
    Interpreter.PopFrame { i with steps := a } =
      (i.PopFrame.1, { i.PopFrame.2 with steps := a }) := by
  unfold Interpreter.PopFrame
  simp only
  split <;> rfl

theorem PushFrame_steps (i : Interpreter) (n : Str) (r t a : Int) :
    Interpreter.PushFrame { i with steps := a } n r t = { i.PushFrame n r t with steps := a } :=
  rfl

theorem loadOperand_steps (i : Interpreter) (a : Int) (op : Arg) (h : TokenType) :
    Interpreter.loadOperand { i with steps := a } op h = i.loadOperand op h := by
  cases op <;> rfl

/-- A step of `coreStep` does not read the step counter: on a state that differs in the
counter only it does the same, and leaves the counter as it is. -/
theorem coreStep_steps (i : Interpreter) (a : Int) :
    coreStep { i with steps := a } =
      ({ (coreStep i).1 with steps := a }, (coreStep i).2.1, (coreStep i).2.2) := by
  have hPC : Interpreter.PC { i with steps := a } = i.PC := rfl
  have hcf : ∀ j : Interpreter, Interpreter.currentFrame { j with steps := a } = j.currentFrame :=
    fun _ => rfl
  have hgv : ∀ x, Interpreter.GetVar { i with steps := a } x = i.GetVar x := fun _ => rfl
  have hev : ∀ op x y t, Interpreter.evalBinary { i with steps := a } op x y t =
      i.evalBinary op x y t := fun _ _ _ _ => rfl
  cases hpop : i.PopFrame with
  | mk o i1 =>
  have hpop1 : Interpreter.PopFrame { i with steps := a } = (o, { i1 with steps := a }) := by
    rw [PopFrame_steps, hpop]
  cases o <;> simp only [coreStep, hPC, hcf, hgv, hev, loadOperand_steps, hpop, hpop1] <;>
    split <;> (try rfl) <;> split <;> (repeat' split) <;>
      first
      | rfl
      | exact Prod.ext (SetPC_steps _ _ _) rfl
      | exact Prod.ext (SetPC_steps { i with out := i.out ++ printText _ } _ _) rfl
      | exact Prod.ext (SetPC_steps (Interpreter.StageArg i _ _) _ _) rfl
      | exact Prod.ext (SetPC_steps { i1 with globals := _ } _ _) rfl
      | (rw [SetVar_steps, SetPC_steps])
      | (rw [updateFrame_steps, SetPC_steps])
      | (rw [PushFrame_steps, bindArgs_steps]
         exact Prod.ext (SetPC_steps (Interpreter.ClearArgs _) _ _) rfl)
      | skip
  all_goals
    rename_i fr _ _ _ _ V _ _ _ _
    exact Prod.ext (SetPC_steps { i1 with globals := i1.globals.set fr.RetTemp V } _ _) rfl

theorem coreSteps_succ (k : Nat) (i s : Interpreter) :
    coreSteps (k + 1) i = some s ↔
      (coreStep i).2.1 = false ∧ (coreStep i).2.2 = none ∧ coreSteps k (coreStep i).1 = some s := by
  simp only [coreSteps]
  rcases hc : coreStep i with ⟨i1, h, e⟩
  cases h <;> cases e <;> simp

/-- A call of `Step` below the limit: one `coreStep`, and the counter goes up by one. -/
theorem Step_at (i : Interpreter) (c : Int) (h : ¬ (i.maxSteps > 0 ∧ c ≥ i.maxSteps)) :
    Interpreter.Step { i with steps := c } =
      ({ (coreStep i).1 with steps := c + 1 }, (coreStep i).2.1, (coreStep i).2.2) := by
  rw [Step_below_limit _ h, coreStep_steps]

theorem Step_at_limit (i : Interpreter) (c : Int) (hm : 0 < i.maxSteps) (hc : c ≥ i.maxSteps) :
    Interpreter.Step { i with steps := c } =
      ({ i with steps := c }, false, some .maxStepsExceeded) := by
  unfold Interpreter.Step
  exact if_pos ⟨hm, hc⟩

/-- `Run` returns at the first execution of `coreStep` that halts or fails, when the limit
is not reached before. -/
theorem Run_stops (j : Nat) : ∀ (i : Interpreter) (c : Int) (s : Interpreter),
    (i.maxSteps ≤ 0 ∨ c + j < i.maxSteps) → coreSteps j i = some s →
    ((coreStep s).2.1 = true ∨ (coreStep s).2.2 ≠ none) →
    ∀ fuel, j + 1 ≤ fuel →
      Interpreter.Run fuel { i with steps := c } =
        .ok ({ (coreStep s).1 with steps := c + j + 1 }, (coreStep s).2.2) := by
  induction j with
  | zero =>
    intro i c s hlim hs hend fuel hf
    have e : i = s := Option.some.inj hs
    subst e
    obtain ⟨fuel, rfl⟩ : ∃ f, fuel = f + 1 := ⟨fuel - 1, by omega⟩
    have hnl : ¬ (i.maxSteps > 0 ∧ c ≥ i.maxSteps) := by
      rcases hlim with h | h
      · omega
      · push_cast at h; omega
    have hst := Step_at i c hnl
    simp only [Interpreter.Run, hst]
    cases he : (coreStep i).2.2 with
    | some e => simp
    | none =>
      rcases hend with h | h
      · simp [h]
      · exact absurd he h
  | succ j ih =>
    intro i c s hlim hs hend fuel hf
    obtain ⟨h1, h2, h3⟩ := (coreSteps_succ j i s).mp hs
    obtain ⟨fuel, rfl⟩ : ∃ f, fuel = f + 1 := ⟨fuel - 1, by omega⟩
    have hnl : ¬ (i.maxSteps > 0 ∧ c ≥ i.maxSteps) := by
      rcases hlim with h | h
      · omega
      · push_cast at h; omega
    have hst := Step_at i c hnl
    have hm := (coreStep_ctl i).2
    have hlim1 : (coreStep i).1.maxSteps ≤ 0 ∨ c + 1 + j < (coreStep i).1.maxSteps := by
      rw [hm]
      rcases hlim with h | h
      · exact Or.inl h
      · right; push_cast at h; omega
    have := ih (coreStep i).1 (c + 1) s hlim1 h3 hend fuel (by omega)
    simp only [Interpreter.Run, hst, h1, h2, Bool.false_eq_true, if_false]
    rw [this]
    have e : c + 1 + (j : Int) + 1 = c + ((j + 1 : Nat) : Int) + 1 := by push_cast; ring
    rw [e]

/-- `Run` returns the error of the limit when none of the executions of `coreStep` the
limit allows halts or fails. -/
theorem Run_hits_limit (k : Nat) : ∀ (i : Interpreter) (c : Int) (s : Interpreter),
    0 < i.maxSteps → c + k = i.maxSteps → coreSteps k i = some s →
    ∀ fuel, k + 1 ≤ fuel →
      Interpreter.Run fuel { i with steps := c } =
        .ok ({ s with steps := i.maxSteps }, some .maxStepsExceeded) := by
  induction k with
  | zero =>
    intro i c s hm hc hs fuel hf
    have e : i = s := Option.some.inj hs
    subst e
    obtain ⟨fuel, rfl⟩ : ∃ f, fuel = f + 1 := ⟨fuel - 1, by omega⟩
    have hc1 : c = i.maxSteps := by simpa using hc
    subst hc1
    have hst := Step_at_limit i i.maxSteps hm (le_refl _)
    simp only [Interpreter.Run, hst]
  | succ k ih =>
    intro i c s hm hc hs fuel hf
    obtain ⟨h1, h2, h3⟩ := (coreSteps_succ k i s).mp hs
    obtain ⟨fuel, rfl⟩ : ∃ f, fuel = f + 1 := ⟨fuel - 1, by omega⟩
    have hst := Step_at i c (by push_cast at hc; omega)
    have hms := (coreStep_ctl i).2
    have := ih (coreStep i).1 (c + 1) s (by rw [hms]; exact hm)
      (by rw [hms]; push_cast at hc; omega) h3 fuel (by omega)
    simp only [Interpreter.Run, hst, h1, h2, Bool.false_eq_true, if_false]
    rw [this, hms]

/-- While no execution of `coreStep` halts or fails and the limit is not reached, `Run` has
not returned. -/
theorem Run_goes_on (k : Nat) : ∀ (i : Interpreter) (c : Int) (s : Interpreter),
    (i.maxSteps ≤ 0 ∨ c + k ≤ i.maxSteps) → coreSteps k i = some s →
    Interpreter.Run k { i with steps := c } = .error .outOfFuel := by
  induction k with
  | zero => intro i c s _ _; rfl
  | succ k ih =>
    intro i c s hlim hs
    obtain ⟨h1, h2, h3⟩ := (coreSteps_succ k i s).mp hs
    have hnl : ¬ (i.maxSteps > 0 ∧ c ≥ i.maxSteps) := by
      rcases hlim with h | h
      · omega
      · push_cast at h; omega
    have hst := Step_at i c hnl
    have hms := (coreStep_ctl i).2
    have hlim1 : (coreStep i).1.maxSteps ≤ 0 ∨ c + 1 + k ≤ (coreStep i).1.maxSteps := by
      rw [hms]
      rcases hlim with h | h
      · exact Or.inl h
      · right; push_cast at h; omega
    have := ih (coreStep i).1 (c + 1) s hlim1 h3
    simp only [Interpreter.Run, hst, h1, h2, Bool.false_eq_true, if_false]
    exact this

/-- When one of the first `n` executions of `coreStep` halts or fails, there is a first. -/
theorem coreSteps_first (n : Nat) : ∀ i : Interpreter, coreSteps n i = none →
    ∃ j s, j < n ∧ coreSteps j i = some s ∧
      ((coreStep s).2.1 = true ∨ (coreStep s).2.2 ≠ none) := by
  induction n with
  | zero => intro i h; cases h
  | succ n ih =>
    intro i h
    by_cases hend : (coreStep i).2.1 = true ∨ (coreStep i).2.2 ≠ none
    · exact ⟨0, i, by omega, rfl, hend⟩
    · simp only [not_or, Bool.not_eq_true, ne_eq, not_not] at hend
      have hn : coreSteps n (coreStep i).1 = none := by
        cases h3 : coreSteps n (coreStep i).1 with
        | none => rfl
        | some s =>
          have := (coreSteps_succ n i s).mpr ⟨hend.1, hend.2, h3⟩
          rw [h] at this; cases this
      obtain ⟨j, s, hj, hs, he⟩ := ih _ hn
      exact ⟨j + 1, s, by omega, (coreSteps_succ j i s).mpr ⟨hend.1, hend.2, hs⟩, he⟩

theorem NewInterpreter_steps (pb : List Instruction) (n : Int) :
    WithMaxSteps n (NewInterpreter pb) = { WithMaxSteps n (NewInterpreter pb) with steps := 0 } :=
  rfl

/-- C30: for every program and every `n > 0`, on the interpreter created with
`WithMaxSteps(n)`: if none of the first `n` executions of `coreStep` halts or fails, `Run`
returns the error "maximum steps exceeded" in the state after exactly these `n` executions;
if execution `j + 1 <= n` is the first that halts or fails, `Run` returns after exactly
`j + 1` executions, with the error of that execution (which is never the error of the
limit) or with `nil`; one of the two is the case, so `Run` returns having executed at most
`n` instructions, and returns the error of the limit if and only if none of the first `n`
steps halted or failed.  With a maximum of 0 `Run` returns at the first execution that
halts or fails, however late, has not returned before, and never returns the error of the
limit.  (The executions are counted by `coreSteps`, which iterates `coreStep` without
`Step`, `Run` or the step counter; every result holds for all fuel from the number of calls
of `Step` on.) -/
theorem C30_step_limit (pb : List Instruction) (n : Nat) (hn : 0 < n) :
    (∀ s, coreSteps n (WithMaxSteps n (NewInterpreter pb)) = some s →
      ∀ fuel, n + 1 ≤ fuel →
        (WithMaxSteps n (NewInterpreter pb)).Run fuel =
          .ok ({ s with steps := n }, some .maxStepsExceeded)) ∧
    (∀ j s, j < n → coreSteps j (WithMaxSteps n (NewInterpreter pb)) = some s →
      ((coreStep s).2.1 = true ∨ (coreStep s).2.2 ≠ none) →
      (coreStep s).2.2 ≠ some .maxStepsExceeded ∧
      ∀ fuel, j + 1 ≤ fuel →
        (WithMaxSteps n (NewInterpreter pb)).Run fuel =
          .ok ({ (coreStep s).1 with steps := (j : Int) + 1 }, (coreStep s).2.2)) ∧
    (coreSteps n (WithMaxSteps n (NewInterpreter pb)) = none →
      ∃ j s, j < n ∧ coreSteps j (WithMaxSteps n (NewInterpreter pb)) = some s ∧
        ((coreStep s).2.1 = true ∨ (coreStep s).2.2 ≠ none)) ∧
    (∃ r, (WithMaxSteps n (NewInterpreter pb)).Run (n + 1) = .ok r ∧ r.1.steps ≤ n ∧
      (r.2 = some .maxStepsExceeded ↔
        (coreSteps n (WithMaxSteps n (NewInterpreter pb))).isSome = true)) ∧
    (∀ j s, coreSteps j (WithMaxSteps 0 (NewInterpreter pb)) = some s →
      ((coreStep s).2.1 = true ∨ (coreStep s).2.2 ≠ none) →
      ∀ fuel, j + 1 ≤ fuel →
        (WithMaxSteps 0 (NewInterpreter pb)).Run fuel =
          .ok ({ (coreStep s).1 with steps := (j : Int) + 1 }, (coreStep s).2.2)) ∧
    (∀ k s, coreSteps k (WithMaxSteps 0 (NewInterpreter pb)) = some s →
      (WithMaxSteps 0 (NewInterpreter pb)).Run k = .error .outOfFuel) ∧
    (∀ fuel r, (WithMaxSteps 0 (NewInterpreter pb)).Run fuel = .ok r →
      r.2 ≠ some .maxStepsExceeded) := by
  have hmax : (WithMaxSteps n (NewInterpreter pb)).maxSteps = (n : Int) := rfl
  have hpos : (0 : Int) < (WithMaxSteps n (NewInterpreter pb)).maxSteps := by
    rw [hmax]; exact_mod_cast hn
  have hA : ∀ s, coreSteps n (WithMaxSteps n (NewInterpreter pb)) = some s →
      ∀ fuel, n + 1 ≤ fuel →
        (WithMaxSteps n (NewInterpreter pb)).Run fuel =
          .ok ({ s with steps := n }, some .maxStepsExceeded) := by
    intro s hs fuel hf
    have := Run_hits_limit n (WithMaxSteps n (NewInterpreter pb)) 0 s hpos
      (by rw [hmax]; simp) hs fuel hf
    rw [← NewInterpreter_steps, hmax] at this
    exact this
  have hB : ∀ j s, j < n → coreSteps j (WithMaxSteps n (NewInterpreter pb)) = some s →
      ((coreStep s).2.1 = true ∨ (coreStep s).2.2 ≠ none) →
      (coreStep s).2.2 ≠ some .maxStepsExceeded ∧
      ∀ fuel, j + 1 ≤ fuel →
        (WithMaxSteps n (NewInterpreter pb)).Run fuel =
          .ok ({ (coreStep s).1 with steps := (j : Int) + 1 }, (coreStep s).2.2) := by
    intro j s hj hs hend
    refine ⟨fun he => coreStep_err s _ he rfl, ?_⟩
    intro fuel hf
    have := Run_stops j (WithMaxSteps n (NewInterpreter pb)) 0 s
      (Or.inr (by rw [hmax]; simp; exact_mod_cast hj)) hs hend fuel hf
    rw [← NewInterpreter_steps] at this
    rw [this]
    simp
  refine ⟨hA, hB, coreSteps_first n _, ?_, ?_, ?_, ?_⟩
  · cases hs : coreSteps n (WithMaxSteps n (NewInterpreter pb)) with
    | some s =>
      exact ⟨_, hA s hs (n + 1) (le_refl _), le_refl _, by simp⟩
    | none =>
      obtain ⟨j, s, hj, hjs, hend⟩ := coreSteps_first n _ hs
      obtain ⟨hne, hrun⟩ := hB j s hj hjs hend
      refine ⟨_, hrun (n + 1) (by omega), ?_, ?_⟩
      · show (j : Int) + 1 ≤ n
        exact_mod_cast hj
      · simp only [Option.isSome_none, Bool.false_eq_true, iff_false]
        exact hne
  · intro j s hs hend fuel hf
    have := Run_stops j (WithMaxSteps 0 (NewInterpreter pb)) 0 s (Or.inl (le_refl _)) hs hend
      fuel hf
    rw [← NewInterpreter_steps] at this
    rw [this]
    simp
  · intro k s hs
    have := Run_goes_on k (WithMaxSteps 0 (NewInterpreter pb)) 0 s (Or.inl (le_refl _)) hs
    rw [← NewInterpreter_steps] at this
    exact this
  · intro fuel r h
    exact Run_unlimited fuel _ rfl r h

theorem C30_step_limit_witness :
    coreSteps 2 (WithMaxSteps (2 : Nat) (NewInterpreter [⟨.OpJmp, .nil, .nil, .int 0, .EOF⟩])) =
      some (WithMaxSteps (2 : Nat) (NewInterpreter [⟨.OpJmp, .nil, .nil, .int 0, .EOF⟩])) ∧
    (WithMaxSteps (2 : Nat) (NewInterpreter [⟨.OpJmp, .nil, .nil, .int 0, .EOF⟩])).Run 3 =
      .ok ({ WithMaxSteps (2 : Nat) (NewInterpreter [⟨.OpJmp, .nil, .nil, .int 0, .EOF⟩]) with
              steps := (2 : Nat) }, some .maxStepsExceeded) :=
  ⟨rfl, (C30_step_limit [⟨.OpJmp, .nil, .nil, .int 0, .EOF⟩] 2 (by decide)).1 _ rfl 3
    (by decide)⟩

/-! ## `ret`: every case -/

/-- A step at `ret` whose operand cannot be loaded returns the error of the load, reports
not halted and leaves the state as it is, whether or not a frame is active. -/
theorem coreStep_ret_error (i : Interpreter) (ins : Instruction) (e : RuntimeError)
    (h0 : 0 ≤ i.PC) (h1 : i.PC < i.pb.length)
    (hins : i.pb.getD i.PC.toNat default = ins) (hop : ins.Op = .OpRet)
    (hn : ins.Arg1 ≠ .nil) (he : i.loadOperand ins.Arg1 ins.Typ = .error e) :
    coreStep i = (i, false, some e) := by
  have hc : ¬ (i.PC < 0 ∨ i.PC ≥ (i.pb.length : Int)) := by omega
  simp only [coreStep, if_neg hc, hins, hop, if_pos hn, he]

/-- An address operand always loads: a missing value is replaced by a default. -/
theorem loadOperand_int (i : Interpreter) (a : Int) (hint : TokenType) :
    ∃ V, i.loadOperand (.int a) hint = .ok V := by
  simp only [Interpreter.loadOperand]
  split
  · split <;> exact ⟨_, rfl⟩
  · exact ⟨_, rfl⟩

/-- Counterexample to C14 as stated: in the new interpreter of the one-instruction program
`ret "x"` no frame is active and the current instruction is `ret`, yet the step does not
report halted: the operand is loaded before the frame is looked at, and the step returns the
error of the load. -/
theorem C14_counterexample :
    (NewInterpreter [⟨.OpRet, .str (bs "x"), .nil, .nil, .EOF⟩]).stack.length = 0 ∧
    ((NewInterpreter [⟨.OpRet, .str (bs "x"), .nil, .nil, .EOF⟩]).pb.getD
      (NewInterpreter [⟨.OpRet, .str (bs "x"), .nil, .nil, .EOF⟩]).PC.toNat default).Op = .OpRet ∧
    (coreStep (NewInterpreter [⟨.OpRet, .str (bs "x"), .nil, .nil, .EOF⟩])).2.1 = false ∧
    (coreStep (NewInterpreter [⟨.OpRet, .str (bs "x"), .nil, .nil, .EOF⟩])).2.2 =
      some (.unexpectedStringOperand (bs "x")) := by
  decide

/-- C14 (amended): a step at `ret`.  When `Arg1` is present and its load fails, the step
returns that error, reports not halted and changes no state (no frame is popped); an address
operand never fails to load.  Otherwise, with `V` the loaded `Arg1`, or the zero value when
`Arg1` is absent: with no frame the step reports halted and changes nothing; with frames it
pops exactly the top frame `f`, stores `V` at `f.RetTemp` in the caller frame's locals (in
globals when no caller frame is left) exactly when `f.RetTemp` is neither 0 nor -1, and sets
the PC of the resumed context (caller frame, or top level) to `f.ReturnToIP`. -/
theorem C14_ret_step_cases (i : Interpreter) (ins : Instruction)
    (h0 : 0 ≤ i.PC) (h1 : i.PC < i.pb.length)
    (hins : i.pb.getD i.PC.toNat default = ins) (hop : ins.Op = .OpRet) :
    (∀ e, ins.Arg1 ≠ .nil → i.loadOperand ins.Arg1 ins.Typ = .error e →
      coreStep i = (i, false, some e)) ∧
    (∀ a, ins.Arg1 = .int a → ∃ V, i.loadOperand ins.Arg1 ins.Typ = .ok V) ∧
    (∀ V, ((ins.Arg1 = .nil ∧ V = Value.zero) ∨
           (ins.Arg1 ≠ .nil ∧ i.loadOperand ins.Arg1 ins.Typ = .ok V)) →
      (i.stack = [] → coreStep i = (i, true, none)) ∧
      (∀ f, i.stack = [f] →
        coreStep i =
          ({ i with
              stack := [],
              globals := if f.RetTemp ≠ 0 ∧ f.RetTemp ≠ -1 then i.globals.set f.RetTemp V
                         else i.globals,
              ip := f.ReturnToIP }, false, none)) ∧
      (∀ st cf f, i.stack = st ++ [cf, f] →
        coreStep i =
          ({ i with
              stack := st ++
                [{ cf with
                    Locals := if f.RetTemp ≠ 0 ∧ f.RetTemp ≠ -1 then cf.Locals.set f.RetTemp V
                              else cf.Locals,
                    IP := f.ReturnToIP }] }, false, none))) := by
  refine ⟨fun e hn he => coreStep_ret_error i ins e h0 h1 hins hop hn he, ?_,
    fun V hV => coreStep_ret i ins V h0 h1 hins hop hV⟩
  intro a ha
  rw [ha]
  exact loadOperand_int i a ins.Typ

theorem C14_ret_step_cases_witness :
    coreStep { NewInterpreter [⟨.OpRet, .int 3, .nil, .nil, .INT⟩] with
        stack := [⟨bs "main", 0, [], 0, 0⟩, ⟨bs "f", 0, [], 7, 501⟩] } =
      ({ NewInterpreter [⟨.OpRet, .int 3, .nil, .nil, .INT⟩] with
          stack := [] ++
            [{ (⟨bs "main", 0, [], 0, 0⟩ : Frame) with
                Locals := if (501 : Int) ≠ 0 ∧ (501 : Int) ≠ -1
                          then GoMap.set ([] : GoMap Int Value) 501 (newInt 0) else [],
                IP := 7 }] }, false, none) ∧
    coreStep { NewInterpreter [⟨.OpRet, .str (bs "x"), .nil, .nil, .INT⟩] with
        stack := [⟨bs "main", 0, [], 0, 0⟩, ⟨bs "f", 0, [], 7, 501⟩] } =
      ({ NewInterpreter [⟨.OpRet, .str (bs "x"), .nil, .nil, .INT⟩] with
          stack := [⟨bs "main", 0, [], 0, 0⟩, ⟨bs "f", 0, [], 7, 501⟩] }, false,
        some (.unexpectedStringOperand (bs "x"))) :=
  ⟨(C14_ret_step_cases
      { NewInterpreter [⟨.OpRet, .int 3, .nil, .nil, .INT⟩] with
          stack := [⟨bs "main", 0, [], 0, 0⟩, ⟨bs "f", 0, [], 7, 501⟩] }
      ⟨.OpRet, .int 3, .nil, .nil, .INT⟩ (by decide) (by decide) rfl rfl).2.2 (newInt 0)
      (Or.inr ⟨fun h => Arg.noConfusion h, rfl⟩) |>.2.2 [] ⟨bs "main", 0, [], 0, 0⟩
      ⟨bs "f", 0, [], 7, 501⟩ rfl,
   (C14_ret_step_cases
      { NewInterpreter [⟨.OpRet, .str (bs "x"), .nil, .nil, .INT⟩] with
          stack := [⟨bs "main", 0, [], 0, 0⟩, ⟨bs "f", 0, [], 7, 501⟩] }
      ⟨.OpRet, .str (bs "x"), .nil, .nil, .INT⟩ (by decide) (by decide) rfl rfl).1 _
      (fun h => Arg.noConfusion h) rfl⟩

/-! ## Every write of a temporary -/

theorem SetPC_store (j : Interpreter) (pc : Int) :
    (j.SetPC pc).globals = j.globals ∧
    (j.SetPC pc).stack.map (fun g => g.Locals) = j.stack.map (fun g => g.Locals) := by
  cases hf : j.currentFrame with
  | none => rw [SetPC_noframe j pc hf]; exact ⟨rfl, rfl⟩
  | some f =>
    rw [SetPC_frame j pc f hf]
    refine ⟨rfl, ?_⟩
    have hs : j.stack = j.stack.dropLast ++ [f] := by
      unfold Interpreter.currentFrame at hf
      have hne : j.stack ≠ [] := by intro e; rw [e] at hf; cases hf
      rw [List.getLast?_eq_getLast _ hne] at hf
      have := List.dropLast_append_getLast hne
      rw [Option.some.inj hf] at this
      exact this.symm
    conv_rhs => rw [hs]
    simp

/-- A step that returns an error leaves the state as it is. -/
theorem coreStep_error_state (i : Interpreter) (e : RuntimeError) :
    (coreStep i).2.2 = some e → (coreStep i).1 = i := by
  unfold coreStep
  simp only
  split
  · intro h; cases h
  · split <;> (repeat' split) <;> intro h <;> first | rfl | cases h

/-- The instructions other than `=`, the binary operations and `ret` leave the globals and
the locals of every frame as they are; `call` adds a frame whose locals hold no address
below 800. -/
theorem coreStep_no_write (i : Interpreter) (ins : Instruction)
    (hpc : ¬ (i.PC < 0 ∨ i.PC ≥ i.pb.length)) (hins : i.pb.getD i.PC.toNat default = ins)
    (hop : ins.Op ∉ ([.OpAssign, .OpAdd, .OpSub, .OpMul, .OpDiv, .OpMod, .OpAnd, .OpOr,
      .OpEq, .OpNeq, .OpLt, .OpLe, .OpGt, .OpGe] : List Operation))
    (hret : ins.Op ≠ .OpRet) :
    (coreStep i).1.globals = i.globals ∧
    ∃ extra : List (GoMap Int Value),
      (coreStep i).1.stack.map (fun g => g.Locals) = i.stack.map (fun g => g.Locals) ++ extra ∧
      ∀ L ∈ extra, ∀ a : Int, a < 800 → L.get a = none := by
  have hsame : ∀ X : Interpreter, X.globals = i.globals → X.stack = i.stack → ∀ pc,
      (X.SetPC pc).globals = i.globals ∧
      ∃ extra : List (GoMap Int Value),
        (X.SetPC pc).stack.map (fun g => g.Locals) = i.stack.map (fun g => g.Locals) ++ extra ∧
        ∀ L ∈ extra, ∀ a : Int, a < 800 → L.get a = none := by
    intro X hg hs pc
    refine ⟨(SetPC_store X pc).1.trans hg, [], ?_, by simp⟩
    rw [(SetPC_store X pc).2, hs]; simp
  have hid : i.globals = i.globals ∧
      ∃ extra : List (GoMap Int Value),
        i.stack.map (fun g => g.Locals) = i.stack.map (fun g => g.Locals) ++ extra ∧
        ∀ L ∈ extra, ∀ a : Int, a < 800 → L.get a = none := ⟨rfl, [], by simp, by simp⟩
  unfold coreStep
  simp only [if_neg hpc, hins]
  rcases ins with ⟨op, a1, a2, a3, ty⟩
  simp only at hop hret ⊢
  cases op <;> simp only [] <;> (repeat' split) <;>
    first
    | exact absurd rfl hret
    | (exfalso; revert hop; decide)
    | exact hsame _ rfl rfl _
    | exact hsame (i.StageArg _ _) rfl rfl _
    | exact hsame { i with out := i.out ++ printText _ } rfl rfl _
    | exact hid
    | exact ⟨trivial, [], by simp, by simp⟩
    | skip
  obtain ⟨L, A, hb, hL⟩ := bindArgs_spec a2.asInt.toNat 0
    (i.PushFrame a1.asString (i.PC + 1) a3.asInt) i.stack
    ⟨a1.asString, (i.funcIndex.get a1.asString).getD 0, [], i.PC + 1, a3.asInt⟩ rfl
  rw [hb]
  refine ⟨(SetPC_store _ _).1, [L], ?_, ?_⟩
  · rw [(SetPC_store _ _).2]
    simp [Interpreter.ClearArgs]
  · intro L1 hL1 a ha
    rw [List.mem_singleton.mp hL1, hL a, if_neg (by omega)]
    rfl


/-- C12 (amended): what a step executed while a call frame `f` is active writes.  A step
that returns an error changes nothing.  An assignment or a binary operation (the
instructions that write through `SetVar`) with a temporary destination (below 800) stores
its value in the globals and leaves the locals of the frame unchanged when the frame does
not hold the address, and stores it in the locals of the frame when the frame holds it.
`ret` stores the returned value at `f.RetTemp`, when that is neither 0 nor -1, directly in
the locals of the caller frame, held there or not, and in the globals when no caller frame
is left.  Every other instruction leaves the globals and the locals of all frames
unchanged; `call` adds a frame whose locals hold no address below 800. -/
theorem C12_temporary_writes (i : Interpreter) (f : Frame) (ins : Instruction)
    (hf : i.currentFrame = some f)
    (hpc : 0 ≤ f.IP ∧ f.IP < i.pb.length) (hins : i.pb.getD f.IP.toNat default = ins) :
    (∀ e, (coreStep i).2.2 = some e → (coreStep i).1 = i) ∧
    (ins.Op ∈ ([.OpAssign, .OpAdd, .OpSub, .OpMul, .OpDiv, .OpMod, .OpAnd, .OpOr,
        .OpEq, .OpNeq, .OpLt, .OpLe, .OpGt, .OpGe] : List Operation) →
      (coreStep i).2.2 = none → ins.Arg3.asInt < 800 →
      ∃ val,
        (f.Locals.get ins.Arg3.asInt = none →
          (coreStep i).1.globals = i.globals.set ins.Arg3.asInt val ∧
          (coreStep i).1.stack = i.stack.dropLast ++ [{ f with IP := f.IP + 1 }]) ∧
        ((f.Locals.get ins.Arg3.asInt).isSome = true →
          (coreStep i).1.globals = i.globals ∧
          (coreStep i).1.stack = i.stack.dropLast ++
            [{ f with Locals := f.Locals.set ins.Arg3.asInt val, IP := f.IP + 1 }])) ∧
    (ins.Op = .OpRet → (coreStep i).2.2 = none →
      ∃ V, ((ins.Arg1 = .nil ∧ V = Value.zero) ∨
            (ins.Arg1 ≠ .nil ∧ i.loadOperand ins.Arg1 ins.Typ = .ok V)) ∧
        (i.stack = [f] →
          (coreStep i).1.stack = [] ∧
          (coreStep i).1.globals =
            if f.RetTemp ≠ 0 ∧ f.RetTemp ≠ -1 then i.globals.set f.RetTemp V else i.globals) ∧
        (∀ st cf, i.stack = st ++ [cf, f] →
          (coreStep i).1.globals = i.globals ∧
          (coreStep i).1.stack = st ++
            [{ cf with
                Locals := if f.RetTemp ≠ 0 ∧ f.RetTemp ≠ -1 then cf.Locals.set f.RetTemp V
                          else cf.Locals,
                IP := f.ReturnToIP }])) ∧
    (ins.Op ∉ ([.OpAssign, .OpAdd, .OpSub, .OpMul, .OpDiv, .OpMod, .OpAnd, .OpOr,
        .OpEq, .OpNeq, .OpLt, .OpLe, .OpGt, .OpGe] : List Operation) →
      ins.Op ≠ .OpRet →
      (coreStep i).1.globals = i.globals ∧
      ∃ extra : List (GoMap Int Value),
        (coreStep i).1.stack.map (fun g => g.Locals) =
          i.stack.map (fun g => g.Locals) ++ extra ∧
        ∀ L ∈ extra, ∀ a : Int, a < 800 → L.get a = none) := by
  have hPC : i.PC = f.IP := by simp [Interpreter.PC, hf]
  have hr : ¬ (i.PC < 0 ∨ i.PC ≥ (i.pb.length : Int)) := by rw [hPC]; omega
  have hi : i.pb.getD i.PC.toNat default = ins := by rw [hPC]; exact hins
  refine ⟨fun e he => coreStep_error_state i e he, ?_, ?_, ?_⟩
  · intro hop hok hdst
    obtain ⟨val, hv⟩ := coreStep_write i ins hr hi hop hok
    refine ⟨val, ?_, ?_⟩
    · intro hnew
      have hg : i.SetVar ins.Arg3.asInt val =
          { i with globals := i.globals.set ins.Arg3.asInt val } := by
        apply SetVar_global
        intro f1 hf1
        rw [hf] at hf1; cases hf1
        simp only [not_or]
        exact ⟨by omega, by simp [hnew]⟩
      rw [hv, hg, hPC]
      have hf2 : ({ i with globals := i.globals.set ins.Arg3.asInt val } :
          Interpreter).currentFrame = some f := hf
      rw [SetPC_frame _ _ f hf2]
      exact ⟨rfl, rfl⟩
    · intro hold
      have hl := SetVar_local i ins.Arg3.asInt val f hf (Or.inr hold)
      rw [hv, hl, hPC]
      have hf2 : ({ i with stack := i.stack.dropLast ++
          [{ f with Locals := f.Locals.set ins.Arg3.asInt val }] } : Interpreter).currentFrame =
          some { f with Locals := f.Locals.set ins.Arg3.asInt val } := by
        simp [Interpreter.currentFrame]
      rw [SetPC_frame _ _ _ hf2]
      refine ⟨rfl, ?_⟩
      simp
  · intro hop hok
    have hV : ∃ V, (ins.Arg1 = .nil ∧ V = Value.zero) ∨
        (ins.Arg1 ≠ .nil ∧ i.loadOperand ins.Arg1 ins.Typ = .ok V) := by
      by_cases hn : ins.Arg1 = .nil
      · exact ⟨Value.zero, Or.inl ⟨hn, rfl⟩⟩
      · cases hl : i.loadOperand ins.Arg1 ins.Typ with
        | ok V => exact ⟨V, Or.inr ⟨hn, rfl⟩⟩
        | error e =>
          have := coreStep_ret_error i ins e (by omega) (by omega) hi hop hn hl
          rw [this] at hok
          cases hok
    obtain ⟨V, hV⟩ := hV
    obtain ⟨_, h1, h2⟩ := coreStep_ret i ins V (by omega) (by omega) hi hop hV
    refine ⟨V, hV, ?_, ?_⟩
    · intro hs
      rw [h1 f hs]
      exact ⟨rfl, rfl⟩
    · intro st cf hs
      rw [h2 st cf f hs]
      exact ⟨rfl, rfl⟩
  · intro hop hret
    exact coreStep_no_write i ins hr hi hop hret

/-- Witness for C12: the state `tempWriteState`, where `= #5 -> 600` goes to the globals, and
a state with a caller and a callee, where `ret` stores the temporary 501 in the locals of
the caller, which did not hold it. -/
theorem C12_temporary_writes_witness :
    (∃ val,
      (GoMap.get ([] : GoMap Int Value) 600 = none →
        (coreStep tempWriteState).1.globals = tempWriteState.globals.set 600 val ∧
        (coreStep tempWriteState).1.stack = tempWriteState.stack.dropLast ++
          [{ (⟨bs "f", 0, [], 1, 0⟩ : Frame) with IP := 0 + 1 }]) ∧
      ((GoMap.get ([] : GoMap Int Value) 600).isSome = true →
        (coreStep tempWriteState).1.globals = tempWriteState.globals ∧
        (coreStep tempWriteState).1.stack = tempWriteState.stack.dropLast ++
          [{ (⟨bs "f", 0, [], 1, 0⟩ : Frame) with
              Locals := GoMap.set ([] : GoMap Int Value) 600 val, IP := 0 + 1 }])) ∧
    (coreStep tempWriteState).1.stack.map (fun g => (g.Locals.get 600).isSome) = [false] ∧
    ((coreStep { NewInterpreter [⟨.OpRet, .int 3, .nil, .nil, .INT⟩] with
        stack := [⟨bs "main", 0, [], 0, 0⟩, ⟨bs "f", 0, [], 7, 501⟩] }).1.stack.map
      (fun g => (g.Locals.get 501).map (fun v => (v.Kind, v.I64)))) =
        [some (.KindInt, 0)] :=
  ⟨(C12_temporary_writes tempWriteState ⟨bs "f", 0, [], 1, 0⟩
      ⟨.OpAssign, .str (bs "#5"), .nil, .int 600, .INT⟩ rfl (by decide) rfl).2.1 (by decide) rfl
      (by decide),
    by decide, by decide⟩

/-! ## Diagnostics for one omitted token or one undeclared identifier -/

/-- C33: the number of diagnostics for one omitted token or one undeclared identifier is not
always one.  `let f : int = 1; f();` parses with no diagnostic; the same text without the
`)` (the same tokens but the tenth) makes `Parse` record "Missing closing parenthesis"
twice at the `;` that follows: after 30 iterations the stack top is `ArgList`, the token is
that `;` and nothing is recorded, the next iteration records the first diagnostic through
`handleNonTerminalError` and leaves the terminal `)` on top, and the iteration after that
records the second through `handleTerminalError`.  Without its first `;`,
`let x : int = 1; let y : int = 2;` gets "Missing semicolon" three times.  Without the `;`
of its `return ;`, the last program reads `return f(1);` and gets no diagnostic at all.
And `let y : int = x; print(y);`, whose only undeclared identifier is `x`, gets two
semantic diagnostics: the failed `@load` of `x` leaves `@define` with two entries instead
of three, `y` is never declared, and the `@load` of `y` fails in turn. -/
theorem C33_omitted_token_diagnostics :
    ((parseResult 1000 srcCallNoArgs).map (fun r => (r.1, r.2.GetErrors)) = some ([], []) ∧
     ((tokenize srcCallNoArgs).eraseIdx 9).map (fun t => (t.Typ, t.Lexeme)) =
       (tokenize srcCallNoArgsOmit).map (fun t => (t.Typ, t.Lexeme)) ∧
     ((tokenize srcCallNoArgs).getD 9 default).Typ = .RPAREN ∧
     (parseResult 1000 srcCallNoArgsOmit).map (fun r => (r.1, r.2.GetErrors)) =
       some ([⟨"Missing closing parenthesis", ⟨1, 20, 19⟩⟩,
         ⟨"Missing closing parenthesis", ⟨1, 20, 19⟩⟩], []) ∧
     (Parser.after 30 (NewParser (NewLexer srcCallNoArgsOmit))).map
         (fun q => (q.stack.Peek, q.currentToken.Typ, q.currentToken.Pos, q.errors)) =
       some ("ArgList", .SEMICOLON, ⟨1, 20, 19⟩, []) ∧
     (Parser.after 31 (NewParser (NewLexer srcCallNoArgsOmit))).map
         (fun q => (q.stack.Peek, q.currentToken.Typ, q.currentToken.Pos, q.errors)) =
       some (")", .SEMICOLON, ⟨1, 20, 19⟩, [⟨"Missing closing parenthesis", ⟨1, 20, 19⟩⟩]) ∧
     (Parser.after 32 (NewParser (NewLexer srcCallNoArgsOmit))).map
         (fun q => (q.currentToken.Typ, q.currentToken.Pos, q.errors)) =
       some (.SEMICOLON, ⟨1, 20, 19⟩, [⟨"Missing closing parenthesis", ⟨1, 20, 19⟩⟩,
         ⟨"Missing closing parenthesis", ⟨1, 20, 19⟩⟩])) ∧
    ((parseResult 1000 srcTwoDecls).map (fun r => (r.1, r.2.GetErrors)) = some ([], []) ∧
     ((tokenize srcTwoDecls).eraseIdx 6).map (fun t => (t.Typ, t.Lexeme)) =
       (tokenize srcTwoDeclsOmit).map (fun t => (t.Typ, t.Lexeme)) ∧
     ((tokenize srcTwoDecls).getD 6 default).Typ = .SEMICOLON ∧
     (parseResult 1000 srcTwoDeclsOmit).map (fun r => (r.1, r.2.GetErrors)) =
       some ([⟨"Missing semicolon", ⟨1, 17, 16⟩⟩, ⟨"Missing semicolon", ⟨1, 17, 16⟩⟩,
         ⟨"Missing semicolon", ⟨1, 17, 16⟩⟩], [])) ∧
    ((parseResult 1000 srcReturnCall).map (fun r => (r.1, r.2.GetErrors)) = some ([], []) ∧
     ((tokenize srcReturnCall).eraseIdx 32).map (fun t => (t.Typ, t.Lexeme)) =
       (tokenize srcReturnCallOmit).map (fun t => (t.Typ, t.Lexeme)) ∧
     ((tokenize srcReturnCall).getD 32 default).Typ = .SEMICOLON ∧
     (parseResult 1000 srcReturnCallOmit).map (fun r => (r.1, r.2.GetErrors)) =
       some ([], [])) ∧
    ((parseResult 1000 srcOneUndeclared).map (fun r => (r.1, r.2.GetErrors)) =
      some ([], [.undefinedVariable (bs "x") ⟨1, 15, 14⟩,
        .undefinedVariable (bs "y") ⟨1, 24, 23⟩])) := by
  and_intros <;> decide!

end Dolme
